import Mathlib

/-!
# libsimplepgp: the packet decoder of `src/packet.c`

A shallow embedding of the OpenPGP packet decoder.  The input buffer is a list of
natural numbers; every load of a `uint8_t` reduces the stored value modulo 256, and
every `uint32_t` computation that can wrap is reduced modulo `2 ^ 32`.  The `length`
argument that the C functions receive next to the buffer pointer is the length of
the list.

A C function that can leave through `RAISE` (a `longjmp` to the handler installed by
the public entry point) returns a `Res`: a value, a raised error code, or a fault.
Where the state of a packet matters after a `RAISE` (the handler releases the chain),
the function also returns that state.
A fault records behaviour that C leaves undefined (a load or store outside the
buffer, a dereference of a null pointer, the use of an uninitialised variable).
Allocation is assumed to succeed, so `OUT_OF_MEMORY` is never raised, and the
`NULL` argument checks, which no caller can trigger, are left out.  Loops whose
termination is not evident from the code carry a bound on the number of rounds.
-/

namespace Spgp

/-! ## Error codes, faults and results -/

/-- Modelled from the spec: the error codes of `packet.h` (the header is not part of
the sources), named as `packet.c` names them when it raises them. -/
inductive SpgpErr
  | INVALID_ARGS
  | OUT_OF_MEMORY
  | INVALID_HEADER
  | FORMAT_UNSUPPORTED
  | BUFFER_OVERFLOW
  | GCRY_ERROR
  | INCOMPLETE_PACKET
  | DECRYPT_FAILED
  | KEYCHAIN_ERROR
  | GENERIC_ERROR
  deriving DecidableEq, Repr

/-- Behaviour that C leaves undefined, plus the exhaustion of the loop bound that the
model of the top-level loop carries (`outOfFuel` is not a behaviour of the C code). -/
inductive Fault
  | oobRead (i : Nat)
  | oobWrite (i : Nat)
  | nullDeref
  | uninit
  | outOfFuel
  | divByZero
  deriving DecidableEq, Repr

/-- Result of a C function that may leave through `RAISE`. -/
inductive Res (α : Type)
  | ok (a : α)
  | raise (e : SpgpErr)
  | fault (f : Fault)
  deriving DecidableEq, Repr

/-- Sequencing of results: the first `RAISE` or fault ends the computation. -/
def Res.bind {α β : Type} (r : Res α) (f : α → Res β) : Res β :=
  match r with
  | .ok a => f a
  | .raise e => .raise e
  | .fault x => .fault x

instance : Monad Res where
  pure := Res.ok
  bind := Res.bind

/-- Number of values of a `uint32_t`. -/
def U32 : Nat := 4294967296

/-- Subtraction of two `uint32_t` values. -/
def sub32 (a b : Nat) : Nat := (a % U32 + U32 - b % U32) % U32

/-- Addition of two `uint32_t` values. -/
def add32 (a b : Nat) : Nat := (a + b) % U32

/-! ## Byte cursor -/

/-- Load `msg[i]`: the stored value as a `uint8_t`, a fault outside the buffer. -/
def rd (msg : List Nat) (i : Nat) : Res Nat :=
  match msg[i]? with
  | some b => .ok (b % 256)
  | none => .fault (.oobRead i)

/-- Load of `n` consecutive bytes from `msg + i`, as `memcpy` does: a fault when the
range leaves the buffer. -/
def rdN (msg : List Nat) (i n : Nat) : Res (List Nat) :=
  if n = 0 then .ok []
  else if i + n ≤ msg.length then .ok (((msg.drop i).take n).map (fun b => b % 256))
  else .fault (.oobRead (max i msg.length))

/-- The macro `SAFE_IDX_INCREMENT(idx, max)`: pre-increment the `uint32_t` cursor and
raise `BUFFER_OVERFLOW` when it reaches `max`. -/
def SAFE_IDX_INCREMENT (idx max : Nat) : Res Nat :=
  if (idx + 1) % U32 ≥ max then .raise .BUFFER_OVERFLOW else .ok ((idx + 1) % U32)

/-! ## Data model -/

/-- The packet header `spgp_pkt_header_t` (without its parent pointer). -/
structure Header where
  rawTagByte : Nat := 0
  isNewFormat : Nat := 0
  type : Nat := 0
  headerLength : Nat := 0
  contentLength : Nat := 0
  isPartial : Nat := 0
  deriving DecidableEq, Repr

/-- What `spgp_new_header_length` hands back: its return value and the two output
parameters `*header_len` and `*is_partial`. -/
structure NewLen where
  content : Nat
  header_len : Nat
  isPartial : Nat
  deriving DecidableEq, Repr

/-! ## Header framer -/

/-- The function `spgp_new_header_length(header, &header_len, &is_partial)` with
`header = msg + off`; the loads of `header[1..4]` are not bounds-checked. -/
def spgp_new_header_length (msg : List Nat) (off : Nat) : Res NewLen := do
  let len0 ← rd msg off
  if len0 ≤ 191 then
    pure ⟨len0, 2, 0⟩
  else if len0 > 191 ∧ len0 ≤ 223 then do
    let len1 ← rd msg (off + 1)
    pure ⟨(((len0 - 192) <<< 8) ||| (len1 + 192)) % U32, 3, 0⟩
  else if len0 = 255 then do
    let l0 ← rd msg (off + 1)
    let l1 ← rd msg (off + 2)
    let l2 ← rd msg (off + 3)
    let l3 ← rd msg (off + 4)
    pure ⟨((l0 <<< 24) ||| (l1 <<< 16) ||| (l2 <<< 8) ||| l3) % U32, 5, 0⟩
  else
    pure ⟨(1 <<< (len0 &&& 0x1F)) % U32, 2, 1⟩

/-- The length loop of an old-format header: `n` rounds of
`contentLength <<= 8; contentLength += msg[*idx]; SAFE_IDX_INCREMENT(*idx, length)`.
Returns the header as it stands when the loop is left. -/
def read_old_length (msg : List Nat) : Nat → Nat → Header → Header × Res Nat
  | 0, idx, h => (h, .ok idx)
  | n + 1, idx, h =>
    match rd msg idx with
    | .ok b =>
      let h1 := { h with contentLength := ((h.contentLength <<< 8) % U32 + b) % U32 }
      match SAFE_IDX_INCREMENT idx msg.length with
      | .ok i => read_old_length msg n i h1
      | .raise e => (h1, .raise e)
      | .fault f => (h1, .fault f)
    | .raise e => (h, .raise e)
    | .fault f => (h, .fault f)

/-- The function `spgp_parse_header(msg, idx, length, pkt)` on the header slot of the
packet (`none` is a null `pkt->header`, for which a zeroed header is allocated).
Returns the header slot as it stands when the function is left, and the new cursor
or the error raised. -/
def spgp_parse_header (msg : List Nat) (idx : Nat) (hdr : Option Header) :
    Option Header × Res Nat :=
  if msg.length = 0 then (hdr, .raise .INVALID_ARGS) else
  let h0 : Header := hdr.getD {}
  match rd msg idx with
  | .raise e => (some h0, .raise e)
  | .fault f => (some h0, .fault f)
  | .ok tag =>
    let h1 := { h0 with rawTagByte := tag }
    match SAFE_IDX_INCREMENT idx msg.length with
    | .raise e => (some h1, .raise e)
    | .fault f => (some h1, .fault f)
    | .ok i1 =>
      if tag &&& 0x80 = 0 then (some h1, .raise .INVALID_HEADER) else
      let h2 := { h1 with isNewFormat := tag &&& 0x40 }
      let h3 := { h2 with
        type := if h2.isNewFormat ≠ 0 then tag &&& 0x1F else (tag >>> 2) &&& 0x0F }
      if h3.isNewFormat = 0 then
        if tag &&& 0x03 = 3 then (some h3, .raise .FORMAT_UNSUPPORTED) else
        let h4 := { h3 with
          headerLength := if tag &&& 0x03 = 0 then 2 else if tag &&& 0x03 = 1 then 3 else 5 }
        match read_old_length msg (h4.headerLength - 1) i1 h4 with
        | (h5, r) => (some h5, r)
      else
        match spgp_new_header_length msg i1 with
        | .raise e => (some h3, .raise e)
        | .fault f => (some h3, .fault f)
        | .ok nl =>
          let h4 := { h3 with
            contentLength := nl.content, headerLength := nl.header_len,
            isPartial := nl.isPartial }
          match SAFE_IDX_INCREMENT (add32 i1 (h4.headerLength - 2)) msg.length with
          | .raise e => (some h4, .raise e)
          | .fault f => (some h4, .fault f)
          | .ok i2 => (some h4, .ok i2)

/-- The header length that section 4.C of the specification assigns to the header
whose tag byte is `msg[i]`: 2, 3 or 5 for an old-format length of 1, 2 or 4 octets,
and 2, 3, 5 or 2 for the four new-format forms. -/
def spec_header_length (msg : List Nat) (i : Nat) : Nat :=
  let tag := msg.getD i 0
  let b0 := msg.getD (i + 1) 0
  if tag &&& 0x40 = 0 then
    if tag &&& 0x03 = 0 then 2 else if tag &&& 0x03 = 1 then 3 else 5
  else if b0 ≤ 191 then 2 else if b0 ≤ 223 then 3 else if b0 = 255 then 5 else 2

/-- The content length that section 4.C of the specification assigns to the header
whose tag byte is `msg[i]`: the big-endian value of the old-format length octets, or
the value of the new-format length rule. -/
def spec_content_length (msg : List Nat) (i : Nat) : Nat :=
  let tag := msg.getD i 0
  let b := fun k => msg.getD (i + k) 0
  if tag &&& 0x40 = 0 then
    if tag &&& 0x03 = 0 then b 1
    else if tag &&& 0x03 = 1 then b 1 * 2 ^ 8 + b 2
    else b 1 * 2 ^ 24 + b 2 * 2 ^ 16 + b 3 * 2 ^ 8 + b 4
  else if b 1 ≤ 191 then b 1
  else if b 1 ≤ 223 then ((b 1 - 192) <<< 8) ||| (b 2 + 192)
  else if b 1 = 255 then b 2 * 2 ^ 24 + b 3 * 2 ^ 16 + b 4 * 2 ^ 8 + b 5
  else 1 <<< (b 1 &&& 0x1F)

/-! ## Packets -/

/-- Modelled from the spec: the packet type constants of `packet.h` (not part of the
sources), with the RFC 4880 packet tags that the binary format of the specification
refers to. -/
def PKT_TYPE_SESSION : Nat := 1

/-- Modelled from the spec: RFC 4880 packet tag of a secret-key packet. -/
def PKT_TYPE_SECRET_KEY : Nat := 5

/-- Modelled from the spec: RFC 4880 packet tag of a public-key packet. -/
def PKT_TYPE_PUBLIC_KEY : Nat := 6

/-- Modelled from the spec: RFC 4880 packet tag of a secret-subkey packet. -/
def PKT_TYPE_SECRET_SUBKEY : Nat := 7

/-- Modelled from the spec: RFC 4880 packet tag of a user-id packet. -/
def PKT_TYPE_USER_ID : Nat := 13

/-- Modelled from the spec: RFC 4880 packet tag of a public-subkey packet. -/
def PKT_TYPE_PUBLIC_SUBKEY : Nat := 14

/-- Modelled from the spec: RFC 4880 packet tag of a symmetrically encrypted
integrity-protected data packet. -/
def PKT_TYPE_SYM_ENC_INT_DATA : Nat := 18

/-- Modelled from the spec: algorithm code `asym 16 = Elgamal` of `packet.h`. -/
def ASYM_ALGO_ELGAMAL : Nat := 16

/-- Modelled from the spec: algorithm code `asym 17 = DSA` of `packet.h`. -/
def ASYM_ALGO_DSA : Nat := 17

/-- Modelled from the spec: algorithm code `hash 2 = SHA-1` of `packet.h`. -/
def HASH_ALGO_SHA1 : Nat := 2

/-- A multi-precision integer `spgp_mpi_t`: the raw wire bytes (two length octets
and `count` value octets), the bit count and the byte count.  The `next` pointer of
the C structure is the list that holds the value. -/
structure Mpi where
  data : List Nat := []
  bits : Nat := 0
  count : Nat := 0
  deriving DecidableEq, Repr

/-- The public-key body `spgp_public_pkt_t`.  `creationTime` is the `uint32_t` that the
`memcpy` of the four wire bytes produces on a little-endian host; `mpis` is the linked
list that starts at `mpiHead`; `fingerprint` is `none` for a null pointer. -/
structure PublicPkt where
  version : Nat := 0
  creationTime : Nat := 0
  asymAlgo : Nat := 0
  mpis : List Mpi := []
  mpiCount : Nat := 0
  fingerprint : Option (List Nat) := none
  deriving DecidableEq, Repr

/-- The secret-key body `spgp_secret_pkt_t`, whose first member is the public body.
Pointers are options, `none` for null. -/
structure SecretPkt where
  pub : PublicPkt := {}
  s2kType : Nat := 0
  s2kEncryption : Nat := 0
  s2kSpecifier : Nat := 0
  s2kHashAlgo : Nat := 0
  s2kSalt : Option (List Nat) := none
  s2kSaltLength : Nat := 0
  s2kCount : Nat := 0
  iv : Option (List Nat) := none
  ivLength : Nat := 0
  key : Option (List Nat) := none
  keyLength : Nat := 0
  encryptedData : Option (List Nat) := none
  encryptedDataLength : Nat := 0
  isDecrypted : Nat := 0
  deriving DecidableEq, Repr

/-- The session body `spgp_session_pkt_t`; `keylen` is taken to be a `uint32_t`. -/
structure SessionPkt where
  version : Nat := 0
  keyid : List Nat := []
  algo : Nat := 0
  mpi1 : Option Mpi := none
  mpi2 : Option Mpi := none
  symAlgo : Nat := 0
  key : Option (List Nat) := none
  keylen : Nat := 0
  deriving DecidableEq, Repr

/-- The user-id body `spgp_userid_pkt_t`: the copied content followed by the NUL
terminator. -/
structure UserIdPkt where
  data : List Nat := []
  deriving DecidableEq, Repr

/-- The union `c` of a packet, when it is not null. -/
inductive Body
  | userid (u : UserIdPkt)
  | pub (p : PublicPkt)
  | secret (s : SecretPkt)
  | session (s : SessionPkt)
  deriving DecidableEq, Repr

/-- A packet `spgp_packet_t`: its header pointer and its body pointer (`none` for
null).  A chain is the list of its packets in `next` order; `prev` of a packet is the
packet before it in the list. -/
structure Packet where
  header : Option Header := none
  c : Option Body := none
  deriving DecidableEq, Repr

/-! ## MPI codec -/

/-- The function `spgp_read_mpi(msg, idx, length)`: returns the MPI and the new cursor,
which is on the last byte of the MPI.  Only the two length octets are bounds-checked;
the `memcpy` of `count + 2` bytes is not. -/
def spgp_read_mpi (msg : List Nat) (idx : Nat) : Res (Mpi × Nat) :=
  if msg.length = 0 then .raise .INVALID_ARGS
  else if sub32 msg.length idx < 2 then .raise .BUFFER_OVERFLOW
  else do
    let b0 ← rd msg idx
    let b1 ← rd msg (idx + 1)
    let bits := (b0 <<< 8) ||| b1
    let count := (bits + 7) / 8
    let data ← rdN msg idx (count + 2)
    pure ({ data := data, bits := bits, count := count }, add32 idx (count + 1))

/-- The loop of `spgp_read_all_public_mpis`: `n` more rounds, `i` the loop counter. -/
def read_mpi_loop (msg : List Nat) : Nat → Nat → Nat → Res (List Mpi × Nat)
  | 0, _, idx => .ok ([], idx)
  | n + 1, i, idx => do
    let i1 ← (if i ≠ 0 then SAFE_IDX_INCREMENT idx msg.length else Res.ok idx)
    let r ← spgp_read_mpi msg i1
    let rs ← read_mpi_loop msg n (i + 1) r.2
    pure (r.1 :: rs.1, rs.2)

/-- The function `spgp_read_all_public_mpis(msg, idx, length, pub)`: the new MPI list,
the new `mpiCount` and the new cursor. -/
def spgp_read_all_public_mpis (msg : List Nat) (idx : Nat) (asymAlgo : Nat) :
    Res (List Mpi × Nat × Nat) :=
  if msg.length = 0 then .raise .INVALID_ARGS
  else if asymAlgo = ASYM_ALGO_DSA then do
    let r ← read_mpi_loop msg 4 0 idx
    pure (r.1, 4, r.2)
  else if asymAlgo = ASYM_ALGO_ELGAMAL then do
    let r ← read_mpi_loop msg 3 0 idx
    pure (r.1, 3, r.2)
  else .raise .FORMAT_UNSUPPORTED

/-! ## Packet-content parsers -/

/-- Value of four bytes in memory read as a `uint32_t` on a little-endian host. -/
def le32 (bs : List Nat) : Nat :=
  bs.getD 0 0 + bs.getD 1 0 * 2 ^ 8 + bs.getD 2 0 * 2 ^ 16 + bs.getD 3 0 * 2 ^ 24

/-- The field reads of `spgp_parse_public_key`, after the public body is allocated. -/
def public_key_fields (msg : List Nat) (idx : Nat) (pub0 : PublicPkt) :
    Res (PublicPkt × Nat) := do
  let version ← rd msg idx
  let i1 ← SAFE_IDX_INCREMENT idx msg.length
  if version ≠ 4 then .raise .FORMAT_UNSUPPORTED
  else if sub32 msg.length i1 < 4 then .raise .BUFFER_OVERFLOW
  else do
    let ct ← rdN msg i1 4
    let i2 ← SAFE_IDX_INCREMENT (add32 i1 3) msg.length
    let algo ← rd msg i2
    let i3 ← SAFE_IDX_INCREMENT i2 msg.length
    let r ← spgp_read_all_public_mpis msg i3 algo
    pure ({ pub0 with version := version, creationTime := le32 ct, asymAlgo := algo,
                      mpis := r.1, mpiCount := r.2.1 }, r.2.2)

/-- The function `spgp_parse_public_key(msg, idx, length, pkt)` on the public body slot
`pkt->c.pub` (`none` for null) of a packet with the given content length.  Returns the
slot as it stands when the function is left, and the new cursor, which is on the last
byte of the last MPI.  When the function is left through `RAISE` the packet is about to
be released, and only the allocation of the body is recorded, not the fields written
so far. -/
def spgp_parse_public_key (msg : List Nat) (idx : Nat) (contentLength : Nat)
    (slot : Option PublicPkt) : Option PublicPkt × Res Nat :=
  if sub32 msg.length idx < contentLength then (slot, .raise .BUFFER_OVERFLOW) else
  let pub0 : PublicPkt := slot.getD {}
  match public_key_fields msg idx pub0 with
  | .ok r => (some r.1, .ok r.2)
  | .raise e => (some pub0, .raise e)
  | .fault f => (some pub0, .fault f)

/-- The function `spgp_parse_user_id(msg, idx, length, pkt)` on the user-id slot
`pkt->c.userid` of a packet with the given content length.  Returns the slot as it
stands when the function is left and the new cursor, on the last content byte. -/
def spgp_parse_user_id (msg : List Nat) (idx : Nat) (contentLength : Nat)
    (slot : Option UserIdPkt) : Option UserIdPkt × Res Nat :=
  if sub32 msg.length idx < contentLength then (slot, .raise .BUFFER_OVERFLOW) else
  match rdN msg idx contentLength with
  | .ok bytes => (some { data := bytes ++ [0] }, .ok (add32 idx (sub32 contentLength 1)))
  | .raise e => (some {}, .raise e)
  | .fault f => (some {}, .fault f)

/-! ## External collaborators -/

/-- The collaborators outside `packet.c`: libgcrypt, the keychain and the C library.
`sha1` is the digest that `gcry_md_read` returns for the bytes fed to a SHA-1 context
and `md_open` tells whether `gcry_md_open` succeeds; `cipher_blklen` is
`gcry_cipher_algo_info(algo, GCRYCTL_GET_BLKLEN)` (`none` for an error);
`cfb_decrypt algo key keylen ivlen data` is the plaintext of a CFB decryption with an
all-zero IV of `ivlen` bytes (`none` when a libgcrypt call reports an error);
`elg_decrypt` maps the wire bytes of `p, g, y, x, a, b` to the frame that
`gcry_mpi_print` writes for the result of `gcry_pk_decrypt`; `keychain_valid` and
`keychain` are `spgp_keychain_is_valid()` and the chains that the keychain iterator
yields; `cipher_open algo` tells whether `gcry_cipher_open` succeeds for a CFB cipher,
and `cfb_decrypt_iv algo key keylen iv ivlen` is the CFB decryption under the given key
and IV: `none` when `gcry_cipher_setkey` or `gcry_cipher_setiv` reports an error, else
the map from a ciphertext to its plaintext (`none` when `gcry_cipher_decrypt` reports
an error); `memcmp_size a b`, reduced modulo `2^31 - 1` and incremented, is the
absolute value of the `int` that `memcmp` of the C library returns for two ranges `a`
and `b` that differ (the C standard fixes the sign of that value and leaves its size to
the library). -/
structure Env where
  sha1 : List Nat → List Nat
  md_open : Bool
  cipher_blklen : Nat → Option Nat
  cfb_decrypt : Nat → List Nat → Nat → Nat → List Nat → Option (List Nat)
  elg_decrypt : List (List Nat) → List Nat
  keychain_valid : Bool
  keychain : List (List Packet)
  cipher_open : Nat → Bool
  cfb_decrypt_iv :
    Nat → List Nat → Nat → List Nat → Nat → Option (List Nat → Option (List Nat))
  memcmp_size : List Nat → List Nat → Nat

/-- Collaborators that do nothing, for the evaluation of the decoder on concrete
buffers: a constant digest, a cipher with 8-byte blocks that returns its input, an
empty frame, a valid keychain without chains, and a `memcmp` that returns -1, 0
or 1. -/
def null_env : Env :=
  { sha1 := fun _ => List.replicate 20 0
    md_open := true
    cipher_blklen := fun _ => some 8
    cfb_decrypt := fun _ _ _ _ d => some d
    elg_decrypt := fun _ => []
    keychain_valid := true
    keychain := []
    cipher_open := fun _ => true
    cfb_decrypt_iv := fun _ _ _ _ _ => some (fun d => some d)
    memcmp_size := fun _ _ => 0 }

/-- The public body that `pkt->c.pub` designates: the body itself for a public-key
packet, the first member for a secret-key packet.  The other members of the union do
not start with a public body. -/
def Body.pubOf : Body → Option PublicPkt
  | .pub p => some p
  | .secret s => some s.pub
  | _ => none

/-! ## Fingerprint -/

/-- The bytes that `spgp_generate_fingerprint` feeds to the hash for the first
`targetMpiCount` MPIs: `0x99`, the 16-bit `packetSize` big-endian, the version, the
creation time low byte first, the algorithm, and the wire bytes of each MPI. -/
def fingerprint_input (pub : PublicPkt) (targetMpiCount : Nat) : List Nat :=
  let ms := pub.mpis.take targetMpiCount
  let packetSize := ms.foldl (fun acc m => (acc + (m.count + 2)) % 65536) 6
  [0x99, (packetSize >>> 8) % 256, packetSize % 256, pub.version % 256,
    pub.creationTime % 256, (pub.creationTime >>> 8) % 256,
    (pub.creationTime >>> 16) % 256, (pub.creationTime >>> 24) % 256,
    pub.asymAlgo % 256]
    ++ (ms.map (fun m => m.data.take (m.count + 2))).flatten

/-- The function `spgp_generate_fingerprint(pkt)` on the public body of the packet. -/
def spgp_generate_fingerprint (env : Env) (pub : PublicPkt) : Res PublicPkt :=
  if pub.asymAlgo = ASYM_ALGO_DSA then
    if env.md_open then
      .ok { pub with fingerprint := some ((env.sha1 (fingerprint_input pub 4)).take 20) }
    else .raise .GCRY_ERROR
  else if pub.asymAlgo = ASYM_ALGO_ELGAMAL then
    if env.md_open then
      .ok { pub with fingerprint := some ((env.sha1 (fingerprint_input pub 3)).take 20) }
    else .raise .GCRY_ERROR
  else .raise .FORMAT_UNSUPPORTED

/-! ## Secret-key parser -/

/-- The function `spgp_pgp_to_gcrypt_symmetric_algo`; the results are the values of
libgcrypt's `GCRY_CIPHER_IDEA`, `3DES`, `CAST5`, `BLOWFISH`, `AES128`, `AES192`,
`AES256` and `TWOFISH`. -/
def spgp_pgp_to_gcrypt_symmetric_algo (pgpalgo : Nat) : Nat :=
  if pgpalgo = 1 then 1
  else if pgpalgo = 2 then 2
  else if pgpalgo = 3 then 3
  else if pgpalgo = 4 then 4
  else if pgpalgo = 7 then 7
  else if pgpalgo = 8 then 8
  else if pgpalgo = 9 then 9
  else if pgpalgo = 10 then 10
  else 0xFF

/-- The function `spgp_iv_length_for_symmetric_algo`, whose result is a `uint8_t`. -/
def spgp_iv_length_for_symmetric_algo (env : Env) (algo : Nat) : Res Nat :=
  match env.cipher_blklen (spgp_pgp_to_gcrypt_symmetric_algo algo) with
  | some n => .ok (n % 256)
  | none => .raise .FORMAT_UNSUPPORTED

/-- The function `spgp_salt_length_for_hash_algo`. -/
def spgp_salt_length_for_hash_algo (algo : Nat) : Res Nat :=
  if algo = HASH_ALGO_SHA1 then .ok 8 else .raise .FORMAT_UNSUPPORTED

/-- The function `spgp_read_salt(msg, idx, length, secret)`. -/
def spgp_read_salt (msg : List Nat) (idx : Nat) (secret : SecretPkt) :
    Res (SecretPkt × Nat) :=
  if msg.length = 0 then .raise .INVALID_ARGS
  else do
    let saltLen ← spgp_salt_length_for_hash_algo secret.s2kHashAlgo
    if saltLen = 0 then .raise .FORMAT_UNSUPPORTED
    else if sub32 msg.length idx < saltLen then .raise .BUFFER_OVERFLOW
    else do
      let salt ← rdN msg idx saltLen
      let i ← SAFE_IDX_INCREMENT (add32 idx (saltLen - 1)) msg.length
      pure ({ secret with s2kSalt := some salt, s2kSaltLength := saltLen }, i)

/-- The function `spgp_read_iv(msg, idx, length, secret)`. -/
def spgp_read_iv (env : Env) (msg : List Nat) (idx : Nat) (secret : SecretPkt) :
    Res (SecretPkt × Nat) :=
  if msg.length = 0 then .raise .INVALID_ARGS
  else do
    let ivLen ← spgp_iv_length_for_symmetric_algo env secret.s2kEncryption
    if ivLen = 0 then .raise .FORMAT_UNSUPPORTED
    else if sub32 msg.length idx < ivLen then .raise .BUFFER_OVERFLOW
    else do
      let iv ← rdN msg idx ivLen
      let i ← SAFE_IDX_INCREMENT (add32 idx (ivLen - 1)) msg.length
      pure ({ secret with iv := some iv, ivLength := ivLen }, i)

/-- The function `spgp_read_all_secret_mpis(msg, idx, length, secret)`: the walk to the
last MPI dereferences `mpiHead`. -/
def spgp_read_all_secret_mpis (msg : List Nat) (idx : Nat) (secret : SecretPkt) :
    Res (SecretPkt × Nat) :=
  if msg.length = 0 then .raise .INVALID_ARGS
  else if secret.pub.mpis.isEmpty then .fault .nullDeref
  else if secret.pub.asymAlgo = ASYM_ALGO_DSA then do
    let r ← spgp_read_mpi msg idx
    pure ({ secret with
              pub := { secret.pub with mpis := secret.pub.mpis ++ [r.1],
                                       mpiCount := secret.pub.mpiCount + 1 } }, r.2)
  else .raise .FORMAT_UNSUPPORTED

/-- The `switch (secret->s2kType)` of `spgp_parse_secret_key`: the value of
`s2kEncryption` and the new cursor. -/
def read_s2k_encryption (msg : List Nat) (idx : Nat) (s2kType : Nat) : Res (Nat × Nat) :=
  if s2kType = 0 then .ok (0, idx)
  else if s2kType = 254 ∨ s2kType = 255 then do
    let e ← rd msg idx
    let i ← SAFE_IDX_INCREMENT idx msg.length
    pure (e, i)
  else .ok (s2kType, idx)

/-- The block `if (secret->s2kEncryption) { ... }` of `spgp_parse_secret_key`: the
S2K specifier (for `s2kType >= 254`), the hash algorithm, the salt and the count. -/
def read_s2k_params (msg : List Nat) (idx : Nat) (s : SecretPkt) : Res (SecretPkt × Nat) :=
  if s.s2kEncryption ≠ 0 then do
    let a ← (if s.s2kType ≥ 254 then (do
                let sp ← rd msg idx
                let i ← SAFE_IDX_INCREMENT idx msg.length
                pure ({ s with s2kSpecifier := sp }, i))
              else Res.ok (s, idx))
    let h ← rd msg a.2
    let i1 ← SAFE_IDX_INCREMENT a.2 msg.length
    if a.1.s2kSpecifier = 1 then
      spgp_read_salt msg i1 { a.1 with s2kHashAlgo := h }
    else if a.1.s2kSpecifier = 3 then do
      let r ← spgp_read_salt msg i1 { a.1 with s2kHashAlgo := h }
      let c ← rd msg r.2
      let i2 ← SAFE_IDX_INCREMENT r.2 msg.length
      pure ({ r.1 with s2kCount := c }, i2)
    else pure ({ a.1 with s2kHashAlgo := h }, i1)
  else .ok (s, idx)

/-- The encrypted branch of `spgp_parse_secret_key`: the IV, then the rest of the
content as `encryptedData`; the cursor ends on the last content byte. -/
def read_encrypted_data (env : Env) (msg : List Nat) (idx startIdx contentLength : Nat)
    (s : SecretPkt) : Res (SecretPkt × Nat) := do
  let r ← spgp_read_iv env msg idx s
  let packetOffset := sub32 r.2 startIdx
  let remaining := sub32 contentLength packetOffset
  if packetOffset ≥ contentLength then .raise .BUFFER_OVERFLOW
  else do
    let d ← rdN msg r.2 remaining
    pure ({ r.1 with encryptedData := some d, encryptedDataLength := remaining },
          add32 r.2 (sub32 remaining 1))

/-- The body of `spgp_parse_secret_key` after the secret body is allocated and
zeroed. -/
def secret_key_fields (env : Env) (msg : List Nat) (idx contentLength : Nat) :
    Res (SecretPkt × Nat) := do
  let i0 ← (spgp_parse_public_key msg idx contentLength (some {})).2
  let s0 : SecretPkt :=
    { pub := ((spgp_parse_public_key msg idx contentLength (some {})).1).getD {} }
  let i1 ← SAFE_IDX_INCREMENT i0 msg.length
  let s2kType ← rd msg i1
  let i2 ← SAFE_IDX_INCREMENT i1 msg.length
  let e ← read_s2k_encryption msg i2 s2kType
  let p ← read_s2k_params msg e.2 { s0 with s2kType := s2kType, s2kEncryption := e.1 }
  let q ← (if p.1.s2kEncryption = 0 then spgp_read_all_secret_mpis msg p.2 p.1
           else read_encrypted_data env msg p.2 idx contentLength p.1)
  let pub ← spgp_generate_fingerprint env q.1.pub
  pure ({ q.1 with pub := pub }, q.2)

/-- The function `spgp_parse_secret_key(msg, idx, length, pkt)` on the secret body slot
`pkt->c.secret` of a packet with the given content length.  Returns the slot as it
stands when the function is left (on a `RAISE` only its allocation is recorded) and
the new cursor. -/
def spgp_parse_secret_key (env : Env) (msg : List Nat) (idx : Nat) (contentLength : Nat)
    (slot : Option SecretPkt) : Option SecretPkt × Res Nat :=
  if sub32 msg.length idx < contentLength then (slot, .raise .BUFFER_OVERFLOW) else
  match secret_key_fields env msg idx contentLength with
  | .ok r => (some r.1, .ok r.2)
  | .raise e => (some {}, .raise e)
  | .fault f => (some {}, .fault f)

/-! ## Session packet -/

/-- The function `spgp_secret_key_matching_id(chain, keyid)`: the first secret-key or
secret-subkey packet of the chain whose fingerprint bytes 12..19 equal the key id. -/
def spgp_secret_key_matching_id : List Packet → List Nat → Res (Option Packet)
  | [], _ => .ok none
  | p :: rest, keyid =>
    match p.header with
    | none => .fault .nullDeref
    | some h =>
      if h.type = PKT_TYPE_SECRET_KEY ∨ h.type = PKT_TYPE_SECRET_SUBKEY then
        match p.c.bind Body.pubOf with
        | none => .fault .nullDeref
        | some pub =>
          match pub.fingerprint with
          | none => .fault .nullDeref
          | some fp =>
            if (fp.drop 12).take 8 = keyid then .ok (some p)
            else spgp_secret_key_matching_id rest keyid
      else spgp_secret_key_matching_id rest keyid

/-- The keychain loop of `spgp_parse_session_packet`: the value of the local `key`
after the loop; the second argument is its value so far, `none` while it is
uninitialised, which it still is after the loop when the iterator yields no chain. -/
def find_key (keyid : List Nat) :
    List (List Packet) → Option (Option Packet) → Res (Option Packet)
  | [], none => .fault .uninit
  | [], some k => .ok k
  | chain :: rest, _ =>
    match spgp_secret_key_matching_id chain keyid with
    | .ok (some k) => .ok (some k)
    | .ok none => find_key keyid rest (some none)
    | .raise e => .raise e
    | .fault f => .fault f

/-- The reads of `spgp_parse_session_packet` from the buffer: version, key id,
algorithm, one MPI, and a second MPI for Elgamal.  The `memcpy` of the key id is not
bounds-checked. -/
def session_fields (msg : List Nat) (idx : Nat) : Res (SessionPkt × Nat) := do
  let version ← rd msg idx
  let i1 ← SAFE_IDX_INCREMENT idx msg.length
  let keyid ← rdN msg i1 8
  let i2 ← SAFE_IDX_INCREMENT (add32 i1 7) msg.length
  let algo ← rd msg i2
  let i3 ← SAFE_IDX_INCREMENT i2 msg.length
  let m1 ← spgp_read_mpi msg i3
  let m2 ← (if algo = ASYM_ALGO_ELGAMAL then (do
              let i ← SAFE_IDX_INCREMENT m1.2 msg.length
              let m ← spgp_read_mpi msg i
              pure (some m.1, m.2))
            else Res.ok (none, m1.2))
  pure ({ version := version, keyid := keyid, algo := algo, mpi1 := some m1.1,
          mpi2 := m2.1 }, m2.2)

/-- The loop `while (frame[i++] != 0 && i < frame_len);` of the frame parser: the value
of `i` after the loop.  The first argument bounds the number of rounds. -/
def skip_padding (frame : List Nat) : Nat → Nat → Res Nat
  | 0, _ => .fault .outOfFuel
  | fuel + 1, i => do
    let b ← rd frame i
    if b ≠ 0 ∧ i + 1 < frame.length then skip_padding frame fuel (i + 1)
    else pure (i + 1)

/-- The frame parser of `spgp_parse_session_packet`: block type, padding, algorithm,
session key and checksum of the decrypted frame. -/
def parse_session_frame (frame : List Nat) (s : SessionPkt) : Res SessionPkt := do
  let b ← rd frame 2
  if b ≠ 2 then .raise .DECRYPT_FAILED
  else do
    let i ← skip_padding frame (frame.length + 1) 3
    let algo ← rd frame i
    let keylen := sub32 (sub32 frame.length i) 3
    if add32 (i + 1) keylen ≥ frame.length then .raise .DECRYPT_FAILED
    else do
      let key ← rdN frame (i + 1) keylen
      let c0 ← rd frame (frame.length - 2)
      let c1 ← rd frame (frame.length - 1)
      let checksum := (c0 <<< 8) ||| c1
      let sum := key.foldl (fun a k => (a + (k &&& 0xFF)) % U32) 0
      if sum % 65536 ≠ checksum then .raise .DECRYPT_FAILED
      else pure { s with symAlgo := algo, keylen := keylen, key := some key }

/-- The second half of `spgp_parse_session_packet`: the keychain lookup, the Elgamal
decryption and the frame parser.  A session packet without a matching key is returned
unchanged (the C function returns -1 without raising).  The array `mpis` has 10
slots, and the Elgamal expressions read its slots 0 to 5. -/
def session_decrypt (env : Env) (s : SessionPkt) : Res SessionPkt :=
  if ¬ env.keychain_valid then .raise .KEYCHAIN_ERROR
  else do
    let key ← find_key s.keyid env.keychain none
    match key with
    | none => pure s
    | some k =>
      match k.c.bind Body.pubOf with
      | none => .fault .nullDeref
      | some pub =>
        let all := pub.mpis.map (fun m => m.data.take (m.count + 2))
          ++ (s.mpi1.toList.map (fun m => m.data.take (m.count + 2)))
          ++ (s.mpi2.toList.map (fun m => m.data.take (m.count + 2)))
        if all.length > 10 then .fault (.oobWrite 10)
        else if s.algo = ASYM_ALGO_ELGAMAL then
          if all.length < 6 then .fault .uninit
          else parse_session_frame (env.elg_decrypt (all.take 6)) s
        else .raise .FORMAT_UNSUPPORTED

/-- The function `spgp_parse_session_packet(msg, idx, length, pkt)` on the session slot
`pkt->c.session` of a packet with the given content length.  Returns the slot as it
stands when the function is left (on a `RAISE` only its allocation is recorded) and
the new cursor. -/
def spgp_parse_session_packet (env : Env) (msg : List Nat) (idx : Nat)
    (contentLength : Nat) (slot : Option SessionPkt) : Option SessionPkt × Res Nat :=
  if msg.length = 0 then (slot, .raise .INVALID_ARGS)
  else if sub32 msg.length idx < contentLength then (slot, .raise .BUFFER_OVERFLOW)
  else
    match session_fields msg idx with
    | .ok r =>
      match session_decrypt env r.1 with
      | .ok s => (some s, .ok r.2)
      | .raise e => (some r.1, .raise e)
      | .fault f => (some r.1, .fault f)
    | .raise e => (some {}, .raise e)
    | .fault f => (some {}, .fault f)

/-! ## Encrypted data packet -/

/-- The function `spgp_find_session_packet(chain)` on the packets from `chain`
backwards along `prev`: the first session packet whose key is not null. -/
def spgp_find_session_packet : List Packet → Res (Option SessionPkt)
  | [] => .ok none
  | p :: rest =>
    match p.header with
    | none => .fault .nullDeref
    | some h =>
      if h.type = PKT_TYPE_SESSION then
        match p.c with
        | some (.session s) =>
          if s.key.isSome then .ok (some s) else spgp_find_session_packet rest
        | _ => .fault .nullDeref
      else spgp_find_session_packet rest

/-- Store of the bytes `bs` at `msg + i`; a fault when the range leaves the buffer. -/
def wrN (msg : List Nat) (i : Nat) (bs : List Nat) : Res (List Nat) :=
  if bs.length = 0 then .ok msg
  else if i + bs.length ≤ msg.length then
    .ok (msg.take i ++ bs ++ msg.drop (i + bs.length))
  else .fault (.oobWrite (max i msg.length))

/-- The lines of the decryption loop of `spgp_parse_encrypted_packet` that follow a
partial segment, with the cursor on the first byte of the next sub-header:
`spgp_new_header_length` at the cursor, the loop that stores zero to `headerlen` bytes
from the cursor on, and `*idx += headerlen - 2; SAFE_IDX_INCREMENT(*idx, length)`.
Returns the buffer, the cursor and what `spgp_new_header_length` handed back. -/
def next_sub_header (msg : List Nat) (idx : Nat) : Res (List Nat × Nat × NewLen) := do
  let nl ← spgp_new_header_length msg idx
  let msg2 ← wrN msg idx (List.replicate nl.header_len 0)
  let i3 ← SAFE_IDX_INCREMENT (add32 idx (nl.header_len - 2)) msg2.length
  pure (msg2, i3, nl)

/-- The decryption loop of `spgp_parse_encrypted_packet`: decrypt `encbytes` bytes in
place at the cursor; for a partial segment read the next sub-header, overwrite
`headerlen` bytes from its first byte with zero, and go on with the next segment.
Returns the buffer, the cursor (on the last decrypted byte) and the block size.  The
first argument bounds the number of rounds.  The cipher is expected to return as
many bytes as it is given; its output is cut or padded to that length. -/
def decrypt_segments (env : Env) (session : SessionPkt) :
    Nat → List Nat → Nat → Nat → Nat → Res (List Nat × Nat × Nat)
  | 0, _, _, _, _ => .fault .outOfFuel
  | fuel + 1, msg, idx, encbytes, isPartial => do
    let blksize ← spgp_iv_length_for_symmetric_algo env session.symAlgo
    match env.cfb_decrypt (spgp_pgp_to_gcrypt_symmetric_algo session.symAlgo)
        (session.key.getD []) session.keylen blksize ((msg.drop idx).take encbytes) with
    | none => .raise .GCRY_ERROR
    | some out =>
      if idx + encbytes > msg.length ∧ encbytes ≠ 0 then
        .fault (.oobWrite (max idx msg.length))
      else do
        let msg1 ← wrN msg idx ((out ++ List.replicate encbytes 0).take encbytes)
        let idx1 := add32 idx (sub32 encbytes 1)
        if isPartial = 0 then pure (msg1, idx1, blksize)
        else do
          let i2 ← SAFE_IDX_INCREMENT idx1 msg1.length
          let r ← next_sub_header msg1 i2
          decrypt_segments env session fuel r.1 r.2.1 r.2.2.content r.2.2.isPartial

/-- The function `spgp_parse_encrypted_packet(msg, idx, length, pkt)`; `back` holds the
packet and the packets before it, from the packet backwards.  Returns the buffer, which
is decrypted in place, and the new cursor, one byte before the decrypted packets. -/
def spgp_parse_encrypted_packet (env : Env) (msg : List Nat) (idx : Nat) (h : Header)
    (back : List Packet) : Res (List Nat × Nat) :=
  if msg.length = 0 then .raise .INVALID_ARGS
  else do
    let version ← rd msg idx
    let startidx ← SAFE_IDX_INCREMENT idx msg.length
    if version ≠ 1 then .raise .FORMAT_UNSUPPORTED
    else do
      let found ← spgp_find_session_packet back
      match found with
      | none => .raise .DECRYPT_FAILED
      | some session =>
        let r ← decrypt_segments env session (msg.length + 1) msg startidx
          (sub32 h.contentLength 1) h.isPartial
        let blksize := r.2.2
        let m1 ← rdN r.1 (startidx + blksize - 2) 2
        let m2 ← rdN r.1 (startidx + blksize) 2
        if m1 ≠ m2 then .raise .DECRYPT_FAILED
        else pure (r.1, (startidx + blksize + 2 - 1) % U32)

/-! ## Engine loop -/

/-- The loop `while (message[idx] == 0) idx++;` on the bytes from the cursor on: the
loads are not bounds-checked, and the loop runs off the buffer when no non-zero byte
follows. -/
def skip_zero : List Nat → Nat → Res Nat
  | [], idx => .fault (.oobRead idx)
  | b :: rest, idx => if b % 256 = 0 then skip_zero rest (idx + 1) else .ok idx

/-- The `switch (pkt->header->type)` of `spgp_decode_message` for a fresh packet with
header `h`; `done` holds the packets before it in chain order.  Returns the buffer, the
body pointer of the packet and the cursor as they stand after the switch. -/
def parse_packet (env : Env) (msg : List Nat) (idx : Nat) (h : Header)
    (done : List Packet) : List Nat × Option Body × Res Nat :=
  if h.type = PKT_TYPE_USER_ID then
    let r := spgp_parse_user_id msg idx h.contentLength none
    (msg, r.1.map Body.userid, r.2)
  else if h.type = PKT_TYPE_PUBLIC_KEY ∨ h.type = PKT_TYPE_PUBLIC_SUBKEY then
    let r := spgp_parse_public_key msg idx h.contentLength none
    (msg, r.1.map Body.pub, r.2)
  else if h.type = PKT_TYPE_SECRET_KEY ∨ h.type = PKT_TYPE_SECRET_SUBKEY then
    let r := spgp_parse_secret_key env msg idx h.contentLength none
    (msg, r.1.map Body.secret, r.2)
  else if h.type = PKT_TYPE_SESSION then
    let r := spgp_parse_session_packet env msg idx h.contentLength none
    (msg, r.1.map Body.session, r.2)
  else if h.type = PKT_TYPE_SYM_ENC_INT_DATA then
    match spgp_parse_encrypted_packet env msg idx h
        ({ header := some h, c := none } :: done.reverse) with
    | .ok r => (r.1, none, .ok r.2)
    | .raise e => (msg, none, .raise e)
    | .fault f => (msg, none, .fault f)
  else if add32 idx (sub32 h.contentLength 1) < msg.length then
    (msg, none, .ok (add32 idx (sub32 h.contentLength 1)))
  else (msg, none, .ok idx)

/-- The loop of `spgp_decode_message`, entered with the cursor `idx`, the packets
`done` before the current one and a fresh current packet.  Returns the chain (every
packet allocated so far, in order) as it stands when the loop is left, and how it is
left: normally, through `RAISE`, or by a fault.  The first argument bounds the number
of rounds. -/
def decode_loop (env : Env) : Nat → List Nat → Nat → List Packet → List Packet × Res Unit
  | 0, _, _, done => (done ++ [{}], .fault .outOfFuel)
  | fuel + 1, msg, idx, done =>
    if idx < msg.length - 1 then
      match skip_zero (msg.drop idx) idx with
      | .raise e => (done ++ [{}], .raise e)
      | .fault f => (done ++ [{}], .fault f)
      | .ok i0 =>
        match spgp_parse_header msg i0 none with
        | (hdr, .raise e) => (done ++ [{ header := hdr }], .raise e)
        | (hdr, .fault f) => (done ++ [{ header := hdr }], .fault f)
        | (none, .ok _) => (done ++ [{}], .raise .FORMAT_UNSUPPORTED)
        | (some h, .ok i1) =>
          match parse_packet env msg i1 h done with
          | (_, c, .raise e) => (done ++ [{ header := some h, c := c }], .raise e)
          | (_, c, .fault f) => (done ++ [{ header := some h, c := c }], .fault f)
          | (msg2, c, .ok i2) =>
            if i2 ≥ msg2.length - 1 then (done ++ [{ header := some h, c := c }], .ok ())
            else
              match SAFE_IDX_INCREMENT i2 msg2.length with
              | .ok i3 =>
                decode_loop env fuel msg2 i3 (done ++ [{ header := some h, c := c }])
              | .raise e => (done ++ [{ header := some h, c := c }, {}], .raise e)
              | .fault f => (done ++ [{ header := some h, c := c }, {}], .fault f)
    else (done ++ [{}], .ok ())

/-- The function `spgp_free_packet(&pkt)` on a chain: whether the release runs to its
end (and sets the pointer to null).  It dereferences the header of every packet, for
a secret-key packet with a positive `mpiCount` it dereferences `mpiHead`, and for a
user-id packet it dereferences `c.userid` without testing it for null. -/
def spgp_free_packet : List Packet → Res Unit
  | [] => .ok ()
  | p :: rest =>
    match spgp_free_packet rest with
    | .ok () =>
      match p.header with
      | none => .fault .nullDeref
      | some h =>
        if (h.type = PKT_TYPE_SECRET_KEY ∨ h.type = PKT_TYPE_SECRET_SUBKEY) ∧ p.c.isSome then
          match p.c with
          | some (.secret s) =>
            if s.pub.mpiCount > 0 ∧ s.pub.mpis.isEmpty then .fault .nullDeref else .ok ()
          | _ => .ok ()
        else if h.type = PKT_TYPE_USER_ID then
          match p.c with
          | none => .fault .nullDeref
          | some _ => .ok ()
        else .ok ()
    | .raise e => .raise e
    | .fault f => .fault f

/-- The function `spgp_decode_message(message, length)`.  `ok chain` is the return of
a non-null chain; `raise e` is the return of a null pointer after the handler released
the chain, with `e` left in the error slot that `spgp_err()` reads; a fault is
undefined behaviour during the decoding or the release.  The first argument bounds the
number of rounds of the packet loop. -/
def spgp_decode_message (env : Env) (fuel : Nat) (message : List Nat) : Res (List Packet) :=
  if message.length = 0 then .raise .INVALID_ARGS
  else
    match decode_loop env fuel message 0 [] with
    | (chain, .ok ()) => .ok chain
    | (chain, .raise e) =>
      match spgp_free_packet chain with
      | .ok () => .raise e
      | .raise e2 => .raise e2
      | .fault f => .fault f
    | (_, .fault f) => .fault f

/-- The pointer that `spgp_decode_message` returns: `none` for null. -/
def returned_chain (r : Res (List Packet)) : Option (List Packet) :=
  match r with
  | .ok chain => some chain
  | _ => none

/-- A list of MPIs lies in the buffer back to back from position `pos`: each has the
big-endian value of its first two bytes as bit count, `(bits + 7) / 8` as byte count,
and the `count + 2` bytes from its position as data. -/
def consecutive_mpis (msg : List Nat) : Nat → List Mpi → Prop
  | _, [] => True
  | pos, m :: rest =>
    m.bits = (msg.getD pos 0 % 256) * 256 + msg.getD (pos + 1) 0 % 256 ∧
    m.count = (m.bits + 7) / 8 ∧
    m.data = ((msg.drop pos).take (m.count + 2)).map (fun b => b % 256) ∧
    pos + m.count + 2 ≤ msg.length ∧
    consecutive_mpis msg (pos + m.count + 2) rest

/-- The predicate `consecutive_mpis` can be evaluated. -/
def consecutive_mpis_dec (msg : List Nat) :
    (pos : Nat) → (ms : List Mpi) → Decidable (consecutive_mpis msg pos ms)
  | _, [] => isTrue trivial
  | pos, m :: rest =>
    have := consecutive_mpis_dec msg (pos + m.count + 2) rest
    inferInstanceAs (Decidable (_ ∧ _ ∧ _ ∧ _ ∧ _))

instance (msg : List Nat) (pos : Nat) (ms : List Mpi) :
    Decidable (consecutive_mpis msg pos ms) :=
  consecutive_mpis_dec msg pos ms

/-- The packet type that the data model of the specification reads from a tag byte:
bits 5..2 of an old-format tag, bits 5..0 of a new-format tag. -/
def spec_packet_type (tag : Nat) : Nat :=
  if tag &&& 0x40 = 0 then (tag >>> 2) &&& 0x0F else tag &&& 0x3F

/-- The packet types whose parsers compare the content length with the bytes left in
the buffer before anything else and that the release of the chain handles without a
dereference of the body: public key, public subkey, secret key, secret subkey and
session key. -/
def key_or_session_type (t : Nat) : Prop :=
  t = PKT_TYPE_PUBLIC_KEY ∨ t = PKT_TYPE_PUBLIC_SUBKEY ∨ t = PKT_TYPE_SECRET_KEY ∨
    t = PKT_TYPE_SECRET_SUBKEY ∨ t = PKT_TYPE_SESSION

instance (t : Nat) : Decidable (key_or_session_type t) := by
  unfold key_or_session_type
  infer_instance

/-- The header at position `s` has bit 7 of the tag set and a length form that the
decoder frames as section 4.C describes without an unchecked load: an old-format
length of 1, 2 or 4 octets, or a new-format one-octet length. -/
def framed (msg : List Nat) (s : Nat) : Prop :=
  msg.getD s 0 &&& 0x80 ≠ 0 ∧
  ((msg.getD s 0 &&& 0x40 = 0 ∧ msg.getD s 0 &&& 0x03 ≠ 3) ∨
   (msg.getD s 0 &&& 0x40 ≠ 0 ∧ msg.getD (s + 1) 0 ≤ 191))

instance (msg : List Nat) (s : Nat) : Decidable (framed msg s) := by
  unfold framed
  infer_instance

/-- The position after the packet whose tag byte is at `s`. -/
def packet_end (msg : List Nat) (s : Nat) : Nat :=
  s + spec_header_length msg s + spec_content_length msg s

/-- The byte count of the MPI whose two length octets are at `pos`. -/
def mpi_count_at (msg : List Nat) (pos : Nat) : Nat :=
  ((msg.getD pos 0 % 256) * 256 + msg.getD (pos + 1) 0 % 256 + 7) / 8

/-- From position `pos` the buffer holds `n` MPIs back to back, and they end at `e`. -/
def mpis_fill (msg : List Nat) : Nat → Nat → Nat → Prop
  | 0, pos, e => pos = e
  | n + 1, pos, e => mpis_fill msg n (pos + mpi_count_at msg pos + 2) e

/-- The predicate `mpis_fill` can be evaluated. -/
def mpis_fill_dec (msg : List Nat) : (n pos e : Nat) → Decidable (mpis_fill msg n pos e)
  | 0, pos, e => inferInstanceAs (Decidable (pos = e))
  | n + 1, pos, e => mpis_fill_dec msg n (pos + mpi_count_at msg pos + 2) e

instance (msg : List Nat) (n pos e : Nat) : Decidable (mpis_fill msg n pos e) :=
  mpis_fill_dec msg n pos e

/-- The bytes from `c` to `e` are a version 4 public-key body: the version byte 4, four
bytes of creation time, the algorithm DSA or Elgamal, and the 4 or 3 MPIs of the
algorithm, which end at `e`. -/
def public_key_body (msg : List Nat) (c e : Nat) : Prop :=
  msg.getD c 0 = 4 ∧
  ((msg.getD (c + 5) 0 = ASYM_ALGO_DSA ∧ mpis_fill msg 4 (c + 6) e) ∨
   (msg.getD (c + 5) 0 = ASYM_ALGO_ELGAMAL ∧ mpis_fill msg 3 (c + 6) e))

instance (msg : List Nat) (c e : Nat) : Decidable (public_key_body msg c e) := by
  unfold public_key_body
  infer_instance

/-! ## Secret-key decryption -/

/-- Modelled from the spec: algorithm code `sym 2 = 3DES` of `packet.h`. -/
def SYM_ALGO_3DES : Nat := 2

/-- Modelled from the spec: algorithm code `sym 3 = CAST5` of `packet.h`. -/
def SYM_ALGO_CAST5 : Nat := 3

/-- Modelled from the spec: S2K specifier `s2k 3 = iterated-salted` of `packet.h`. -/
def S2K_TYPE_ITERATED : Nat := 3

/-- The sign that the C standard fixes for the value of `memcmp` on two ranges of equal
length: 0 for equal ranges, else the sign of the difference of the first pair of bytes
(as `unsigned char`) that differ. -/
def memcmp_sign : List Nat → List Nat → Int
  | x :: xs, y :: ys =>
    if x % 256 = y % 256 then memcmp_sign xs ys else if x % 256 < y % 256 then -1 else 1
  | _, _ => 0

/-- The `int` that `memcmp` of the C library returns for two ranges of equal length:
the sign is the one the C standard fixes, the absolute value for ranges that differ is
the choice of the library, a positive `int`. -/
def memcmp (env : Env) (a b : List Nat) : Int :=
  memcmp_sign a b * ((env.memcmp_size a b % 2147483647 + 1 : Nat) : Int)

/-- Conversion of an `int` to `uint8_t`: the value modulo 256. -/
def int_to_u8 (r : Int) : Nat := (r % 256).toNat

/-- Load of `n` bytes through a pointer to a block (`none` for a null pointer). -/
def load_block (b : Option (List Nat)) (n : Nat) : Res (List Nat) :=
  if n = 0 then .ok []
  else
    match b with
    | none => .fault .nullDeref
    | some d => rdN d 0 n

/-- The function `spgp_verify_decrypted_data(data, length)` with `length` the length of
the list: `length - 20` is computed in `uint32_t`, the digest of the leading
`length - 20` bytes is compared with the 20 bytes that follow them, and the `int`
result of `memcmp` is returned through a `uint8_t`.  The digest is expected to have
20 bytes. -/
def spgp_verify_decrypted_data (env : Env) (data : List Nat) : Res Nat :=
  if ¬ env.md_open then .raise .GCRY_ERROR
  else do
    let body ← rdN data 0 (sub32 data.length 20)
    let trailer ← rdN data (sub32 data.length 20) 20
    pure (int_to_u8 (memcmp env trailer ((env.sha1 body).take 20)))

/-- The bytes that one round of the loop of `spgp_generate_cipher_key` feeds to the hash
context: `curHashCount` calls of `gcry_md_putc(md, 0)`, `hashCopies` calls of
`gcry_md_write(md, hashBuf, bufLen)` and, when `hashExtraBytes` is not zero, one call of
`gcry_md_write(md, hashBuf, hashExtraBytes)`. -/
def s2k_round_input (hashBuf : List Nat) (hashCopies hashExtraBytes curHashCount : Nat) :
    List Nat :=
  List.replicate curHashCount 0 ++ (List.replicate hashCopies hashBuf).flatten
    ++ hashBuf.take hashExtraBytes

/-- The loop `while (curHashCount <= hashIters && keyBytesRemaining)` of
`spgp_generate_cipher_key`: for each round that the loop runs, in order, the bytes fed
to the hash and the bytes of the digest copied to the key.  The first argument is the
number of values of `curHashCount` that the loop condition still admits, the second
`curHashCount`, the third `keyBytesRemaining`.  The context is reset between rounds. -/
def s2k_trace (env : Env) (hashBuf : List Nat) (hashCopies hashExtraBytes : Nat) :
    Nat → Nat → Nat → List (List Nat × List Nat)
  | 0, _, _ => []
  | n + 1, cur, remaining =>
    if remaining = 0 then []
    else if remaining < 20 then
      [(s2k_round_input hashBuf hashCopies hashExtraBytes cur,
        (env.sha1 (s2k_round_input hashBuf hashCopies hashExtraBytes cur)).take remaining)]
    else
      (s2k_round_input hashBuf hashCopies hashExtraBytes cur,
        (env.sha1 (s2k_round_input hashBuf hashCopies hashExtraBytes cur)).take 20)
        :: s2k_trace env hashBuf hashCopies hashExtraBytes n (cur + 1) (remaining - 20)

/-- The bytes that the loop of `spgp_generate_cipher_key` writes to the key: round
`curHashCount` copies its bytes to `key + curHashCount * hashLen`, so the key is the
concatenation of the bytes copied by the rounds.  The digest is expected to have 20
bytes. -/
def s2k_rounds (env : Env) (hashBuf : List Nat) (hashCopies hashExtraBytes : Nat)
    (n cur remaining : Nat) : List Nat :=
  ((s2k_trace env hashBuf hashCopies hashExtraBytes n cur remaining).map Prod.snd).flatten

/-- The part of `spgp_generate_cipher_key` after the key is allocated: the buffer of
salt and passphrase, the byte count of the RFC 4880 formula, and the hash rounds.
The buffer is allocated with the `uint32_t` sum of the two lengths, and `s2kCount` is
taken to be a `uint8_t`. -/
def derive_key (env : Env) (s : SecretPkt) (pass : List Nat) (hashIters : Nat) :
    Res (List Nat) :=
  if s.s2kSaltLength + pass.length ≥ U32 then
    .fault (.oobWrite (add32 s.s2kSaltLength pass.length))
  else do
    let salt ← load_block s.s2kSalt s.s2kSaltLength
    let hashBuf := salt ++ pass.map (fun b => b % 256)
    let bufLen := add32 s.s2kSaltLength pass.length
    let hashBytes :=
      ((16 + ((s.s2kCount % 256) &&& 15)) <<< (((s.s2kCount % 256) >>> 4) + 6)) % U32
    if bufLen = 0 then .fault .divByZero
    else
      pure (s2k_rounds env hashBuf (hashBytes / bufLen) (hashBytes % bufLen)
        (hashIters + 1) 0 s.keyLength)

/-- The function `spgp_generate_cipher_key(pkt, passphrase, length)` on the secret body
of a packet whose header has the given type; the passphrase is a list whose length is
the `length` argument.  Returns the body as it stands when the function is left.
`hashIters` is the value of
`(keyLength/hashLen) + (keyLength%hashLen>0)?1:0`, in which `?:` binds last. -/
def spgp_generate_cipher_key (env : Env) (type : Nat) (s : SecretPkt) (pass : List Nat) :
    SecretPkt × Res Unit :=
  if type ≠ PKT_TYPE_SECRET_KEY ∧ type ≠ PKT_TYPE_SECRET_SUBKEY then
    (s, .raise .INVALID_ARGS)
  else if s.s2kEncryption ≠ SYM_ALGO_3DES ∧ s.s2kEncryption ≠ SYM_ALGO_CAST5 then
    (s, .raise .FORMAT_UNSUPPORTED)
  else
    let s1 := { s with keyLength := if s.s2kEncryption = SYM_ALGO_3DES then 24 else 16 }
    if s1.s2kHashAlgo ≠ HASH_ALGO_SHA1 then (s1, .raise .FORMAT_UNSUPPORTED)
    else if ¬ env.md_open then (s1, .raise .GCRY_ERROR)
    else
      let hashIters :=
        if s1.keyLength / 20 + (if s1.keyLength % 20 > 0 then 1 else 0) ≠ 0 then 1 else 0
      if s1.s2kSpecifier ≠ S2K_TYPE_ITERATED then (s1, .raise .FORMAT_UNSUPPORTED)
      else
        match derive_key env s1 pass hashIters with
        | .ok key => ({ s1 with key := some key }, .ok ())
        | .raise e => ({ s1 with key := some [] }, .raise e)
        | .fault f => ({ s1 with key := some [] }, .fault f)

/-- The part of `spgp_decrypt_secret_key` after the decryption, on the plaintext
`secdata`: the check of the SHA-1 trailer, the `switch` on the algorithm, the walk to
the last MPI, and the read of one secret MPI from offset 0 of the plaintext, which is
appended to the MPI list. -/
def store_secret_mpis (env : Env) (s : SecretPkt) (secdata : List Nat) : Res SecretPkt := do
  let v ← spgp_verify_decrypted_data env secdata
  if v ≠ 0 then .raise .DECRYPT_FAILED
  else if s.pub.asymAlgo ≠ ASYM_ALGO_DSA ∧ s.pub.asymAlgo ≠ ASYM_ALGO_ELGAMAL then
    .raise .FORMAT_UNSUPPORTED
  else if s.pub.mpis.isEmpty then .raise .INCOMPLETE_PACKET
  else do
    let r ← spgp_read_mpi secdata 0
    pure { s with
             pub := { s.pub with mpis := s.pub.mpis ++ [r.1],
                                 mpiCount := s.pub.mpiCount + 1 },
             isDecrypted := 1 }

/-- The part of `spgp_decrypt_secret_key` after the cipher key is derived: the opening
of the cipher, the CFB decryption of `encryptedData`, and `store_secret_mpis` on the
plaintext.  The cipher is expected to return as many bytes as it is given; its output
is cut or padded to that length. -/
def decrypt_secret_fields (env : Env) (s : SecretPkt) : Res SecretPkt :=
  if s.s2kEncryption ≠ SYM_ALGO_3DES ∧ s.s2kEncryption ≠ SYM_ALGO_CAST5 then
    .raise .FORMAT_UNSUPPORTED
  else if ¬ env.cipher_open (spgp_pgp_to_gcrypt_symmetric_algo s.s2kEncryption) then
    .raise .GCRY_ERROR
  else
    match s.key, s.iv with
    | some key, some iv =>
      match env.cfb_decrypt_iv (spgp_pgp_to_gcrypt_symmetric_algo s.s2kEncryption)
          key s.keyLength iv s.ivLength with
      | none => .raise .GCRY_ERROR
      | some dec =>
        match load_block s.encryptedData s.encryptedDataLength with
        | .ok input =>
          match dec input with
          | none => .raise .GCRY_ERROR
          | some out =>
            store_secret_mpis env s
              ((out ++ List.replicate s.encryptedDataLength 0).take s.encryptedDataLength)
        | .raise e => .raise e
        | .fault f => .fault f
    | _, _ => .raise .INCOMPLETE_PACKET

/-- The function `spgp_decrypt_secret_key(pkt, passphrase, length)`: the packet as it
stands when the function is left, and the value returned (always the local `err`,
which is 0) or the error raised.  The body of a packet of a secret-key type is
expected to be a secret body. -/
def spgp_decrypt_secret_key (env : Env) (p : Packet) (pass : List Nat) : Packet × Res Nat :=
  if pass.length = 0 then (p, .raise .INVALID_ARGS)
  else
    match p.header with
    | none => (p, .fault .nullDeref)
    | some h =>
      if h.type ≠ PKT_TYPE_SECRET_KEY ∧ h.type ≠ PKT_TYPE_SECRET_SUBKEY then
        (p, .raise .INVALID_ARGS)
      else
        match p.c with
        | none => (p, .fault .nullDeref)
        | some (.secret s) =>
          if s.isDecrypted ≠ 0 then (p, .ok 0)
          else
            match spgp_generate_cipher_key env h.type s pass with
            | (s1, .raise e) => ({ p with c := some (.secret s1) }, .raise e)
            | (s1, .fault f) => ({ p with c := some (.secret s1) }, .fault f)
            | (s1, .ok ()) =>
              match decrypt_secret_fields env s1 with
              | .ok s2 => ({ p with c := some (.secret s2) }, .ok 0)
              | .raise e => ({ p with c := some (.secret s1) }, .raise e)
              | .fault f => ({ p with c := some (.secret s1) }, .fault f)
        | some _ => (p, .fault .uninit)

/-- The loop of `spgp_decrypt_all_secret_keys`: every packet of a secret-key type,
found by `spgp_next_secret_key_packet`, which dereferences the header of each packet
it passes, is handed to `spgp_decrypt_secret_key`.  Returns the chain as it stands
when the loop is left. -/
def decrypt_walk (env : Env) (pass : List Nat) : List Packet → List Packet × Res Unit
  | [] => ([], .ok ())
  | p :: rest =>
    match p.header with
    | none => (p :: rest, .fault .nullDeref)
    | some h =>
      if h.type = PKT_TYPE_SECRET_KEY ∨ h.type = PKT_TYPE_SECRET_SUBKEY then
        match spgp_decrypt_secret_key env p pass with
        | (p1, .ok _) => ((p1 :: (decrypt_walk env pass rest).1), (decrypt_walk env pass rest).2)
        | (p1, .raise e) => (p1 :: rest, .raise e)
        | (p1, .fault f) => (p1 :: rest, .fault f)
      else ((p :: (decrypt_walk env pass rest).1), (decrypt_walk env pass rest).2)

/-- What a call of `spgp_decrypt_all_secret_keys` leaves behind: the chain, the error
code that a `RAISE` during the call stored in the error slot (`none` when nothing was
raised), and the value returned. -/
structure DecryptAll where
  chain : List Packet
  raised : Option SpgpErr
  ret : Nat
  deriving DecidableEq, Repr

/-- The function `spgp_decrypt_all_secret_keys(msg, passphrase, length)`; an empty
chain is a null `msg`, `none` a null `passphrase`.  The handler installed by `setjmp`
jumps to the `return err`, and `err` is only ever initialised, to 0. -/
def spgp_decrypt_all_secret_keys (env : Env) (chain : List Packet)
    (passphrase : Option (List Nat)) : Res DecryptAll :=
  match passphrase with
  | none => .ok { chain := chain, raised := some .INVALID_ARGS, ret := 0 }
  | some pass =>
    if chain.isEmpty ∨ pass.length = 0 then
      .ok { chain := chain, raised := some .INVALID_ARGS, ret := 0 }
    else
      match decrypt_walk env pass chain with
      | (c, .ok ()) => .ok { chain := c, raised := none, ret := 0 }
      | (c, .raise e) => .ok { chain := c, raised := some e, ret := 0 }
      | (_, .fault f) => .fault f

/-! ## Well-formed messages -/

/-- The header at position `s` has bit 7 of the tag set and a definite length that the
decoder frames onto the first content byte: an old-format length of 1, 2 or 4 octets,
or a new-format length of one or two octets. -/
def definite_header (msg : List Nat) (s : Nat) : Prop :=
  msg.getD s 0 &&& 0x80 ≠ 0 ∧
  ((msg.getD s 0 &&& 0x40 = 0 ∧ msg.getD s 0 &&& 0x03 ≠ 3) ∨
   (msg.getD s 0 &&& 0x40 ≠ 0 ∧ msg.getD (s + 1) 0 ≤ 223))

instance (msg : List Nat) (s : Nat) : Decidable (definite_header msg s) := by
  unfold definite_header
  infer_instance

/-- The buffer consists of exactly one version 4 public-key packet that holds an
Elgamal key: a header as in `definite_header` with the packet type `PublicKey`, whose
content reaches to the end of the buffer and holds the version byte 4, four bytes of
creation time, the algorithm byte of Elgamal and the three MPIs `p`, `g`, `y`. -/
def elgamal_public_key_message (msg : List Nat) : Prop :=
  definite_header msg 0 ∧ spec_packet_type (msg.getD 0 0) = PKT_TYPE_PUBLIC_KEY ∧
  packet_end msg 0 = msg.length ∧
  msg.getD (spec_header_length msg 0) 0 = 4 ∧
  msg.getD (spec_header_length msg 0 + 5) 0 = ASYM_ALGO_ELGAMAL ∧
  mpis_fill msg 3 (spec_header_length msg 0 + 6) msg.length

instance (msg : List Nat) : Decidable (elgamal_public_key_message msg) := by
  unfold elgamal_public_key_message
  infer_instance

/-- The new-format user-id packet with the body `s`: the tag byte `0xCD` (bit 7, bit 6
and the type 13), a one-octet length, and the body. -/
def user_id_packet (s : List Nat) : List Nat :=
  0xCD :: s.length :: s

/-- The concatenation of the user-id packets of the strings, in order. -/
def user_id_message (strs : List (List Nat)) : List Nat :=
  (strs.map user_id_packet).flatten

/-- The packet of type `UserId` with the body `s`: its header as the header framer
fills it, and the body followed by the NUL terminator that the parser appends. -/
def user_id_chain_packet (s : List Nat) : Packet :=
  { header := some { rawTagByte := 0xCD, isNewFormat := 0x40, type := PKT_TYPE_USER_ID,
                     headerLength := 2, contentLength := s.length, isPartial := 0 },
    c := some (.userid { data := s ++ [0] }) }

/-- The public MPIs of a key, as the specification of the fingerprint counts them: the
first 4 of a DSA key, the first 3 of an Elgamal key. -/
def spec_public_mpis (pub : PublicPkt) : List Mpi :=
  pub.mpis.take (if pub.asymAlgo = ASYM_ALGO_DSA then 4 else 3)

/-- The byte sequence whose SHA-1 digest the specification names as the fingerprint:
`0x99`; the two big-endian bytes of `packet_size`, which is 6 plus the sum of
`byte_count + 2` over the public MPIs; the version; the bytes
`(creation_time >> (8 * i)) & 0xFF` for `i = 0, 1, 2, 3`; the algorithm; the wire
bytes of each public MPI. -/
def spec_fingerprint_bytes (pub : PublicPkt) : List Nat :=
  let packet_size := 6 + ((spec_public_mpis pub).map (fun m => m.count + 2)).sum
  [0x99, packet_size / 256, packet_size % 256, pub.version]
    ++ (List.range 4).map (fun i => (pub.creationTime >>> (8 * i)) &&& 0xFF)
    ++ [pub.asymAlgo]
    ++ ((spec_public_mpis pub).map (fun m => m.data)).flatten

/-- The decrypted data of a packet under a passphrase, as `spgp_decrypt_secret_key`
obtains it before it checks the trailer: the CFB decryption of `encryptedData` under
the derived key and the IV of the packet.  `none` when the function does not get that
far: for an empty passphrase, a packet that is not a secret-key packet or is already
decrypted, and when the key derivation, the opening of the cipher or the decryption
does not succeed. -/
def decrypted_data (env : Env) (p : Packet) (pass : List Nat) : Option (List Nat) :=
  if pass.length = 0 then none
  else
    match p.header, p.c with
    | some h, some (.secret s) =>
      if h.type ≠ PKT_TYPE_SECRET_KEY ∧ h.type ≠ PKT_TYPE_SECRET_SUBKEY then none
      else if s.isDecrypted ≠ 0 then none
      else
        match spgp_generate_cipher_key env h.type s pass with
        | (s1, .ok ()) =>
          if ¬ env.cipher_open (spgp_pgp_to_gcrypt_symmetric_algo s1.s2kEncryption) then none
          else
            match s1.key, s1.iv with
            | some key, some iv =>
              match env.cfb_decrypt_iv (spgp_pgp_to_gcrypt_symmetric_algo s1.s2kEncryption)
                  key s1.keyLength iv s1.ivLength,
                load_block s1.encryptedData s1.encryptedDataLength with
              | some dec, .ok input =>
                (dec input).map (fun out =>
                  (out ++ List.replicate s1.encryptedDataLength 0).take
                    s1.encryptedDataLength)
              | _, _ => none
            | _, _ => none
        | _ => none
    | _, _ => none

/-- The decrypted data ends with a 20-byte trailer that equals the SHA-1 digest of the
bytes before it. -/
def trailer_valid (env : Env) (plain : List Nat) : Prop :=
  20 ≤ plain.length ∧
  plain.drop (plain.length - 20) = env.sha1 (plain.take (plain.length - 20))

instance (env : Env) (plain : List Nat) : Decidable (trailer_valid env plain) := by
  unfold trailer_valid
  infer_instance

/-- The hash collaborator returns digests of 20 bytes. -/
def sha1_bytes (env : Env) : Prop :=
  ∀ x, (env.sha1 x).length = 20 ∧ ∀ b ∈ env.sha1 x, b < 256

/-- The value that a call of `spgp_decrypt_all_secret_keys` returns, `none` when the
call runs into undefined behaviour. -/
def returned_code (r : Res DecryptAll) : Option Nat :=
  match r with
  | .ok a => some a.ret
  | _ => none

/-- A secret body with an encrypted secret part, used by the evaluations below: an
Elgamal key with three one-byte MPIs, 3DES, iterated and salted S2K with SHA-1, the
salt `01 .. 08`, the count octet 0, an 8-byte IV, and the given encrypted data. -/
def sample_secret_body (data : List Nat) : SecretPkt :=
  { pub := { version := 4, creationTime := 16777216, asymAlgo := ASYM_ALGO_ELGAMAL,
             mpis := [⟨[0, 1, 1], 1, 1⟩, ⟨[0, 1, 1], 1, 1⟩, ⟨[0, 1, 1], 1, 1⟩],
             mpiCount := 3, fingerprint := some (List.replicate 20 0) },
    s2kType := 254, s2kEncryption := SYM_ALGO_3DES, s2kSpecifier := S2K_TYPE_ITERATED,
    s2kHashAlgo := HASH_ALGO_SHA1, s2kSalt := some [1, 2, 3, 4, 5, 6, 7, 8],
    s2kSaltLength := 8, s2kCount := 0, iv := some [0, 0, 0, 0, 0, 0, 0, 0],
    ivLength := 8, encryptedData := some data, encryptedDataLength := data.length }

/-- The header of the secret-key packet that carries `sample_secret_body`. -/
def sample_secret_header (data : List Nat) : Header :=
  { rawTagByte := 0x95, type := PKT_TYPE_SECRET_KEY, headerLength := 3,
    contentLength := 36 + data.length }

/-- The secret-key packet with the header and body above. -/
def sample_secret_packet (data : List Nat) : Packet :=
  { header := some (sample_secret_header data),
    c := some (.secret (sample_secret_body data)) }

/-- The key id matches no secret-key or secret-subkey packet of the chain: every packet
has a header, and every packet of a secret-key type has a public body with a
fingerprint whose bytes 12 to 19 differ from the key id. -/
def no_matching_key (chain : List Packet) (keyid : List Nat) : Prop :=
  ∀ p ∈ chain, ∃ h, p.header = some h ∧
    ((h.type = PKT_TYPE_SECRET_KEY ∨ h.type = PKT_TYPE_SECRET_SUBKEY) →
      ∃ pub fp, p.c.bind Body.pubOf = some pub ∧ pub.fingerprint = some fp ∧
        (fp.drop 12).take 8 ≠ keyid)

/-- The collaborators of `null_env` with a keychain that yields one chain, which holds
the sample secret-key packet (its fingerprint is all zero). -/
def one_key_env : Env :=
  { null_env with keychain := [[sample_secret_packet [0, 1, 1]]] }

/-- The collaborators of `null_env` with a `memcmp` that returns -256, 0 or 256, as a
library that compares the ranges in words wider than a byte may do. -/
def wide_memcmp_env : Env :=
  { null_env with memcmp_size := fun _ _ => 255 }

/-- The packet types for which the `switch` of `spgp_decode_message` has no `case`: the
`default` branch handles them. -/
def unsupported_type (t : Nat) : Prop :=
  t ≠ PKT_TYPE_USER_ID ∧ t ≠ PKT_TYPE_PUBLIC_KEY ∧ t ≠ PKT_TYPE_PUBLIC_SUBKEY ∧
    t ≠ PKT_TYPE_SECRET_KEY ∧ t ≠ PKT_TYPE_SECRET_SUBKEY ∧ t ≠ PKT_TYPE_SESSION ∧
    t ≠ PKT_TYPE_SYM_ENC_INT_DATA

instance (t : Nat) : Decidable (unsupported_type t) := by
  unfold unsupported_type
  infer_instance

/-- The number of bytes that a list of MPIs takes on the wire: the two length octets
and the `count` value octets of each. -/
def mpis_size (ms : List Mpi) : Nat :=
  (ms.map (fun m => m.count + 2)).sum

/-- The `n` bytes of the buffer from position `pos`, as the parsers copy them. -/
def bytes_at (msg : List Nat) (pos n : Nat) : List Nat :=
  ((msg.drop pos).take n).map (fun b => b % 256)

/-- The content of a secret-key packet that parses into `sample_secret_body data` when
the cipher has 8-byte blocks: version 4, a creation time, Elgamal, three one-byte MPIs,
the S2K type 254, 3DES, the specifier 3, SHA-1, the salt `01 .. 08`, the count octet 0,
an all-zero IV of 8 bytes, and the encrypted data. -/
def sample_secret_content (data : List Nat) : List Nat :=
  [4, 0, 0, 0, 1, 16, 0, 1, 1, 0, 1, 1, 0, 1, 1, 254, 2, 3, 2, 1, 2, 3, 4, 5, 6, 7, 8, 0,
    0, 0, 0, 0, 0, 0, 0, 0] ++ data

/-- The condition of the specification for a packet to match a key id: its type is
secret-key or secret-subkey, and the bytes 12 to 19 of its fingerprint equal the 8 bytes
of the key id.  A packet without a header, a public body or a fingerprint does not
match. -/
def spec_key_id_matches (keyid : List Nat) (p : Packet) : Bool :=
  match p.header, p.c.bind Body.pubOf with
  | some h, some pub =>
    (h.type == PKT_TYPE_SECRET_KEY || h.type == PKT_TYPE_SECRET_SUBKEY) &&
      (match pub.fingerprint with
       | some fp => (List.range 8).all (fun i => fp.getD (12 + i) 0 == keyid.getD i 0)
       | none => false)
  | _, _ => false

/-- The packet that the specification names for a chain and a key id: the first packet
in chain order that matches the key id, `none` when no packet of the chain does. -/
def spec_first_matching_key (chain : List Packet) (keyid : List Nat) : Option Packet :=
  chain.find? (spec_key_id_matches keyid)

/-- A packet as the data model has it in a chain of keys: it carries a header, and when
its type is secret-key or secret-subkey it carries a body with a fingerprint of 20
bytes, as the secret-key parser stores it. -/
def key_packet_well_formed (p : Packet) : Bool :=
  match p.header with
  | none => false
  | some h =>
    if h.type = PKT_TYPE_SECRET_KEY ∨ h.type = PKT_TYPE_SECRET_SUBKEY then
      match p.c.bind Body.pubOf with
      | some pub =>
        match pub.fingerprint with
        | some fp => fp.length == 20
        | none => false
      | none => false
    else true

/-- The number of length octets of a new-format sub-header whose first octet is `b0`, as
section 4.C of the specification has them: one octet up to 191, two octets up to 223,
one octet for a partial length (224 to 254), and `0xFF` followed by four octets. -/
def spec_length_octets (b0 : Nat) : Nat :=
  if b0 ≤ 191 then 1 else if b0 ≤ 223 then 2 else if b0 = 255 then 5 else 1

/-- The position of the first content byte of the packet whose tag byte is `msg[s]`, as
the binary format has it: after the tag byte and the length octets, of which an
old-format header has 1, 2 or 4 and a new-format header 1, 2, 5 or 1 (one-octet,
two-octet, `0xFF`-prefixed, partial). -/
def first_content_byte (msg : List Nat) (s : Nat) : Nat :=
  if msg.getD s 0 % 256 &&& 0x40 = 0 then
    s + 1 + (if msg.getD s 0 % 256 &&& 0x03 = 0 then 1
             else if msg.getD s 0 % 256 &&& 0x03 = 1 then 2 else 4)
  else s + 1 + spec_length_octets (msg.getD (s + 1) 0 % 256)

/-- The header at `s` is a new-format header whose length is in the form `0xFF` followed
by four octets. -/
def five_octet_form (msg : List Nat) (s : Nat) : Prop :=
  msg.getD s 0 % 256 &&& 0x40 ≠ 0 ∧ msg.getD (s + 1) 0 % 256 = 255

instance (msg : List Nat) (s : Nat) : Decidable (five_octet_form msg s) := by
  unfold five_octet_form
  infer_instance

/-- The header at position `s` has bit 7 of the tag set and a length in a form other
than the old-format indeterminate length and the new-format length of `0xFF` plus four
octets. -/
def cut_framed (msg : List Nat) (s : Nat) : Prop :=
  msg.getD s 0 &&& 0x80 ≠ 0 ∧
  ((msg.getD s 0 &&& 0x40 = 0 ∧ msg.getD s 0 &&& 0x03 ≠ 3) ∨
   (msg.getD s 0 &&& 0x40 ≠ 0 ∧ msg.getD (s + 1) 0 ≠ 255))

instance (msg : List Nat) (s : Nat) : Decidable (cut_framed msg s) := by
  unfold cut_framed
  infer_instance

/-- The number of bytes from the tag byte on that the framer loads from the header at
`s` before a bounds check covers the next load: the tag byte and one length octet, and
the second length octet as well for a new-format two-octet length. -/
def loaded_octets (msg : List Nat) (s : Nat) : Nat :=
  if msg.getD s 0 &&& 0x40 ≠ 0 ∧ 192 ≤ msg.getD (s + 1) 0 ∧ msg.getD (s + 1) 0 ≤ 223 then 3
  else 2

/-- A message of three packets: the sample secret-key packet (41 bytes), a packet of
type 2 with a new-format two-octet length and 192 content bytes (195 bytes), and a
public-key packet with an Elgamal key of three one-byte MPIs (17 bytes). -/
def sample_key_message : List Nat :=
  [0xC5, 39] ++ sample_secret_content [0, 1, 1] ++ ([0xC2, 192, 0] ++ List.replicate 192 7)
    ++ [0xC6, 15, 4, 0, 0, 0, 1, 16, 0, 1, 1, 0, 1, 1, 0, 1, 1]

/-- A message of one public-key packet with a new-format two-octet length: an Elgamal
key whose first MPI has 178 bytes, 192 content bytes in all. -/
def long_key_message : List Nat :=
  [0xC6, 192, 0, 4, 0, 0, 0, 1, 16, 5, 0x90] ++ List.replicate 178 1 ++ [0, 1, 1, 0, 1, 1]

/-- A library environment whose keyring holds one decrypted Elgamal secret key with an
all-zero fingerprint, whose Elgamal decryption returns a 12-byte frame (checksummed
session key of algorithm 9) and whose CFB decryption adds one to every byte. -/
def session_env : Env :=
  { null_env with
      keychain := [[{ header := some (sample_secret_header []),
                      c := some (.secret
                        { pub := { version := 4, asymAlgo := ASYM_ALGO_ELGAMAL,
                                   mpis := [⟨[0, 1, 1], 1, 1⟩, ⟨[0, 1, 1], 1, 1⟩,
                                            ⟨[0, 1, 1], 1, 1⟩, ⟨[0, 1, 1], 1, 1⟩],
                                   mpiCount := 4,
                                   fingerprint := some (List.replicate 20 0) },
                          isDecrypted := 1 }) }]]
      elg_decrypt := fun _ => [0x00, 0x38, 2, 0xFF, 0xEE, 0, 9, 1, 2, 3, 0, 6]
      cfb_decrypt := fun _ _ _ _ d => some (d.map (fun b => (b + 1) % 256)) }

/-- A message of a session-key packet (18 bytes) for the key id zero and an encrypted
data packet (16 bytes) of version 1 whose 13 data bytes decrypt to eight prefix bytes, the
repeat of the last two of them, and a user-id packet of one byte. -/
def sample_encrypted_message : List Nat :=
  [0xC1, 16, 3, 0, 0, 0, 0, 0, 0, 0, 0, 16, 0, 1, 1, 0, 1, 1]
    ++ [0xD2, 14, 1, 8, 8, 8, 8, 8, 8, 6, 7, 6, 7, 0xCC, 0, 0x40]

/-- The sample encrypted message followed by a public-key packet with an Elgamal key of
three one-byte MPIs (17 bytes). -/
def sample_encrypted_key_message : List Nat :=
  sample_encrypted_message ++ [0xC6, 15, 4, 0, 0, 0, 1, 16, 0, 1, 1, 0, 1, 1, 0, 1, 1]

/-- The sample encrypted message with the public-key packet behind it, as the buffer
stands after the in-place decryption of the encrypted data packet. -/
def sample_decrypted_key_message : List Nat :=
  [0xC1, 16, 3, 0, 0, 0, 0, 0, 0, 0, 0, 16, 0, 1, 1, 0, 1, 1]
    ++ [0xD2, 14, 1, 9, 9, 9, 9, 9, 9, 7, 8, 7, 8, 0xCD, 1, 0x41]
    ++ [0xC6, 15, 4, 0, 0, 0, 1, 16, 0, 1, 1, 0, 1, 1, 0, 1, 1]

/-- The number of leading bytes of the buffer that a truncation has to keep for the
switch of the decoder to treat the packet with header `h` and content at `idx` as it
does in the whole buffer: the content of the packet, and for an encrypted data packet
the bytes up to one byte behind the cursor that the decryption loop leaves on the last
decrypted byte.  `done` holds the packets before the packet in chain order. -/
def packet_reach (env : Env) (msg : List Nat) (idx : Nat) (h : Header)
    (done : List Packet) : Nat :=
  if h.type = PKT_TYPE_SYM_ENC_INT_DATA then
    match spgp_find_session_packet ({ header := some h, c := none } :: done.reverse) with
    | .ok (some session) =>
      match decrypt_segments env session (msg.length + 1) msg (idx + 1)
          (sub32 h.contentLength 1) h.isPartial with
      | .ok r => r.2.1 + 2
      | _ => 0
    | _ => 0
  else idx + h.contentLength

/-- The decoder passes `n` packets of the buffer from the cursor `s` on: in each of `n`
rounds of the packet loop of `spgp_decode_message` the header and the content of the
packet are parsed without error and the loop goes on, at least one byte following the
cursor that the parser leaves.  Returns the buffer as it stands after the rounds (an
encrypted data packet is decrypted in place), the largest `packet_reach` of the
packets or `lo`, the cursor on the next packet and the chain. -/
def decodes_packets (env : Env) :
    Nat → List Nat → Nat → Nat → List Packet → Option (List Nat × Nat × Nat × List Packet)
  | 0, msg, lo, s, done => some (msg, lo, s, done)
  | n + 1, msg, lo, s, done =>
    if s < msg.length - 1 then
      match skip_zero (msg.drop s) s with
      | .ok i0 =>
        match spgp_parse_header msg i0 none with
        | (some h, .ok i1) =>
          match parse_packet env msg i1 h done with
          | (msg2, c, .ok i2) =>
            if i2 + 1 < msg2.length then
              decodes_packets env n msg2 (max lo (packet_reach env msg i1 h done)) (i2 + 1)
                (done ++ [{ header := some h, c := c }])
            else none
          | _ => none
        | _ => none
      | _ => none
    else none

/-! ## Theorems -/

@[simp] theorem Res.ok_bind {α β : Type} (a : α) (f : α → Res β) :
    (Res.ok a >>= f) = f a := rfl

@[simp] theorem Res.raise_bind {α β : Type} (e : SpgpErr) (f : α → Res β) :
    ((Res.raise e : Res α) >>= f) = Res.raise e := rfl

@[simp] theorem Res.fault_bind {α β : Type} (x : Fault) (f : α → Res β) :
    ((Res.fault x : Res α) >>= f) = Res.fault x := rfl

@[simp] theorem Res.pure_eq {α : Type} (a : α) : (pure a : Res α) = Res.ok a := rfl

/-! ### Bit operations on bytes -/

theorem byte_and_1F (b : Nat) : b &&& 0x1F = b % 32 :=
  Nat.and_pow_two_sub_one_eq_mod b 5

theorem byte_and_03 (b : Nat) : b &&& 0x03 = b % 4 :=
  Nat.and_pow_two_sub_one_eq_mod b 2

theorem byte_and_3F (b : Nat) : b &&& 0x3F = b % 64 :=
  Nat.and_pow_two_sub_one_eq_mod b 6

set_option maxRecDepth 100000 in
theorem byte_and_80 : ∀ b, b < 256 → ((b &&& 0x80 = 0) ↔ b < 128) := by
  decide

theorem or_be32 (a b c d : Nat) (hb : b < 256) (hc : c < 256) (hd : d < 256) :
    ((a <<< 24) ||| (b <<< 16) ||| (c <<< 8) ||| d)
      = a * 2 ^ 24 + b * 2 ^ 16 + c * 2 ^ 8 + d := by
  simp only [Nat.shiftLeft_eq]
  have h1 : a * 2 ^ 24 ||| b * 2 ^ 16 = a * 2 ^ 24 + b * 2 ^ 16 := by
    have := Nat.mul_add_lt_is_or (i := 24) (b := b * 2 ^ 16) (by omega) a
    rw [Nat.mul_comm (2 ^ 24) a] at this
    exact this.symm
  rw [h1]
  have h2 : (a * 2 ^ 24 + b * 2 ^ 16) ||| c * 2 ^ 8
      = a * 2 ^ 24 + b * 2 ^ 16 + c * 2 ^ 8 := by
    have := Nat.mul_add_lt_is_or (i := 16) (b := c * 2 ^ 8) (by omega) (a * 2 ^ 8 + b)
    have e : 2 ^ 16 * (a * 2 ^ 8 + b) = a * 2 ^ 24 + b * 2 ^ 16 := by ring
    rw [e] at this
    exact this.symm
  rw [h2]
  have := Nat.mul_add_lt_is_or (i := 8) (b := d) (by omega) (a * 2 ^ 16 + b * 2 ^ 8 + c)
  have e : 2 ^ 8 * (a * 2 ^ 16 + b * 2 ^ 8 + c) = a * 2 ^ 24 + b * 2 ^ 16 + c * 2 ^ 8 := by
    ring
  rw [e] at this
  exact this.symm

theorem two_octet_lt (b0 b1 : Nat) (h0 : b0 ≤ 223) (h1 : b1 < 256) :
    (((b0 - 192) <<< 8) ||| (b1 + 192)) < 2 ^ 14 := by
  apply Nat.or_lt_two_pow
  · simp only [Nat.shiftLeft_eq]; omega
  · omega

/-! ### New-format length decoding -/

theorem rd_of_getElem? {msg : List Nat} {i b : Nat} (h : msg[i]? = some b) :
    rd msg i = .ok (b % 256) := by
  simp [rd, h]

theorem rd_ok {msg : List Nat} {i b : Nat} (h : msg[i]? = some b) (hb : b < 256) :
    rd msg i = .ok b := by
  rw [rd_of_getElem? h, Nat.mod_eq_of_lt hb]

theorem nhl_one (msg : List Nat) (off b0 : Nat) (h0 : msg[off]? = some b0)
    (h : b0 ≤ 191) : spgp_new_header_length msg off = .ok ⟨b0, 2, 0⟩ := by
  have hr0 := rd_ok h0 (by omega)
  simp [spgp_new_header_length, hr0, h]

theorem nhl_two (msg : List Nat) (off b0 b1 : Nat) (h0 : msg[off]? = some b0)
    (h1 : msg[off + 1]? = some b1) (hb1 : b1 < 256) (hlo : 192 ≤ b0) (hhi : b0 ≤ 223) :
    spgp_new_header_length msg off
      = .ok ⟨((b0 - 192) <<< 8) ||| (b1 + 192), 3, 0⟩ := by
  have hr0 := rd_ok h0 (by omega)
  have hr1 := rd_ok h1 hb1
  have hlt := two_octet_lt b0 b1 hhi hb1
  have hmod : (((b0 - 192) <<< 8) ||| (b1 + 192)) % U32
      = ((b0 - 192) <<< 8) ||| (b1 + 192) := by
    apply Nat.mod_eq_of_lt
    unfold U32
    omega
  have hn : ¬ b0 ≤ 191 := by omega
  simp [spgp_new_header_length, hr0, hr1, hn, hhi, hmod]

theorem nhl_five (msg : List Nat) (off b1 b2 b3 b4 : Nat) (h0 : msg[off]? = some 255)
    (h1 : msg[off + 1]? = some b1) (h2 : msg[off + 2]? = some b2)
    (h3 : msg[off + 3]? = some b3) (h4 : msg[off + 4]? = some b4)
    (hb1 : b1 < 256) (hb2 : b2 < 256) (hb3 : b3 < 256) (hb4 : b4 < 256) :
    spgp_new_header_length msg off
      = .ok ⟨b1 * 2 ^ 24 + b2 * 2 ^ 16 + b3 * 2 ^ 8 + b4, 5, 0⟩ := by
  have hr0 := rd_ok h0 (by omega)
  have hr1 := rd_ok h1 hb1
  have hr2 := rd_ok h2 hb2
  have hr3 := rd_ok h3 hb3
  have hr4 := rd_ok h4 hb4
  have hv := or_be32 b1 b2 b3 b4 hb2 hb3 hb4
  have hmod : (b1 * 2 ^ 24 + b2 * 2 ^ 16 + b3 * 2 ^ 8 + b4) % U32
      = b1 * 2 ^ 24 + b2 * 2 ^ 16 + b3 * 2 ^ 8 + b4 := by
    apply Nat.mod_eq_of_lt
    unfold U32
    omega
  simp only [spgp_new_header_length, hr0, hr1, hr2, hr3, hr4, Res.ok_bind, hv, hmod]
  simp

theorem partial_shift (b0 : Nat) (hlo : 224 ≤ b0) (hhi : b0 ≤ 254) :
    (1 : Nat) <<< (b0 &&& 0x1F) = 2 ^ (b0 - 224) := by
  have hk : b0 &&& 0x1F = b0 - 224 := by
    rw [byte_and_1F]; omega
  rw [hk, Nat.shiftLeft_eq, Nat.one_mul]

theorem nhl_part (msg : List Nat) (off b0 : Nat) (h0 : msg[off]? = some b0)
    (hlo : 224 ≤ b0) (hhi : b0 ≤ 254) :
    spgp_new_header_length msg off = .ok ⟨1 <<< (b0 &&& 0x1F), 2, 1⟩ := by
  have hr0 := rd_ok h0 (by omega)
  have hpow := partial_shift b0 hlo hhi
  have hle : 2 ^ (b0 - 224) ≤ 2 ^ 30 := Nat.pow_le_pow_right (by decide) (by omega)
  have hmod : ((1 : Nat) <<< (b0 &&& 0x1F)) % U32 = 1 <<< (b0 &&& 0x1F) := by
    apply Nat.mod_eq_of_lt
    rw [hpow]
    unfold U32
    omega
  have hn : ¬ b0 ≤ 191 := by omega
  have hn2 : ¬ b0 ≤ 223 := by omega
  have hn3 : ¬ b0 = 255 := by omega
  simp only [spgp_new_header_length, hr0, Res.ok_bind, hn, hn2, hn3, hmod]
  simp

/-- C1: the four cases of the new-format length decoder.  With first length octet
`b0` at `msg[off]`: `b0 ≤ 191` gives content `b0`, header length 2, not partial;
`192 ≤ b0 ≤ 223` gives `((b0 - 192) << 8) | (b1 + 192)`, header length 3, not partial;
`b0 = 255` gives the big-endian value of the next four octets, header length 5, not
partial; `224 ≤ b0 ≤ 254` gives `1 << (b0 & 0x1F)`, a power of two between `1` and
`2 ^ 30`, header length 2, partial. -/
theorem new_header_length_cases (msg : List Nat) (off b0 : Nat)
    (h0 : msg[off]? = some b0) (hb0 : b0 < 256) :
    (b0 ≤ 191 → spgp_new_header_length msg off = .ok ⟨b0, 2, 0⟩) ∧
    (192 ≤ b0 → b0 ≤ 223 → ∀ b1, b1 < 256 → msg[off + 1]? = some b1 →
      spgp_new_header_length msg off
        = .ok ⟨((b0 - 192) <<< 8) ||| (b1 + 192), 3, 0⟩) ∧
    (b0 = 255 → ∀ b1 b2 b3 b4, b1 < 256 → b2 < 256 → b3 < 256 → b4 < 256 →
      msg[off + 1]? = some b1 → msg[off + 2]? = some b2 →
      msg[off + 3]? = some b3 → msg[off + 4]? = some b4 →
      spgp_new_header_length msg off
        = .ok ⟨b1 * 2 ^ 24 + b2 * 2 ^ 16 + b3 * 2 ^ 8 + b4, 5, 0⟩) ∧
    (224 ≤ b0 → b0 ≤ 254 →
      spgp_new_header_length msg off = .ok ⟨1 <<< (b0 &&& 0x1F), 2, 1⟩ ∧
      ∃ k, k ≤ 30 ∧ 1 <<< (b0 &&& 0x1F) = 2 ^ k) := by
  refine ⟨?_, ?_, ?_, ?_⟩
  · intro h
    exact nhl_one msg off b0 h0 h
  · intro h1 h2 b1 hb1 hg1
    exact nhl_two msg off b0 b1 h0 hg1 hb1 h1 h2
  · intro h b1 b2 b3 b4 hb1 hb2 hb3 hb4 hg1 hg2 hg3 hg4
    subst h
    exact nhl_five msg off b1 b2 b3 b4 h0 hg1 hg2 hg3 hg4 hb1 hb2 hb3 hb4
  · intro h1 h2
    exact ⟨nhl_part msg off b0 h0 h1 h2, b0 - 224, by omega, partial_shift b0 h1 h2⟩

/-- Witness of C1: one input for each of the four length forms. -/
theorem new_header_length_cases_witness :
    spgp_new_header_length [100] 0 = .ok ⟨100, 2, 0⟩ ∧
    spgp_new_header_length [193, 64] 0 = .ok ⟨((193 - 192) <<< 8) ||| (64 + 192), 3, 0⟩ ∧
    spgp_new_header_length [255, 1, 2, 3, 4] 0
      = .ok ⟨1 * 2 ^ 24 + 2 * 2 ^ 16 + 3 * 2 ^ 8 + 4, 5, 0⟩ ∧
    spgp_new_header_length [230] 0 = .ok ⟨1 <<< (230 &&& 0x1F), 2, 1⟩ :=
  ⟨(new_header_length_cases [100] 0 100 rfl (by decide)).1 (by decide),
   (new_header_length_cases [193, 64] 0 193 rfl (by decide)).2.1 (by decide) (by decide)
      64 (by decide) rfl,
   (new_header_length_cases [255, 1, 2, 3, 4] 0 255 rfl (by decide)).2.2.1 rfl 1 2 3 4
      (by decide) (by decide) (by decide) (by decide) rfl rfl rfl rfl,
   ((new_header_length_cases [230] 0 230 rfl (by decide)).2.2.2 (by decide) (by decide)).1⟩

/-- C2 (evaluation at the failing input): for the length octets `193, 64` the decoder
returns 256, while the RFC 4880 two-octet body length `((193 - 192) << 8) + 64 + 192`
is 512. -/
theorem new_header_length_two_octet_not_rfc :
    spgp_new_header_length [193, 64] 0 = .ok ⟨256, 3, 0⟩ ∧
    ((193 - 192) <<< 8) + 64 + 192 = 512 := by
  decide

/-! ### Header framer -/

theorem SAFE_IDX_INCREMENT_ok (idx max : Nat) (h : idx + 1 < max) (hm : max ≤ U32) :
    SAFE_IDX_INCREMENT idx max = .ok (idx + 1) := by
  have h1 : (idx + 1) % U32 = idx + 1 := Nat.mod_eq_of_lt (by omega)
  simp [SAFE_IDX_INCREMENT, h1, h]

theorem SAFE_IDX_INCREMENT_raise (idx max : Nat) (h : max ≤ idx + 1) (hm : idx + 1 < U32) :
    SAFE_IDX_INCREMENT idx max = .raise .BUFFER_OVERFLOW := by
  have h1 : (idx + 1) % U32 = idx + 1 := Nat.mod_eq_of_lt hm
  simp [SAFE_IDX_INCREMENT, h1, h]

theorem length_ne_zero_of_getElem? {msg : List Nat} {i b : Nat} (h : msg[i]? = some b) :
    msg.length ≠ 0 := by
  intro h0
  have := List.length_eq_zero.mp h0
  subst this
  simp at h

theorem ph_old0 (msg : List Nat) (i tag a : Nat)
    (hlen : msg.length < U32) (ht : msg[i]? = some tag) (htb : tag < 256)
    (h7 : tag &&& 0x80 ≠ 0) (h6 : tag &&& 0x40 = 0) (h3 : tag &&& 0x03 = 0)
    (ha : a < 256) (hga : msg[i + 1]? = some a) (hl : i + 2 < msg.length) :
    spgp_parse_header msg i none
      = (some { rawTagByte := tag, isNewFormat := 0, type := (tag >>> 2) &&& 0x0F,
                headerLength := 2, contentLength := a, isPartial := 0 },
         .ok (i + 2)) := by
  have hne := length_ne_zero_of_getElem? ht
  have hrt := rd_ok ht htb
  have hra := rd_ok hga ha
  have s1 := SAFE_IDX_INCREMENT_ok (i) msg.length (by omega) (by omega)
  have s2 := SAFE_IDX_INCREMENT_ok (i + 1) msg.length (by omega)
    (by omega)
  have e1 : a % U32 = a := Nat.mod_eq_of_lt (by simp only [U32]; omega)
  simp [spgp_parse_header, hne, hrt, s1, h7, h6, h3, read_old_length, hra, s2, e1]

theorem ph_old1 (msg : List Nat) (i tag a b : Nat)
    (hlen : msg.length < U32) (ht : msg[i]? = some tag) (htb : tag < 256)
    (h7 : tag &&& 0x80 ≠ 0) (h6 : tag &&& 0x40 = 0) (h3 : tag &&& 0x03 = 1)
    (ha : a < 256) (hb : b < 256) (hga : msg[i + 1]? = some a)
    (hgb : msg[i + 2]? = some b) (hl : i + 3 < msg.length) :
    spgp_parse_header msg i none
      = (some { rawTagByte := tag, isNewFormat := 0, type := (tag >>> 2) &&& 0x0F,
                headerLength := 3, contentLength := a * 2 ^ 8 + b, isPartial := 0 },
         .ok (i + 3)) := by
  have hne := length_ne_zero_of_getElem? ht
  have hrt := rd_ok ht htb
  have hra := rd_ok hga ha
  have hrb := rd_ok hgb hb
  have s1 := SAFE_IDX_INCREMENT_ok (i) msg.length (by omega) (by omega)
  have s2 := SAFE_IDX_INCREMENT_ok (i + 1) msg.length (by omega)
    (by omega)
  have s3 := SAFE_IDX_INCREMENT_ok (i + 1 + 1) msg.length (by omega)
    (by omega)
  have e1 : a % U32 = a := Nat.mod_eq_of_lt (by simp only [U32]; omega)
  have e2 : ((a <<< 8) % U32 + b) % U32 = a * 2 ^ 8 + b := by
    simp only [Nat.shiftLeft_eq, U32]; omega
  simp [spgp_parse_header, hne, hrt, s1, h7, h6, h3, read_old_length, hra, hrb, s2, s3,
    e1, e2]

theorem ph_old2 (msg : List Nat) (i tag a b c d : Nat)
    (hlen : msg.length < U32) (ht : msg[i]? = some tag) (htb : tag < 256)
    (h7 : tag &&& 0x80 ≠ 0) (h6 : tag &&& 0x40 = 0) (h3 : tag &&& 0x03 = 2)
    (ha : a < 256) (hb : b < 256) (hc : c < 256) (hd : d < 256)
    (hga : msg[i + 1]? = some a) (hgb : msg[i + 2]? = some b)
    (hgc : msg[i + 3]? = some c) (hgd : msg[i + 4]? = some d) (hl : i + 5 < msg.length) :
    spgp_parse_header msg i none
      = (some { rawTagByte := tag, isNewFormat := 0, type := (tag >>> 2) &&& 0x0F,
                headerLength := 5,
                contentLength := a * 2 ^ 24 + b * 2 ^ 16 + c * 2 ^ 8 + d,
                isPartial := 0 },
         .ok (i + 5)) := by
  have hne := length_ne_zero_of_getElem? ht
  have hrt := rd_ok ht htb
  have hra := rd_ok hga ha
  have hrb := rd_ok hgb hb
  have hrc : rd msg (i + 1 + 1 + 1) = .ok c := rd_ok hgc hc
  have hrd : rd msg (i + 1 + 1 + 1 + 1) = .ok d := rd_ok hgd hd
  have s1 := SAFE_IDX_INCREMENT_ok (i) msg.length (by omega) (by omega)
  have s2 := SAFE_IDX_INCREMENT_ok (i + 1) msg.length (by omega)
    (by omega)
  have s3 := SAFE_IDX_INCREMENT_ok (i + 1 + 1) msg.length (by omega)
    (by omega)
  have s4 := SAFE_IDX_INCREMENT_ok (i + 1 + 1 + 1) msg.length (by omega)
    (by omega)
  have s5 := SAFE_IDX_INCREMENT_ok (i + 1 + 1 + 1 + 1) msg.length
    (by omega) (by omega)
  have e1 : a % U32 = a := Nat.mod_eq_of_lt (by simp only [U32]; omega)
  have e2 : ((a <<< 8) % U32 + b) % U32 = a * 2 ^ 8 + b := by
    simp only [Nat.shiftLeft_eq, U32]; omega
  have e3 : (((a * 2 ^ 8 + b) <<< 8) % U32 + c) % U32 = a * 2 ^ 16 + b * 2 ^ 8 + c := by
    simp only [Nat.shiftLeft_eq, U32]; omega
  have e4 : (((a * 2 ^ 16 + b * 2 ^ 8 + c) <<< 8) % U32 + d) % U32
      = a * 2 ^ 24 + b * 2 ^ 16 + c * 2 ^ 8 + d := by
    simp only [Nat.shiftLeft_eq, U32]; omega
  simp only [spgp_parse_header, hne, hrt, s1, h7, h6, h3, read_old_length, hra, hrb, hrc,
    hrd, s2, s3, s4, s5, Option.getD_none, if_false, if_true, ne_eq, not_true_eq_false,
    not_false_eq_true, OfNat.ofNat_ne_zero, OfNat.zero_ne_ofNat, Nat.zero_shiftLeft,
    Nat.zero_mod, Nat.zero_add, e1, e2, e3, e4, Nat.add_one_sub_one, Nat.reduceEqDiff,
    Nat.reduceSub]

theorem ph_old3 (msg : List Nat) (i tag : Nat)
    (hlen : msg.length < U32) (ht : msg[i]? = some tag) (htb : tag < 256)
    (h7 : tag &&& 0x80 ≠ 0) (h6 : tag &&& 0x40 = 0) (h3 : tag &&& 0x03 = 3)
    (hl : i + 1 < msg.length) :
    spgp_parse_header msg i none
      = (some { rawTagByte := tag, isNewFormat := 0, type := (tag >>> 2) &&& 0x0F },
         .raise .FORMAT_UNSUPPORTED) := by
  have hne := length_ne_zero_of_getElem? ht
  have hrt := rd_ok ht htb
  have s1 := SAFE_IDX_INCREMENT_ok (i) msg.length (by omega) (by omega)
  simp [spgp_parse_header, hne, hrt, s1, h7, h6, h3]

theorem ph_new (msg : List Nat) (i tag : Nat) (nl : NewLen)
    (hlen : msg.length < U32) (ht : msg[i]? = some tag) (htb : tag < 256)
    (h7 : tag &&& 0x80 ≠ 0) (h6 : tag &&& 0x40 ≠ 0)
    (hnl : spgp_new_header_length msg (i + 1) = .ok nl) (h2 : 2 ≤ nl.header_len)
    (hl : i + nl.header_len < msg.length) :
    spgp_parse_header msg i none
      = (some { rawTagByte := tag, isNewFormat := tag &&& 0x40, type := tag &&& 0x1F,
                headerLength := nl.header_len, contentLength := nl.content,
                isPartial := nl.isPartial },
         .ok (i + nl.header_len)) := by
  have hne := length_ne_zero_of_getElem? ht
  have hrt := rd_ok ht htb
  have s1 := SAFE_IDX_INCREMENT_ok (i) msg.length (by omega) (by omega)
  have ea : add32 (i + 1) (nl.header_len - 2) = i + nl.header_len - 1 := by
    unfold add32
    rw [Nat.mod_eq_of_lt (by omega)]
    omega
  have s2 := SAFE_IDX_INCREMENT_ok (i + nl.header_len - 1) msg.length
    (by omega) (by omega)
  have e3 : i + nl.header_len - 1 + 1 = i + nl.header_len := by omega
  simp [spgp_parse_header, hne, hrt, s1, h7, h6, hnl, ea, s2, e3]

/-- C4: an old-format tag byte at `msg[i]` (bit 7 set, bit 6 clear) followed by its
length octets and at least one more byte: the type is `(tag >> 2) & 0x0F`; for
`tag & 0x03` equal to 0, 1, 2 the header takes 1, 2, 4 length octets, has header
length 2, 3, 5, stores their big-endian value as content length and is not partial;
for `tag & 0x03 = 3` the parser raises `FORMAT_UNSUPPORTED`. -/
theorem parse_header_old_format (msg : List Nat) (i tag : Nat)
    (hlen : msg.length < U32) (ht : msg[i]? = some tag) (htb : tag < 256)
    (h7 : tag &&& 0x80 ≠ 0) (h6 : tag &&& 0x40 = 0) :
    (tag &&& 0x03 = 0 → ∀ a, a < 256 → msg[i + 1]? = some a → i + 2 < msg.length →
      spgp_parse_header msg i none
        = (some { rawTagByte := tag, isNewFormat := 0, type := (tag >>> 2) &&& 0x0F,
                  headerLength := 2, contentLength := a, isPartial := 0 },
           .ok (i + 2))) ∧
    (tag &&& 0x03 = 1 → ∀ a b, a < 256 → b < 256 →
      msg[i + 1]? = some a → msg[i + 2]? = some b → i + 3 < msg.length →
      spgp_parse_header msg i none
        = (some { rawTagByte := tag, isNewFormat := 0, type := (tag >>> 2) &&& 0x0F,
                  headerLength := 3, contentLength := a * 2 ^ 8 + b, isPartial := 0 },
           .ok (i + 3))) ∧
    (tag &&& 0x03 = 2 → ∀ a b c d, a < 256 → b < 256 → c < 256 → d < 256 →
      msg[i + 1]? = some a → msg[i + 2]? = some b →
      msg[i + 3]? = some c → msg[i + 4]? = some d → i + 5 < msg.length →
      spgp_parse_header msg i none
        = (some { rawTagByte := tag, isNewFormat := 0, type := (tag >>> 2) &&& 0x0F,
                  headerLength := 5,
                  contentLength := a * 2 ^ 24 + b * 2 ^ 16 + c * 2 ^ 8 + d,
                  isPartial := 0 },
           .ok (i + 5))) ∧
    (tag &&& 0x03 = 3 → i + 1 < msg.length →
      (spgp_parse_header msg i none).2 = .raise .FORMAT_UNSUPPORTED) := by
  refine ⟨?_, ?_, ?_, ?_⟩
  · intro h3 a ha hga hl
    exact ph_old0 msg i tag a hlen ht htb h7 h6 h3 ha hga hl
  · intro h3 a b ha hb hga hgb hl
    exact ph_old1 msg i tag a b hlen ht htb h7 h6 h3 ha hb hga hgb hl
  · intro h3 a b c d ha hb hc hd hga hgb hgc hgd hl
    exact ph_old2 msg i tag a b c d hlen ht htb h7 h6 h3 ha hb hc hd hga hgb hgc hgd hl
  · intro h3 hl
    rw [ph_old3 msg i tag hlen ht htb h7 h6 h3 hl]

/-- Witness of C4: the tag bytes `0x98 .. 0x9B` (old format, type 6) with each of the
four length types. -/
theorem parse_header_old_format_witness :
    spgp_parse_header [0x98, 5, 1] 0 none
      = (some { rawTagByte := 0x98, isNewFormat := 0, type := (0x98 >>> 2) &&& 0x0F,
                headerLength := 2, contentLength := 5, isPartial := 0 }, .ok (0 + 2)) ∧
    spgp_parse_header [0x99, 1, 2, 7] 0 none
      = (some { rawTagByte := 0x99, isNewFormat := 0, type := (0x99 >>> 2) &&& 0x0F,
                headerLength := 3, contentLength := 1 * 2 ^ 8 + 2, isPartial := 0 },
         .ok (0 + 3)) ∧
    spgp_parse_header [0x9A, 1, 2, 3, 4, 7] 0 none
      = (some { rawTagByte := 0x9A, isNewFormat := 0, type := (0x9A >>> 2) &&& 0x0F,
                headerLength := 5,
                contentLength := 1 * 2 ^ 24 + 2 * 2 ^ 16 + 3 * 2 ^ 8 + 4,
                isPartial := 0 }, .ok (0 + 5)) ∧
    (spgp_parse_header [0x9B, 0] 0 none).2 = .raise .FORMAT_UNSUPPORTED :=
  ⟨(parse_header_old_format [0x98, 5, 1] 0 0x98 (by decide) rfl (by decide) (by decide)
      (by decide)).1 (by decide) 5 (by decide) rfl (by decide),
   (parse_header_old_format [0x99, 1, 2, 7] 0 0x99 (by decide) rfl (by decide) (by decide)
      (by decide)).2.1 (by decide) 1 2 (by decide) (by decide) rfl rfl (by decide),
   (parse_header_old_format [0x9A, 1, 2, 3, 4, 7] 0 0x9A (by decide) rfl (by decide)
      (by decide) (by decide)).2.2.1 (by decide) 1 2 3 4 (by decide) (by decide)
      (by decide) (by decide) rfl rfl rfl rfl (by decide),
   (parse_header_old_format [0x9B, 0] 0 0x9B (by decide) rfl (by decide) (by decide)
      (by decide)).2.2.2 (by decide) (by decide)⟩

/-- C5 (evaluation at the failing input): the new-format tag byte `0xED` carries the
packet type 45 in its bits 5..0, and the parser stores type 13. -/
theorem parse_header_new_type_drops_bit5 :
    (spgp_parse_header [0xED, 1, 65, 66] 0 none).1.map (fun h => h.type) = some 13 ∧
    (0xED &&& 0x3F) = 45 := by
  decide

/-- C7 (evaluation at the failing input): a new-format header with a five-octet
length occupies the indices 0..5 and its first content byte is at index 6; the parser
succeeds and leaves the cursor at index 5, on the last length octet. -/
theorem parse_header_five_octet_cursor :
    (spgp_parse_header [0xCD, 0xFF, 0, 0, 0, 2, 65, 66] 0 none).2 = .ok 5 ∧
    0 + 1 + 5 = 6 := by
  decide

theorem byte_at {msg : List Nat} (hbytes : ∀ b ∈ msg, b < 256) {j : Nat}
    (hj : j < msg.length) : msg[j]? = some (msg.getD j 0) ∧ msg.getD j 0 < 256 := by
  have h1 : msg[j]? = some msg[j] := List.getElem?_eq_getElem hj
  have h2 : msg.getD j 0 = msg[j] := by
    simp [List.getD_eq_getElem?_getD, h1]
  rw [h2]
  exact ⟨h1, hbytes _ (List.getElem_mem hj)⟩

theorem parse_header_valid (msg : List Nat) (i : Nat)
    (hlen : msg.length < U32) (hbytes : ∀ b ∈ msg, b < 256)
    (h7 : msg.getD i 0 &&& 0x80 ≠ 0)
    (hdet : ¬ (msg.getD i 0 &&& 0x40 = 0 ∧ msg.getD i 0 &&& 0x03 = 3))
    (hext : i + spec_header_length msg i < msg.length) :
    ∃ h, spgp_parse_header msg i none = (some h, .ok (i + h.headerLength)) ∧
      h.headerLength = spec_header_length msg i ∧
      h.contentLength = spec_content_length msg i ∧
      h.type = (if msg.getD i 0 &&& 0x40 = 0 then (msg.getD i 0 >>> 2) &&& 0x0F
                else msg.getD i 0 &&& 0x1F) := by
  obtain ⟨ht, htb⟩ := byte_at hbytes (j := i) (by omega)
  by_cases h6 : msg.getD i 0 &&& 0x40 = 0
  · have h3n : ¬ msg.getD i 0 &&& 0x03 = 3 := fun h => hdet ⟨h6, h⟩
    have hlt : msg.getD i 0 &&& 0x03 < 4 := by
      rw [byte_and_03]; omega
    by_cases c0 : msg.getD i 0 &&& 0x03 = 0
    · have hs : spec_header_length msg i = 2 := by
        simp [-List.getD_eq_getElem?_getD, spec_header_length, h6, c0]
      rw [hs] at hext
      obtain ⟨ha, hab⟩ := byte_at hbytes (j := i + 1) (by omega)
      refine ⟨_, ph_old0 msg i _ _ hlen ht htb h7 h6 c0 hab ha hext, ?_, ?_, ?_⟩
      · simp [-List.getD_eq_getElem?_getD, spec_header_length, h6, c0]
      · simp [-List.getD_eq_getElem?_getD, spec_content_length, h6, c0]
      · simp [-List.getD_eq_getElem?_getD, h6]
    · by_cases c1 : msg.getD i 0 &&& 0x03 = 1
      · have hs : spec_header_length msg i = 3 := by
          simp [-List.getD_eq_getElem?_getD, spec_header_length, h6, c1]
        rw [hs] at hext
        obtain ⟨ha, hab⟩ := byte_at hbytes (j := i + 1) (by omega)
        obtain ⟨hb, hbb⟩ := byte_at hbytes (j := i + 2) (by omega)
        refine ⟨_, ph_old1 msg i _ _ _ hlen ht htb h7 h6 c1 hab hbb ha hb hext, ?_, ?_, ?_⟩
        · simp [-List.getD_eq_getElem?_getD, spec_header_length, h6, c1]
        · simp [-List.getD_eq_getElem?_getD, spec_content_length, h6, c1]
        · simp [-List.getD_eq_getElem?_getD, h6]
      · have c2 : msg.getD i 0 &&& 0x03 = 2 := by omega
        have hs : spec_header_length msg i = 5 := by
          simp [-List.getD_eq_getElem?_getD, spec_header_length, h6, c2]
        rw [hs] at hext
        obtain ⟨ha, hab⟩ := byte_at hbytes (j := i + 1) (by omega)
        obtain ⟨hb, hbb⟩ := byte_at hbytes (j := i + 2) (by omega)
        obtain ⟨hc, hcb⟩ := byte_at hbytes (j := i + 3) (by omega)
        obtain ⟨hd, hdb⟩ := byte_at hbytes (j := i + 4) (by omega)
        refine ⟨_, ph_old2 msg i _ _ _ _ _ hlen ht htb h7 h6 c2 hab hbb hcb hdb ha hb hc hd
          hext, ?_, ?_, ?_⟩
        · simp [-List.getD_eq_getElem?_getD, spec_header_length, h6, c2]
        · simp [-List.getD_eq_getElem?_getD, spec_content_length, h6, c2]
        · simp [-List.getD_eq_getElem?_getD, h6]
  · have h2le : 2 ≤ spec_header_length msg i := by
      simp [-List.getD_eq_getElem?_getD, spec_header_length, h6]
      split_ifs <;> omega
    obtain ⟨h0, h0b⟩ := byte_at hbytes (j := i + 1) (by omega)
    by_cases c0 : msg.getD (i + 1) 0 ≤ 191
    · have hs : spec_header_length msg i = 2 := by
        simp [-List.getD_eq_getElem?_getD, spec_header_length, h6, c0]
      rw [hs] at hext
      have hn := nhl_one msg (i + 1) _ h0 c0
      refine ⟨_, ph_new msg i _ _ hlen ht htb h7 h6 hn (by simp) (by simpa using hext),
        ?_, ?_, ?_⟩
      · simp [-List.getD_eq_getElem?_getD, spec_header_length, h6, c0]
      · simp [-List.getD_eq_getElem?_getD, spec_content_length, h6, c0]
      · simp [-List.getD_eq_getElem?_getD, h6]
    · by_cases c1 : msg.getD (i + 1) 0 ≤ 223
      · have hs : spec_header_length msg i = 3 := by
          simp [-List.getD_eq_getElem?_getD, spec_header_length, h6, c0, c1]
        rw [hs] at hext
        obtain ⟨h1, h1b⟩ := byte_at hbytes (j := i + 1 + 1) (by omega)
        have hn := nhl_two msg (i + 1) _ _ h0 h1 h1b (by omega) c1
        refine ⟨_, ph_new msg i _ _ hlen ht htb h7 h6 hn (by simp) (by simpa using hext),
          ?_, ?_, ?_⟩
        · simp [-List.getD_eq_getElem?_getD, spec_header_length, h6, c0, c1]
        · simp [-List.getD_eq_getElem?_getD, spec_content_length, Nat.add_assoc, h6, c0, c1]
        · simp [-List.getD_eq_getElem?_getD, h6]
      · by_cases c2 : msg.getD (i + 1) 0 = 255
        · have hs : spec_header_length msg i = 5 := by
            simp [-List.getD_eq_getElem?_getD, spec_header_length, h6, c2]
          rw [hs] at hext
          obtain ⟨h1, h1b⟩ := byte_at hbytes (j := i + 1 + 1) (by omega)
          obtain ⟨h2, h2b⟩ := byte_at hbytes (j := i + 1 + 2) (by omega)
          obtain ⟨h3, h3b⟩ := byte_at hbytes (j := i + 1 + 3) (by omega)
          obtain ⟨h4, h4b⟩ := byte_at hbytes (j := i + 1 + 4) (by omega)
          rw [c2] at h0
          have hn := nhl_five msg (i + 1) _ _ _ _ h0 h1 h2 h3 h4 h1b h2b h3b h4b
          refine ⟨_, ph_new msg i _ _ hlen ht htb h7 h6 hn (by simp)
            (by simpa using hext), ?_, ?_, ?_⟩
          · simp [-List.getD_eq_getElem?_getD, spec_header_length, h6, c2]
          · simp [-List.getD_eq_getElem?_getD, spec_content_length, Nat.add_assoc, h6, c2]
          · simp [-List.getD_eq_getElem?_getD, h6]
        · have hs : spec_header_length msg i = 2 := by
            simp [-List.getD_eq_getElem?_getD, spec_header_length, h6, c0, c1, c2]
          rw [hs] at hext
          have hn := nhl_part msg (i + 1) _ h0 (by omega) (by omega)
          refine ⟨_, ph_new msg i _ _ hlen ht htb h7 h6 hn (by simp)
            (by simpa using hext), ?_, ?_, ?_⟩
          · simp [-List.getD_eq_getElem?_getD, spec_header_length, h6, c0, c1, c2]
          · simp [-List.getD_eq_getElem?_getD, spec_content_length, h6, c0, c1, c2]
          · simp [-List.getD_eq_getElem?_getD, h6]

/-- C6: framing round trip.  For a header at offset `i` that is valid (bit 7 of the tag
set, not the old-format indeterminate length) in a buffer that extends beyond the
header, the parser succeeds, leaves the cursor at `i + headerLength`, and stores the
header length and the content length that the length rules of section 4.C assign. -/
theorem parse_header_roundtrip (msg : List Nat) (i : Nat)
    (hlen : msg.length < U32) (hbytes : ∀ b ∈ msg, b < 256)
    (h7 : msg.getD i 0 &&& 0x80 ≠ 0)
    (hdet : ¬ (msg.getD i 0 &&& 0x40 = 0 ∧ msg.getD i 0 &&& 0x03 = 3))
    (hext : i + spec_header_length msg i < msg.length) :
    ∃ h, spgp_parse_header msg i none = (some h, .ok (i + h.headerLength)) ∧
      h.headerLength = spec_header_length msg i ∧
      h.contentLength = spec_content_length msg i := by
  obtain ⟨h, h1, h2, h3, _⟩ := parse_header_valid msg i hlen hbytes h7 hdet hext
  exact ⟨h, h1, h2, h3⟩

/-- Witness of C6: an old-format header with a two-octet length at offset 1. -/
theorem parse_header_roundtrip_witness :
    ∃ h, spgp_parse_header [0, 0x99, 1, 2, 7] 1 none = (some h, .ok (1 + h.headerLength)) ∧
      h.headerLength = spec_header_length [0, 0x99, 1, 2, 7] 1 ∧
      h.contentLength = spec_content_length [0, 0x99, 1, 2, 7] 1 :=
  parse_header_roundtrip [0, 0x99, 1, 2, 7] 1 (by decide) (by decide) (by decide)
    (by decide) (by decide)

/-! ### MPI codec -/

theorem sub32_eq (a b : Nat) (hb : b ≤ a) (ha : a < U32) : sub32 a b = a - b := by
  unfold sub32
  rw [Nat.mod_eq_of_lt ha, Nat.mod_eq_of_lt (by omega : b < U32)]
  have h : a + U32 - b = (a - b) + U32 := by omega
  rw [h, Nat.add_mod_right]
  exact Nat.mod_eq_of_lt (by omega)

theorem add32_eq (a b : Nat) (h : a + b < U32) : add32 a b = a + b :=
  Nat.mod_eq_of_lt h

theorem rd_getD {msg : List Nat} {j : Nat} (hj : j < msg.length) :
    rd msg j = .ok (msg.getD j 0 % 256) := by
  have h1 : msg[j]? = some msg[j] := List.getElem?_eq_getElem hj
  have h2 : msg.getD j 0 = msg[j] := by
    simp [List.getD_eq_getElem?_getD, h1]
  rw [h2]
  exact rd_of_getElem? h1

theorem or_be16 (a b : Nat) (hb : b < 256) : (a <<< 8) ||| b = a * 256 + b := by
  have := Nat.mul_add_lt_is_or (i := 8) (b := b) (by omega) a
  rw [Nat.shiftLeft_eq, Nat.mul_comm a (2 ^ 8), ← this]

theorem rdN_ok (msg : List Nat) (i n : Nat) (hn : n ≠ 0) (h : i + n ≤ msg.length) :
    rdN msg i n = .ok (((msg.drop i).take n).map (fun b => b % 256)) := by
  simp [rdN, hn, h]

theorem take_two_drop (msg : List Nat) (i n : Nat) (h : i + 1 < msg.length) :
    ((((msg.drop i).take (n + 2)).map (fun b => b % 256)).take 2)
      = [msg.getD i 0 % 256, msg.getD (i + 1) 0 % 256] := by
  have h0 : i < msg.length := by omega
  have e0 : msg.getD i 0 = msg[i] := by
    simp [List.getD_eq_getElem?_getD, List.getElem?_eq_getElem h0]
  have e1 : msg.getD (i + 1) 0 = msg[i + 1] := by
    simp [List.getD_eq_getElem?_getD, List.getElem?_eq_getElem h]
  rw [e0, e1, List.drop_eq_getElem_cons h0, List.drop_eq_getElem_cons h]
  rfl

theorem read_mpi_ok (msg : List Nat) (idx : Nat) (hlen : msg.length < U32)
    (hrem : idx + ((msg.getD idx 0 % 256) * 256 + msg.getD (idx + 1) 0 % 256 + 7) / 8 + 2
      ≤ msg.length) :
    spgp_read_mpi msg idx
      = .ok ({ data := ((msg.drop idx).take
                  (((msg.getD idx 0 % 256) * 256 + msg.getD (idx + 1) 0 % 256 + 7) / 8 + 2)).map
                  (fun b => b % 256),
               bits := (msg.getD idx 0 % 256) * 256 + msg.getD (idx + 1) 0 % 256,
               count := ((msg.getD idx 0 % 256) * 256 + msg.getD (idx + 1) 0 % 256 + 7) / 8 },
             idx + ((msg.getD idx 0 % 256) * 256 + msg.getD (idx + 1) 0 % 256 + 7) / 8 + 1) := by
  have hne : msg.length ≠ 0 := by omega
  have hs : sub32 msg.length idx = msg.length - idx := sub32_eq _ _ (by omega) hlen
  have hn2 : ¬ msg.length - idx < 2 := by omega
  have r0 : rd msg idx = .ok (msg.getD idx 0 % 256) := rd_getD (by omega)
  have r1 : rd msg (idx + 1) = .ok (msg.getD (idx + 1) 0 % 256) := rd_getD (by omega)
  have hor := or_be16 (msg.getD idx 0 % 256) (msg.getD (idx + 1) 0 % 256)
    (Nat.mod_lt _ (by decide))
  have hd := rdN_ok msg idx
    (((msg.getD idx 0 % 256) * 256 + msg.getD (idx + 1) 0 % 256 + 7) / 8 + 2) (by omega) hrem
  have ha := add32_eq idx
    (((msg.getD idx 0 % 256) * 256 + msg.getD (idx + 1) 0 % 256 + 7) / 8 + 1) (by omega)
  simp only [spgp_read_mpi, hne, hs, hn2, if_false, r0, r1, Res.ok_bind, hor, hd, ha,
    Res.pure_eq]
  rfl

/-- C9: the MPI codec.  With at least `byte_count + 2` bytes from the cursor to the end
of the buffer, `spgp_read_mpi` returns an MPI whose bit count `b` is the big-endian
value of the two bytes at the cursor, whose byte count is `(b + 7) / 8`, whose data is
the `byte_count + 2` bytes that start at the cursor, so that `data[0..2]` encodes `b`
big-endian, and it leaves the cursor at `cursor + byte_count + 1`, the last byte of the
MPI. -/
theorem read_mpi_invariant (msg : List Nat) (idx b : Nat) (hlen : msg.length < U32)
    (hb : b = (msg.getD idx 0 % 256) * 256 + msg.getD (idx + 1) 0 % 256)
    (hrem : idx + (b + 7) / 8 + 2 ≤ msg.length) :
    ∃ m, spgp_read_mpi msg idx = .ok (m, idx + m.count + 1) ∧
      m.bits = b ∧ m.count = (b + 7) / 8 ∧
      m.data = ((msg.drop idx).take (m.count + 2)).map (fun x => x % 256) ∧
      m.data.length = m.count + 2 ∧
      m.data.take 2 = [b / 256, b % 256] := by
  subst hb
  refine ⟨_, read_mpi_ok msg idx hlen hrem, rfl, rfl, rfl, ?_, ?_⟩
  · simp only [List.length_map, List.length_take, List.length_drop]
    omega
  · rw [take_two_drop msg idx _ (by omega)]
    have h1 : msg.getD (idx + 1) 0 % 256 < 256 := Nat.mod_lt _ (by decide)
    congr 1
    · omega
    · congr 1
      omega

/-- Witness of C9: the MPI `00 09 01 02` (9 bits, 2 bytes) at cursor 1. -/
theorem read_mpi_invariant_witness :
    ∃ m, spgp_read_mpi [7, 0, 9, 1, 2, 7] 1 = .ok (m, 1 + m.count + 1) ∧
      m.bits = 9 ∧ m.count = (9 + 7) / 8 ∧
      m.data = (([7, 0, 9, 1, 2, 7].drop 1).take (m.count + 2)).map (fun x => x % 256) ∧
      m.data.length = m.count + 2 ∧
      m.data.take 2 = [9 / 256, 9 % 256] :=
  read_mpi_invariant [7, 0, 9, 1, 2, 7] 1 9 (by decide) (by decide) (by decide)

/-! ### Public-key parser -/

theorem Res.bind_eq_ok {α β : Type} (r : Res α) (f : α → Res β) (b : β) :
    (r >>= f) = .ok b ↔ ∃ a, r = .ok a ∧ f a = .ok b := by
  cases r with
  | ok a => simp
  | raise e => simp
  | fault x => simp

theorem rd_inv {msg : List Nat} {j v : Nat} (h : rd msg j = .ok v) :
    j < msg.length ∧ v = msg.getD j 0 % 256 := by
  by_cases hj : j < msg.length
  · rw [rd_getD hj] at h
    injection h with h
    exact ⟨hj, h.symm⟩
  · have hn : msg[j]? = none := List.getElem?_eq_none (by omega)
    simp [rd, hn] at h

theorem rdN_inv {msg : List Nat} {i n : Nat} {d : List Nat} (hn : n ≠ 0)
    (h : rdN msg i n = .ok d) :
    i + n ≤ msg.length ∧ d = ((msg.drop i).take n).map (fun b => b % 256) := by
  by_cases hl : i + n ≤ msg.length
  · rw [rdN_ok msg i n hn hl] at h
    injection h with h
    exact ⟨hl, h.symm⟩
  · simp [rdN, hn, hl] at h

theorem SAFE_IDX_INCREMENT_inv {idx max i : Nat} (h : SAFE_IDX_INCREMENT idx max = .ok i) :
    i = (idx + 1) % U32 ∧ i < max := by
  unfold SAFE_IDX_INCREMENT at h
  split_ifs at h with hc
  injection h with h
  omega

theorem read_mpi_inv {msg : List Nat} {idx i : Nat} {m : Mpi} (hlen : msg.length < U32)
    (h : spgp_read_mpi msg idx = .ok (m, i)) :
    m.bits = (msg.getD idx 0 % 256) * 256 + msg.getD (idx + 1) 0 % 256 ∧
    m.count = (m.bits + 7) / 8 ∧
    m.data = ((msg.drop idx).take (m.count + 2)).map (fun b => b % 256) ∧
    idx + m.count + 2 ≤ msg.length ∧ i = idx + m.count + 1 := by
  unfold spgp_read_mpi at h
  split_ifs at h with h1 h2
  simp only [Res.bind_eq_ok] at h
  obtain ⟨b0, hb0, b1, hb1, d, hd, hp⟩ := h
  obtain ⟨hi0, e0⟩ := rd_inv hb0
  obtain ⟨hi1, e1⟩ := rd_inv hb1
  obtain ⟨hl, ed⟩ := rdN_inv (by omega) hd
  have hor := or_be16 b0 b1 (by omega)
  rw [hor] at hl ed hp
  simp only [Res.pure_eq, Res.ok.injEq, Prod.mk.injEq] at hp
  obtain ⟨hm, hi⟩ := hp
  subst hm
  subst e0 e1
  refine ⟨rfl, rfl, ed, hl, ?_⟩
  dsimp only
  rw [← hi, add32_eq _ _ (by omega)]
  omega

theorem read_mpi_loop_inv (msg : List Nat) (hlen : msg.length < U32) :
    ∀ (n i idx : Nat) (ms : List Mpi) (j : Nat), (i ≠ 0 → idx < msg.length) →
      read_mpi_loop msg n i idx = .ok (ms, j) →
      ms.length = n ∧ consecutive_mpis msg (if i = 0 then idx else idx + 1) ms := by
  intro n
  induction n with
  | zero =>
    intro i idx ms j _ h
    simp only [read_mpi_loop, Res.ok.injEq, Prod.mk.injEq] at h
    obtain ⟨h1, _⟩ := h
    subst h1
    exact ⟨rfl, trivial⟩
  | succ n ih =>
    intro i idx ms j hi h
    simp only [read_mpi_loop, Res.bind_eq_ok] at h
    obtain ⟨i1, h1, r, hr, rs, hrs, hp⟩ := h
    simp only [Res.pure_eq, Res.ok.injEq, Prod.mk.injEq] at hp
    obtain ⟨hms, _⟩ := hp
    have hpos : i1 = (if i = 0 then idx else idx + 1) := by
      by_cases hi0 : i = 0
      · simp only [hi0, ne_eq, not_true_eq_false, if_false, Res.ok.injEq,
          if_true] at h1 ⊢
        exact h1.symm
      · simp only [ne_eq, hi0, not_false_eq_true, if_true, if_false] at h1 ⊢
        obtain ⟨e, _⟩ := SAFE_IDX_INCREMENT_inv h1
        rw [e]
        exact Nat.mod_eq_of_lt (by have := hi hi0; omega)
    obtain ⟨hb, hc, hd, hl, hj⟩ := read_mpi_inv (m := r.1) (i := r.2) hlen hr
    have := ih (i + 1) r.2 rs.1 rs.2 (by intro _; omega) hrs
    obtain ⟨hlen2, hcons⟩ := this
    subst hms
    refine ⟨by simp [hlen2], ?_⟩
    rw [← hpos]
    refine ⟨hb, hc, hd, hl, ?_⟩
    have e : (if i + 1 = 0 then r.2 else r.2 + 1) = i1 + r.1.count + 2 := by
      simp only [Nat.add_one_ne_zero, if_false]
      omega
    rw [e] at hcons
    exact hcons

theorem public_key_fields_inv {msg : List Nat} {idx j : Nat} {pub0 pub : PublicPkt}
    (hlen : msg.length < U32) (h : public_key_fields msg idx pub0 = .ok (pub, j)) :
    pub.version = 4 ∧ pub.asymAlgo = msg.getD (idx + 5) 0 % 256 ∧
    (pub.asymAlgo = ASYM_ALGO_DSA ∨ pub.asymAlgo = ASYM_ALGO_ELGAMAL) ∧
    pub.mpis.length = (if pub.asymAlgo = ASYM_ALGO_DSA then 4 else 3) ∧
    pub.mpiCount = pub.mpis.length ∧
    consecutive_mpis msg (idx + 6) pub.mpis := by
  simp only [public_key_fields, Res.bind_eq_ok] at h
  obtain ⟨version, hv, i1, hi1, h⟩ := h
  split_ifs at h with hv4 hs4
  simp only [Res.bind_eq_ok] at h
  obtain ⟨ct, hct, i2, hi2, algo, halgo, i3, hi3, r, hr, hp⟩ := h
  simp only [Res.pure_eq, Res.ok.injEq, Prod.mk.injEq] at hp
  obtain ⟨hpub, _⟩ := hp
  obtain ⟨hidx, _⟩ := rd_inv hv
  obtain ⟨e1, l1⟩ := SAFE_IDX_INCREMENT_inv hi1
  rw [Nat.mod_eq_of_lt (by omega)] at e1
  subst e1
  obtain ⟨e2, l2⟩ := SAFE_IDX_INCREMENT_inv hi2
  obtain ⟨hl4, _⟩ := rdN_inv (by decide) hct
  rw [add32_eq _ _ (by omega), Nat.mod_eq_of_lt (by omega)] at e2
  subst e2
  obtain ⟨e3, l3⟩ := SAFE_IDX_INCREMENT_inv hi3
  rw [Nat.mod_eq_of_lt (by omega)] at e3
  subst e3
  obtain ⟨_, ea⟩ := rd_inv halgo
  have e5 : idx + 1 + 3 + 1 = idx + 5 := by omega
  have e6 : idx + 1 + 3 + 1 + 1 = idx + 6 := by omega
  rw [e5] at ea
  rw [e6] at hr
  subst hpub
  have hver : version = 4 := by omega
  unfold spgp_read_all_public_mpis at hr
  split_ifs at hr with hz hdsa helg
  · simp only [Res.bind_eq_ok, Res.pure_eq, Res.ok.injEq] at hr
    obtain ⟨q, hq, hrq⟩ := hr
    obtain ⟨hn, hc⟩ := read_mpi_loop_inv msg hlen 4 0 (idx + 6) q.1 q.2 (by simp) hq
    subst hrq
    simp only [if_true] at hc
    exact ⟨hver, ea, Or.inl hdsa, by simp [hdsa, hn], by simp [hn], hc⟩
  · simp only [Res.bind_eq_ok, Res.pure_eq, Res.ok.injEq] at hr
    obtain ⟨q, hq, hrq⟩ := hr
    obtain ⟨hn, hc⟩ := read_mpi_loop_inv msg hlen 3 0 (idx + 6) q.1 q.2 (by simp) hq
    subst hrq
    simp only [if_true] at hc
    exact ⟨hver, ea, Or.inr helg, by simp [hdsa, hn], by simp [hn], hc⟩

/-- C10: the public-key parser.  On every success the version is 4, the algorithm is
the byte after the creation time and is DSA or Elgamal, the MPI list holds exactly 4
(DSA) or 3 (Elgamal) MPIs that lie back to back in the buffer from the byte after the
algorithm byte, and `mpiCount` is that number.  With the packet content inside the
buffer, the parser raises `FORMAT_UNSUPPORTED` when the version byte (followed by at
least one byte) is not 4, and when the algorithm byte (followed by at least one byte)
is neither DSA nor Elgamal. -/
theorem parse_public_key_spec (msg : List Nat) (idx cl : Nat) (slot : Option PublicPkt)
    (hlen : msg.length < U32) :
    (∀ pub j, spgp_parse_public_key msg idx cl slot = (some pub, .ok j) →
      pub.version = 4 ∧ pub.asymAlgo = msg.getD (idx + 5) 0 % 256 ∧
      (pub.asymAlgo = ASYM_ALGO_DSA ∨ pub.asymAlgo = ASYM_ALGO_ELGAMAL) ∧
      pub.mpis.length = (if pub.asymAlgo = ASYM_ALGO_DSA then 4 else 3) ∧
      pub.mpiCount = pub.mpis.length ∧
      consecutive_mpis msg (idx + 6) pub.mpis) ∧
    (idx + cl ≤ msg.length → idx + 1 < msg.length → msg.getD idx 0 % 256 ≠ 4 →
      (spgp_parse_public_key msg idx cl slot).2 = .raise .FORMAT_UNSUPPORTED) ∧
    (idx + cl ≤ msg.length → idx + 6 < msg.length → msg.getD idx 0 % 256 = 4 →
      msg.getD (idx + 5) 0 % 256 ≠ ASYM_ALGO_DSA →
      msg.getD (idx + 5) 0 % 256 ≠ ASYM_ALGO_ELGAMAL →
      (spgp_parse_public_key msg idx cl slot).2 = .raise .FORMAT_UNSUPPORTED) := by
  refine ⟨?_, ?_, ?_⟩
  · intro pub j h
    unfold spgp_parse_public_key at h
    by_cases hc : sub32 msg.length idx < cl
    · simp [hc] at h
    · simp only [hc, if_false] at h
      cases hf : public_key_fields msg idx (slot.getD {}) with
      | ok r =>
        simp only [hf, Prod.mk.injEq, Option.some.injEq, Res.ok.injEq] at h
        obtain ⟨h1, h2⟩ := h
        have hf2 : public_key_fields msg idx (slot.getD {}) = .ok (pub, j) := by
          rw [hf, ← h1, ← h2]
        exact public_key_fields_inv hlen hf2
      | raise e => simp [hf] at h
      | fault f => simp [hf] at h
  · intro hcl h1 hv
    have hs : sub32 msg.length idx = msg.length - idx := sub32_eq _ _ (by omega) hlen
    have hc : ¬ msg.length - idx < cl := by omega
    have r0 : rd msg idx = .ok (msg.getD idx 0 % 256) := rd_getD (by omega)
    have s1 := SAFE_IDX_INCREMENT_ok idx msg.length h1 (by omega)
    simp [-List.getD_eq_getElem?_getD, spgp_parse_public_key, hs, hc, public_key_fields, r0,
      s1, hv]
  · intro hcl h6 hv hnd hne
    have hs : sub32 msg.length idx = msg.length - idx := sub32_eq _ _ (by omega) hlen
    have hc : ¬ msg.length - idx < cl := by omega
    have r0 : rd msg idx = .ok (msg.getD idx 0 % 256) := rd_getD (by omega)
    have s1 := SAFE_IDX_INCREMENT_ok idx msg.length (by omega) (by omega)
    have hs4 : sub32 msg.length (idx + 1) = msg.length - (idx + 1) :=
      sub32_eq _ _ (by omega) hlen
    have hn4 : ¬ msg.length - (idx + 1) < 4 := by omega
    have hct := rdN_ok msg (idx + 1) 4 (by decide) (by omega)
    have ha3 : add32 (idx + 1) 3 = idx + 4 := by
      rw [add32_eq _ _ (by omega)]
    have s2 := SAFE_IDX_INCREMENT_ok (idx + 4) msg.length (by omega) (by omega)
    have r5 : rd msg (idx + 5) = .ok (msg.getD (idx + 5) 0 % 256) := rd_getD (by omega)
    have s3 := SAFE_IDX_INCREMENT_ok (idx + 5) msg.length (by omega) (by omega)
    have hne0 : msg.length ≠ 0 := by omega
    simp [-List.getD_eq_getElem?_getD, spgp_parse_public_key, hs, hc, public_key_fields, r0,
      s1, hv, hs4, hn4, hct, ha3,
      s2, r5, s3, spgp_read_all_public_mpis, hne0, hnd, hne]

/-- Witness of C10: an Elgamal key with three one-byte MPIs, a version-3 body, and a
body with the unsupported algorithm 1. -/
theorem parse_public_key_spec_witness :
    (∃ pub j,
      spgp_parse_public_key [4, 0, 0, 0, 1, 16, 0, 1, 1, 0, 1, 1, 0, 1, 1] 0 15 none
        = (some pub, .ok j) ∧
      pub.version = 4 ∧
      pub.asymAlgo = [4, 0, 0, 0, 1, 16, 0, 1, 1, 0, 1, 1, 0, 1, 1].getD (0 + 5) 0 % 256 ∧
      (pub.asymAlgo = ASYM_ALGO_DSA ∨ pub.asymAlgo = ASYM_ALGO_ELGAMAL) ∧
      pub.mpis.length = (if pub.asymAlgo = ASYM_ALGO_DSA then 4 else 3) ∧
      pub.mpiCount = pub.mpis.length ∧
      consecutive_mpis [4, 0, 0, 0, 1, 16, 0, 1, 1, 0, 1, 1, 0, 1, 1] (0 + 6) pub.mpis) ∧
    (spgp_parse_public_key [3, 0, 0] 0 3 none).2 = .raise .FORMAT_UNSUPPORTED ∧
    (spgp_parse_public_key [4, 0, 0, 0, 1, 1, 0, 1, 1] 0 9 none).2
      = .raise .FORMAT_UNSUPPORTED :=
  ⟨⟨{ version := 4, creationTime := 16777216, asymAlgo := 16,
      mpis := [⟨[0, 1, 1], 1, 1⟩, ⟨[0, 1, 1], 1, 1⟩, ⟨[0, 1, 1], 1, 1⟩], mpiCount := 3 },
    14, by decide,
    (parse_public_key_spec [4, 0, 0, 0, 1, 16, 0, 1, 1, 0, 1, 1, 0, 1, 1] 0 15 none
      (by decide)).1 _ 14 (by decide)⟩,
   (parse_public_key_spec [3, 0, 0] 0 3 none (by decide)).2.1 (by decide) (by decide)
      (by decide),
   (parse_public_key_spec [4, 0, 0, 0, 1, 1, 0, 1, 1] 0 9 none (by decide)).2.2 (by decide)
      (by decide) (by decide) (by decide) (by decide)⟩

/-! ### Engine loop -/

/-- C3 (counterexample): a one-byte buffer whose byte has bit 7 clear is returned as a
chain of one empty packet, and a buffer that starts with a zero byte is decoded from
its first non-zero byte on; neither fails with `INVALID_HEADER`. -/
theorem decode_bit7_clear_not_always_invalid :
    (0x05 &&& 0x80 = 0 ∧
      ∀ env fuel, spgp_decode_message env (fuel + 1) [0x05] = .ok [{}]) ∧
    (0x00 &&& 0x80 = 0 ∧
      ∀ env fuel, spgp_decode_message env (fuel + 1) [0x00, 0xCD, 0x01, 0x41]
        = .ok [{ header := some { rawTagByte := 0xCD, isNewFormat := 0x40, type := 13,
                                  headerLength := 2, contentLength := 1, isPartial := 0 },
                 c := some (.userid { data := [0x41, 0] }) }]) := by
  refine ⟨⟨by decide, ?_⟩, ⟨by decide, ?_⟩⟩
  · intro env fuel
    rfl
  · intro env fuel
    rfl

/-- C3 (amended): for every buffer of at least two bytes whose first byte is not zero
and has bit 7 clear, `spgp_decode_message` fails with `INVALID_HEADER` and returns a
null chain. -/
theorem decode_bit7_clear_invalid_header (env : Env) (fuel : Nat) (b : Nat)
    (rest : List Nat) (hrest : rest ≠ []) (hnz : b % 256 ≠ 0)
    (h7 : (b % 256) &&& 0x80 = 0) :
    spgp_decode_message env (fuel + 1) (b :: rest) = .raise .INVALID_HEADER ∧
    returned_chain (spgp_decode_message env (fuel + 1) (b :: rest)) = none := by
  obtain ⟨c, rest2, hc⟩ := List.exists_cons_of_ne_nil hrest
  subst hc
  have hr : rd (b :: c :: rest2) 0 = .ok (b % 256) := by
    simp [rd]
  have hs : SAFE_IDX_INCREMENT 0 (b :: c :: rest2).length = .ok 1 := by
    simp [SAFE_IDX_INCREMENT, U32]
  have hh : spgp_parse_header (b :: c :: rest2) 0 none
      = (some { rawTagByte := b % 256 }, .raise .INVALID_HEADER) := by
    simp only [spgp_parse_header, hr, hs, h7]
    simp
  have hl : decode_loop env (fuel + 1) (b :: c :: rest2) 0 []
      = ([{ header := some { rawTagByte := b % 256 } }], .raise .INVALID_HEADER) := by
    simp [decode_loop, skip_zero, hnz, hh]
  have hd : spgp_decode_message env (fuel + 1) (b :: c :: rest2)
      = .raise .INVALID_HEADER := by
    simp only [spgp_decode_message, hl]
    simp [spgp_free_packet, PKT_TYPE_SECRET_KEY, PKT_TYPE_SECRET_SUBKEY, PKT_TYPE_USER_ID]
  rw [hd]
  exact ⟨rfl, rfl⟩

/-- Witness of C3 (amended): the buffer `05 00`. -/
theorem decode_bit7_clear_invalid_header_witness :
    spgp_decode_message null_env (0 + 1) (0x05 :: [0x00]) = .raise .INVALID_HEADER ∧
      returned_chain (spgp_decode_message null_env (0 + 1) (0x05 :: [0x00])) = none :=
  decode_bit7_clear_invalid_header null_env 0 0x05 [0x00] (by decide) (by decide)
    (by decide)

/-! ### Truncated buffers -/

theorem getD_take (msg : List Nat) (k j : Nat) (h : j < k) :
    (msg.take k).getD j 0 = msg.getD j 0 := by
  simp [List.getD_eq_getElem?_getD, List.getElem?_take, h]

theorem skip_zero_at (msg : List Nat) (idx b : Nat) (h : msg[idx]? = some b)
    (hb : b % 256 ≠ 0) : skip_zero (msg.drop idx) idx = .ok idx := by
  have hi : idx < msg.length := by
    by_contra hc
    rw [List.getElem?_eq_none (by omega)] at h
    exact Option.noConfusion h
  have e : msg[idx] = b := by
    rw [List.getElem?_eq_getElem hi] at h
    exact Option.some.inj h
  rw [List.drop_eq_getElem_cons hi, e]
  simp [skip_zero, hb]

theorem read_old_length_short (m : List Nat) (hlen : m.length < U32) :
    ∀ (n idx : Nat) (h : Header), idx < m.length → m.length ≤ idx + n →
      ∃ h2, read_old_length m n idx h = (h2, .raise .BUFFER_OVERFLOW) ∧
        h2.type = h.type := by
  intro n
  induction n with
  | zero =>
    intro idx h h1 h2
    omega
  | succ n ih =>
    intro idx h h1 h2
    have hr : rd m idx = .ok (m.getD idx 0 % 256) := rd_getD h1
    by_cases hc : idx + 1 < m.length
    · have hs := SAFE_IDX_INCREMENT_ok idx m.length hc (by omega)
      obtain ⟨h3, e1, e2⟩ := ih (idx + 1)
        { h with contentLength := ((h.contentLength <<< 8) % U32 + m.getD idx 0 % 256) % U32 }
        hc (by omega)
      refine ⟨h3, ?_, e2⟩
      simp only [read_old_length, hr, hs]
      exact e1
    · have hs := SAFE_IDX_INCREMENT_raise idx m.length (by omega) (by omega)
      refine ⟨{ h with contentLength :=
        ((h.contentLength <<< 8) % U32 + m.getD idx 0 % 256) % U32 }, ?_, rfl⟩
      simp only [read_old_length, hr, hs]

theorem parse_header_cut_old (m : List Nat) (s tag : Nat) (hlen : m.length < U32)
    (h2 : s + 2 ≤ m.length) (ht : m[s]? = some tag) (htb : tag < 256)
    (h7 : tag &&& 0x80 ≠ 0) (h6 : tag &&& 0x40 = 0) (h3 : tag &&& 0x03 ≠ 3)
    (hcut : m.length
      ≤ s + (if tag &&& 0x03 = 0 then 2 else if tag &&& 0x03 = 1 then 3 else 5)) :
    ∃ h, spgp_parse_header m s none = (some h, .raise .BUFFER_OVERFLOW) ∧
      h.type = (tag >>> 2) &&& 0x0F := by
  have hne : m.length ≠ 0 := by omega
  have hrt := rd_ok ht htb
  have s1 := SAFE_IDX_INCREMENT_ok s m.length (by omega) (by omega)
  obtain ⟨h5, e1, e2⟩ := read_old_length_short m hlen
    ((if tag &&& 0x03 = 0 then 2 else if tag &&& 0x03 = 1 then 3 else 5) - 1) (s + 1)
    { rawTagByte := tag, isNewFormat := 0, type := (tag >>> 2) &&& 0x0F,
      headerLength := (if tag &&& 0x03 = 0 then 2 else if tag &&& 0x03 = 1 then 3 else 5) }
    (by omega) (by split_ifs at hcut ⊢ <;> omega)
  refine ⟨h5, ?_, e2⟩
  simp only [spgp_parse_header, hne, hrt, s1, h7, h6, h3, if_false, Option.getD_none,
    ne_eq, not_true_eq_false]
  rw [e1]
  simp

theorem parse_header_cut_new (m : List Nat) (s tag b0 : Nat) (hlen : m.length < U32)
    (hl2 : m.length = s + 2) (ht : m[s]? = some tag) (htb : tag < 256)
    (h7 : tag &&& 0x80 ≠ 0) (h6 : tag &&& 0x40 ≠ 0) (hb : m[s + 1]? = some b0)
    (hb0 : b0 ≤ 191) :
    ∃ h, spgp_parse_header m s none = (some h, .raise .BUFFER_OVERFLOW) ∧
      h.type = tag &&& 0x1F := by
  have hne : m.length ≠ 0 := by omega
  have hrt := rd_ok ht htb
  have s1 := SAFE_IDX_INCREMENT_ok s m.length (by omega) (by omega)
  have hn := nhl_one m (s + 1) b0 hb hb0
  have ha : add32 (s + 1) 0 = s + 1 := add32_eq _ _ (by omega)
  have s2 := SAFE_IDX_INCREMENT_raise (s + 1) m.length (by omega) (by omega)
  refine ⟨{ rawTagByte := tag, isNewFormat := tag &&& 0x40, type := tag &&& 0x1F,
            headerLength := 2, contentLength := b0, isPartial := 0 }, ?_, rfl⟩
  simp [spgp_parse_header, hne, hrt, s1, h7, h6, hn, ha, s2]

theorem decode_loop_header_raise (env : Env) (fuel : Nat) (m : List Nat) (s : Nat)
    (done : List Packet) (h : Header) (e : SpgpErr) (h2 : s + 2 ≤ m.length)
    (hz : skip_zero (m.drop s) s = .ok s)
    (hp : spgp_parse_header m s none = (some h, .raise e)) :
    decode_loop env (fuel + 1) m s done
      = (done ++ [{ header := some h, c := none }], .raise e) := by
  have hlt : s < m.length - 1 := by omega
  simp only [decode_loop, hlt, if_true, hz, hp]

theorem decode_loop_packet_raise (env : Env) (fuel : Nat) (m m2 : List Nat) (s : Nat)
    (done : List Packet) (h : Header) (i1 : Nat) (c : Option Body) (e : SpgpErr)
    (h2 : s + 2 ≤ m.length) (hz : skip_zero (m.drop s) s = .ok s)
    (hp : spgp_parse_header m s none = (some h, .ok i1))
    (hq : parse_packet env m i1 h done = (m2, c, .raise e)) :
    decode_loop env (fuel + 1) m s done
      = (done ++ [{ header := some h, c := c }], .raise e) := by
  have hlt : s < m.length - 1 := by omega
  simp only [decode_loop, hlt, if_true, hz, hp, hq]

theorem decode_loop_pass (env : Env) (fuel : Nat) (m : List Nat) (s : Nat)
    (done : List Packet) (h : Header) (i1 i2 : Nat) (c : Option Body)
    (hlen : m.length < U32) (h2 : s + 2 ≤ m.length)
    (hz : skip_zero (m.drop s) s = .ok s)
    (hp : spgp_parse_header m s none = (some h, .ok i1))
    (hq : parse_packet env m i1 h done = (m, c, .ok i2)) (hi : i2 + 1 < m.length) :
    decode_loop env (fuel + 1) m s done
      = decode_loop env fuel m (i2 + 1) (done ++ [{ header := some h, c := c }]) := by
  have hlt : s < m.length - 1 := by omega
  have hge : ¬ i2 ≥ m.length - 1 := by omega
  have hs := SAFE_IDX_INCREMENT_ok i2 m.length hi (by omega)
  simp only [decode_loop, hlt, if_true, hz, hp, hq, hge, if_false, hs]

theorem parse_packet_overflow (env : Env) (m : List Nat) (i : Nat) (h : Header)
    (done : List Packet) (hlen : m.length < U32) (hi : i ≤ m.length)
    (hcl : m.length - i < h.contentLength) (ht : key_or_session_type h.type)
    (hne : m.length ≠ 0) :
    parse_packet env m i h done = (m, none, .raise .BUFFER_OVERFLOW) := by
  have hs : sub32 m.length i = m.length - i := sub32_eq _ _ hi hlen
  unfold key_or_session_type at ht
  rcases ht with ht | ht | ht | ht | ht <;>
    simp [parse_packet, ht, PKT_TYPE_USER_ID, PKT_TYPE_PUBLIC_KEY, PKT_TYPE_PUBLIC_SUBKEY,
      PKT_TYPE_SECRET_KEY, PKT_TYPE_SECRET_SUBKEY, PKT_TYPE_SESSION,
      spgp_parse_public_key, spgp_parse_secret_key, spgp_parse_session_packet, hs, hcl, hne]

theorem spec_header_length_ge (msg : List Nat) (s : Nat) : 2 ≤ spec_header_length msg s := by
  simp only [spec_header_length]
  split_ifs <;> omega

theorem spec_header_length_take (msg : List Nat) (k s : Nat) (hk : s + 2 ≤ k) :
    spec_header_length (msg.take k) s = spec_header_length msg s := by
  simp only [spec_header_length, getD_take msg k s (by omega),
    getD_take msg k (s + 1) (by omega)]

theorem spec_content_length_take (msg : List Nat) (k s : Nat) (hfr : framed msg s)
    (hk : s + spec_header_length msg s ≤ k) :
    spec_content_length (msg.take k) s = spec_content_length msg s := by
  obtain ⟨_, hform⟩ := hfr
  rcases hform with ⟨h6, h3⟩ | ⟨h6, hb⟩
  · by_cases c0 : msg.getD s 0 &&& 0x03 = 0
    · have hs : spec_header_length msg s = 2 := by
        simp [-List.getD_eq_getElem?_getD, spec_header_length, h6, c0]
      simp only [spec_content_length, getD_take msg k s (by omega),
        getD_take msg k (s + 1) (by omega), h6, c0, if_true]
    · by_cases c1 : msg.getD s 0 &&& 0x03 = 1
      · have hs : spec_header_length msg s = 3 := by
          simp [-List.getD_eq_getElem?_getD, spec_header_length, h6, c1]
        simp only [spec_content_length, getD_take msg k s (by omega),
          getD_take msg k (s + 1) (by omega), getD_take msg k (s + 2) (by omega), h6, c0,
          c1, if_true, if_false]
      · have hs : spec_header_length msg s = 5 := by
          simp [-List.getD_eq_getElem?_getD, spec_header_length, h6, c0, c1]
        simp only [spec_content_length, getD_take msg k s (by omega),
          getD_take msg k (s + 1) (by omega), getD_take msg k (s + 2) (by omega),
          getD_take msg k (s + 3) (by omega), getD_take msg k (s + 4) (by omega), h6, c0,
          c1, if_true, if_false]
  · have hs : spec_header_length msg s = 2 := by
      simp [-List.getD_eq_getElem?_getD, spec_header_length, h6, hb]
    simp only [spec_content_length, getD_take msg k s (by omega),
      getD_take msg k (s + 1) (by omega), h6, hb, if_true, if_false]

theorem code_type_eq_spec (tag : Nat) (ht : spec_packet_type tag < 32) :
    (if tag &&& 0x40 = 0 then (tag >>> 2) &&& 0x0F else tag &&& 0x1F)
      = spec_packet_type tag := by
  unfold spec_packet_type at ht ⊢
  by_cases h6 : tag &&& 0x40 = 0
  · simp only [h6, if_true]
  · simp only [h6, if_false] at ht ⊢
    rw [byte_and_3F] at ht ⊢
    rw [byte_and_1F]
    omega

theorem key_type_lt (t : Nat) (ht : key_or_session_type t) : t < 32 := by
  unfold key_or_session_type at ht
  simp only [PKT_TYPE_PUBLIC_KEY, PKT_TYPE_PUBLIC_SUBKEY, PKT_TYPE_SECRET_KEY,
    PKT_TYPE_SECRET_SUBKEY, PKT_TYPE_SESSION] at ht
  omega

theorem key_type_ne_user_id (t : Nat) (ht : key_or_session_type t) :
    t ≠ PKT_TYPE_USER_ID := by
  unfold key_or_session_type at ht
  simp only [PKT_TYPE_PUBLIC_KEY, PKT_TYPE_PUBLIC_SUBKEY, PKT_TYPE_SECRET_KEY,
    PKT_TYPE_SECRET_SUBKEY, PKT_TYPE_SESSION, PKT_TYPE_USER_ID] at ht ⊢
  omega

theorem tag_nonzero (m : List Nat) (s : Nat) (hmb : ∀ b ∈ m, b < 256) (hs : s < m.length)
    (h7 : m.getD s 0 &&& 0x80 ≠ 0) : skip_zero (m.drop s) s = .ok s := by
  obtain ⟨ht0, htb⟩ := byte_at hmb (j := s) hs
  have h128 : ¬ m.getD s 0 < 128 := fun hc => h7 ((byte_and_80 _ htb).mpr hc)
  exact skip_zero_at _ s _ ht0 (by omega)

theorem decode_loop_cut (env : Env) (m : List Nat) (s : Nat)
    (done : List Packet) (hlen : m.length < U32) (hmb : ∀ b ∈ m, b < 256)
    (hfr : framed m s) (htype : key_or_session_type (spec_packet_type (m.getD s 0)))
    (h2 : s + 2 ≤ m.length)
    (hcut : m.length ≤ s + spec_header_length m s ∨
      m.length < s + spec_header_length m s + spec_content_length m s) :
    ∃ h, key_or_session_type h.type ∧
      ∀ fuel, decode_loop env (fuel + 1) m s done
        = (done ++ [{ header := some h, c := none }], .raise .BUFFER_OVERFLOW) := by
  obtain ⟨h7, hform⟩ := hfr
  obtain ⟨ht0, htb⟩ := byte_at hmb (j := s) (by omega)
  obtain ⟨ht1, _⟩ := byte_at hmb (j := s + 1) (by omega)
  have hz := tag_nonzero m s hmb (by omega) h7
  have hct := code_type_eq_spec _ (key_type_lt _ htype)
  by_cases hc : m.length ≤ s + spec_header_length m s
  · rcases hform with ⟨h6, h3⟩ | ⟨h6, hb⟩
    · have hc2 : m.length
          ≤ s + (if m.getD s 0 &&& 0x03 = 0 then 2
                 else if m.getD s 0 &&& 0x03 = 1 then 3 else 5) := by
        simpa [-List.getD_eq_getElem?_getD, spec_header_length, h6] using hc
      obtain ⟨h, e1, e2⟩ := parse_header_cut_old m s _ hlen h2 ht0 htb h7 h6 h3 hc2
      simp only [h6, if_true] at hct
      refine ⟨h, ?_, fun fuel => decode_loop_header_raise env fuel m s done h _ h2 hz e1⟩
      rw [e2, hct]
      exact htype
    · have hs : spec_header_length m s = 2 := by
        simp [-List.getD_eq_getElem?_getD, spec_header_length, h6, hb]
      obtain ⟨h, e1, e2⟩ := parse_header_cut_new m s _ _ hlen (by omega) ht0 htb h7 h6 ht1 hb
      simp only [h6, if_false] at hct
      refine ⟨h, ?_, fun fuel => decode_loop_header_raise env fuel m s done h _ h2 hz e1⟩
      rw [e2, hct]
      exact htype
  · have hdet : ¬ (m.getD s 0 &&& 0x40 = 0 ∧ m.getD s 0 &&& 0x03 = 3) := by
      rcases hform with ⟨_, h3⟩ | ⟨h6, _⟩
      · exact fun hx => h3 hx.2
      · exact fun hx => h6 hx.1
    obtain ⟨h, e1, e2, e3, e4⟩ := parse_header_valid m s hlen hmb h7 hdet (by omega)
    rw [hct] at e4
    have hty : key_or_session_type h.type := by
      rw [e4]; exact htype
    have hq := parse_packet_overflow env m (s + h.headerLength) h done hlen (by omega)
      (by omega) hty (by omega)
    exact ⟨h, hty, fun fuel =>
      decode_loop_packet_raise env fuel m m s done h _ none _ h2 hz e1 hq⟩

theorem add32_sub32_one (i c : Nat) (hi : 1 ≤ i) (h : i + c < U32) :
    add32 i (sub32 c 1) = i + c - 1 := by
  simp only [add32, sub32, U32] at h ⊢
  omega

theorem mpis_fill_le (msg : List Nat) :
    ∀ (n pos e : Nat), mpis_fill msg n pos e → pos ≤ e := by
  intro n
  induction n with
  | zero =>
    intro pos e h
    simp only [mpis_fill] at h
    omega
  | succ n ih =>
    intro pos e h
    have := ih _ _ h
    omega

theorem mpis_fill_ge (msg : List Nat) :
    ∀ (n pos e : Nat), mpis_fill msg n pos e → pos + 2 * n ≤ e := by
  intro n
  induction n with
  | zero =>
    intro pos e h
    simp only [mpis_fill] at h
    omega
  | succ n ih =>
    intro pos e h
    have := ih _ _ h
    omega

theorem read_mpi_loop_ok (msg : List Nat) (hlen : msg.length < U32) :
    ∀ (n i idx pos e : Nat), mpis_fill msg (n + 1) pos e → e ≤ msg.length →
      (i = 0 → idx = pos) → (i ≠ 0 → idx + 1 = pos) →
      ∃ ms, read_mpi_loop msg (n + 1) i idx = .ok (ms, e - 1) := by
  intro n
  induction n with
  | zero =>
    intro i idx pos e hf he h0 h1
    have hf2 : pos + mpi_count_at msg pos + 2 = e := hf
    unfold mpi_count_at at hf2
    have hi1 : (if i ≠ 0 then SAFE_IDX_INCREMENT idx msg.length else Res.ok idx)
        = .ok pos := by
      by_cases hi : i = 0
      · simp [hi, h0 hi]
      · have := h1 hi
        simp only [ne_eq, hi, not_false_eq_true, if_true]
        rw [SAFE_IDX_INCREMENT_ok idx msg.length (by omega) (by omega), this]
    have hr := read_mpi_ok msg pos hlen (by omega)
    have he1 : e - 1
        = pos + ((msg.getD pos 0 % 256) * 256 + msg.getD (pos + 1) 0 % 256 + 7) / 8 + 1 := by
      omega
    rw [he1]
    apply Exists.intro
    simp only [read_mpi_loop, hi1, Res.ok_bind, hr, Res.pure_eq]
    rfl
  | succ n ih =>
    intro i idx pos e hf he h0 h1
    have hf2 : mpis_fill msg (n + 1) (pos + mpi_count_at msg pos + 2) e := hf
    have hle := mpis_fill_le msg _ _ _ hf2
    unfold mpi_count_at at hf2 hle
    have hi1 : (if i ≠ 0 then SAFE_IDX_INCREMENT idx msg.length else Res.ok idx)
        = .ok pos := by
      by_cases hi : i = 0
      · simp [hi, h0 hi]
      · have := h1 hi
        simp only [ne_eq, hi, not_false_eq_true, if_true]
        rw [SAFE_IDX_INCREMENT_ok idx msg.length (by omega) (by omega), this]
    have hr := read_mpi_ok msg pos hlen (by omega)
    obtain ⟨ms, hms⟩ := ih (i + 1)
      (pos + ((msg.getD pos 0 % 256) * 256 + msg.getD (pos + 1) 0 % 256 + 7) / 8 + 1) _ e hf2
      he (by omega) (by intro _; omega)
    apply Exists.intro
    rw [read_mpi_loop]
    simp only [hi1, Res.ok_bind, hr, hms, Res.pure_eq]
    rfl

theorem parse_public_key_ok (msg : List Nat) (c e cl : Nat) (hlen : msg.length < U32)
    (hmb : ∀ b ∈ msg, b < 256) (hb : public_key_body msg c e) (he : e ≤ msg.length)
    (hcl : c + cl ≤ e) :
    ∃ pub, spgp_parse_public_key msg c cl none = (some pub, .ok (e - 1)) := by
  obtain ⟨hv, halg⟩ := hb
  have hle : c + 12 ≤ e := by
    rcases halg with ⟨_, hf⟩ | ⟨_, hf⟩
    · have := mpis_fill_ge msg _ _ _ hf
      omega
    · have := mpis_fill_ge msg _ _ _ hf
      omega
  have hs : sub32 msg.length c = msg.length - c := sub32_eq _ _ (by omega) hlen
  have hc : ¬ msg.length - c < cl := by omega
  obtain ⟨_, hvb⟩ := byte_at hmb (j := c) (by omega)
  obtain ⟨_, hab⟩ := byte_at hmb (j := c + 5) (by omega)
  have r0 : rd msg c = .ok 4 := by
    rw [rd_getD (by omega), hv]
  have s1 := SAFE_IDX_INCREMENT_ok c msg.length (by omega) (by omega)
  have hs4 : sub32 msg.length (c + 1) = msg.length - (c + 1) :=
    sub32_eq _ _ (by omega) hlen
  have hn4 : ¬ msg.length - (c + 1) < 4 := by omega
  have hct := rdN_ok msg (c + 1) 4 (by decide) (by omega)
  have ha3 : add32 (c + 1) 3 = c + 4 := by
    rw [add32_eq _ _ (by omega)]
  have s2 := SAFE_IDX_INCREMENT_ok (c + 4) msg.length (by omega) (by omega)
  have r5 : rd msg (c + 5) = .ok (msg.getD (c + 5) 0) := by
    rw [rd_getD (by omega), Nat.mod_eq_of_lt hab]
  have s3 := SAFE_IDX_INCREMENT_ok (c + 5) msg.length (by omega) (by omega)
  have hne0 : msg.length ≠ 0 := by omega
  rcases halg with ⟨ha, hf⟩ | ⟨ha, hf⟩
  · obtain ⟨ms, hms⟩ := read_mpi_loop_ok msg hlen 3 0 (c + 6) (c + 6) e hf (by omega)
      (fun _ => rfl) (fun hx => absurd rfl hx)
    apply Exists.intro
    simp only [spgp_parse_public_key, hs, hc, if_false, public_key_fields, r0, s1, hs4,
      hn4, hct, ha3, s2, r5, s3, spgp_read_all_public_mpis, hne0, ha, hms, Res.ok_bind,
      Res.pure_eq, ne_eq, not_true_eq_false, if_true, Option.getD_none]
    rfl
  · obtain ⟨ms, hms⟩ := read_mpi_loop_ok msg hlen 2 0 (c + 6) (c + 6) e hf (by omega)
      (fun _ => rfl) (fun hx => absurd rfl hx)
    have hnd : ¬ ASYM_ALGO_ELGAMAL = ASYM_ALGO_DSA := by decide
    apply Exists.intro
    simp only [spgp_parse_public_key, hs, hc, if_false, public_key_fields, r0, s1, hs4,
      hn4, hct, ha3, s2, r5, s3, spgp_read_all_public_mpis, hne0, ha, hnd, hms,
      Res.ok_bind, Res.pure_eq, ne_eq, not_true_eq_false, if_true, Option.getD_none]
    rfl

/-! ### Decoding of whole messages -/

theorem public_key_fields_fingerprint {msg : List Nat} {idx j : Nat} {pub0 pub : PublicPkt}
    (h : public_key_fields msg idx pub0 = .ok (pub, j)) :
    pub.fingerprint = pub0.fingerprint ∧ pub.version = 4 := by
  simp only [public_key_fields, Res.bind_eq_ok] at h
  obtain ⟨version, hv, i1, hi1, h⟩ := h
  split_ifs at h with hv4 hs4
  simp only [Res.bind_eq_ok] at h
  obtain ⟨ct, hct, i2, hi2, algo, halgo, i3, hi3, r, hr, hp⟩ := h
  simp only [Res.pure_eq, Res.ok.injEq, Prod.mk.injEq] at hp
  obtain ⟨hpub, _⟩ := hp
  subst hpub
  exact ⟨rfl, by simpa using hv4⟩

theorem parse_public_key_inv {msg : List Nat} {idx cl j : Nat} {slot : Option PublicPkt}
    {pub : PublicPkt} (h : spgp_parse_public_key msg idx cl slot = (some pub, .ok j)) :
    public_key_fields msg idx (slot.getD {}) = .ok (pub, j) := by
  unfold spgp_parse_public_key at h
  by_cases hc : sub32 msg.length idx < cl
  · simp [hc] at h
  · simp only [hc, if_false] at h
    cases hf : public_key_fields msg idx (slot.getD {}) with
    | ok r =>
      simp only [hf, Prod.mk.injEq, Option.some.injEq, Res.ok.injEq] at h
      obtain ⟨h1, h2⟩ := h
      rw [← h1, ← h2]
    | raise e => simp [hf] at h
    | fault f => simp [hf] at h

theorem decode_loop_last (env : Env) (fuel : Nat) (m : List Nat) (s : Nat)
    (done : List Packet) (h : Header) (i1 i2 : Nat) (c : Option Body)
    (h2 : s + 2 ≤ m.length) (hz : skip_zero (m.drop s) s = .ok s)
    (hp : spgp_parse_header m s none = (some h, .ok i1))
    (hq : parse_packet env m i1 h done = (m, c, .ok i2)) (hi : m.length ≤ i2 + 1) :
    decode_loop env (fuel + 1) m s done
      = (done ++ [{ header := some h, c := c }], .ok ()) := by
  have hlt : s < m.length - 1 := by omega
  have hge : i2 ≥ m.length - 1 := by omega
  simp only [decode_loop, hlt, if_true, hz, hp, hq, hge]

theorem definite_not_indeterminate (msg : List Nat) (s : Nat) (h : definite_header msg s) :
    ¬ (msg.getD s 0 &&& 0x40 = 0 ∧ msg.getD s 0 &&& 0x03 = 3) := by
  rcases h.2 with ⟨_, h3⟩ | ⟨h6, _⟩
  · exact fun hx => h3 hx.2
  · exact fun hx => h6 hx.1

/-- C11 (counterexample): the 17-byte buffer that is one version 4 public-key packet
with an Elgamal key of three one-byte MPIs is decoded, whatever the collaborators are,
into one packet of type 6 with version 4 and `mpiCount` 3 whose fingerprint is absent:
only `spgp_parse_secret_key` calls `spgp_generate_fingerprint`.  The same key behind an
old-format header of indeterminate length is rejected with `FORMAT_UNSUPPORTED`, and
behind a new-format header with a five-octet length the parser starts one byte early,
reads the last length octet as the version and raises `FORMAT_UNSUPPORTED`. -/
theorem decode_public_key_without_fingerprint :
    (∀ env fuel, spgp_decode_message env (fuel + 1)
      [0xC6, 15, 4, 0, 0, 0, 1, 16, 0, 1, 1, 0, 1, 1, 0, 1, 1]
      = .ok [{ header := some { rawTagByte := 0xC6, isNewFormat := 0x40, type := 6,
                                headerLength := 2, contentLength := 15, isPartial := 0 },
               c := some (.pub { version := 4, creationTime := 16777216, asymAlgo := 16,
                                 mpis := [⟨[0, 1, 1], 1, 1⟩, ⟨[0, 1, 1], 1, 1⟩,
                                          ⟨[0, 1, 1], 1, 1⟩],
                                 mpiCount := 3, fingerprint := none }) }]) ∧
    (∀ env fuel, spgp_decode_message env (fuel + 1)
      [0x9B, 4, 0, 0, 0, 1, 16, 0, 1, 1, 0, 1, 1, 0, 1, 1]
      = .raise .FORMAT_UNSUPPORTED) ∧
    (∀ env fuel, spgp_decode_message env (fuel + 1)
      [0xC6, 0xFF, 0, 0, 0, 15, 4, 0, 0, 0, 1, 16, 0, 1, 1, 0, 1, 1, 0, 1, 1]
      = .raise .FORMAT_UNSUPPORTED) := by
  refine ⟨?_, ?_, ?_⟩
  · intro env fuel
    rfl
  · intro env fuel
    rfl
  · intro env fuel
    rfl

/-- C11 (amended): for every buffer that consists of exactly one well-formed version 4
public-key packet holding an Elgamal key `(p, g, y)`, with an old-format header of 1,
2 or 4 length octets or a new-format header of one or two length octets,
`spgp_decode_message` returns a chain of exactly one packet of type `PublicKey` with
version 4, `mpiCount` 3, three MPIs and an absent fingerprint. -/
theorem decode_elgamal_public_key (env : Env) (fuel : Nat) (msg : List Nat)
    (hlen : msg.length < U32) (hbytes : ∀ b ∈ msg, b < 256)
    (hmsg : elgamal_public_key_message msg) :
    ∃ h pub, spgp_decode_message env (fuel + 1) msg
        = .ok [{ header := some h, c := some (.pub pub) }] ∧
      h.type = PKT_TYPE_PUBLIC_KEY ∧ pub.version = 4 ∧ pub.asymAlgo = ASYM_ALGO_ELGAMAL ∧
      pub.mpiCount = 3 ∧ pub.mpis.length = 3 ∧ pub.fingerprint = none := by
  obtain ⟨hdef, hty, hend, hv, halg, hfill⟩ := hmsg
  have hge := spec_header_length_ge msg 0
  have hfl := mpis_fill_ge msg _ _ _ hfill
  unfold packet_end at hend
  have hz := tag_nonzero msg 0 hbytes (by omega) hdef.1
  obtain ⟨h, e1, e2, e3, e4⟩ := parse_header_valid msg 0 hlen hbytes hdef.1
    (definite_not_indeterminate msg 0 hdef) (by omega)
  have hlt : spec_packet_type (msg.getD 0 0) < 32 := by
    rw [hty]; decide
  rw [code_type_eq_spec _ hlt, hty] at e4
  have hbody : public_key_body msg (0 + h.headerLength) msg.length := by
    rw [e2]
    refine ⟨by simpa using hv, Or.inr ⟨by simpa using halg, by simpa using hfill⟩⟩
  obtain ⟨pub, hp⟩ := parse_public_key_ok msg (0 + h.headerLength) msg.length
    h.contentLength hlen hbytes hbody (le_refl _) (by omega)
  have hf := parse_public_key_inv hp
  obtain ⟨f1, f2, f3, f4, f5, _⟩ := public_key_fields_inv hlen hf
  obtain ⟨g1, _⟩ := public_key_fields_fingerprint hf
  have halg2 : pub.asymAlgo = ASYM_ALGO_ELGAMAL := by
    rw [f2, e2]
    have e : 0 + spec_header_length msg 0 + 5 = spec_header_length msg 0 + 5 := by omega
    rw [e, halg]
    decide
  have hnd : ¬ pub.asymAlgo = ASYM_ALGO_DSA := by
    rw [halg2]; decide
  have hq : parse_packet env msg (0 + h.headerLength) h []
      = (msg, some (.pub pub), .ok (msg.length - 1)) := by
    have hu2 : ¬ PKT_TYPE_PUBLIC_KEY = PKT_TYPE_USER_ID := by decide
    simp only [parse_packet, e4, hu2, if_false, true_or, if_true, hp, Option.map_some']
  have hl := decode_loop_last env fuel msg 0 [] h _ _ _ (by omega) hz e1 hq (by omega)
  have hne : msg.length ≠ 0 := by omega
  refine ⟨h, pub, ?_, e4, f1, halg2, ?_, ?_, ?_⟩
  · simp only [spgp_decode_message, hne, if_false, hl, List.nil_append]
  · rw [f5, f4]
    simp [hnd]
  · rw [f4]
    simp [hnd]
  · rw [g1]
    rfl

/-- Witness of C11 (amended): an old-format public-key packet with a two-octet length
and an Elgamal key of three one-byte MPIs. -/
theorem decode_elgamal_public_key_witness :
    ∃ h pub, spgp_decode_message null_env (0 + 1)
        [0x99, 0, 15, 4, 0, 0, 0, 1, 16, 0, 1, 1, 0, 1, 1, 0, 1, 1]
        = .ok [{ header := some h, c := some (.pub pub) }] ∧
      h.type = PKT_TYPE_PUBLIC_KEY ∧ pub.version = 4 ∧ pub.asymAlgo = ASYM_ALGO_ELGAMAL ∧
      pub.mpiCount = 3 ∧ pub.mpis.length = 3 ∧ pub.fingerprint = none :=
  decode_elgamal_public_key null_env 0
    [0x99, 0, 15, 4, 0, 0, 0, 1, 16, 0, 1, 1, 0, 1, 1, 0, 1, 1] (by decide) (by decide)
    (by decide)

theorem map_mod_of_bytes (s : List Nat) (hb : ∀ b ∈ s, b < 256) :
    s.map (fun b => b % 256) = s := by
  induction s with
  | nil => rfl
  | cons a rest ih =>
    have ha := hb a (List.mem_cons_self _ _)
    have hr := ih (fun b h => hb b (List.mem_cons_of_mem _ h))
    simp only [List.map_cons, hr, Nat.mod_eq_of_lt ha]

theorem user_id_step (env : Env) (pre s post : List Nat) (done : List Packet)
    (hs0 : s ≠ []) (hs1 : s.length < 192) (hsb : ∀ b ∈ s, b < 256)
    (hlen : (pre ++ user_id_packet s ++ post).length < U32) :
    skip_zero ((pre ++ user_id_packet s ++ post).drop pre.length) pre.length
      = .ok pre.length ∧
    spgp_parse_header (pre ++ user_id_packet s ++ post) pre.length none
      = ((user_id_chain_packet s).header, .ok (pre.length + 2)) ∧
    parse_packet env (pre ++ user_id_packet s ++ post) (pre.length + 2)
        { rawTagByte := 0xCD, isNewFormat := 0x40, type := PKT_TYPE_USER_ID,
          headerLength := 2, contentLength := s.length, isPartial := 0 } done
      = (pre ++ user_id_packet s ++ post, (user_id_chain_packet s).c,
         .ok (pre.length + 2 + s.length - 1)) := by
  have hpos : 0 < s.length := List.length_pos.mpr hs0
  have hml : (pre ++ user_id_packet s ++ post).length
      = pre.length + (2 + s.length) + post.length := by
    simp only [user_id_packet, List.length_append, List.length_cons]
    omega
  rw [hml] at hlen
  have e_assoc : pre ++ user_id_packet s ++ post = pre ++ (0xCD :: s.length :: (s ++ post)) := by
    simp [user_id_packet]
  have h0 : (pre ++ user_id_packet s ++ post)[pre.length]? = some 0xCD := by
    rw [e_assoc, List.getElem?_append_right (le_refl _)]
    simp
  have h1 : (pre ++ user_id_packet s ++ post)[pre.length + 1]? = some s.length := by
    rw [e_assoc, List.getElem?_append_right (by omega)]
    simp
  have hdrop : ((pre ++ user_id_packet s ++ post).drop (pre.length + 2)).take s.length = s := by
    rw [e_assoc, List.drop_append_eq_append_drop]
    have e1 : pre.drop (pre.length + 2) = [] := List.drop_eq_nil_of_le (by omega)
    have e2 : pre.length + 2 - pre.length = 2 := by omega
    rw [e1, e2]
    simp
  refine ⟨?_, ?_, ?_⟩
  · exact skip_zero_at _ _ _ h0 (by decide)
  · have hnl := nhl_one _ (pre.length + 1) s.length h1 (by omega)
    have h := ph_new (pre ++ user_id_packet s ++ post) pre.length 0xCD ⟨s.length, 2, 0⟩
      (by rw [hml]; exact hlen) h0 (by decide) (by decide) (by decide) hnl (le_refl _)
      (by rw [hml]; dsimp only; omega)
    rw [h]
    rfl
  · have hu : PKT_TYPE_USER_ID = PKT_TYPE_USER_ID := rfl
    have hsub : sub32 (pre ++ user_id_packet s ++ post).length (pre.length + 2)
        = (pre ++ user_id_packet s ++ post).length - (pre.length + 2) :=
      sub32_eq _ _ (by rw [hml]; omega) (by rw [hml]; exact hlen)
    have hc : ¬ (pre ++ user_id_packet s ++ post).length - (pre.length + 2) < s.length := by
      rw [hml]; omega
    have hr := rdN_ok (pre ++ user_id_packet s ++ post) (pre.length + 2) s.length
      (by omega) (by rw [hml]; omega)
    rw [hdrop, map_mod_of_bytes s hsb] at hr
    have ha := add32_sub32_one (pre.length + 2) s.length (by omega) (by omega)
    simp only [parse_packet, if_true, spgp_parse_user_id, hsub, hc, if_false, hr, ha,
      Option.map_some', user_id_chain_packet]

theorem decode_loop_user_ids (env : Env) :
    ∀ (strs : List (List Nat)) (pre : List Nat) (done : List Packet) (fuel : Nat),
      strs ≠ [] → (∀ s ∈ strs, s ≠ [] ∧ s.length < 192 ∧ ∀ b ∈ s, b < 256) →
      (pre ++ user_id_message strs).length < U32 →
      decode_loop env (fuel + strs.length) (pre ++ user_id_message strs) pre.length done
        = (done ++ strs.map user_id_chain_packet, .ok ()) := by
  intro strs
  induction strs with
  | nil =>
    intro pre done fuel hne
    exact absurd rfl hne
  | cons s rest ih =>
    intro pre done fuel _ hs hlen
    obtain ⟨hs0, hs1, hsb⟩ := hs s (List.mem_cons_self _ _)
    have hpos : 0 < s.length := List.length_pos.mpr hs0
    have emsg : pre ++ user_id_message (s :: rest)
        = pre ++ user_id_packet s ++ user_id_message rest := by
      simp [user_id_message]
    rw [emsg] at hlen ⊢
    have hml : (pre ++ user_id_packet s ++ user_id_message rest).length
        = pre.length + (2 + s.length) + (user_id_message rest).length := by
      simp only [user_id_packet, List.length_append, List.length_cons]
      omega
    obtain ⟨hz, hp, hq⟩ := user_id_step env pre s (user_id_message rest) done hs0 hs1 hsb hlen
    have efuel : fuel + (s :: rest).length = (fuel + rest.length) + 1 := by
      simp only [List.length_cons]; omega
    rw [efuel]
    by_cases hr : rest = []
    · subst hr
      have hl := decode_loop_last env (fuel + ([] : List (List Nat)).length)
        (pre ++ user_id_packet s ++ user_id_message []) pre.length done _ _ _ _
        (by rw [hml]; omega) hz hp hq
        (by rw [hml]; simp [user_id_message]; omega)
      rw [hl]
      rfl
    · have hrl : 0 < (user_id_message rest).length := by
        obtain ⟨t, rest2, e⟩ := List.exists_cons_of_ne_nil hr
        subst e
        simp [user_id_message, user_id_packet]
      have hl := decode_loop_pass env (fuel + rest.length)
        (pre ++ user_id_packet s ++ user_id_message rest) pre.length done _ _ _ _
        (by rw [hml] at hlen ⊢; exact hlen) (by rw [hml]; omega) hz hp hq
        (by rw [hml]; omega)
      rw [hl]
      have epos : pre.length + 2 + s.length - 1 + 1 = (pre ++ user_id_packet s).length := by
        simp only [user_id_packet, List.length_append, List.length_cons]
        omega
      rw [epos]
      have h := ih (pre ++ user_id_packet s) (done ++ [user_id_chain_packet s]) fuel hr
        (fun t ht => hs t (List.mem_cons_of_mem _ ht)) hlen
      refine Eq.trans h ?_
      simp

/-- C12: for every non-empty list of non-empty byte strings, each shorter than 192
bytes, `spgp_decode_message` on the concatenation of their new-format user-id packets
(tag byte `0xCD`, one-octet length, body) succeeds, for every bound of at least as many
rounds as there are strings, and returns a chain with exactly one packet per string,
in buffer order, each of type `UserId` with the header length 2, the content length of
the string and the string itself (followed by the NUL terminator) as body. -/
theorem decode_user_id_packets (env : Env) (fuel : Nat) (strs : List (List Nat))
    (hne : strs ≠ [])
    (hs : ∀ s ∈ strs, s ≠ [] ∧ s.length < 192 ∧ ∀ b ∈ s, b < 256)
    (hlen : (user_id_message strs).length < U32) :
    spgp_decode_message env (fuel + strs.length) (user_id_message strs)
      = .ok (strs.map user_id_chain_packet) ∧
    (strs.map user_id_chain_packet).length = strs.length ∧
    ∀ i (hi : i < strs.length),
      ((strs.map user_id_chain_packet)[i]?).bind Packet.header
        = some { rawTagByte := 0xCD, isNewFormat := 0x40, type := PKT_TYPE_USER_ID,
                 headerLength := 2, contentLength := strs[i].length, isPartial := 0 } ∧
      ((strs.map user_id_chain_packet)[i]?).bind Packet.c
        = some (.userid { data := strs[i] ++ [0] }) := by
  have h := decode_loop_user_ids env strs [] [] fuel hne hs (by simpa using hlen)
  simp only [List.nil_append, List.length_nil] at h
  have hne0 : (user_id_message strs).length ≠ 0 := by
    obtain ⟨t, rest2, e⟩ := List.exists_cons_of_ne_nil hne
    subst e
    simp [user_id_message, user_id_packet]
  refine ⟨?_, by simp, ?_⟩
  · simp only [spgp_decode_message, hne0, if_false, h]
  · intro i hi
    simp [List.getElem?_eq_getElem hi, user_id_chain_packet]

/-- Witness of C12: the strings `"A"` and `"BC"`. -/
theorem decode_user_id_packets_witness :
    spgp_decode_message null_env (0 + [[0x41], [0x42, 0x43]].length)
        (user_id_message [[0x41], [0x42, 0x43]])
      = .ok ([[0x41], [0x42, 0x43]].map user_id_chain_packet) :=
  (decode_user_id_packets null_env 0 [[0x41], [0x42, 0x43]] (by decide) (by decide)
    (by decide)).1

/-! ### Secret-key parser -/

theorem parse_public_key_slot_inv {msg : List Nat} {idx cl j : Nat}
    {slot : Option PublicPkt}
    (h : (spgp_parse_public_key msg idx cl slot).2 = .ok j) :
    ∃ pub, (spgp_parse_public_key msg idx cl slot).1 = some pub ∧
      public_key_fields msg idx (slot.getD {}) = .ok (pub, j) := by
  unfold spgp_parse_public_key at h ⊢
  by_cases hc : sub32 msg.length idx < cl
  · simp [hc] at h
  · simp only [hc, if_false] at h ⊢
    cases hf : public_key_fields msg idx (slot.getD {}) with
    | ok r =>
      simp only [hf, Res.ok.injEq] at h
      exact ⟨r.1, rfl, by rw [← h]⟩
    | raise e => simp [hf] at h
    | fault f => simp [hf] at h

theorem read_salt_inv {msg : List Nat} {idx j : Nat} {s s1 : SecretPkt}
    (h : spgp_read_salt msg idx s = .ok (s1, j)) :
    ∃ salt, s1 = { s with s2kSalt := some salt, s2kSaltLength := 8 } ∧ salt.length = 8 := by
  unfold spgp_read_salt at h
  by_cases h0 : msg.length = 0
  · simp [h0] at h
  · by_cases ha : s.s2kHashAlgo = HASH_ALGO_SHA1
    · by_cases h2 : sub32 msg.length idx < 8
      · simp [h0, spgp_salt_length_for_hash_algo, ha, h2] at h
      · have hsl : spgp_salt_length_for_hash_algo s.s2kHashAlgo = .ok 8 := by
          simp [spgp_salt_length_for_hash_algo, ha]
        simp only [h0, if_false, hsl, Res.ok_bind,
          h2, (by decide : ¬ (8 = 0)), Res.bind_eq_ok, Res.pure_eq, Res.ok.injEq,
          Prod.mk.injEq] at h
        obtain ⟨salt, hsalt, i, _, hs, _⟩ := h
        obtain ⟨hle, hd⟩ := rdN_inv (by decide) hsalt
        refine ⟨salt, hs.symm, ?_⟩
        rw [hd]
        simp only [List.length_map, List.length_take, List.length_drop]
        omega
    · simp [h0, spgp_salt_length_for_hash_algo, ha] at h

theorem read_iv_inv {env : Env} {msg : List Nat} {idx j : Nat} {s s1 : SecretPkt}
    (h : spgp_read_iv env msg idx s = .ok (s1, j)) :
    ∃ iv n, s1 = { s with iv := some iv, ivLength := n } ∧ j < msg.length ∧ j < U32 := by
  unfold spgp_read_iv at h
  split_ifs at h with h0
  simp only [Res.bind_eq_ok] at h
  obtain ⟨ivLen, _, h⟩ := h
  split_ifs at h with h1 h2
  simp only [Res.bind_eq_ok, Res.pure_eq, Res.ok.injEq, Prod.mk.injEq] at h
  obtain ⟨iv, _, i, hi, hs, hj⟩ := h
  obtain ⟨e, l⟩ := SAFE_IDX_INCREMENT_inv hi
  subst hj
  refine ⟨iv, ivLen, hs.symm, l, ?_⟩
  rw [e]
  exact Nat.mod_lt _ (by decide)

theorem read_s2k_params_inv {msg : List Nat} {idx j : Nat} {s s1 : SecretPkt}
    (h : read_s2k_params msg idx s = .ok (s1, j)) :
    s1.pub = s.pub ∧ s1.s2kEncryption = s.s2kEncryption ∧
      s1.isDecrypted = s.isDecrypted ∧ s1.s2kType = s.s2kType ∧
      s1.encryptedData = s.encryptedData := by
  unfold read_s2k_params at h
  by_cases he : s.s2kEncryption = 0
  · simp only [ne_eq, he, not_true_eq_false, if_false, Res.ok.injEq, Prod.mk.injEq] at h
    obtain ⟨h1, _⟩ := h
    rw [← h1]
    exact ⟨rfl, rfl, rfl, rfl, rfl⟩
  · simp only [ne_eq, he, not_false_eq_true, if_true, Res.bind_eq_ok] at h
    obtain ⟨a, ha, hb, _, i1, _, h⟩ := h
    have hcore : a.1.pub = s.pub ∧ a.1.s2kEncryption = s.s2kEncryption ∧
        a.1.isDecrypted = s.isDecrypted ∧ a.1.s2kType = s.s2kType ∧
        a.1.encryptedData = s.encryptedData := by
      by_cases ht : s.s2kType ≥ 254
      · simp only [ht, if_true, Res.bind_eq_ok, Res.pure_eq, Res.ok.injEq] at ha
        obtain ⟨sp, _, i, _, e⟩ := ha
        rw [← e]
        exact ⟨rfl, rfl, rfl, rfl, rfl⟩
      · simp only [ht, if_false, Res.ok.injEq] at ha
        rw [← ha]
        exact ⟨rfl, rfl, rfl, rfl, rfl⟩
    obtain ⟨c1, c2, c3, c4, c5⟩ := hcore
    by_cases h1 : a.1.s2kSpecifier = 1
    · simp only [h1, if_true] at h
      obtain ⟨salt, e, _⟩ := read_salt_inv h
      rw [e]
      exact ⟨c1, c2, c3, c4, c5⟩
    · by_cases h3 : a.1.s2kSpecifier = 3
      · simp only [h3, if_true, (by decide : ¬ (3 = 1)), if_false, Res.bind_eq_ok,
          Res.pure_eq, Res.ok.injEq, Prod.mk.injEq] at h
        obtain ⟨r, hr, c, _, i2, _, e, _⟩ := h
        obtain ⟨salt, e2, _⟩ := read_salt_inv (show _ = Res.ok (r.1, r.2) from hr)
        rw [← e, e2]
        exact ⟨c1, c2, c3, c4, c5⟩
      · simp only [h1, h3, if_false, Res.pure_eq, Res.ok.injEq, Prod.mk.injEq] at h
        obtain ⟨e, _⟩ := h
        rw [← e]
        exact ⟨c1, c2, c3, c4, c5⟩

theorem read_all_secret_mpis_inv {msg : List Nat} {idx j : Nat} {s s1 : SecretPkt}
    (hlen : msg.length < U32)
    (h : spgp_read_all_secret_mpis msg idx s = .ok (s1, j)) :
    ∃ m, s1 = { s with pub := { s.pub with mpis := s.pub.mpis ++ [m],
                                           mpiCount := s.pub.mpiCount + 1 } } ∧
      s.pub.asymAlgo = ASYM_ALGO_DSA ∧ consecutive_mpis msg idx [m] := by
  unfold spgp_read_all_secret_mpis at h
  split_ifs at h with h0 h1 h2
  simp only [Res.bind_eq_ok, Res.pure_eq, Res.ok.injEq, Prod.mk.injEq] at h
  obtain ⟨r, hr, e, _⟩ := h
  obtain ⟨b1, b2, b3, b4, _⟩ := read_mpi_inv (m := r.1) (i := r.2) hlen hr
  exact ⟨r.1, e.symm, h2, b1, b2, b3, b4, trivial⟩

theorem read_encrypted_data_inv {env : Env} {msg : List Nat} {idx start cl j : Nat}
    {s s1 : SecretPkt}
    (h : read_encrypted_data env msg idx start cl s = .ok (s1, j)) :
    ∃ iv n d len, s1 = { s with iv := some iv, ivLength := n, encryptedData := some d,
                                encryptedDataLength := len } ∧
      (cl < U32 → d ≠ [] ∧ d.length = len) := by
  unfold read_encrypted_data at h
  simp only [Res.bind_eq_ok] at h
  obtain ⟨r, hr, h⟩ := h
  obtain ⟨iv, n, e, hj, hj2⟩ := read_iv_inv (show _ = Res.ok (r.1, r.2) from hr)
  split_ifs at h with hpo
  simp only [Res.bind_eq_ok, Res.pure_eq, Res.ok.injEq, Prod.mk.injEq] at h
  obtain ⟨d, hd, e2, _⟩ := h
  refine ⟨iv, n, d, sub32 cl (sub32 r.2 start), ?_, ?_⟩
  · rw [← e2, e]
  · intro hcl
    have hlt : sub32 r.2 start < U32 := Nat.mod_lt _ (by decide)
    have hrem : sub32 cl (sub32 r.2 start) = cl - sub32 r.2 start :=
      sub32_eq _ _ (by omega) hcl
    have hne : sub32 cl (sub32 r.2 start) ≠ 0 := by
      rw [hrem]; omega
    obtain ⟨hle, ed⟩ := rdN_inv hne hd
    have hdl : d.length = sub32 cl (sub32 r.2 start) := by
      rw [ed]
      simp only [List.length_map, List.length_take, List.length_drop]
      omega
    refine ⟨?_, hdl⟩
    intro hnil
    rw [hnil] at hdl
    exact hne hdl.symm

theorem generate_fingerprint_inv {env : Env} {pub pub1 : PublicPkt}
    (h : spgp_generate_fingerprint env pub = .ok pub1) :
    pub1 = { pub with fingerprint := some ((env.sha1 (fingerprint_input pub
      (if pub.asymAlgo = ASYM_ALGO_DSA then 4 else 3))).take 20) } := by
  unfold spgp_generate_fingerprint at h
  split_ifs at h with h1 h2 h3 h4
  · injection h with h
    rw [← h]
    simp [h1]
  · injection h with h
    rw [← h]
    simp [h1]

theorem secret_key_fields_inv {env : Env} {msg : List Nat} {idx cl j : Nat}
    {s : SecretPkt} (hlen : msg.length < U32)
    (h : secret_key_fields env msg idx cl = .ok (s, j)) :
    ∃ (pub0 : PublicPkt) (i0 : Nat) (q : SecretPkt),
      public_key_fields msg idx {} = .ok (pub0, i0) ∧
      spgp_generate_fingerprint env q.pub = .ok s.pub ∧
      s = { q with pub := s.pub } ∧ q.isDecrypted = 0 ∧
      ((q.s2kEncryption = 0 ∧ pub0.asymAlgo = ASYM_ALGO_DSA ∧
          ∃ m, q.pub = { pub0 with mpis := pub0.mpis ++ [m],
                                   mpiCount := pub0.mpiCount + 1 }) ∨
       (q.s2kEncryption ≠ 0 ∧ q.pub = pub0 ∧
          ∃ d, q.encryptedData = some d ∧
            (cl < U32 → d ≠ [] ∧ d.length = q.encryptedDataLength))) := by
  unfold secret_key_fields at h
  simp only [Res.bind_eq_ok] at h
  obtain ⟨i0, h0, i1, _, t, _, i2, _, e, _, p, hp, q, hq, pub, hfp, hs⟩ := h
  obtain ⟨pub0, hslot, hf⟩ := parse_public_key_slot_inv h0
  simp only [Res.pure_eq, Res.ok.injEq, Prod.mk.injEq] at hs
  obtain ⟨hs, _⟩ := hs
  obtain ⟨c1, c2, c3, c4, c5⟩ := read_s2k_params_inv (show _ = Res.ok (p.1, p.2) from hp)
  rw [hslot] at c1
  simp only [Option.getD_some] at c1 hf
  have hspub : s.pub = pub := by rw [← hs]
  refine ⟨pub0, i0, q.1, hf, ?_, ?_, ?_, ?_⟩
  · rw [hspub]; exact hfp
  · rw [hspub, ← hs]
  · by_cases hz : p.1.s2kEncryption = 0
    · simp only [hz, if_true] at hq
      obtain ⟨m, e1, _, _⟩ := read_all_secret_mpis_inv hlen (show _ = Res.ok (q.1, q.2) from hq)
      rw [e1]
      exact c3
    · simp only [hz, if_false] at hq
      obtain ⟨iv, n, d, len, e1, _⟩ := read_encrypted_data_inv (show _ = Res.ok (q.1, q.2) from hq)
      rw [e1]
      exact c3
  · by_cases hz : p.1.s2kEncryption = 0
    · simp only [hz, if_true] at hq
      obtain ⟨m, e1, ha, _⟩ := read_all_secret_mpis_inv hlen (show _ = Res.ok (q.1, q.2) from hq)
      left
      rw [c1] at ha
      refine ⟨?_, ha, m, ?_⟩
      · rw [e1]; exact hz
      · rw [e1, c1]
    · simp only [hz, if_false] at hq
      obtain ⟨iv, n, d, len, e1, hd⟩ := read_encrypted_data_inv (show _ = Res.ok (q.1, q.2) from hq)
      right
      refine ⟨?_, ?_, d, ?_, ?_⟩
      · rw [e1]; exact hz
      · rw [e1]; exact c1
      · rw [e1]
      · rw [e1]; exact hd

theorem parse_secret_key_inv {env : Env} {msg : List Nat} {idx cl j : Nat}
    {slot : Option SecretPkt} {s : SecretPkt}
    (h : spgp_parse_secret_key env msg idx cl slot = (some s, .ok j)) :
    secret_key_fields env msg idx cl = .ok (s, j) := by
  unfold spgp_parse_secret_key at h
  by_cases hc : sub32 msg.length idx < cl
  · simp [hc] at h
  · simp only [hc, if_false] at h
    cases hf : secret_key_fields env msg idx cl with
    | ok r =>
      simp only [hf, Prod.mk.injEq, Option.some.injEq, Res.ok.injEq] at h
      obtain ⟨h1, h2⟩ := h
      rw [← h1, ← h2]
    | raise e => simp [hf] at h
    | fault f => simp [hf] at h

theorem consecutive_mpis_bound (msg : List Nat) :
    ∀ (ms : List Mpi) (pos : Nat), consecutive_mpis msg pos ms →
      ∀ m ∈ ms, m.count ≤ 8192 ∧ m.data.length = m.count + 2 := by
  intro ms
  induction ms with
  | nil =>
    intro pos _ m hm
    exact absurd hm (List.not_mem_nil _)
  | cons a rest ih =>
    intro pos h m hm
    obtain ⟨hb, hc, hd, hl, hrest⟩ := h
    rcases List.mem_cons.mp hm with e | hin
    · subst e
      have h0 : msg.getD pos 0 % 256 < 256 := Nat.mod_lt _ (by decide)
      have h1 : msg.getD (pos + 1) 0 % 256 < 256 := Nat.mod_lt _ (by decide)
      refine ⟨by omega, ?_⟩
      rw [hd]
      simp only [List.length_map, List.length_take, List.length_drop]
      omega
    · exact ih _ hrest m hin

theorem foldl_packet_size :
    ∀ (ms : List Mpi) (acc : Nat), (∀ m ∈ ms, m.count ≤ 8192) →
      acc + 8194 * ms.length < 65536 →
      ms.foldl (fun acc m => (acc + (m.count + 2)) % 65536) acc
        = acc + (ms.map (fun m => m.count + 2)).sum := by
  intro ms
  induction ms with
  | nil =>
    intro acc _ _
    simp
  | cons a rest ih =>
    intro acc hm hacc
    have ha := hm a (List.mem_cons_self _ _)
    simp only [List.length_cons] at hacc
    have e : (acc + (a.count + 2)) % 65536 = acc + (a.count + 2) :=
      Nat.mod_eq_of_lt (by omega)
    simp only [List.foldl_cons, List.map_cons, List.sum_cons, e]
    rw [ih _ (fun m h => hm m (List.mem_cons_of_mem _ h)) (by omega)]
    omega

theorem sum_packet_size_le :
    ∀ (ms : List Mpi), (∀ m ∈ ms, m.count ≤ 8192) →
      (ms.map (fun m => m.count + 2)).sum ≤ 8194 * ms.length := by
  intro ms
  induction ms with
  | nil =>
    intro _
    simp
  | cons a rest ih =>
    intro hm
    have ha := hm a (List.mem_cons_self _ _)
    have := ih (fun m h => hm m (List.mem_cons_of_mem _ h))
    simp only [List.map_cons, List.sum_cons, List.length_cons]
    omega

theorem map_take_data (ms : List Mpi) (hm : ∀ m ∈ ms, m.data.length = m.count + 2) :
    ms.map (fun m => m.data.take (m.count + 2)) = ms.map (fun m => m.data) := by
  apply List.map_congr_left
  intro m h
  exact List.take_of_length_le (by rw [hm m h])

theorem byte_and_FF (b : Nat) : b &&& 0xFF = b % 256 :=
  Nat.and_pow_two_sub_one_eq_mod b 8

theorem fingerprint_input_eq_spec (pub : PublicPkt) (fp : Option (List Nat))
    (hv : pub.version = 4)
    (ha : pub.asymAlgo = ASYM_ALGO_DSA ∨ pub.asymAlgo = ASYM_ALGO_ELGAMAL)
    (hm : ∀ m ∈ pub.mpis.take (if pub.asymAlgo = ASYM_ALGO_DSA then 4 else 3),
      m.count ≤ 8192 ∧ m.data.length = m.count + 2) :
    fingerprint_input pub (if pub.asymAlgo = ASYM_ALGO_DSA then 4 else 3)
      = spec_fingerprint_bytes { pub with fingerprint := fp } := by
  have hlen4 : (pub.mpis.take (if pub.asymAlgo = ASYM_ALGO_DSA then 4 else 3)).length ≤ 4 := by
    rw [List.length_take]
    split_ifs <;> omega
  have hfold := foldl_packet_size _ 6 (fun m h => (hm m h).1) (by omega)
  have hsum := sum_packet_size_le _ (fun m h => (hm m h).1)
  have hdata := map_take_data _ (fun m h => (hm m h).2)
  have halg : pub.asymAlgo % 256 = pub.asymAlgo := by
    rcases ha with ha | ha <;> rw [ha] <;> decide
  simp only [fingerprint_input, spec_fingerprint_bytes, spec_public_mpis, hfold, hdata, hv,
    halg, List.range, List.range.loop, List.map_cons, List.map_nil, byte_and_FF,
    Nat.shiftRight_eq_div_pow]
  have e1 : (6 + (List.map (fun m => m.count + 2)
      (pub.mpis.take (if pub.asymAlgo = ASYM_ALGO_DSA then 4 else 3))).sum) / 2 ^ 8 % 256
      = (6 + (List.map (fun m => m.count + 2)
      (pub.mpis.take (if pub.asymAlgo = ASYM_ALGO_DSA then 4 else 3))).sum) / 256 := by
    omega
  rw [e1]
  simp

/-- C13: for every secret-key packet that parses successfully, with SHA-1 an abstract
function that returns 20 bytes, the stored fingerprint is the digest of the byte
sequence that the specification names: `0x99`, the two big-endian bytes of
`packet_size = 6 + Σ (byte_count + 2)` over the public MPIs (the first 4 for DSA, the
first 3 for Elgamal), the version, the four bytes `(creation_time >> (8 * i)) & 0xFF`
for `i = 0, 1, 2, 3`, the algorithm, and the wire bytes of those MPIs in list order. -/
theorem secret_key_fingerprint (env : Env) (msg : List Nat) (idx cl j : Nat)
    (slot : Option SecretPkt) (s : SecretPkt) (hlen : msg.length < U32)
    (hsha : ∀ x, (env.sha1 x).length = 20)
    (h : spgp_parse_secret_key env msg idx cl slot = (some s, .ok j)) :
    s.pub.fingerprint = some (env.sha1 (spec_fingerprint_bytes s.pub)) ∧
    (env.sha1 (spec_fingerprint_bytes s.pub)).length = 20 := by
  refine ⟨?_, hsha _⟩
  obtain ⟨pub0, i0, q, hf, hfp, _, _, hcase⟩ :=
    secret_key_fields_inv hlen (parse_secret_key_inv h)
  obtain ⟨f1, _, f3, f4, _, f6⟩ := public_key_fields_inv hlen hf
  have hb := consecutive_mpis_bound msg _ _ f6
  have hq : q.pub.version = 4 ∧ q.pub.asymAlgo = pub0.asymAlgo ∧
      q.pub.mpis.take (if pub0.asymAlgo = ASYM_ALGO_DSA then 4 else 3) = pub0.mpis := by
    rcases hcase with ⟨_, hd, m, e⟩ | ⟨_, e, _⟩
    · rw [e]
      refine ⟨f1, rfl, ?_⟩
      simp only [hd, if_true] at f4 ⊢
      exact List.take_left' f4
    · rw [e]
      exact ⟨f1, rfl, List.take_of_length_le (by rw [f4])⟩
  obtain ⟨q1, q2, q3⟩ := hq
  have e := generate_fingerprint_inv hfp
  have hspec := fingerprint_input_eq_spec q.pub
    (some ((env.sha1 (fingerprint_input q.pub
      (if q.pub.asymAlgo = ASYM_ALGO_DSA then 4 else 3))).take 20))
    q1 (by rw [q2]; exact f3) (by rw [q2, q3]; exact hb)
  rw [← e] at hspec
  rw [e]
  dsimp only
  rw [← e, ← hspec, List.take_of_length_le (by rw [hsha])]

/-- Witness of C13: an unencrypted DSA secret-key body with one-byte MPIs. -/
theorem secret_key_fingerprint_witness :
    (∀ x, (null_env.sha1 x).length = 20) ∧
    ∃ s j, spgp_parse_secret_key null_env
        [4, 0, 0, 0, 1, 17, 0, 1, 1, 0, 1, 1, 0, 1, 1, 0, 1, 1, 0, 0, 1, 1] 0 22 none
        = (some s, .ok j) ∧
      s.pub.fingerprint = some (null_env.sha1 (spec_fingerprint_bytes s.pub)) ∧
      (null_env.sha1 (spec_fingerprint_bytes s.pub)).length = 20 :=
  ⟨fun _ => rfl,
   { pub := { version := 4, creationTime := 16777216, asymAlgo := 17,
              mpis := [⟨[0, 1, 1], 1, 1⟩, ⟨[0, 1, 1], 1, 1⟩, ⟨[0, 1, 1], 1, 1⟩,
                       ⟨[0, 1, 1], 1, 1⟩, ⟨[0, 1, 1], 1, 1⟩],
              mpiCount := 5, fingerprint := some (List.replicate 20 0) } },
   21, by decide,
   secret_key_fingerprint null_env
     [4, 0, 0, 0, 1, 17, 0, 1, 1, 0, 1, 1, 0, 1, 1, 0, 1, 1, 0, 0, 1, 1] 0 22 21 none _
     (by decide) (fun _ => rfl) (by decide)⟩

/-- C14: every secret-key packet that parses successfully has `isDecrypted` equal to
0, because the parser never writes the flag.  With `s2kEncryption = 0` the key is a
DSA key whose MPI list holds the four public MPIs and the secret MPI; otherwise the
MPI list holds the public MPIs only and `encryptedData` is present and not empty.
So the flag is false also for an unencrypted key, for which the specification
requires it to be true. -/
theorem parse_secret_key_never_decrypted (env : Env) (msg : List Nat) (idx cl j : Nat)
    (slot : Option SecretPkt) (s : SecretPkt) (hlen : msg.length < U32) (hcl : cl < U32)
    (h : spgp_parse_secret_key env msg idx cl slot = (some s, .ok j)) :
    s.isDecrypted = 0 ∧
    (s.s2kEncryption = 0 →
      s.pub.asymAlgo = ASYM_ALGO_DSA ∧ s.pub.mpis.length = 5 ∧ s.pub.mpiCount = 5) ∧
    (s.s2kEncryption ≠ 0 →
      s.pub.mpis.length = (if s.pub.asymAlgo = ASYM_ALGO_DSA then 4 else 3) ∧
      ∃ d, s.encryptedData = some d ∧ d ≠ [] ∧ d.length = s.encryptedDataLength) := by
  obtain ⟨pub0, i0, q, hf, hfp, hs, hdec, hcase⟩ :=
    secret_key_fields_inv hlen (parse_secret_key_inv h)
  obtain ⟨_, _, _, f4, f5, _⟩ := public_key_fields_inv hlen hf
  have e := generate_fingerprint_inv hfp
  have h1 : s.isDecrypted = q.isDecrypted := by rw [hs]
  have h2 : s.s2kEncryption = q.s2kEncryption := by rw [hs]
  have h3 : s.encryptedData = q.encryptedData := by rw [hs]
  have h4 : s.encryptedDataLength = q.encryptedDataLength := by rw [hs]
  have h5 : s.pub.mpis = q.pub.mpis := by rw [e]
  have h6 : s.pub.mpiCount = q.pub.mpiCount := by rw [e]
  have h7 : s.pub.asymAlgo = q.pub.asymAlgo := by rw [e]
  refine ⟨by rw [h1, hdec], ?_, ?_⟩
  · intro hz
    rcases hcase with ⟨_, hd, m, eq⟩ | ⟨hn, _, _⟩
    · simp only [hd, if_true] at f4
      rw [h7, h5, h6, eq]
      refine ⟨hd, ?_, ?_⟩
      · simp [f4]
      · dsimp only
        rw [f5, f4]
    · exact absurd (h2 ▸ hz) hn
  · intro hnz
    rcases hcase with ⟨hz, _, _⟩ | ⟨_, eq, d, hd, hlen2⟩
    · exact absurd (h2.trans hz) hnz
    · rw [h7, h5, eq, h3, h4]
      exact ⟨f4, d, hd, (hlen2 hcl).1, (hlen2 hcl).2⟩

/-- Witness of C14: an unencrypted DSA secret-key body with one-byte MPIs; the parser
stores the secret MPI and leaves `isDecrypted` at 0. -/
theorem parse_secret_key_never_decrypted_witness :
    ∃ s j, spgp_parse_secret_key null_env
        [4, 0, 0, 0, 1, 17, 0, 1, 1, 0, 1, 1, 0, 1, 1, 0, 1, 1, 0, 0, 1, 1] 0 22 none
        = (some s, .ok j) ∧ s.s2kEncryption = 0 ∧
      s.isDecrypted = 0 ∧
      (s.s2kEncryption = 0 →
        s.pub.asymAlgo = ASYM_ALGO_DSA ∧ s.pub.mpis.length = 5 ∧ s.pub.mpiCount = 5) ∧
      (s.s2kEncryption ≠ 0 →
        s.pub.mpis.length = (if s.pub.asymAlgo = ASYM_ALGO_DSA then 4 else 3) ∧
        ∃ d, s.encryptedData = some d ∧ d ≠ [] ∧ d.length = s.encryptedDataLength) :=
  ⟨{ pub := { version := 4, creationTime := 16777216, asymAlgo := 17,
              mpis := [⟨[0, 1, 1], 1, 1⟩, ⟨[0, 1, 1], 1, 1⟩, ⟨[0, 1, 1], 1, 1⟩,
                       ⟨[0, 1, 1], 1, 1⟩, ⟨[0, 1, 1], 1, 1⟩],
              mpiCount := 5, fingerprint := some (List.replicate 20 0) } },
   21, by decide, rfl,
   parse_secret_key_never_decrypted null_env
     [4, 0, 0, 0, 1, 17, 0, 1, 1, 0, 1, 1, 0, 1, 1, 0, 1, 1, 0, 0, 1, 1] 0 22 21 none _
     (by decide) (by decide) (by decide)⟩

/-! ### Secret-key decryption -/

theorem memcmp_sign_self : ∀ (a : List Nat), memcmp_sign a a = 0 := by
  intro a
  induction a with
  | nil => rfl
  | cons x xs ih => simp [memcmp_sign, ih]

theorem memcmp_self (env : Env) (a : List Nat) : int_to_u8 (memcmp env a a) = 0 := by
  simp [memcmp, memcmp_sign_self, int_to_u8]

theorem memcmp_sign_ne : ∀ (a b : List Nat), a.length = b.length →
    (∀ x ∈ a, x < 256) → (∀ y ∈ b, y < 256) → a ≠ b →
    memcmp_sign a b = 1 ∨ memcmp_sign a b = -1 := by
  intro a
  induction a with
  | nil =>
    intro b hl _ _ hne
    have : b = [] := List.length_eq_zero.mp hl.symm
    exact absurd this.symm hne
  | cons x xs ih =>
    intro b hl ha hb hne
    cases b with
    | nil => simp at hl
    | cons y ys =>
      have hx := ha x (List.mem_cons_self _ _)
      have hy := hb y (List.mem_cons_self _ _)
      by_cases hxy : x = y
      · subst hxy
        have hne2 : xs ≠ ys := fun e => hne (by rw [e])
        have := ih ys (by simpa using hl) (fun z hz => ha z (List.mem_cons_of_mem _ hz))
          (fun z hz => hb z (List.mem_cons_of_mem _ hz)) hne2
        simpa [memcmp_sign] using this
      · have hm : ¬ x % 256 = y % 256 := by
          rw [Nat.mod_eq_of_lt hx, Nat.mod_eq_of_lt hy]; exact hxy
        simp only [memcmp_sign, hm, if_false]
        by_cases hlt : x % 256 < y % 256
        · right
          rw [if_pos hlt]
        · left
          rw [if_neg hlt]

theorem memcmp_ne (env : Env) (a b : List Nat) (hl : a.length = b.length)
    (ha : ∀ x ∈ a, x < 256) (hb : ∀ y ∈ b, y < 256) (hne : a ≠ b) :
    memcmp env a b ≠ 0 := by
  unfold memcmp
  rcases memcmp_sign_ne a b hl ha hb hne with e | e <;> rw [e] <;> omega

theorem verify_decrypted_data_eq (env : Env) (plain : List Nat) (hopen : env.md_open = true)
    (h20 : 20 ≤ plain.length) (hlen : plain.length < U32) (hb : ∀ b ∈ plain, b < 256) :
    spgp_verify_decrypted_data env plain
      = .ok (int_to_u8 (memcmp env (plain.drop (plain.length - 20))
          ((env.sha1 (plain.take (plain.length - 20))).take 20))) := by
  have hs : sub32 plain.length 20 = plain.length - 20 := sub32_eq _ _ h20 hlen
  have hbody : rdN plain 0 (plain.length - 20) = .ok (plain.take (plain.length - 20)) := by
    by_cases h0 : plain.length - 20 = 0
    · simp [rdN, h0]
    · rw [rdN_ok plain 0 _ h0 (by omega), List.drop_zero,
        map_mod_of_bytes _ (fun b h => hb b (List.mem_of_mem_take h))]
  have htr : rdN plain (plain.length - 20) 20 = .ok (plain.drop (plain.length - 20)) := by
    rw [rdN_ok plain _ 20 (by decide) (by omega),
      List.take_of_length_le (by rw [List.length_drop]; omega),
      map_mod_of_bytes _ (fun b h => hb b (List.mem_of_mem_drop h))]
  simp only [spgp_verify_decrypted_data, hopen, not_true_eq_false, if_false, hs, hbody, htr,
    Res.ok_bind, Res.pure_eq]

theorem generate_cipher_key_inv {env : Env} {type : Nat} {s s1 : SecretPkt}
    {pass : List Nat} (h : spgp_generate_cipher_key env type s pass = (s1, .ok ())) :
    env.md_open = true ∧
    (s.s2kEncryption = SYM_ALGO_3DES ∨ s.s2kEncryption = SYM_ALGO_CAST5) ∧
    ∃ key, s1 = { s with keyLength := if s.s2kEncryption = SYM_ALGO_3DES then 24 else 16,
                         key := some key } := by
  unfold spgp_generate_cipher_key at h
  by_cases h1 : type ≠ PKT_TYPE_SECRET_KEY ∧ type ≠ PKT_TYPE_SECRET_SUBKEY
  · rw [if_pos h1] at h
    simp only [Prod.mk.injEq] at h
    exact absurd h.2 (by simp)
  · rw [if_neg h1] at h
    by_cases h2 : s.s2kEncryption ≠ SYM_ALGO_3DES ∧ s.s2kEncryption ≠ SYM_ALGO_CAST5
    · rw [if_pos h2] at h
      simp only [Prod.mk.injEq] at h
      exact absurd h.2 (by simp)
    · rw [if_neg h2] at h
      dsimp only at h
      by_cases h3 : s.s2kHashAlgo ≠ HASH_ALGO_SHA1
      · rw [if_pos h3] at h
        simp only [Prod.mk.injEq] at h
        exact absurd h.2 (by simp)
      · rw [if_neg h3] at h
        by_cases h4 : ¬ env.md_open = true
        · rw [if_pos h4] at h
          simp only [Prod.mk.injEq] at h
          exact absurd h.2 (by simp)
        · rw [if_neg h4] at h
          by_cases h5 : s.s2kSpecifier ≠ S2K_TYPE_ITERATED
          · rw [if_pos h5] at h
            simp only [Prod.mk.injEq] at h
            exact absurd h.2 (by simp)
          · rw [if_neg h5] at h
            have halg : s.s2kEncryption = SYM_ALGO_3DES ∨ s.s2kEncryption = SYM_ALGO_CAST5 := by
              by_contra hc
              push_neg at hc
              exact h2 hc
            refine ⟨by simpa using h4, halg, ?_⟩
            revert h
            cases derive_key env _ pass _ with
            | ok key =>
              intro h
              simp only [Prod.mk.injEq] at h
              exact ⟨key, h.1.symm⟩
            | raise e =>
              intro h
              simp only [Prod.mk.injEq] at h
              exact absurd h.2 (by simp)
            | fault f =>
              intro h
              simp only [Prod.mk.injEq] at h
              exact absurd h.2 (by simp)

theorem decrypted_data_inv {env : Env} {p : Packet} {pass plain : List Nat}
    (h : decrypted_data env p pass = some plain) :
    ∃ hd s s1 key, p = { header := some hd, c := some (.secret s) } ∧ pass ≠ [] ∧
      (hd.type = PKT_TYPE_SECRET_KEY ∨ hd.type = PKT_TYPE_SECRET_SUBKEY) ∧
      s.isDecrypted = 0 ∧
      spgp_generate_cipher_key env hd.type s pass = (s1, .ok ()) ∧
      s1 = { s with keyLength := if s.s2kEncryption = SYM_ALGO_3DES then 24 else 16,
                    key := some key } ∧
      env.md_open = true ∧
      decrypt_secret_fields env s1 = store_secret_mpis env s1 plain ∧
      plain.length = s.encryptedDataLength := by
  unfold decrypted_data at h
  by_cases hl : pass.length = 0
  · rw [if_pos hl] at h
    exact Option.noConfusion h
  rw [if_neg hl] at h
  have hpass : pass ≠ [] := fun e => hl (by rw [e]; rfl)
  obtain ⟨ph, pc⟩ := p
  cases ph with
  | none => simp at h
  | some hd =>
    cases pc with
    | none => simp at h
    | some b =>
      cases b with
      | userid u => simp at h
      | pub u => simp at h
      | session u => simp at h
      | secret s =>
        dsimp only at h
        by_cases hnt : hd.type ≠ PKT_TYPE_SECRET_KEY ∧ hd.type ≠ PKT_TYPE_SECRET_SUBKEY
        · rw [if_pos hnt] at h
          exact Option.noConfusion h
        rw [if_neg hnt] at h
        have hty : hd.type = PKT_TYPE_SECRET_KEY ∨ hd.type = PKT_TYPE_SECRET_SUBKEY := by
          by_contra hc
          push_neg at hc
          exact hnt hc
        by_cases hdec : s.isDecrypted ≠ 0
        · rw [if_pos hdec] at h
          exact Option.noConfusion h
        rw [if_neg hdec] at h
        have hdec0 : s.isDecrypted = 0 := by
          by_contra hc
          exact hdec hc
        rcases hg : spgp_generate_cipher_key env hd.type s pass with ⟨s1, r⟩
        rw [hg] at h
        cases r with
        | raise e => simp at h
        | fault f => simp at h
        | ok u =>
          cases u
          obtain ⟨hopen, halg, key, hs1⟩ := generate_cipher_key_inv hg
          have henc : s1.s2kEncryption = s.s2kEncryption := by rw [hs1]
          have hnot : ¬ (s1.s2kEncryption ≠ SYM_ALGO_3DES ∧
              s1.s2kEncryption ≠ SYM_ALGO_CAST5) := by
            rw [henc]
            rcases halg with e | e <;> simp [e]
          dsimp only at h
          by_cases hco :
              ¬ env.cipher_open (spgp_pgp_to_gcrypt_symmetric_algo s1.s2kEncryption) = true
          · rw [if_pos hco] at h
            exact Option.noConfusion h
          · rw [if_neg hco] at h
            cases hk : s1.key with
            | none => simp [hk] at h
            | some k =>
              cases hiv : s1.iv with
              | none => simp [hk, hiv] at h
              | some iv =>
                cases hc : env.cfb_decrypt_iv
                    (spgp_pgp_to_gcrypt_symmetric_algo s1.s2kEncryption)
                    k s1.keyLength iv s1.ivLength with
                | none => simp [hk, hiv, hc] at h
                | some dec =>
                  cases hl2 : load_block s1.encryptedData s1.encryptedDataLength with
                  | raise e => simp [hk, hiv, hl2, hc] at h
                  | fault f => simp [hk, hiv, hl2, hc] at h
                  | ok input =>
                    cases hd2 : dec input with
                    | none => simp [hk, hiv, hl2, hc, hd2] at h
                    | some out =>
                      simp only [hk, hiv, hl2, hc, hd2, Option.map_some',
                        Option.some.injEq] at h
                      refine ⟨hd, s, s1, key, rfl, hpass, hty, hdec0, hg, hs1, hopen, ?_, ?_⟩
                      · unfold decrypt_secret_fields
                        rw [if_neg hnot, if_neg hco]
                        simp only [hk, hiv, hl2, hc, hd2, h]
                      · rw [← h]
                        have : s1.encryptedDataLength = s.encryptedDataLength := by rw [hs1]
                        rw [this]
                        simp

theorem decrypt_secret_key_step (env : Env) (h : Header) (s s1 : SecretPkt)
    (pass : List Nat) (hpass : pass ≠ [])
    (hty : h.type = PKT_TYPE_SECRET_KEY ∨ h.type = PKT_TYPE_SECRET_SUBKEY)
    (hdec : s.isDecrypted = 0)
    (hg : spgp_generate_cipher_key env h.type s pass = (s1, .ok ())) :
    spgp_decrypt_secret_key env { header := some h, c := some (.secret s) } pass
      = (match decrypt_secret_fields env s1 with
         | .ok s2 => ({ header := some h, c := some (.secret s2) }, .ok 0)
         | .raise e => ({ header := some h, c := some (.secret s1) }, .raise e)
         | .fault f => ({ header := some h, c := some (.secret s1) }, .fault f)) := by
  have hl : pass.length ≠ 0 := fun e => hpass (List.length_eq_zero.mp e)
  have hnt : ¬ (h.type ≠ PKT_TYPE_SECRET_KEY ∧ h.type ≠ PKT_TYPE_SECRET_SUBKEY) := by
    rcases hty with e | e <;> simp [e]
  unfold spgp_decrypt_secret_key
  rw [if_neg hl]
  dsimp only
  rw [if_neg hnt]
  simp only [hdec, ne_eq, not_true_eq_false, if_false, hg]

theorem store_secret_mpis_inv {env : Env} {s s2 : SecretPkt} {plain : List Nat}
    (h : store_secret_mpis env s plain = .ok s2) :
    ∃ m, s2 = { s with pub := { s.pub with mpis := s.pub.mpis ++ [m],
                                           mpiCount := s.pub.mpiCount + 1 },
                       isDecrypted := 1 } := by
  unfold store_secret_mpis at h
  simp only [Res.bind_eq_ok] at h
  obtain ⟨v, _, h⟩ := h
  split_ifs at h with h1 h2 h3
  simp only [Res.bind_eq_ok, Res.pure_eq, Res.ok.injEq] at h
  obtain ⟨r, _, e⟩ := h
  exact ⟨r.1, e.symm⟩

theorem decrypt_secret_fields_inv {env : Env} {s s2 : SecretPkt}
    (h : decrypt_secret_fields env s = .ok s2) : s2.isDecrypted = 1 := by
  unfold decrypt_secret_fields at h
  split_ifs at h with h1 h2
  cases hk : s.key with
  | none => simp [hk] at h
  | some k =>
    cases hiv : s.iv with
    | none => simp [hk, hiv] at h
    | some iv =>
      cases hc : env.cfb_decrypt_iv (spgp_pgp_to_gcrypt_symmetric_algo s.s2kEncryption)
          k s.keyLength iv s.ivLength with
      | none => simp [hk, hiv, hc] at h
      | some dec =>
        cases hl : load_block s.encryptedData s.encryptedDataLength with
        | raise e => simp [hk, hiv, hl, hc] at h
        | fault f => simp [hk, hiv, hl, hc] at h
        | ok input =>
          cases hd : dec input with
          | none => simp [hk, hiv, hl, hc, hd] at h
          | some out =>
            simp only [hk, hiv, hl, hc, hd] at h
            obtain ⟨m, e⟩ := store_secret_mpis_inv h
            rw [e]

/-- C15 (counterexample): a secret-key packet whose decrypted data `FF FF 00 .. 00`
ends with a 20-byte trailer that equals the digest of the two bytes before it (the
collaborators of `null_env` return an all-zero digest and the ciphertext as
plaintext).  The two bytes announce an MPI of 65535 bits, and `spgp_read_mpi` copies
its 8194 bytes from the 22-byte plaintext: a load outside the buffer, not a success. -/
theorem decrypt_secret_key_mpi_overrun :
    decrypted_data null_env (sample_secret_packet (0xFF :: 0xFF :: List.replicate 20 0))
        [0x74, 0x65, 0x73, 0x74]
      = some (0xFF :: 0xFF :: List.replicate 20 0) ∧
    trailer_valid null_env (0xFF :: 0xFF :: List.replicate 20 0) ∧
    (spgp_decrypt_secret_key null_env
        (sample_secret_packet (0xFF :: 0xFF :: List.replicate 20 0))
        [0x74, 0x65, 0x73, 0x74]).2 = .fault (.oobRead 22) := by
  decide

/-- C15 (amended): for every encrypted secret-key packet, with a DSA or Elgamal key and
a non-empty MPI list, whose decrypted data under the passphrase ends with a 20-byte
trailer equal to the SHA-1 of the preceding bytes and begins with an MPI that lies
within the decrypted data, `spgp_decrypt_secret_key` succeeds: it appends exactly one
MPI, read from offset 0 of the plaintext, to the end of the MPI list and leaves the
MPIs before it unchanged, increases `mpiCount` by one (3 to 4 for the three public MPIs
of Elgamal, 4 to 5 for the four of DSA), sets `isDecrypted`, stores the derived key,
and changes nothing else. -/
theorem decrypt_secret_key_valid_trailer (env : Env) (h : Header) (s : SecretPkt)
    (pass plain : List Nat)
    (halg : s.pub.asymAlgo = ASYM_ALGO_DSA ∨ s.pub.asymAlgo = ASYM_ALGO_ELGAMAL)
    (hmpis : s.pub.mpis ≠ [])
    (hdata : decrypted_data env { header := some h, c := some (.secret s) } pass
      = some plain)
    (hbytes : ∀ b ∈ plain, b < 256) (hlen : plain.length < U32)
    (htr : trailer_valid env plain)
    (hmpi : (plain.getD 0 0 * 256 + plain.getD 1 0 + 7) / 8 + 2 ≤ plain.length) :
    ∃ key m,
      spgp_decrypt_secret_key env { header := some h, c := some (.secret s) } pass
        = ({ header := some h,
             c := some (.secret
               { s with keyLength := if s.s2kEncryption = SYM_ALGO_3DES then 24 else 16,
                        key := some key,
                        pub := { s.pub with mpis := s.pub.mpis ++ [m],
                                            mpiCount := s.pub.mpiCount + 1 },
                        isDecrypted := 1 }) }, .ok 0) ∧
      spgp_read_mpi plain 0 = .ok (m, m.count + 1) ∧
      m.bits = plain.getD 0 0 * 256 + plain.getD 1 0 ∧
      m.data = plain.take (m.count + 2) := by
  obtain ⟨h0, s0, s1, key, hp, hpass, hty, hdec, hg, hs1, hopen, hfields, hpl⟩ :=
    decrypted_data_inv hdata
  simp only [Packet.mk.injEq, Option.some.injEq, Body.secret.injEq] at hp
  obtain ⟨hp1, hp2⟩ := hp
  subst hp1 hp2
  obtain ⟨h20, htrail⟩ := htr
  have hb0 : plain.getD 0 0 % 256 = plain.getD 0 0 :=
    Nat.mod_eq_of_lt (byte_at hbytes (j := 0) (by omega)).2
  have hb1 : plain.getD 1 0 % 256 = plain.getD 1 0 :=
    Nat.mod_eq_of_lt (byte_at hbytes (j := 1) (by omega)).2
  have hv := verify_decrypted_data_eq env plain hopen h20 hlen hbytes
  have htake : (env.sha1 (plain.take (plain.length - 20))).take 20
      = plain.drop (plain.length - 20) := by
    rw [← htrail]
    exact List.take_of_length_le (by rw [List.length_drop]; omega)
  rw [htake, memcmp_self] at hv
  have hr := read_mpi_ok plain 0 hlen (by
    simp only [Nat.zero_add, hb0, hb1]
    omega)
  simp only [Nat.zero_add, hb0, hb1, List.drop_zero] at hr
  rw [map_mod_of_bytes _ (fun b hb => hbytes b (List.mem_of_mem_take hb))] at hr
  have hpubs : s1.pub = s.pub := by rw [hs1]
  have hnalg : ¬ (s1.pub.asymAlgo ≠ ASYM_ALGO_DSA ∧ s1.pub.asymAlgo ≠ ASYM_ALGO_ELGAMAL) := by
    rw [hpubs]
    rcases halg with e | e <;> simp [e]
  have hne : ¬ s1.pub.mpis.isEmpty = true := by
    rw [hpubs]
    simpa using hmpis
  have hstore : store_secret_mpis env s1 plain
      = .ok { s1 with
                pub := { s1.pub with
                  mpis := s1.pub.mpis ++
                    [{ data := plain.take ((plain.getD 0 0 * 256 + plain.getD 1 0 + 7) / 8 + 2),
                       bits := plain.getD 0 0 * 256 + plain.getD 1 0,
                       count := (plain.getD 0 0 * 256 + plain.getD 1 0 + 7) / 8 }],
                  mpiCount := s1.pub.mpiCount + 1 },
                isDecrypted := 1 } := by
    unfold store_secret_mpis
    simp only [hv, Res.ok_bind, ne_eq, not_true_eq_false, if_false, hnalg, hne, hr,
      Res.pure_eq, Bool.false_eq_true]
  refine ⟨key, _, ?_, hr, rfl, rfl⟩
  rw [decrypt_secret_key_step env h s s1 pass hpass hty hdec hg, hfields, hstore, hs1]

/-- Witness of C15 (amended): the sample packet whose decrypted data is the MPI
`00 01 01` followed by an all-zero trailer, under the collaborators of `null_env`. -/
theorem decrypt_secret_key_valid_trailer_witness :
    ∃ key m,
      spgp_decrypt_secret_key null_env
          { header := some (sample_secret_header (0 :: 1 :: 1 :: List.replicate 20 0)),
            c := some (.secret (sample_secret_body (0 :: 1 :: 1 :: List.replicate 20 0))) }
          [0x74, 0x65, 0x73, 0x74]
        = ({ header := some (sample_secret_header (0 :: 1 :: 1 :: List.replicate 20 0)),
             c := some (.secret
               { sample_secret_body (0 :: 1 :: 1 :: List.replicate 20 0) with
                   keyLength :=
                     if (sample_secret_body (0 :: 1 :: 1 :: List.replicate 20 0)).s2kEncryption
                        = SYM_ALGO_3DES then 24 else 16,
                   key := some key,
                   pub := { (sample_secret_body (0 :: 1 :: 1 :: List.replicate 20 0)).pub with
                     mpis := (sample_secret_body
                       (0 :: 1 :: 1 :: List.replicate 20 0)).pub.mpis ++ [m],
                     mpiCount := (sample_secret_body
                       (0 :: 1 :: 1 :: List.replicate 20 0)).pub.mpiCount + 1 },
                   isDecrypted := 1 }) }, .ok 0) ∧
      spgp_read_mpi (0 :: 1 :: 1 :: List.replicate 20 0) 0 = .ok (m, m.count + 1) ∧
      m.bits = (0 :: 1 :: 1 :: List.replicate 20 0).getD 0 0 * 256
        + (0 :: 1 :: 1 :: List.replicate 20 0).getD 1 0 ∧
      m.data = (0 :: 1 :: 1 :: List.replicate 20 0).take (m.count + 2) :=
  decrypt_secret_key_valid_trailer null_env
    (sample_secret_header (0 :: 1 :: 1 :: List.replicate 20 0))
    (sample_secret_body (0 :: 1 :: 1 :: List.replicate 20 0))
    [0x74, 0x65, 0x73, 0x74] (0 :: 1 :: 1 :: List.replicate 20 0)
    (by decide) (by decide) (by decide) (by decide) (by decide) (by decide) (by decide)

theorem decrypt_walk_secret (env : Env) (pass : List Nat) (p : Packet) (h : Header)
    (rest : List Packet) (hh : p.header = some h)
    (hty : h.type = PKT_TYPE_SECRET_KEY ∨ h.type = PKT_TYPE_SECRET_SUBKEY) :
    decrypt_walk env pass (p :: rest)
      = (match spgp_decrypt_secret_key env p pass with
         | (p1, .ok _) =>
           ((p1 :: (decrypt_walk env pass rest).1), (decrypt_walk env pass rest).2)
         | (p1, .raise e) => (p1 :: rest, .raise e)
         | (p1, .fault f) => (p1 :: rest, .fault f)) := by
  rw [decrypt_walk]
  simp only [hh, hty, if_true]

theorem null_env_sha1_bytes : sha1_bytes null_env := by
  intro x
  refine ⟨rfl, ?_⟩
  intro b hb
  have e : b = 0 := List.eq_of_mem_replicate hb
  omega

theorem wide_memcmp_env_sha1_bytes : sha1_bytes wide_memcmp_env := by
  intro x
  refine ⟨rfl, ?_⟩
  intro b hb
  have e : b = 0 := List.eq_of_mem_replicate hb
  omega

theorem verify_mismatch_eq (env : Env) (plain : List Nat) (hsha : sha1_bytes env)
    (hopen : env.md_open = true) (h20 : 20 ≤ plain.length) (hlen : plain.length < U32)
    (hb : ∀ b ∈ plain, b < 256) :
    spgp_verify_decrypted_data env plain
      = .ok (int_to_u8 (memcmp env (plain.drop (plain.length - 20))
          (env.sha1 (plain.take (plain.length - 20))))) := by
  have hv := verify_decrypted_data_eq env plain hopen h20 hlen hb
  have htake : (env.sha1 (plain.take (plain.length - 20))).take 20
      = env.sha1 (plain.take (plain.length - 20)) :=
    List.take_of_length_le (by rw [(hsha (plain.take (plain.length - 20))).1])
  rw [htake] at hv
  exact hv

theorem decrypt_secret_key_rejects (env : Env) (h : Header) (s : SecretPkt)
    (pass plain : List Nat) (post : List Packet) (hsha : sha1_bytes env)
    (hdata : decrypted_data env { header := some h, c := some (.secret s) } pass
      = some plain)
    (hbytes : ∀ b ∈ plain, b < 256) (hlen : plain.length < U32) (h20 : 20 ≤ plain.length)
    (hm : int_to_u8 (memcmp env (plain.drop (plain.length - 20))
      (env.sha1 (plain.take (plain.length - 20)))) ≠ 0) :
    ∃ s1,
      spgp_decrypt_secret_key env { header := some h, c := some (.secret s) } pass
        = ({ header := some h, c := some (.secret s1) }, .raise .DECRYPT_FAILED) ∧
      s1.isDecrypted = 0 ∧ s1.pub = s.pub ∧ s1.encryptedData = s.encryptedData ∧
      s1.encryptedDataLength = s.encryptedDataLength ∧
      spgp_decrypt_all_secret_keys env ({ header := some h, c := some (.secret s) } :: post)
          (some pass)
        = .ok { chain := { header := some h, c := some (.secret s1) } :: post,
                raised := some .DECRYPT_FAILED, ret := 0 } := by
  obtain ⟨h0, s0, s1, key, hp, hpass, hty, hdec, hg, hs1, hopen, hfields, hpl⟩ :=
    decrypted_data_inv hdata
  simp only [Packet.mk.injEq, Option.some.injEq, Body.secret.injEq] at hp
  obtain ⟨hp1, hp2⟩ := hp
  subst hp1 hp2
  have hv := verify_mismatch_eq env plain hsha hopen h20 hlen hbytes
  have hstore : store_secret_mpis env s1 plain = .raise .DECRYPT_FAILED := by
    unfold store_secret_mpis
    simp only [hv, Res.ok_bind, ne_eq, hm, not_false_eq_true, if_true]
  have hstep : spgp_decrypt_secret_key env { header := some h, c := some (.secret s) } pass
      = ({ header := some h, c := some (.secret s1) }, .raise .DECRYPT_FAILED) := by
    rw [decrypt_secret_key_step env h s s1 pass hpass hty hdec hg, hfields, hstore]
  refine ⟨s1, hstep, ?_, ?_, ?_, ?_, ?_⟩
  · rw [hs1]; exact hdec
  · rw [hs1]
  · rw [hs1]
  · rw [hs1]
  · have hl : pass.length ≠ 0 := fun e => hpass (List.length_eq_zero.mp e)
    have hw := decrypt_walk_secret env pass { header := some h, c := some (.secret s) } h
      post rfl hty
    rw [hstep] at hw
    simp only [spgp_decrypt_all_secret_keys, List.isEmpty_cons, Bool.false_eq_true, hl,
      or_self, if_false, hw]

theorem decrypt_secret_key_accepts (env : Env) (h : Header) (s : SecretPkt)
    (pass plain : List Nat) (hsha : sha1_bytes env)
    (hdata : decrypted_data env { header := some h, c := some (.secret s) } pass
      = some plain)
    (hbytes : ∀ b ∈ plain, b < 256) (hlen : plain.length < U32) (h20 : 20 ≤ plain.length)
    (hm : int_to_u8 (memcmp env (plain.drop (plain.length - 20))
      (env.sha1 (plain.take (plain.length - 20)))) = 0)
    (halg : s.pub.asymAlgo = ASYM_ALGO_DSA ∨ s.pub.asymAlgo = ASYM_ALGO_ELGAMAL)
    (hmpis : s.pub.mpis ≠ [])
    (hmpi : (plain.getD 0 0 * 256 + plain.getD 1 0 + 7) / 8 + 2 ≤ plain.length) :
    ∃ key m,
      spgp_decrypt_secret_key env { header := some h, c := some (.secret s) } pass
        = ({ header := some h,
             c := some (.secret
               { s with keyLength := if s.s2kEncryption = SYM_ALGO_3DES then 24 else 16,
                        key := some key,
                        pub := { s.pub with mpis := s.pub.mpis ++ [m],
                                            mpiCount := s.pub.mpiCount + 1 },
                        isDecrypted := 1 }) }, .ok 0) ∧
      spgp_read_mpi plain 0 = .ok (m, m.count + 1) := by
  obtain ⟨h0, s0, s1, key, hp, hpass, hty, hdec, hg, hs1, hopen, hfields, hpl⟩ :=
    decrypted_data_inv hdata
  simp only [Packet.mk.injEq, Option.some.injEq, Body.secret.injEq] at hp
  obtain ⟨hp1, hp2⟩ := hp
  subst hp1 hp2
  have hb0 : plain.getD 0 0 % 256 = plain.getD 0 0 :=
    Nat.mod_eq_of_lt (byte_at hbytes (j := 0) (by omega)).2
  have hb1 : plain.getD 1 0 % 256 = plain.getD 1 0 :=
    Nat.mod_eq_of_lt (byte_at hbytes (j := 1) (by omega)).2
  have hv := verify_mismatch_eq env plain hsha hopen h20 hlen hbytes
  rw [hm] at hv
  have hr := read_mpi_ok plain 0 hlen (by
    simp only [Nat.zero_add, hb0, hb1]
    omega)
  simp only [Nat.zero_add, hb0, hb1, List.drop_zero] at hr
  rw [map_mod_of_bytes _ (fun b hb => hbytes b (List.mem_of_mem_take hb))] at hr
  have hpubs : s1.pub = s.pub := by rw [hs1]
  have hnalg : ¬ (s1.pub.asymAlgo ≠ ASYM_ALGO_DSA ∧ s1.pub.asymAlgo ≠ ASYM_ALGO_ELGAMAL) := by
    rw [hpubs]
    rcases halg with e | e <;> simp [e]
  have hne : ¬ s1.pub.mpis.isEmpty = true := by
    rw [hpubs]
    simpa using hmpis
  have hstore : store_secret_mpis env s1 plain
      = .ok { s1 with
                pub := { s1.pub with
                  mpis := s1.pub.mpis ++
                    [{ data := plain.take ((plain.getD 0 0 * 256 + plain.getD 1 0 + 7) / 8 + 2),
                       bits := plain.getD 0 0 * 256 + plain.getD 1 0,
                       count := (plain.getD 0 0 * 256 + plain.getD 1 0 + 7) / 8 }],
                  mpiCount := s1.pub.mpiCount + 1 },
                isDecrypted := 1 } := by
    unfold store_secret_mpis
    simp only [hv, Res.ok_bind, ne_eq, not_true_eq_false, if_false, hnalg, hne, hr,
      Res.pure_eq, Bool.false_eq_true]
  refine ⟨key, _, ?_, hr⟩
  rw [decrypt_secret_key_step env h s s1 pass hpass hty hdec hg, hfields, hstore, hs1]

/-- C16: the check of the SHA-1 trailer in `spgp_decrypt_secret_key`.  For every
encrypted secret-key packet and every passphrase under which the decrypted data has at
least 20 bytes whose last 20 differ from the SHA-1 of the preceding bytes, `memcmp`
returns a non-zero `int`, and `spgp_verify_decrypted_data` hands it back through its
`uint8_t` result, as that value modulo 256.  When the value modulo 256 is not zero,
`DECRYPT_FAILED` is raised, the packet keeps `isDecrypted = 0`, its public body with
the MPI list and `mpiCount`, and its `encryptedData`, and the packets after it are not
touched.  When the value is a multiple of 256 the mismatch goes unnoticed: for a DSA or
Elgamal key whose decrypted data begins with an MPI that lies within it, the function
returns 0, appends that MPI and sets `isDecrypted`.  Under the collaborators of
`wide_memcmp_env`, whose `memcmp` returns 256 for the trailer `00 .. 00 01` and the
all-zero digest, the sample packet is returned as decrypted with 4 MPIs. -/
theorem decrypt_secret_key_trailer_mismatch (env : Env) (h : Header) (s : SecretPkt)
    (pass plain : List Nat) (post : List Packet) (hsha : sha1_bytes env)
    (hdata : decrypted_data env { header := some h, c := some (.secret s) } pass
      = some plain)
    (hbytes : ∀ b ∈ plain, b < 256) (hlen : plain.length < U32) (h20 : 20 ≤ plain.length)
    (hne : plain.drop (plain.length - 20) ≠ env.sha1 (plain.take (plain.length - 20))) :
    memcmp env (plain.drop (plain.length - 20))
      (env.sha1 (plain.take (plain.length - 20))) ≠ 0 ∧
    spgp_verify_decrypted_data env plain
      = .ok (int_to_u8 (memcmp env (plain.drop (plain.length - 20))
          (env.sha1 (plain.take (plain.length - 20))))) ∧
    (int_to_u8 (memcmp env (plain.drop (plain.length - 20))
        (env.sha1 (plain.take (plain.length - 20)))) ≠ 0 →
      ∃ s1,
        spgp_decrypt_secret_key env { header := some h, c := some (.secret s) } pass
          = ({ header := some h, c := some (.secret s1) }, .raise .DECRYPT_FAILED) ∧
        s1.isDecrypted = 0 ∧ s1.pub = s.pub ∧ s1.encryptedData = s.encryptedData ∧
        s1.encryptedDataLength = s.encryptedDataLength ∧
        spgp_decrypt_all_secret_keys env
            ({ header := some h, c := some (.secret s) } :: post) (some pass)
          = .ok { chain := { header := some h, c := some (.secret s1) } :: post,
                  raised := some .DECRYPT_FAILED, ret := 0 }) ∧
    (int_to_u8 (memcmp env (plain.drop (plain.length - 20))
        (env.sha1 (plain.take (plain.length - 20)))) = 0 →
      (s.pub.asymAlgo = ASYM_ALGO_DSA ∨ s.pub.asymAlgo = ASYM_ALGO_ELGAMAL) →
      s.pub.mpis ≠ [] →
      (plain.getD 0 0 * 256 + plain.getD 1 0 + 7) / 8 + 2 ≤ plain.length →
      ∃ key m,
        spgp_decrypt_secret_key env { header := some h, c := some (.secret s) } pass
          = ({ header := some h,
               c := some (.secret
                 { s with keyLength := if s.s2kEncryption = SYM_ALGO_3DES then 24 else 16,
                          key := some key,
                          pub := { s.pub with mpis := s.pub.mpis ++ [m],
                                              mpiCount := s.pub.mpiCount + 1 },
                          isDecrypted := 1 }) }, .ok 0) ∧
        spgp_read_mpi plain 0 = .ok (m, m.count + 1)) ∧
    (memcmp wide_memcmp_env (List.replicate 19 0 ++ [1]) (List.replicate 20 0) = 256 ∧
      (spgp_decrypt_secret_key wide_memcmp_env
          (sample_secret_packet ([0, 1, 1] ++ List.replicate 19 0 ++ [1]))
          [0x77, 0x72, 0x6F, 0x6E, 0x67]).2 = .ok 0 ∧
      (match (spgp_decrypt_secret_key wide_memcmp_env
          (sample_secret_packet ([0, 1, 1] ++ List.replicate 19 0 ++ [1]))
          [0x77, 0x72, 0x6F, 0x6E, 0x67]).1.c with
       | some (.secret s1) => s1.isDecrypted == 1 && s1.pub.mpiCount == 4
       | _ => false) = true) := by
  have hsl := (hsha (plain.take (plain.length - 20))).1
  obtain ⟨_, _, _, _, _, _, _, _, _, _, hopen, _, _⟩ := decrypted_data_inv hdata
  refine ⟨?_, verify_mismatch_eq env plain hsha hopen h20 hlen hbytes,
    decrypt_secret_key_rejects env h s pass plain post hsha hdata hbytes hlen h20,
    fun hm halg hmpis hmpi =>
      decrypt_secret_key_accepts env h s pass plain hsha hdata hbytes hlen h20 hm halg hmpis
        hmpi,
    by decide⟩
  exact memcmp_ne env _ _ (by rw [List.length_drop, hsl]; omega)
    (fun x hx => hbytes x (List.mem_of_mem_drop hx))
    (hsha (plain.take (plain.length - 20))).2 hne

/-- Witness of C16: the sample packet whose decrypted data is the MPI `00 01 01`
followed by a trailer that ends in 1, under the collaborators of `wide_memcmp_env`,
whose digest is all zero and whose `memcmp` returns 256 for this trailer. -/
theorem decrypt_secret_key_trailer_mismatch_witness :
    ∃ key m,
      spgp_decrypt_secret_key wide_memcmp_env
          { header := some (sample_secret_header ([0, 1, 1] ++ List.replicate 19 0 ++ [1])),
            c := some (.secret
              (sample_secret_body ([0, 1, 1] ++ List.replicate 19 0 ++ [1]))) }
          [0x77, 0x72, 0x6F, 0x6E, 0x67]
        = ({ header := some (sample_secret_header ([0, 1, 1] ++ List.replicate 19 0 ++ [1])),
             c := some (.secret
               { sample_secret_body ([0, 1, 1] ++ List.replicate 19 0 ++ [1]) with
                   keyLength :=
                     if (sample_secret_body
                          ([0, 1, 1] ++ List.replicate 19 0 ++ [1])).s2kEncryption
                        = SYM_ALGO_3DES then 24 else 16,
                   key := some key,
                   pub := { (sample_secret_body
                              ([0, 1, 1] ++ List.replicate 19 0 ++ [1])).pub with
                     mpis := (sample_secret_body
                       ([0, 1, 1] ++ List.replicate 19 0 ++ [1])).pub.mpis ++ [m],
                     mpiCount := (sample_secret_body
                       ([0, 1, 1] ++ List.replicate 19 0 ++ [1])).pub.mpiCount + 1 },
                   isDecrypted := 1 }) }, .ok 0) ∧
      spgp_read_mpi ([0, 1, 1] ++ List.replicate 19 0 ++ [1]) 0 = .ok (m, m.count + 1) :=
  (decrypt_secret_key_trailer_mismatch wide_memcmp_env
    (sample_secret_header ([0, 1, 1] ++ List.replicate 19 0 ++ [1]))
    (sample_secret_body ([0, 1, 1] ++ List.replicate 19 0 ++ [1]))
    [0x77, 0x72, 0x6F, 0x6E, 0x67] ([0, 1, 1] ++ List.replicate 19 0 ++ [1]) []
    wide_memcmp_env_sha1_bytes (by decide) (by decide) (by decide) (by decide)
    (by decide)).2.2.2.1 (by decide) (by decide) (by decide) (by decide)

theorem decrypt_secret_key_ok_inv {env : Env} {p p1 : Packet} {pass : List Nat} {r : Nat}
    (h : spgp_decrypt_secret_key env p pass = (p1, .ok r)) :
    p1.header = p.header ∧ ∃ s1, p1.c = some (.secret s1) ∧ s1.isDecrypted ≠ 0 := by
  unfold spgp_decrypt_secret_key at h
  by_cases hl : pass.length = 0
  · rw [if_pos hl] at h
    simp only [Prod.mk.injEq] at h
    exact absurd h.2 (by simp)
  · rw [if_neg hl] at h
    cases hh : p.header with
    | none =>
      simp only [hh, Prod.mk.injEq] at h
      exact absurd h.2 (by simp)
    | some hd =>
      simp only [hh] at h
      by_cases ht : hd.type ≠ PKT_TYPE_SECRET_KEY ∧ hd.type ≠ PKT_TYPE_SECRET_SUBKEY
      · rw [if_pos ht] at h
        simp only [Prod.mk.injEq] at h
        exact absurd h.2 (by simp)
      · rw [if_neg ht] at h
        cases hc : p.c with
        | none =>
          simp only [hc, Prod.mk.injEq] at h
          exact absurd h.2 (by simp)
        | some b =>
          cases b with
          | secret s =>
            simp only [hc] at h
            by_cases hd0 : s.isDecrypted ≠ 0
            · rw [if_pos hd0] at h
              simp only [Prod.mk.injEq] at h
              rw [← h.1]
              exact ⟨hh, s, hc, hd0⟩
            · rw [if_neg hd0] at h
              rcases hg : spgp_generate_cipher_key env hd.type s pass with ⟨s1, res⟩
              rw [hg] at h
              cases res with
              | raise e =>
                simp only [Prod.mk.injEq] at h
                exact absurd h.2 (by simp)
              | fault f =>
                simp only [Prod.mk.injEq] at h
                exact absurd h.2 (by simp)
              | ok u =>
                cases u
                dsimp only at h
                cases hf : decrypt_secret_fields env s1 with
                | raise e =>
                  simp only [hf, Prod.mk.injEq] at h
                  exact absurd h.2 (by simp)
                | fault f =>
                  simp only [hf, Prod.mk.injEq] at h
                  exact absurd h.2 (by simp)
                | ok s2 =>
                  simp only [hf, Prod.mk.injEq] at h
                  rw [← h.1]
                  refine ⟨rfl, s2, rfl, ?_⟩
                  rw [decrypt_secret_fields_inv hf]
                  decide
          | userid u =>
            simp only [hc, Prod.mk.injEq] at h
            exact absurd h.2 (by simp)
          | pub u =>
            simp only [hc, Prod.mk.injEq] at h
            exact absurd h.2 (by simp)
          | session u =>
            simp only [hc, Prod.mk.injEq] at h
            exact absurd h.2 (by simp)

theorem decrypt_secret_key_decrypted (env : Env) (p : Packet) (h : Header) (s : SecretPkt)
    (pass : List Nat) (hpass : pass ≠ []) (hh : p.header = some h)
    (hty : h.type = PKT_TYPE_SECRET_KEY ∨ h.type = PKT_TYPE_SECRET_SUBKEY)
    (hc : p.c = some (.secret s)) (hd : s.isDecrypted ≠ 0) :
    spgp_decrypt_secret_key env p pass = (p, .ok 0) := by
  have hl : pass.length ≠ 0 := fun e => hpass (List.length_eq_zero.mp e)
  have hnt : ¬ (h.type ≠ PKT_TYPE_SECRET_KEY ∧ h.type ≠ PKT_TYPE_SECRET_SUBKEY) := by
    rcases hty with e | e <;> simp [e]
  unfold spgp_decrypt_secret_key
  rw [if_neg hl]
  simp only [hh, hc]
  rw [if_neg hnt, if_pos hd]

theorem decrypt_walk_idempotent (env : Env) (pass : List Nat) (hpass : pass ≠ []) :
    ∀ (chain chain1 : List Packet), decrypt_walk env pass chain = (chain1, .ok ()) →
      decrypt_walk env pass chain1 = (chain1, .ok ()) ∧ (chain ≠ [] → chain1 ≠ []) := by
  intro chain
  induction chain with
  | nil =>
    intro chain1 h
    simp only [decrypt_walk, Prod.mk.injEq] at h
    rw [← h.1]
    exact ⟨rfl, fun hn => hn⟩
  | cons p rest ih =>
    intro chain1 h
    rw [decrypt_walk] at h
    cases hh : p.header with
    | none =>
      simp only [hh, Prod.mk.injEq] at h
      exact absurd h.2 (by simp)
    | some hd =>
      simp only [hh] at h
      by_cases hty : hd.type = PKT_TYPE_SECRET_KEY ∨ hd.type = PKT_TYPE_SECRET_SUBKEY
      · rw [if_pos hty] at h
        rcases hk : spgp_decrypt_secret_key env p pass with ⟨p1, res⟩
        rw [hk] at h
        cases res with
        | raise e =>
          simp only [Prod.mk.injEq] at h
          exact absurd h.2 (by simp)
        | fault f =>
          simp only [Prod.mk.injEq] at h
          exact absurd h.2 (by simp)
        | ok r =>
          simp only [Prod.mk.injEq] at h
          obtain ⟨h1, h2⟩ := h
          obtain ⟨e1, s1, e2, e3⟩ := decrypt_secret_key_ok_inv hk
          have hrest := ih (decrypt_walk env pass rest).1 (by rw [← h2])
          have hstep := decrypt_secret_key_decrypted env p1 hd s1 pass hpass
            (by rw [e1, hh]) hty e2 e3
          rw [← h1]
          refine ⟨?_, fun _ => List.cons_ne_nil _ _⟩
          rw [decrypt_walk_secret env pass p1 hd _ (by rw [e1, hh]) hty, hstep]
          simp only [hrest.1]
      · rw [if_neg hty] at h
        simp only [Prod.mk.injEq] at h
        obtain ⟨h1, h2⟩ := h
        have hrest := ih (decrypt_walk env pass rest).1 (by rw [← h2])
        rw [← h1]
        refine ⟨?_, fun _ => List.cons_ne_nil _ _⟩
        rw [decrypt_walk]
        simp only [hh, hty, if_false, hrest.1]

/-- C17: for every chain and passphrase on which a first call of
`spgp_decrypt_all_secret_keys` returns without an error raised, a second call with the
same passphrase on the chain that the first call left also returns without an error
raised and leaves every packet as it is: the chain, the error slot and the returned
value of the second call are those of the first. -/
theorem decrypt_all_idempotent (env : Env) (chain : List Packet)
    (passphrase : Option (List Nat)) (chain1 : List Packet)
    (h : spgp_decrypt_all_secret_keys env chain passphrase
      = .ok { chain := chain1, raised := none, ret := 0 }) :
    spgp_decrypt_all_secret_keys env chain1 passphrase
      = .ok { chain := chain1, raised := none, ret := 0 } := by
  unfold spgp_decrypt_all_secret_keys at h
  cases passphrase with
  | none => simp at h
  | some pass =>
    simp only at h
    by_cases hc : chain.isEmpty = true ∨ pass.length = 0
    · rw [if_pos hc] at h
      simp at h
    · rw [if_neg hc] at h
      push_neg at hc
      have hpass : pass ≠ [] := fun e => hc.2 (by rw [e]; rfl)
      have hne : chain ≠ [] := fun e => hc.1 (by rw [e]; rfl)
      rcases hw : decrypt_walk env pass chain with ⟨c1, res⟩
      rw [hw] at h
      cases res with
      | raise e => simp at h
      | fault f => simp at h
      | ok u =>
        cases u
        simp only [Res.ok.injEq, DecryptAll.mk.injEq, and_true] at h
        subst h
        obtain ⟨hidem, hne1⟩ := decrypt_walk_idempotent env pass hpass chain c1 hw
        have hne2 : ¬ c1.isEmpty = true := by
          simpa using hne1 hne
        unfold spgp_decrypt_all_secret_keys
        simp [hne2, hc.2, hidem]

/-- Witness of C17: the chain of the sample packet whose decrypted data is the MPI
`00 01 01` followed by an all-zero trailer, under the collaborators of `null_env`; the
first call decrypts the key, the second call leaves the chain as it is. -/
theorem decrypt_all_idempotent_witness :
    ∃ chain1,
      spgp_decrypt_all_secret_keys null_env
          [sample_secret_packet (0 :: 1 :: 1 :: List.replicate 20 0)]
          (some [0x74, 0x65, 0x73, 0x74])
        = .ok { chain := chain1, raised := none, ret := 0 } ∧
      spgp_decrypt_all_secret_keys null_env chain1 (some [0x74, 0x65, 0x73, 0x74])
        = .ok { chain := chain1, raised := none, ret := 0 } :=
  ⟨(decrypt_walk null_env [0x74, 0x65, 0x73, 0x74]
      [sample_secret_packet (0 :: 1 :: 1 :: List.replicate 20 0)]).1,
   by decide,
   decrypt_all_idempotent null_env
     [sample_secret_packet (0 :: 1 :: 1 :: List.replicate 20 0)]
     (some [0x74, 0x65, 0x73, 0x74]) _ (by decide)⟩

/-- C18: `spgp_decrypt_all_secret_keys` returns 0 whenever it returns, because the
local `err` that it returns is never assigned after its initialisation.  It returns
0 with `INVALID_ARGS` raised for a null chain, a null passphrase and an empty
passphrase, with `DECRYPT_FAILED` raised for a trailer mismatch, and with
`FORMAT_UNSUPPORTED` raised for a key encrypted with AES-128. -/
theorem decrypt_all_always_returns_zero :
    (∀ env chain passphrase,
      returned_code (spgp_decrypt_all_secret_keys env chain passphrase) = some 0 ∨
      ∃ f, spgp_decrypt_all_secret_keys env chain passphrase = .fault f) ∧
    spgp_decrypt_all_secret_keys null_env [] (some [0x74])
      = .ok { chain := [], raised := some .INVALID_ARGS, ret := 0 } ∧
    spgp_decrypt_all_secret_keys null_env
        [sample_secret_packet (0 :: 1 :: 1 :: List.replicate 20 0)] none
      = .ok { chain := [sample_secret_packet (0 :: 1 :: 1 :: List.replicate 20 0)],
              raised := some .INVALID_ARGS, ret := 0 } ∧
    spgp_decrypt_all_secret_keys null_env
        [sample_secret_packet (0 :: 1 :: 1 :: List.replicate 20 0)] (some [])
      = .ok { chain := [sample_secret_packet (0 :: 1 :: 1 :: List.replicate 20 0)],
              raised := some .INVALID_ARGS, ret := 0 } ∧
    ((spgp_decrypt_all_secret_keys null_env
        [sample_secret_packet ([0, 1, 1] ++ List.replicate 19 0 ++ [1])]
        (some [0x77, 0x72, 0x6F, 0x6E, 0x67])).bind (fun r => .ok (r.raised, r.ret))
      = .ok (some .DECRYPT_FAILED, 0)) ∧
    ((spgp_decrypt_all_secret_keys null_env
        [{ header := some (sample_secret_header (0 :: 1 :: 1 :: List.replicate 20 0)),
           c := some (.secret
             { sample_secret_body (0 :: 1 :: 1 :: List.replicate 20 0) with
                 s2kEncryption := 7 }) }]
        (some [0x74, 0x65, 0x73, 0x74])).bind (fun r => .ok (r.raised, r.ret))
      = .ok (some .FORMAT_UNSUPPORTED, 0)) := by
  refine ⟨?_, by decide, by decide, by decide, by decide, by decide⟩
  intro env chain passphrase
  unfold spgp_decrypt_all_secret_keys
  cases passphrase with
  | none => exact Or.inl rfl
  | some pass =>
    simp only
    by_cases hc : chain.isEmpty = true ∨ pass.length = 0
    · rw [if_pos hc]
      exact Or.inl rfl
    · rw [if_neg hc]
      rcases decrypt_walk env pass chain with ⟨c1, res⟩
      cases res with
      | ok u => exact Or.inl rfl
      | raise e => exact Or.inl rfl
      | fault f => exact Or.inr ⟨f, rfl⟩

/-! ### Session packet -/

theorem matching_id_none :
    ∀ (chain : List Packet) (keyid : List Nat), no_matching_key chain keyid →
      spgp_secret_key_matching_id chain keyid = .ok none := by
  intro chain
  induction chain with
  | nil =>
    intro keyid _
    rfl
  | cons p rest ih =>
    intro keyid h
    obtain ⟨hd, hh, hsec⟩ := h p (List.mem_cons_self _ _)
    have hrest := ih keyid (fun q hq => h q (List.mem_cons_of_mem _ hq))
    rw [spgp_secret_key_matching_id]
    simp only [hh]
    by_cases hty : hd.type = PKT_TYPE_SECRET_KEY ∨ hd.type = PKT_TYPE_SECRET_SUBKEY
    · obtain ⟨pub, fp, e1, e2, e3⟩ := hsec hty
      simp only [hty, if_true, e1, e2, e3, if_false, hrest]
    · simp only [hty, if_false, hrest]

theorem find_key_none (keyid : List Nat) :
    ∀ (chains : List (List Packet)) (acc : Option (Option Packet)),
      (∀ chain ∈ chains, no_matching_key chain keyid) →
      (chains ≠ [] ∨ acc = some none) → find_key keyid chains acc = .ok none := by
  intro chains
  induction chains with
  | nil =>
    intro acc _ h
    rcases h with h | h
    · exact absurd rfl h
    · rw [h]
      rfl
  | cons chain rest ih =>
    intro acc h _
    have hm := matching_id_none chain keyid (h chain (List.mem_cons_self _ _))
    rw [find_key]
    simp only [hm]
    exact ih (some none) (fun c hc => h c (List.mem_cons_of_mem _ hc)) (Or.inr rfl)

theorem session_fields_inv {msg : List Nat} {idx j : Nat} {s : SessionPkt}
    (h : session_fields msg idx = .ok (s, j)) :
    s.key = none ∧ s.keylen = 0 ∧ s.symAlgo = 0 := by
  unfold session_fields at h
  simp only [Res.bind_eq_ok, Res.pure_eq, Res.ok.injEq, Prod.mk.injEq] at h
  obtain ⟨v, _, i1, _, keyid, _, i2, _, algo, _, i3, _, m1, _, m2, _, e, _⟩ := h
  rw [← e]
  exact ⟨rfl, rfl, rfl⟩

/-- C19 (counterexample): a buffer that is one session packet with the key id
`01 .. 08`, decoded with a keychain whose only chain holds a secret key with another
key id: `spgp_parse_session_packet` returns -1 without raising, and
`spgp_decode_message` returns the chain of one session packet without a key, not a
null chain.  With a keychain that yields no chain the local `key` is read without
ever being written. -/
theorem decode_session_without_matching_key :
    no_matching_key [sample_secret_packet [0, 1, 1]] [1, 2, 3, 4, 5, 6, 7, 8] ∧
    spgp_decode_message one_key_env 1
        [0xC1, 16, 3, 1, 2, 3, 4, 5, 6, 7, 8, 16, 0, 1, 1, 0, 1, 1]
      = .ok [{ header := some { rawTagByte := 0xC1, isNewFormat := 0x40, type := 1,
                                headerLength := 2, contentLength := 16, isPartial := 0 },
               c := some (.session { version := 3, keyid := [1, 2, 3, 4, 5, 6, 7, 8],
                                     algo := 16, mpi1 := some ⟨[0, 1, 1], 1, 1⟩,
                                     mpi2 := some ⟨[0, 1, 1], 1, 1⟩, symAlgo := 0,
                                     key := none, keylen := 0 }) }] ∧
    spgp_decode_message null_env 1
        [0xC1, 16, 3, 1, 2, 3, 4, 5, 6, 7, 8, 16, 0, 1, 1, 0, 1, 1]
      = .fault .uninit := by
  refine ⟨?_, by decide, by decide⟩
  intro p hp
  rw [List.mem_singleton] at hp
  subst hp
  exact ⟨_, rfl, fun _ => ⟨_, _, rfl, rfl, by decide⟩⟩

/-- C19 (amended): for every session packet whose fields are read from the buffer and
whose key id matches no secret-key or secret-subkey packet in any chain that the
keychain iterator yields, the iterator being valid and yielding at least one chain,
`spgp_parse_session_packet` returns without raising an error and leaves the session
packet without a key; the packet switch of `spgp_decode_message` goes on to the next
packet. -/
theorem session_without_matching_key (env : Env) (msg : List Nat) (idx j : Nat)
    (h : Header) (done : List Packet) (s : SessionPkt)
    (hty : h.type = PKT_TYPE_SESSION)
    (hfit : idx + h.contentLength ≤ msg.length) (hlen : msg.length < U32)
    (hread : session_fields msg idx = .ok (s, j))
    (hvalid : env.keychain_valid = true) (hne : env.keychain ≠ [])
    (hnone : ∀ chain ∈ env.keychain, no_matching_key chain s.keyid) :
    spgp_parse_session_packet env msg idx h.contentLength none = (some s, .ok j) ∧
    s.key = none ∧
    parse_packet env msg idx h done = (msg, some (.session s), .ok j) := by
  have hfk := find_key_none s.keyid env.keychain none hnone (Or.inl hne)
  have hsd : session_decrypt env s = .ok s := by
    unfold session_decrypt
    simp only [hvalid, not_true_eq_false, if_false, hfk, Res.ok_bind, Res.pure_eq]
  have hm0 : msg.length ≠ 0 := by
    intro e
    have : msg = [] := List.length_eq_zero.mp e
    subst this
    simp [session_fields, rd] at hread
  have hs : sub32 msg.length idx = msg.length - idx := sub32_eq _ _ (by omega) hlen
  have hc : ¬ msg.length - idx < h.contentLength := by omega
  have hp : spgp_parse_session_packet env msg idx h.contentLength none = (some s, .ok j) := by
    simp only [spgp_parse_session_packet, hm0, if_false, hs, hc, hread, hsd]
  refine ⟨hp, (session_fields_inv hread).1, ?_⟩
  simp [parse_packet, hty, PKT_TYPE_SESSION, PKT_TYPE_USER_ID, PKT_TYPE_PUBLIC_KEY,
    PKT_TYPE_PUBLIC_SUBKEY, PKT_TYPE_SECRET_KEY, PKT_TYPE_SECRET_SUBKEY, hp]

/-- Witness of C19 (amended): the body of the session packet of the counterexample,
with the keychain of `one_key_env`. -/
theorem session_without_matching_key_witness :
    spgp_parse_session_packet one_key_env
        [3, 1, 2, 3, 4, 5, 6, 7, 8, 16, 0, 1, 1, 0, 1, 1] 0
        ({ type := PKT_TYPE_SESSION, contentLength := 16 } : Header).contentLength none
      = (some { version := 3, keyid := [1, 2, 3, 4, 5, 6, 7, 8], algo := 16,
                mpi1 := some ⟨[0, 1, 1], 1, 1⟩, mpi2 := some ⟨[0, 1, 1], 1, 1⟩ }, .ok 15) ∧
    ({ version := 3, keyid := [1, 2, 3, 4, 5, 6, 7, 8], algo := 16,
       mpi1 := some ⟨[0, 1, 1], 1, 1⟩, mpi2 := some ⟨[0, 1, 1], 1, 1⟩ } : SessionPkt).key
      = none ∧
    parse_packet one_key_env [3, 1, 2, 3, 4, 5, 6, 7, 8, 16, 0, 1, 1, 0, 1, 1] 0
        { type := PKT_TYPE_SESSION, contentLength := 16 } []
      = ([3, 1, 2, 3, 4, 5, 6, 7, 8, 16, 0, 1, 1, 0, 1, 1],
         some (.session { version := 3, keyid := [1, 2, 3, 4, 5, 6, 7, 8], algo := 16,
                          mpi1 := some ⟨[0, 1, 1], 1, 1⟩,
                          mpi2 := some ⟨[0, 1, 1], 1, 1⟩ }), .ok 15) :=
  session_without_matching_key one_key_env
    [3, 1, 2, 3, 4, 5, 6, 7, 8, 16, 0, 1, 1, 0, 1, 1] 0 15
    { type := PKT_TYPE_SESSION, contentLength := 16 } []
    { version := 3, keyid := [1, 2, 3, 4, 5, 6, 7, 8], algo := 16,
      mpi1 := some ⟨[0, 1, 1], 1, 1⟩, mpi2 := some ⟨[0, 1, 1], 1, 1⟩ }
    (by decide) (by decide) (by decide) (by decide) (by decide) (by decide)
    (by
      intro chain hc
      have e : chain = [sample_secret_packet [0, 1, 1]] := by
        simpa [one_key_env] using hc
      subst e
      intro p hp
      rw [List.mem_singleton] at hp
      subst hp
      exact ⟨_, rfl, fun _ => ⟨_, _, rfl, rfl, by decide⟩⟩)

theorem skip_padding_pad (rest : List Nat) :
    ∀ (pad pre : List Nat) (fuel : Nat), (∀ p ∈ pad, p ≠ 0 ∧ p < 256) →
      skip_padding (pre ++ pad ++ 0 :: rest) (fuel + pad.length + 1) pre.length
        = .ok (pre.length + pad.length + 1) := by
  intro pad
  induction pad with
  | nil =>
    intro pre fuel _
    have h0 : (pre ++ [] ++ 0 :: rest)[pre.length]? = some 0 := by
      rw [List.append_nil, List.getElem?_append_right (le_refl _)]
      simp
    have hr := rd_ok h0 (by decide)
    simp only [List.length_nil, Nat.add_zero, skip_padding, hr, Res.ok_bind, ne_eq,
      not_true_eq_false, false_and, if_false, Res.pure_eq]
  | cons p ps ih =>
    intro pre fuel hp
    obtain ⟨hp0, hp1⟩ := hp p (List.mem_cons_self _ _)
    have e : pre ++ p :: ps ++ 0 :: rest = (pre ++ [p]) ++ ps ++ 0 :: rest := by
      simp
    have h0 : (pre ++ p :: ps ++ 0 :: rest)[pre.length]? = some p := by
      rw [List.append_assoc, List.getElem?_append_right (le_refl _)]
      simp
    have hr := rd_ok h0 hp1
    have hl : pre.length + 1 < (pre ++ p :: ps ++ 0 :: rest).length := by
      simp only [List.length_append, List.length_cons]
      omega
    have ef : fuel + (p :: ps).length + 1 = (fuel + ps.length + 1) + 1 := by
      simp only [List.length_cons]; omega
    rw [ef, skip_padding]
    simp only [hr, Res.ok_bind, ne_eq, hp0, not_false_eq_true, hl, and_self, if_true]
    rw [e]
    have := ih (pre ++ [p]) fuel (fun q hq => hp q (List.mem_cons_of_mem _ hq))
    simp only [List.length_append, List.length_singleton] at this
    rw [this]
    simp only [List.length_cons]
    congr 1
    omega

theorem foldl_checksum :
    ∀ (key : List Nat) (acc : Nat), (∀ k ∈ key, k < 256) →
      (key.foldl (fun a k => (a + (k &&& 0xFF)) % U32) acc) % 65536
        = (acc + key.sum) % 65536 := by
  intro key
  induction key with
  | nil =>
    intro acc _
    simp
  | cons k ks ih =>
    intro acc hk
    have hk0 := hk k (List.mem_cons_self _ _)
    simp only [List.foldl_cons, List.sum_cons]
    rw [ih _ (fun x hx => hk x (List.mem_cons_of_mem _ hx)), byte_and_FF,
      Nat.mod_eq_of_lt hk0]
    have hd : (65536 : Nat) ∣ U32 := by
      unfold U32; decide
    rw [Nat.add_mod, Nat.mod_mod_of_dvd _ hd, ← Nat.add_mod]
    congr 1
    omega

theorem parse_session_frame_eval (frame : List Nat) (s : SessionPkt)
    (i algo keylen c0 c1 : Nat) (key : List Nat)
    (h2 : rd frame 2 = .ok 2)
    (hsk : skip_padding frame (frame.length + 1) 3 = .ok i)
    (ha : rd frame i = .ok algo)
    (hkl : sub32 (sub32 frame.length i) 3 = keylen)
    (hge : ¬ add32 (i + 1) keylen ≥ frame.length)
    (hk : rdN frame (i + 1) keylen = .ok key)
    (rc0 : rd frame (frame.length - 2) = .ok c0)
    (rc1 : rd frame (frame.length - 1) = .ok c1) :
    parse_session_frame frame s
      = (if (key.foldl (fun a k => (a + (k &&& 0xFF)) % U32) 0) % 65536 ≠ ((c0 <<< 8) ||| c1)
         then .raise .DECRYPT_FAILED
         else .ok { s with symAlgo := algo, keylen := keylen, key := some key }) := by
  unfold parse_session_frame
  simp only [h2, Res.ok_bind, ne_eq, not_true_eq_false, if_false, hsk, ha, hkl, hge, hk,
    rc0, rc1, Res.pure_eq]

/-- C20: the frame parser of the session packet.  For every frame that consists of two
length-prefix bytes, the block type `0x02`, non-zero padding bytes, a zero byte, the
algorithm byte, the key bytes and the two checksum bytes: when the sum of the key
bytes modulo 65536 equals `ck_hi * 256 + ck_lo` the parser succeeds and stores the
algorithm byte as `symAlgo`, exactly the key bytes as `key` and their number as
`keylen`; when the checksum differs it raises `DECRYPT_FAILED`; and for every frame
whose byte at index 2 is not `0x02` it raises `DECRYPT_FAILED`. -/
theorem session_frame_spec (l0 l1 algo ck_hi ck_lo : Nat) (pad key : List Nat)
    (s : SessionPkt) (hpad : ∀ p ∈ pad, p ≠ 0 ∧ p < 256) (halgo : algo < 256)
    (hkey : ∀ k ∈ key, k < 256) (hhi : ck_hi < 256) (hlo : ck_lo < 256)
    (hlen : ([l0, l1, 2] ++ pad ++ 0 :: algo :: key ++ [ck_hi, ck_lo]).length < U32) :
    (key.sum % 65536 = ck_hi * 256 + ck_lo →
      parse_session_frame ([l0, l1, 2] ++ pad ++ 0 :: algo :: key ++ [ck_hi, ck_lo]) s
        = .ok { s with symAlgo := algo, keylen := key.length, key := some key }) ∧
    (key.sum % 65536 ≠ ck_hi * 256 + ck_lo →
      parse_session_frame ([l0, l1, 2] ++ pad ++ 0 :: algo :: key ++ [ck_hi, ck_lo]) s
        = .raise .DECRYPT_FAILED) ∧
    (∀ b rest, b % 256 ≠ 2 →
      parse_session_frame (l0 :: l1 :: b :: rest) s = .raise .DECRYPT_FAILED) := by
  have hfl : ([l0, l1, 2] ++ pad ++ 0 :: algo :: key ++ [ck_hi, ck_lo]).length
      = pad.length + key.length + 7 := by
    simp only [List.length_append, List.length_cons, List.length_nil]
    omega
  rw [hfl] at hlen
  have e1 : [l0, l1, 2] ++ pad ++ 0 :: algo :: key ++ [ck_hi, ck_lo]
      = [l0, l1, 2] ++ pad ++ 0 :: (algo :: key ++ [ck_hi, ck_lo]) := by
    simp
  have h2 : ([l0, l1, 2] ++ pad ++ 0 :: algo :: key ++ [ck_hi, ck_lo])[2]? = some 2 := by
    simp
  have r2 := rd_ok h2 (by decide)
  have hsk : skip_padding ([l0, l1, 2] ++ pad ++ 0 :: algo :: key ++ [ck_hi, ck_lo])
      (([l0, l1, 2] ++ pad ++ 0 :: algo :: key ++ [ck_hi, ck_lo]).length + 1) 3
      = .ok (pad.length + 4) := by
    have := skip_padding_pad (algo :: key ++ [ck_hi, ck_lo]) pad [l0, l1, 2]
      (key.length + 7) hpad
    rw [← e1] at this
    have ef : key.length + 7 + pad.length + 1 = pad.length + key.length + 7 + 1 := by omega
    have ei : [l0, l1, 2].length + pad.length + 1 = pad.length + 4 := by
      simp only [List.length_cons, List.length_nil]; omega
    rw [ef, ei] at this
    rw [hfl]
    exact this
  have e2 : [l0, l1, 2] ++ pad ++ 0 :: algo :: key ++ [ck_hi, ck_lo]
      = ([l0, l1, 2] ++ pad ++ [0]) ++ (algo :: key ++ [ck_hi, ck_lo]) := by
    simp
  have hpl : ([l0, l1, 2] ++ pad ++ [0]).length = pad.length + 4 := by
    simp only [List.length_append, List.length_cons, List.length_nil]
    omega
  have ha : ([l0, l1, 2] ++ pad ++ 0 :: algo :: key ++ [ck_hi, ck_lo])[pad.length + 4]?
      = some algo := by
    rw [e2, List.getElem?_append_right (by rw [hpl]), hpl]
    simp
  have ra := rd_ok ha halgo
  have e3 : [l0, l1, 2] ++ pad ++ 0 :: algo :: key ++ [ck_hi, ck_lo]
      = ([l0, l1, 2] ++ pad ++ [0, algo]) ++ (key ++ [ck_hi, ck_lo]) := by
    simp
  have hpl3 : ([l0, l1, 2] ++ pad ++ [0, algo]).length = pad.length + 5 := by
    simp only [List.length_append, List.length_cons, List.length_nil]
    omega
  have hkl : sub32 (sub32 (pad.length + key.length + 7) (pad.length + 4)) 3 = key.length := by
    rw [sub32_eq _ _ (by omega) hlen, sub32_eq _ _ (by omega) (by omega)]
    omega
  have hadd : add32 (pad.length + 4 + 1) key.length = pad.length + 5 + key.length := by
    rw [add32_eq _ _ (by omega)]
  have hge : ¬ pad.length + 5 + key.length ≥ pad.length + key.length + 7 := by omega
  have hk : rdN ([l0, l1, 2] ++ pad ++ 0 :: algo :: key ++ [ck_hi, ck_lo])
      (pad.length + 4 + 1) key.length = .ok key := by
    by_cases hk0 : key.length = 0
    · have : key = [] := List.length_eq_zero.mp hk0
      subst this
      simp [rdN]
    · rw [rdN_ok _ _ _ hk0 (by rw [hfl]; omega), e3, List.drop_append_eq_append_drop,
        List.drop_eq_nil_of_le (by rw [hpl3]), hpl3]
      have ez : pad.length + 4 + 1 - (pad.length + 5) = 0 := by omega
      rw [ez]
      simp only [List.nil_append, List.drop_zero, List.take_left']
      rw [map_mod_of_bytes key hkey]
  have e4 : [l0, l1, 2] ++ pad ++ 0 :: algo :: key ++ [ck_hi, ck_lo]
      = ([l0, l1, 2] ++ pad ++ [0, algo] ++ key) ++ [ck_hi, ck_lo] := by
    simp
  have hpl4 : ([l0, l1, 2] ++ pad ++ [0, algo] ++ key).length = pad.length + key.length + 5 := by
    simp only [List.length_append, List.length_cons, List.length_nil]
    omega
  have hc0 : ([l0, l1, 2] ++ pad ++ 0 :: algo :: key ++ [ck_hi, ck_lo])[
      pad.length + key.length + 7 - 2]? = some ck_hi := by
    rw [e4, List.getElem?_append_right (by rw [hpl4]; omega), hpl4]
    have ez : pad.length + key.length + 7 - 2 - (pad.length + key.length + 5) = 0 := by omega
    rw [ez]
    rfl
  have hc1 : ([l0, l1, 2] ++ pad ++ 0 :: algo :: key ++ [ck_hi, ck_lo])[
      pad.length + key.length + 7 - 1]? = some ck_lo := by
    rw [e4, List.getElem?_append_right (by rw [hpl4]; omega), hpl4]
    have ez : pad.length + key.length + 7 - 1 - (pad.length + key.length + 5) = 1 := by omega
    rw [ez]
    rfl
  have rc0 := rd_ok hc0 hhi
  have rc1 := rd_ok hc1 hlo
  have hor := or_be16 ck_hi ck_lo hlo
  have hsum := foldl_checksum key 0 hkey
  rw [Nat.zero_add] at hsum
  have hmain : parse_session_frame
      ([l0, l1, 2] ++ pad ++ 0 :: algo :: key ++ [ck_hi, ck_lo]) s
      = (if key.sum % 65536 ≠ ck_hi * 256 + ck_lo then .raise .DECRYPT_FAILED
         else .ok { s with symAlgo := algo, keylen := key.length, key := some key }) := by
    have hev := parse_session_frame_eval
      ([l0, l1, 2] ++ pad ++ 0 :: algo :: key ++ [ck_hi, ck_lo]) s (pad.length + 4) algo
      key.length ck_hi ck_lo key r2 hsk ra (by rw [hfl]; exact hkl)
      (by rw [hfl, hadd]; exact hge) hk (by rw [hfl]; exact rc0) (by rw [hfl]; exact rc1)
    rw [hev, hor, hsum]
  refine ⟨?_, ?_, ?_⟩
  · intro hck
    rw [hmain]
    simp [hck]
  · intro hck
    rw [hmain]
    simp [hck]
  · intro b rest hb
    have hr : rd (l0 :: l1 :: b :: rest) 2 = .ok (b % 256) := by
      simp [rd]
    unfold parse_session_frame
    simp only [hr, Res.ok_bind, ne_eq, hb, not_false_eq_true, if_true]

/-- Witness of C20: the frame `00 38 02 FF EE 00 09 01 02 03 00 06`, with two padding
bytes, the algorithm 9 and the key `01 02 03`, whose sum is 6. -/
theorem session_frame_spec_witness :
    parse_session_frame
        ([0x00, 0x38, 2] ++ [0xFF, 0xEE] ++ 0 :: 9 :: [1, 2, 3] ++ [0, 6]) {}
      = .ok { ({} : SessionPkt) with symAlgo := 9, keylen := [1, 2, 3].length,
                                     key := some [1, 2, 3] } :=
  (session_frame_spec 0x00 0x38 9 0 6 [0xFF, 0xEE] [1, 2, 3] {} (by decide) (by decide)
    (by decide) (by decide) (by decide) (by decide)).1 (by decide)

/-! ### Packets without a parser -/

theorem read_old_length_cursor (msg : List Nat) (hlen : msg.length < U32) :
    ∀ (n idx : Nat) (h h2 : Header) (j : Nat),
      read_old_length msg n idx h = (h2, .ok j) →
      j = idx + n ∧ (n ≠ 0 → j < msg.length) := by
  intro n
  induction n with
  | zero =>
    intro idx h h2 j hr
    simp only [read_old_length, Prod.mk.injEq, Res.ok.injEq] at hr
    omega
  | succ n ih =>
    intro idx h h2 j hr
    rw [read_old_length] at hr
    cases hb : rd msg idx with
    | ok b =>
      rw [hb] at hr
      dsimp only at hr
      cases hs : SAFE_IDX_INCREMENT idx msg.length with
      | ok i =>
        rw [hs] at hr
        dsimp only at hr
        obtain ⟨e, l⟩ := SAFE_IDX_INCREMENT_inv hs
        obtain ⟨hi, _⟩ := rd_inv hb
        rw [Nat.mod_eq_of_lt (by omega)] at e
        obtain ⟨e2, l2⟩ := ih i _ h2 j hr
        refine ⟨by omega, fun _ => ?_⟩
        by_cases hn : n = 0
        · omega
        · exact l2 hn
      | raise e =>
        rw [hs] at hr
        simp at hr
      | fault f =>
        rw [hs] at hr
        simp at hr
    | raise e =>
      rw [hb] at hr
      simp at hr
    | fault f =>
      rw [hb] at hr
      simp at hr

theorem new_header_length_inv {msg : List Nat} {off : Nat} {nl : NewLen}
    (h : spgp_new_header_length msg off = .ok nl) :
    off < msg.length ∧
    (nl.header_len = 2 ∨ (nl.header_len = 3 ∧ off + 1 < msg.length) ∨
      (nl.header_len = 5 ∧ off + 4 < msg.length)) := by
  unfold spgp_new_header_length at h
  simp only [Res.bind_eq_ok] at h
  obtain ⟨len0, h0, h⟩ := h
  obtain ⟨hoff, _⟩ := rd_inv h0
  refine ⟨hoff, ?_⟩
  by_cases c1 : len0 ≤ 191
  · rw [if_pos c1] at h
    simp only [Res.pure_eq, Res.ok.injEq] at h
    left
    rw [← h]
  · rw [if_neg c1] at h
    by_cases c2 : len0 > 191 ∧ len0 ≤ 223
    · rw [if_pos c2] at h
      simp only [Res.bind_eq_ok, Res.pure_eq, Res.ok.injEq] at h
      obtain ⟨l1, h1, e⟩ := h
      obtain ⟨hl1, _⟩ := rd_inv h1
      right; left
      rw [← e]
      exact ⟨rfl, hl1⟩
    · rw [if_neg c2] at h
      by_cases c3 : len0 = 255
      · rw [if_pos c3] at h
        simp only [Res.bind_eq_ok, Res.pure_eq, Res.ok.injEq] at h
        obtain ⟨l0, _, l1, _, l2, _, l3, h3, e⟩ := h
        obtain ⟨hl3, _⟩ := rd_inv h3
        right; right
        rw [← e]
        exact ⟨rfl, hl3⟩
      · rw [if_neg c3] at h
        simp only [Res.pure_eq, Res.ok.injEq] at h
        left
        rw [← h]

theorem parse_header_cursor {msg : List Nat} {s i1 : Nat} {hdr : Option Header}
    {h : Header} (hlen : msg.length < U32)
    (hp : spgp_parse_header msg s hdr = (some h, .ok i1)) :
    s + 2 ≤ i1 ∧ i1 < msg.length ∧ skip_zero (msg.drop s) s = .ok s := by
  unfold spgp_parse_header at hp
  by_cases h0 : msg.length = 0
  · simp [h0] at hp
  · rw [if_neg h0] at hp
    dsimp only at hp
    cases hb : rd msg s with
    | raise e =>
      rw [hb] at hp
      simp at hp
    | fault f =>
      rw [hb] at hp
      simp at hp
    | ok tag =>
      rw [hb] at hp
      dsimp only at hp
      obtain ⟨hs, etag⟩ := rd_inv hb
      cases hs1 : SAFE_IDX_INCREMENT s msg.length with
      | raise e =>
        rw [hs1] at hp
        simp at hp
      | fault f =>
        rw [hs1] at hp
        simp at hp
      | ok j1 =>
        rw [hs1] at hp
        dsimp only at hp
        obtain ⟨e1, l1⟩ := SAFE_IDX_INCREMENT_inv hs1
        rw [Nat.mod_eq_of_lt (by omega)] at e1
        by_cases h7 : tag &&& 0x80 = 0
        · rw [if_pos h7] at hp
          simp at hp
        · rw [if_neg h7] at hp
          have hz : skip_zero (msg.drop s) s = .ok s := by
            have hget : msg[s]? = some (msg.getD s 0) := by
              simp [List.getD_eq_getElem?_getD, List.getElem?_eq_getElem hs]
            refine skip_zero_at msg s _ hget ?_
            intro hc
            rw [← etag] at hc
            rw [hc] at h7
            exact h7 (by decide)
          suffices hgoal : s + 2 ≤ i1 ∧ i1 < msg.length from ⟨hgoal.1, hgoal.2, hz⟩
          · by_cases h6 : tag &&& 0x40 = 0
            · simp only [h6, ne_eq, not_true_eq_false, if_false, if_true] at hp
              by_cases h3 : tag &&& 0x03 = 3
              · simp [h3] at hp
              · simp only [h3, if_false] at hp
                generalize hro : read_old_length msg _ j1 _ = ro at hp
                obtain ⟨h5, r⟩ := ro
                simp only [Prod.mk.injEq, Option.some.injEq] at hp
                obtain ⟨_, hr⟩ := hp
                subst hr
                obtain ⟨c1, c2⟩ := read_old_length_cursor msg hlen _ _ _ _ _ hro
                split_ifs at c1 c2 <;> omega
            · simp only [h6, ne_eq, not_false_eq_true, if_true, if_false] at hp
              cases hn : spgp_new_header_length msg j1 with
              | raise e =>
                rw [hn] at hp
                simp at hp
              | fault f =>
                rw [hn] at hp
                simp at hp
              | ok nl =>
                rw [hn] at hp
                simp only at hp
                obtain ⟨_, hcase⟩ := new_header_length_inv hn
                cases hs2 : SAFE_IDX_INCREMENT (add32 j1 (nl.header_len - 2)) msg.length with
                | raise e =>
                  rw [hs2] at hp
                  simp at hp
                | fault f =>
                  rw [hs2] at hp
                  simp at hp
                | ok i2 =>
                  rw [hs2] at hp
                  simp only [Prod.mk.injEq, Res.ok.injEq] at hp
                  obtain ⟨_, hi⟩ := hp
                  subst hi
                  obtain ⟨e2, l2⟩ := SAFE_IDX_INCREMENT_inv hs2
                  have ea : add32 j1 (nl.header_len - 2) = j1 + (nl.header_len - 2) :=
                    add32_eq _ _ (by omega)
                  rw [ea, Nat.mod_eq_of_lt (by omega)] at e2
                  omega

theorem parse_packet_default (env : Env) (m : List Nat) (i : Nat) (h : Header)
    (done : List Packet) (hi : 1 ≤ i) (hfit : i + h.contentLength ≤ m.length)
    (hlen : m.length < U32) (ht : unsupported_type h.type) :
    parse_packet env m i h done = (m, none, .ok (i + h.contentLength - 1)) := by
  have ha := add32_sub32_one i h.contentLength hi (by omega)
  obtain ⟨t0, t1, t2, t3, t4, t5, t6⟩ := ht
  have hlt : i + h.contentLength - 1 < m.length := by omega
  simp [parse_packet, t0, t1, t2, t3, t4, t5, t6, ha, hlt]

/-! ### Shape of the returned chain -/

theorem decode_loop_headers (env : Env) :
    ∀ (fuel : Nat) (msg : List Nat) (idx : Nat) (done chain : List Packet),
      (∀ p ∈ done, p.header ≠ none) →
      decode_loop env fuel msg idx done = (chain, .ok ()) →
      chain ≠ [] ∧ ∀ p ∈ chain.dropLast, p.header ≠ none := by
  intro fuel
  induction fuel with
  | zero =>
    intro msg idx done chain _ h
    simp [decode_loop] at h
  | succ fuel ih =>
    intro msg idx done chain hd h
    rw [decode_loop] at h
    split at h
    · split at h
      · simp at h
      · simp at h
      · split at h
        · simp at h
        · simp at h
        · simp at h
        · split at h
          · simp at h
          · simp at h
          · split at h
            · simp only [Prod.mk.injEq, and_true] at h
              subst h
              simp only [ne_eq, List.append_eq_nil, List.cons_ne_self, and_false,
                not_false_eq_true, List.dropLast_concat, true_and]
              exact hd
            · split at h
              · refine ih _ _ _ _ ?_ h
                intro p hp
                simp only [List.mem_append, List.mem_singleton] at hp
                rcases hp with hp | hp
                · exact hd p hp
                · rw [hp]
                  simp
              · simp at h
              · simp at h
    · simp only [Prod.mk.injEq, and_true] at h
      subst h
      simp only [ne_eq, List.append_eq_nil, List.cons_ne_self, and_false,
        not_false_eq_true, List.dropLast_concat, true_and]
      exact hd

/-- C22: a returned chain can hold a packet without a header.  In every chain that
`spgp_decode_message` returns, every packet but the last has a header; the last
packet is the one allocated for the next round, and it is returned with a null header
when the loop is left through its condition.  A buffer of one byte `b` is decoded into
a chain of one packet with a null header, and the user-id packet `CD 01 41` followed by
one more byte into the user-id packet and a packet with a null header.
`spgp_free_packet` and `spgp_decrypt_all_secret_keys` dereference the null header of
such a chain. -/
theorem decode_returns_headerless_packet :
    (∀ env fuel msg chain, spgp_decode_message env fuel msg = .ok chain →
      chain ≠ [] ∧ ∀ p ∈ chain.dropLast, p.header ≠ none) ∧
    (∀ env fuel b, spgp_decode_message env (fuel + 1) [b] = .ok [{ header := none }]) ∧
    (∀ env fuel, spgp_decode_message env (fuel + 2) [0xCD, 1, 0x41, 0x42]
      = .ok [user_id_chain_packet [0x41], { header := none }]) ∧
    spgp_free_packet [user_id_chain_packet [0x41], { header := none }]
      = .fault .nullDeref ∧
    (∀ env, spgp_decrypt_all_secret_keys env [user_id_chain_packet [0x41], { header := none }]
      (some [0x74]) = .fault .nullDeref) := by
  refine ⟨?_, fun _ _ _ => rfl, fun _ _ => rfl, rfl, fun _ => rfl⟩
  intro env fuel msg chain h
  unfold spgp_decode_message at h
  split at h
  · simp at h
  · split at h
    · rename_i c hc
      simp only [Res.ok.injEq] at h
      subst h
      exact decode_loop_headers env fuel msg 0 [] _ (by simp) hc
    · split at h <;> simp at h
    · simp at h

/-- Witness of C22: the chain decoded from `CD 01 41 42`; its first packet has a
header. -/
theorem decode_returns_headerless_packet_witness :
    [user_id_chain_packet [0x41], ({ header := none } : Packet)] ≠ [] ∧
    ∀ p ∈ [user_id_chain_packet [0x41], ({ header := none } : Packet)].dropLast,
      p.header ≠ none :=
  decode_returns_headerless_packet.1 null_env 2 [0xCD, 1, 0x41, 0x42] _ (by decide)

/-! ### Progress of the packet loop -/

theorem decode_loop_stuck (env : Env) :
    ∀ (fuel : Nat) (done : List Packet),
      (decode_loop env fuel [0xC8, 0, 0xA2, 0xFF, 0xFF, 0xFF, 0xFB, 0] 2 done).2
        = .fault .outOfFuel := by
  intro fuel
  induction fuel with
  | zero =>
    intro done
    rfl
  | succ fuel ih =>
    intro done
    have step : decode_loop env (fuel + 1) [0xC8, 0, 0xA2, 0xFF, 0xFF, 0xFF, 0xFB, 0] 2 done
        = decode_loop env fuel [0xC8, 0, 0xA2, 0xFF, 0xFF, 0xFF, 0xFB, 0] 2
            (done ++ [{ header := some { rawTagByte := 0xA2, isNewFormat := 0, type := 8,
                                         headerLength := 5, contentLength := 0xFFFFFFFB } }]) :=
      rfl
    rw [step]
    exact ih _

/-- C23: the packet loop can start two rounds at the same cursor.  The buffer
`C8 00 A2 FF FF FF FB 00` holds no encrypted data packet: an empty packet of type 8
and, at index 2, an old-format packet of type 8 with the four-octet content length
`0xFFFFFFFB`.  Its header ends with the cursor on 7, and in the `default` branch the
`uint32_t` sum `idx + contentLength - 1` wraps to 1, which is below the length, so the
cursor moves back to 1 and the next round starts at index 2 again, with one more
packet in the chain.  No number of rounds ends the loop, whatever the bound of the
model. -/
theorem decode_loop_does_not_advance :
    (∀ env fuel done,
      decode_loop env (fuel + 1) [0xC8, 0, 0xA2, 0xFF, 0xFF, 0xFF, 0xFB, 0] 2 done
        = decode_loop env fuel [0xC8, 0, 0xA2, 0xFF, 0xFF, 0xFF, 0xFB, 0] 2
            (done ++ [{ header := some { rawTagByte := 0xA2, isNewFormat := 0, type := 8,
                                         headerLength := 5,
                                         contentLength := 0xFFFFFFFB } }])) ∧
    (∀ env fuel,
      spgp_decode_message env fuel [0xC8, 0, 0xA2, 0xFF, 0xFF, 0xFF, 0xFB, 0]
        = .fault .outOfFuel) := by
  refine ⟨fun _ _ _ => rfl, ?_⟩
  intro env fuel
  cases fuel with
  | zero => rfl
  | succ fuel =>
    have step : decode_loop env (fuel + 1) [0xC8, 0, 0xA2, 0xFF, 0xFF, 0xFF, 0xFB, 0] 0 []
        = decode_loop env fuel [0xC8, 0, 0xA2, 0xFF, 0xFF, 0xFF, 0xFB, 0] 2
            [{ header := some { rawTagByte := 0xC8, isNewFormat := 0x40, type := 8,
                                headerLength := 2, contentLength := 0 } }] := rfl
    have hs := decode_loop_stuck env fuel
      [{ header := some { rawTagByte := 0xC8, isNewFormat := 0x40, type := 8,
                          headerLength := 2, contentLength := 0 } }]
    unfold spgp_decode_message
    rw [step]
    revert hs
    generalize decode_loop env fuel [0xC8, 0, 0xA2, 0xFF, 0xFF, 0xFF, 0xFB, 0] 2 _ = r
    intro hs
    obtain ⟨c, q⟩ := r
    simp only at hs
    subst hs
    rfl

/-! ### Skipping of zero bytes -/

theorem skip_zero_all_zero :
    ∀ (l : List Nat) (idx : Nat), (∀ b ∈ l, b % 256 = 0) →
      skip_zero l idx = .fault (.oobRead (idx + l.length)) := by
  intro l
  induction l with
  | nil =>
    intro idx _
    rfl
  | cons b rest ih =>
    intro idx hz
    have hb : b % 256 = 0 := hz b (List.mem_cons_self _ _)
    have hr := ih (idx + 1) (fun x hx => hz x (List.mem_cons_of_mem _ hx))
    simp only [skip_zero, hb, if_true, hr, List.length_cons]
    congr 2
    omega

theorem skip_zero_ok_inv :
    ∀ (l : List Nat) (idx i : Nat), skip_zero l idx = .ok i →
      idx ≤ i ∧ i < idx + l.length ∧ l.getD (i - idx) 0 % 256 ≠ 0 := by
  intro l
  induction l with
  | nil =>
    intro idx i h
    simp [skip_zero] at h
  | cons b rest ih =>
    intro idx i h
    by_cases hb : b % 256 = 0
    · simp only [skip_zero, hb, if_true] at h
      obtain ⟨h1, h2, h3⟩ := ih _ _ h
      have e : i - idx = (i - (idx + 1)) + 1 := by omega
      refine ⟨by omega, by simp only [List.length_cons]; omega, ?_⟩
      rw [e]
      simpa using h3
    · simp only [skip_zero, hb, if_false, Res.ok.injEq] at h
      subst h
      refine ⟨le_refl _, by simp only [List.length_cons]; omega, ?_⟩
      simpa using hb

/-- C24: the loop `while (message[idx] == 0) idx++;` has no bound.  When every byte from
the cursor to the end of the buffer is zero, the loop loads `message[length]`, one byte
past the buffer, and a round of the packet loop that starts at such a cursor runs into
that load.  When the loop does stop, it stops on a non-zero byte inside the buffer. -/
theorem skip_zero_runs_off_buffer (msg : List Nat) (idx : Nat) (hidx : idx ≤ msg.length) :
    ((∀ b ∈ msg.drop idx, b % 256 = 0) →
      skip_zero (msg.drop idx) idx = .fault (.oobRead msg.length) ∧
      (idx + 1 < msg.length → ∀ env fuel done,
        decode_loop env (fuel + 1) msg idx done
          = (done ++ [{ header := none }], .fault (.oobRead msg.length)))) ∧
    (∀ i, skip_zero (msg.drop idx) idx = .ok i →
      idx ≤ i ∧ i < msg.length ∧ msg.getD i 0 % 256 ≠ 0) := by
  constructor
  · intro hz
    have h := skip_zero_all_zero (msg.drop idx) idx hz
    have e : idx + (msg.drop idx).length = msg.length := by
      simp only [List.length_drop]
      omega
    rw [e] at h
    refine ⟨h, ?_⟩
    intro hlt env fuel done
    have hc : idx < msg.length - 1 := by omega
    simp only [decode_loop, hc, if_true, h]
  · intro i h
    obtain ⟨h1, h2, h3⟩ := skip_zero_ok_inv _ _ _ h
    simp only [List.length_drop] at h2
    refine ⟨h1, by omega, ?_⟩
    have e : (msg.drop idx).getD (i - idx) 0 = msg.getD i 0 := by
      simp only [List.getD_eq_getElem?_getD, List.getElem?_drop]
      congr 2
      omega
    rw [← e]
    exact h3

/-- Witness of C24: a buffer of two zero bytes, with the cursor at its start. -/
theorem skip_zero_runs_off_buffer_witness :
    skip_zero (([0, 0] : List Nat).drop 0) 0 = .fault (.oobRead ([0, 0] : List Nat).length) ∧
    (0 + 1 < ([0, 0] : List Nat).length → ∀ env fuel done,
      decode_loop env (fuel + 1) [0, 0] 0 done
        = (done ++ [{ header := none }], .fault (.oobRead ([0, 0] : List Nat).length))) :=
  (skip_zero_runs_off_buffer [0, 0] 0 (by decide)).1 (by decide)

/-! ### MPI that overruns the buffer -/

/-- C25: `spgp_read_mpi` checks the buffer for the two length octets only.  When they
lie within the buffer and announce more bytes than remain (fewer than `byte_count + 2`
bytes from the cursor to the end), the function does not raise `BUFFER_OVERFLOW`: the
`memcpy` of `byte_count + 2` bytes loads the byte at index `length`. -/
theorem read_mpi_overrun (msg : List Nat) (idx : Nat) (hlen : msg.length < U32)
    (h2 : idx + 2 ≤ msg.length) (hmore : msg.length < idx + mpi_count_at msg idx + 2) :
    spgp_read_mpi msg idx = .fault (.oobRead msg.length) := by
  unfold mpi_count_at at hmore
  have hne : msg.length ≠ 0 := by omega
  have hs : sub32 msg.length idx = msg.length - idx := sub32_eq _ _ (by omega) hlen
  have hn2 : ¬ msg.length - idx < 2 := by omega
  have r0 : rd msg idx = .ok (msg.getD idx 0 % 256) := rd_getD (by omega)
  have r1 : rd msg (idx + 1) = .ok (msg.getD (idx + 1) 0 % 256) := rd_getD (by omega)
  have hor := or_be16 (msg.getD idx 0 % 256) (msg.getD (idx + 1) 0 % 256)
    (Nat.mod_lt _ (by decide))
  have hd : rdN msg idx
      (((msg.getD idx 0 % 256) * 256 + msg.getD (idx + 1) 0 % 256 + 7) / 8 + 2)
      = .fault (.oobRead msg.length) := by
    have hnz : ¬ (((msg.getD idx 0 % 256) * 256 + msg.getD (idx + 1) 0 % 256 + 7) / 8 + 2 = 0) := by
      omega
    have hnle : ¬ (idx + (((msg.getD idx 0 % 256) * 256 + msg.getD (idx + 1) 0 % 256 + 7) / 8 + 2)
        ≤ msg.length) := by omega
    have hmax : max idx msg.length = msg.length := by omega
    simp only [rdN, hnz, hnle, if_false, hmax]
  simp only [spgp_read_mpi, hne, hs, hn2, if_false, r0, r1, Res.ok_bind, hor, hd,
    Res.fault_bind]

/-- Witness of C25: the buffer `00 10 01` announces an MPI of 16 bits, two value bytes,
and holds one. -/
theorem read_mpi_overrun_witness :
    spgp_read_mpi [0x00, 0x10, 0x01] 0 = .fault (.oobRead ([0x00, 0x10, 0x01] : List Nat).length) :=
  read_mpi_overrun [0x00, 0x10, 0x01] 0 (by decide) (by decide) (by decide)

/-! ### Layout of a secret-key packet -/

theorem read_mpi_loop_cursor (msg : List Nat) (hlen : msg.length < U32) :
    ∀ (n i idx : Nat) (ms : List Mpi) (j : Nat), (i ≠ 0 → idx < msg.length) →
      read_mpi_loop msg n i idx = .ok (ms, j) →
      (i ≠ 0 → j + 1 = idx + 1 + mpis_size ms) ∧
      (i = 0 → n ≠ 0 → j + 1 = idx + mpis_size ms) := by
  intro n
  induction n with
  | zero =>
    intro i idx ms j _ h
    simp only [read_mpi_loop, Res.ok.injEq, Prod.mk.injEq] at h
    obtain ⟨h1, h2⟩ := h
    subst h1 h2
    exact ⟨fun _ => by simp [mpis_size], fun _ hn => absurd rfl hn⟩
  | succ n ih =>
    intro i idx ms j hi h
    simp only [read_mpi_loop, Res.bind_eq_ok] at h
    obtain ⟨i1, h1, r, hr, rs, hrs, hp⟩ := h
    simp only [Res.pure_eq, Res.ok.injEq, Prod.mk.injEq] at hp
    obtain ⟨hms, hj⟩ := hp
    have hpos : i1 = (if i = 0 then idx else idx + 1) := by
      by_cases hi0 : i = 0
      · simp only [hi0, ne_eq, not_true_eq_false, if_false, Res.ok.injEq,
          if_true] at h1 ⊢
        exact h1.symm
      · simp only [ne_eq, hi0, not_false_eq_true, if_true, if_false] at h1 ⊢
        obtain ⟨e, _⟩ := SAFE_IDX_INCREMENT_inv h1
        rw [e]
        exact Nat.mod_eq_of_lt (by have := hi hi0; omega)
    obtain ⟨hb, hc, hd, hl, hj2⟩ := read_mpi_inv (m := r.1) (i := r.2) hlen hr
    obtain ⟨c1, _⟩ := ih (i + 1) r.2 rs.1 rs.2 (by intro _; omega) hrs
    have c1 := c1 (by omega)
    have hsz : mpis_size ms = r.1.count + 2 + mpis_size rs.1 := by
      rw [← hms]
      simp [mpis_size]
    subst hj
    constructor
    · intro hi0
      rw [if_neg hi0] at hpos
      omega
    · intro hi0 _
      rw [if_pos hi0] at hpos
      omega

theorem consecutive_mpis_end (msg : List Nat) :
    ∀ (ms : List Mpi) (pos : Nat), consecutive_mpis msg pos ms → ms ≠ [] →
      pos + mpis_size ms ≤ msg.length := by
  intro ms
  induction ms with
  | nil =>
    intro pos _ hne
    exact absurd rfl hne
  | cons a rest ih =>
    intro pos h _
    obtain ⟨_, _, _, hl, hrest⟩ := h
    by_cases hr : rest = []
    · subst hr
      simp only [mpis_size, List.map_cons, List.map_nil, List.sum_cons, List.sum_nil]
      omega
    · have := ih _ hrest hr
      simp only [mpis_size, List.map_cons, List.sum_cons] at this ⊢
      omega

theorem public_key_fields_cursor {msg : List Nat} {idx j : Nat} {pub0 pub : PublicPkt}
    (hlen : msg.length < U32) (h : public_key_fields msg idx pub0 = .ok (pub, j)) :
    j + 1 = idx + 6 + mpis_size pub.mpis ∧ j < msg.length := by
  have hinv := public_key_fields_inv hlen h
  have hcons := hinv.2.2.2.2.2
  have hne : pub.mpis ≠ [] := by
    intro hc
    have hl := hinv.2.2.2.1
    rw [hc] at hl
    split_ifs at hl <;> simp at hl
  have hend := consecutive_mpis_end msg _ _ hcons hne
  suffices hj : j + 1 = idx + 6 + mpis_size pub.mpis from ⟨hj, by omega⟩
  simp only [public_key_fields, Res.bind_eq_ok] at h
  obtain ⟨version, hv, i1, hi1, h⟩ := h
  split_ifs at h with hv4 hs4
  simp only [Res.bind_eq_ok] at h
  obtain ⟨ct, hct, i2, hi2, algo, halgo, i3, hi3, r, hr, hp⟩ := h
  simp only [Res.pure_eq, Res.ok.injEq, Prod.mk.injEq] at hp
  obtain ⟨hpub, hj⟩ := hp
  obtain ⟨hidx, _⟩ := rd_inv hv
  obtain ⟨e1, l1⟩ := SAFE_IDX_INCREMENT_inv hi1
  rw [Nat.mod_eq_of_lt (by omega)] at e1
  subst e1
  obtain ⟨e2, l2⟩ := SAFE_IDX_INCREMENT_inv hi2
  obtain ⟨hl4, _⟩ := rdN_inv (by decide) hct
  rw [add32_eq _ _ (by omega), Nat.mod_eq_of_lt (by omega)] at e2
  subst e2
  obtain ⟨e3, l3⟩ := SAFE_IDX_INCREMENT_inv hi3
  rw [Nat.mod_eq_of_lt (by omega)] at e3
  subst e3
  have e6 : idx + 1 + 3 + 1 + 1 = idx + 6 := by omega
  rw [e6] at hr
  have hm : pub.mpis = r.1 := by rw [← hpub]
  rw [hm]
  subst hj
  unfold spgp_read_all_public_mpis at hr
  split_ifs at hr with hz hdsa helg
  · simp only [Res.bind_eq_ok, Res.pure_eq, Res.ok.injEq] at hr
    obtain ⟨q, hq, hrq⟩ := hr
    obtain ⟨_, c⟩ := read_mpi_loop_cursor msg hlen 4 0 (idx + 6) q.1 q.2 (by simp)
      (show _ = Res.ok (q.1, q.2) from hq)
    have c := c rfl (by decide)
    rw [← hrq]
    exact c
  · simp only [Res.bind_eq_ok, Res.pure_eq, Res.ok.injEq] at hr
    obtain ⟨q, hq, hrq⟩ := hr
    obtain ⟨_, c⟩ := read_mpi_loop_cursor msg hlen 3 0 (idx + 6) q.1 q.2 (by simp)
      (show _ = Res.ok (q.1, q.2) from hq)
    have c := c rfl (by decide)
    rw [← hrq]
    exact c

theorem read_salt_layout {msg : List Nat} {idx j : Nat} {s s1 : SecretPkt}
    (hlen : msg.length < U32) (h : spgp_read_salt msg idx s = .ok (s1, j)) :
    s1 = { s with s2kSalt := some (bytes_at msg idx 8), s2kSaltLength := 8 } ∧
      j = idx + 8 ∧ j < msg.length ∧ s.s2kHashAlgo = HASH_ALGO_SHA1 := by
  unfold spgp_read_salt at h
  by_cases h0 : msg.length = 0
  · simp [h0] at h
  · by_cases ha : s.s2kHashAlgo = HASH_ALGO_SHA1
    · by_cases h2 : sub32 msg.length idx < 8
      · simp [h0, spgp_salt_length_for_hash_algo, ha, h2] at h
      · have hsl : spgp_salt_length_for_hash_algo s.s2kHashAlgo = .ok 8 := by
          simp [spgp_salt_length_for_hash_algo, ha]
        simp only [h0, if_false, hsl, Res.ok_bind,
          h2, (by decide : ¬ (8 = 0)), Res.bind_eq_ok, Res.pure_eq, Res.ok.injEq,
          Prod.mk.injEq] at h
        obtain ⟨salt, hsalt, i, hi, hs, hj⟩ := h
        obtain ⟨hle, hd⟩ := rdN_inv (by decide) hsalt
        obtain ⟨e, l⟩ := SAFE_IDX_INCREMENT_inv hi
        rw [add32_eq _ _ (by omega), Nat.mod_eq_of_lt (by omega)] at e
        subst hj
        refine ⟨?_, by omega, l, ha⟩
        rw [← hs, hd]
        rfl
    · simp [h0, spgp_salt_length_for_hash_algo, ha] at h

theorem read_iv_layout {env : Env} {msg : List Nat} {idx j : Nat} {s s1 : SecretPkt}
    (hlen : msg.length < U32) (h : spgp_read_iv env msg idx s = .ok (s1, j)) :
    ∃ n, n ≠ 0 ∧ s1 = { s with iv := some (bytes_at msg idx n), ivLength := n } ∧
      j = idx + n ∧ j < msg.length := by
  unfold spgp_read_iv at h
  split_ifs at h with h0
  simp only [Res.bind_eq_ok] at h
  obtain ⟨ivLen, _, h⟩ := h
  split_ifs at h with h1 h2
  simp only [Res.bind_eq_ok, Res.pure_eq, Res.ok.injEq, Prod.mk.injEq] at h
  obtain ⟨iv, hiv, i, hi, hs, hj⟩ := h
  obtain ⟨hle, hd⟩ := rdN_inv h1 hiv
  obtain ⟨e, l⟩ := SAFE_IDX_INCREMENT_inv hi
  rw [add32_eq _ _ (by omega), Nat.mod_eq_of_lt (by omega)] at e
  subst hj
  refine ⟨ivLen, h1, ?_, by omega, l⟩
  rw [← hs, hd]
  rfl

theorem read_s2k_encryption_inv {msg : List Nat} {idx t e j : Nat}
    (hlen : msg.length < U32) (h : read_s2k_encryption msg idx t = .ok (e, j)) :
    (t = 0 ∧ e = 0 ∧ j = idx) ∨
    ((t = 254 ∨ t = 255) ∧ e = msg.getD idx 0 % 256 ∧ j = idx + 1 ∧ j < msg.length) ∨
    (t ≠ 0 ∧ ¬ (t = 254 ∨ t = 255) ∧ e = t ∧ j = idx) := by
  unfold read_s2k_encryption at h
  by_cases h0 : t = 0
  · rw [if_pos h0] at h
    simp only [Res.ok.injEq, Prod.mk.injEq] at h
    exact Or.inl ⟨h0, h.1.symm, h.2.symm⟩
  · rw [if_neg h0] at h
    by_cases h1 : t = 254 ∨ t = 255
    · rw [if_pos h1] at h
      simp only [Res.bind_eq_ok, Res.pure_eq, Res.ok.injEq, Prod.mk.injEq] at h
      obtain ⟨b, hb, i, hi, e1, e2⟩ := h
      obtain ⟨hidx, eb⟩ := rd_inv hb
      obtain ⟨ei, l⟩ := SAFE_IDX_INCREMENT_inv hi
      rw [Nat.mod_eq_of_lt (by omega)] at ei
      right; left
      exact ⟨h1, by omega, by omega, by omega⟩
    · rw [if_neg h1] at h
      simp only [Res.ok.injEq, Prod.mk.injEq] at h
      right; right
      exact ⟨h0, h1, h.1.symm, h.2.symm⟩

theorem read_s2k_params_layout {msg : List Nat} {idx j : Nat} {s s1 : SecretPkt}
    (hlen : msg.length < U32) (he : s.s2kEncryption ≠ 0)
    (h : read_s2k_params msg idx s = .ok (s1, j)) :
    s1.pub = s.pub ∧ s1.s2kEncryption = s.s2kEncryption ∧ s1.s2kType = s.s2kType ∧
    s1.s2kSpecifier = (if s.s2kType ≥ 254 then msg.getD idx 0 % 256 else s.s2kSpecifier) ∧
    s1.s2kHashAlgo = msg.getD (idx + (if s.s2kType ≥ 254 then 1 else 0)) 0 % 256 ∧
    (s1.s2kSpecifier = 1 ∨ s1.s2kSpecifier = 3 →
      s1.s2kSalt = some (bytes_at msg (idx + (if s.s2kType ≥ 254 then 1 else 0) + 1) 8) ∧
      s1.s2kSaltLength = 8 ∧ s1.s2kHashAlgo = HASH_ALGO_SHA1) ∧
    (s1.s2kSpecifier = 3 →
      s1.s2kCount = msg.getD (idx + (if s.s2kType ≥ 254 then 1 else 0) + 9) 0 % 256) ∧
    j = idx + (if s.s2kType ≥ 254 then 1 else 0) + 1
          + (if s1.s2kSpecifier = 1 then 8 else if s1.s2kSpecifier = 3 then 9 else 0) ∧
    j < msg.length := by
  unfold read_s2k_params at h
  simp only [ne_eq, he, not_false_eq_true, if_true, Res.bind_eq_ok] at h
  obtain ⟨a, ha, hb, hhb, i1, hi1, h⟩ := h
  have hcore : a.1 = { s with s2kSpecifier :=
        (if s.s2kType ≥ 254 then msg.getD idx 0 % 256 else s.s2kSpecifier) } ∧
      a.2 = idx + (if s.s2kType ≥ 254 then 1 else 0) := by
    by_cases ht : s.s2kType ≥ 254
    · simp only [ht, if_true, Res.bind_eq_ok, Res.pure_eq, Res.ok.injEq] at ha ⊢
      obtain ⟨sp, hsp, i, hi, e⟩ := ha
      obtain ⟨hidx, esp⟩ := rd_inv hsp
      obtain ⟨ei, _⟩ := SAFE_IDX_INCREMENT_inv hi
      rw [Nat.mod_eq_of_lt (by omega)] at ei
      rw [← e]
      exact ⟨by rw [esp], ei⟩
    · simp only [ht, if_false, Res.ok.injEq] at ha ⊢
      rw [← ha]
      exact ⟨rfl, rfl⟩
  obtain ⟨ea1, ea2⟩ := hcore
  obtain ⟨hidx2, ehb⟩ := rd_inv hhb
  obtain ⟨ei1, li1⟩ := SAFE_IDX_INCREMENT_inv hi1
  rw [Nat.mod_eq_of_lt (by omega)] at ei1
  rw [ea2] at ehb ei1
  by_cases h1 : a.1.s2kSpecifier = 1
  · simp only [h1, if_true] at h
    obtain ⟨e, hj, hl, hsha⟩ := read_salt_layout hlen h
    have hspec : s1.s2kSpecifier = 1 := by
      rw [e]
    have hspec0 : (if s.s2kType ≥ 254 then msg.getD idx 0 % 256 else s.s2kSpecifier) = 1 := by
      rw [ea1] at h1
      exact h1
    rw [hspec]
    simp only [if_true, true_or, forall_const, (by decide : ¬ (1 = 3)), false_implies,
      true_and]
    rw [e, ea1]
    simp only [true_and]
    refine ⟨hspec0.symm, ehb.symm ▸ rfl, ⟨?_, ?_⟩, by omega, hl⟩
    · rw [ei1]
    · exact ehb.symm ▸ hsha
  · by_cases h3 : a.1.s2kSpecifier = 3
    · simp only [h3, if_true, (by decide : ¬ (3 = 1)), if_false, Res.bind_eq_ok,
        Res.pure_eq, Res.ok.injEq, Prod.mk.injEq] at h
      obtain ⟨r, hr, c, hc, i2, hi2, e, hj⟩ := h
      obtain ⟨e2, hj2, hl2, hsha⟩ := read_salt_layout hlen (show _ = Res.ok (r.1, r.2) from hr)
      obtain ⟨_, ec⟩ := rd_inv hc
      obtain ⟨ei2, li2⟩ := SAFE_IDX_INCREMENT_inv hi2
      rw [Nat.mod_eq_of_lt (by omega)] at ei2
      have hspec0 : (if s.s2kType ≥ 254 then msg.getD idx 0 % 256 else s.s2kSpecifier) = 3 := by
        rw [ea1] at h3
        exact h3
      have hspec : s1.s2kSpecifier = 3 := by
        rw [← e, e2]
      rw [hspec]
      simp only [if_true, or_true, forall_const, (by decide : ¬ (3 = 1)), if_false,
        true_and]
      rw [← e, e2, ea1]
      simp only [true_and]
      refine ⟨hspec0.symm, ehb.symm ▸ rfl, ⟨?_, ?_⟩, ?_, by omega, by omega⟩
      · rw [ei1]
      · exact ehb.symm ▸ hsha
      · rw [ec, hj2, ei1]
    · simp only [h1, h3, if_false, Res.pure_eq, Res.ok.injEq, Prod.mk.injEq] at h
      obtain ⟨e, hj⟩ := h
      have hs1 : s1.s2kSpecifier = a.1.s2kSpecifier := by rw [← e]
      have hn1 : ¬ s1.s2kSpecifier = 1 := by rw [hs1]; exact h1
      have hn3 : ¬ s1.s2kSpecifier = 3 := by rw [hs1]; exact h3
      simp only [hn1, hn3, if_false, false_or, false_implies, true_and, or_self]
      rw [← e, ea1]
      simp only [true_and]
      exact ⟨ehb.symm ▸ rfl, by omega, by omega⟩

theorem read_encrypted_data_layout {env : Env} {msg : List Nat} {idx start cl j : Nat}
    {s s1 : SecretPkt} (hlen : msg.length < U32) (hcl : cl < U32) (hst : start ≤ idx)
    (h : read_encrypted_data env msg idx start cl s = .ok (s1, j)) :
    ∃ n, n ≠ 0 ∧ idx + n < start + cl ∧ start + cl ≤ msg.length ∧
      s1 = { s with iv := some (bytes_at msg idx n), ivLength := n,
                    encryptedData := some (bytes_at msg (idx + n) (start + cl - (idx + n))),
                    encryptedDataLength := start + cl - (idx + n) } ∧
      j = start + cl - 1 := by
  unfold read_encrypted_data at h
  simp only [Res.bind_eq_ok] at h
  obtain ⟨r, hr, h⟩ := h
  obtain ⟨n, hn, e, hj, hl⟩ := read_iv_layout hlen (show _ = Res.ok (r.1, r.2) from hr)
  have hoff : sub32 r.2 start = r.2 - start := sub32_eq _ _ (by omega) (by omega)
  rw [hoff] at h
  split_ifs at h with hpo
  have hrem : sub32 cl (r.2 - start) = cl - (r.2 - start) := sub32_eq _ _ (by omega) hcl
  rw [hrem] at h
  simp only [Res.bind_eq_ok, Res.pure_eq, Res.ok.injEq, Prod.mk.injEq] at h
  obtain ⟨d, hd, e2, hj2⟩ := h
  obtain ⟨hle, ed⟩ := rdN_inv (by omega) hd
  have hs1 : sub32 (cl - (r.2 - start)) 1 = cl - (r.2 - start) - 1 :=
    sub32_eq _ _ (by omega) (by omega)
  rw [hs1, add32_eq _ _ (by omega)] at hj2
  have hk : start + cl - (idx + n) = cl - (r.2 - start) := by omega
  refine ⟨n, hn, by omega, by omega, ?_, by omega⟩
  rw [← e2, e, ed, hk, hj]
  rfl

theorem secret_key_steps {env : Env} {msg : List Nat} {idx cl j : Nat} {s : SecretPkt}
    (hlen : msg.length < U32) (h : secret_key_fields env msg idx cl = .ok (s, j)) :
    ∃ (pub0 : PublicPkt) (e : Nat × Nat) (p : SecretPkt × Nat) (q : SecretPkt),
      public_key_fields msg idx {} = .ok (pub0, idx + 5 + mpis_size pub0.mpis) ∧
      idx + 6 + mpis_size pub0.mpis + 1 < msg.length ∧
      read_s2k_encryption msg (idx + 6 + mpis_size pub0.mpis + 1)
        (msg.getD (idx + 6 + mpis_size pub0.mpis) 0 % 256) = .ok e ∧
      read_s2k_params msg e.2
        { pub := pub0, s2kType := msg.getD (idx + 6 + mpis_size pub0.mpis) 0 % 256,
          s2kEncryption := e.1 } = .ok p ∧
      (if p.1.s2kEncryption = 0 then spgp_read_all_secret_mpis msg p.2 p.1
        else read_encrypted_data env msg p.2 idx cl p.1) = .ok (q, j) ∧
      spgp_generate_fingerprint env q.pub = .ok s.pub ∧ s = { q with pub := s.pub } := by
  unfold secret_key_fields at h
  simp only [Res.bind_eq_ok] at h
  obtain ⟨i0, h0, i1, hi1, t, ht, i2, hi2, e, he, p, hp, q, hq, pub, hfp, hs⟩ := h
  obtain ⟨pub0, hslot, hf⟩ := parse_public_key_slot_inv h0
  simp only [Option.getD_some] at hf
  rw [hslot] at hp
  simp only [Option.getD_some] at hp
  obtain ⟨hc, hl0⟩ := public_key_fields_cursor hlen hf
  obtain ⟨e1, l1⟩ := SAFE_IDX_INCREMENT_inv hi1
  rw [Nat.mod_eq_of_lt (by omega)] at e1
  obtain ⟨_, et⟩ := rd_inv ht
  obtain ⟨e2, l2⟩ := SAFE_IDX_INCREMENT_inv hi2
  rw [Nat.mod_eq_of_lt (by omega)] at e2
  have hi0 : i0 = idx + 5 + mpis_size pub0.mpis := by omega
  have hi1' : i1 = idx + 6 + mpis_size pub0.mpis := by omega
  have hi2' : i2 = idx + 6 + mpis_size pub0.mpis + 1 := by omega
  subst hi1'
  simp only [Res.pure_eq, Res.ok.injEq, Prod.mk.injEq] at hs
  obtain ⟨hs, hj⟩ := hs
  subst hj
  refine ⟨pub0, e, p, q.1, ?_, by omega, ?_, ?_, hq, ?_, ?_⟩
  · rw [hf, hi0]
  · rw [← hi2', ← et]
    exact he
  · rw [← et]
    exact hp
  · rw [← hs]
    exact hfp
  · rw [← hs]

theorem encrypted_secret_key_layout {env : Env} {msg : List Nat} {idx cl j : Nat}
    {slot : Option SecretPkt} {s : SecretPkt} (hlen : msg.length < U32) (hcl : cl < U32)
    (h : spgp_parse_secret_key env msg idx cl slot = (some s, .ok j))
    (henc : s.s2kEncryption ≠ 0) :
    ∃ k n,
      s.s2kType = msg.getD (idx + 6 + mpis_size s.pub.mpis) 0 % 256 ∧
      (s.s2kType ≥ 254 →
        s.s2kEncryption = msg.getD (idx + 6 + mpis_size s.pub.mpis + 1) 0 % 256 ∧
        s.s2kSpecifier = msg.getD (idx + 6 + mpis_size s.pub.mpis + 2) 0 % 256 ∧
        s.s2kHashAlgo = msg.getD (idx + 6 + mpis_size s.pub.mpis + 3) 0 % 256 ∧
        (s.s2kSpecifier = 1 ∨ s.s2kSpecifier = 3 →
          s.s2kSalt = some (bytes_at msg (idx + 6 + mpis_size s.pub.mpis + 4) 8) ∧
          s.s2kHashAlgo = HASH_ALGO_SHA1) ∧
        (s.s2kSpecifier = 3 →
          s.s2kCount = msg.getD (idx + 6 + mpis_size s.pub.mpis + 12) 0 % 256) ∧
        k = idx + 6 + mpis_size s.pub.mpis + 4
              + (if s.s2kSpecifier = 1 then 8 else if s.s2kSpecifier = 3 then 9 else 0)) ∧
      (s.s2kType < 254 →
        s.s2kEncryption = s.s2kType ∧ s.s2kSpecifier = 0 ∧
        s.s2kHashAlgo = msg.getD (idx + 6 + mpis_size s.pub.mpis + 1) 0 % 256 ∧
        k = idx + 6 + mpis_size s.pub.mpis + 2) ∧
      n ≠ 0 ∧ s.iv = some (bytes_at msg k n) ∧ s.ivLength = n ∧
      k + n < idx + cl ∧ idx + cl ≤ msg.length ∧
      s.encryptedData = some (bytes_at msg (k + n) (idx + cl - (k + n))) ∧
      s.encryptedDataLength = idx + cl - (k + n) ∧ j = idx + cl - 1 := by
  have hf := parse_secret_key_inv h
  obtain ⟨pub0, e, p, q, h1, h2, h3, h4, h5, h6, h7⟩ := secret_key_steps hlen hf
  have hfp := generate_fingerprint_inv h6
  have hpq : q.s2kEncryption ≠ 0 := by
    rw [h7] at henc
    exact henc
  have hpe : p.1.s2kEncryption ≠ 0 := by
    intro hz
    rw [if_pos hz] at h5
    obtain ⟨m, em, _, _⟩ := read_all_secret_mpis_inv hlen h5
    rw [em] at hpq
    exact hpq hz
  rw [if_neg hpe] at h5
  have he1 : e.1 ≠ 0 := by
    intro hz
    rw [hz] at h4
    simp only [read_s2k_params, ne_eq, not_true_eq_false, if_false, Res.ok.injEq] at h4
    rw [← h4] at hpe
    exact hpe rfl
  obtain ⟨c1, c2, c3, c4, c5, c6, c7, c8, c9⟩ :=
    read_s2k_params_layout hlen (show (_ : SecretPkt).s2kEncryption ≠ 0 from he1)
      (show _ = Res.ok (p.1, p.2) from h4)
  have hE := read_s2k_encryption_inv hlen (show _ = Res.ok (e.1, e.2) from h3)
  have htlt : msg.getD (idx + 6 + mpis_size pub0.mpis) 0 % 256 < 256 :=
    Nat.mod_lt _ (by decide)
  have hst : idx ≤ p.2 := by
    rcases hE with ⟨_, _, e2⟩ | ⟨_, _, e2, _⟩ | ⟨_, _, _, e2⟩ <;> omega
  obtain ⟨n, hn, d1, d2, d3, d4⟩ := read_encrypted_data_layout hlen hcl hst h5
  have hmp : s.pub.mpis = pub0.mpis := by
    rw [hfp, d3]
    show p.1.pub.mpis = pub0.mpis
    rw [c1]
  have hs : s = { q with pub := s.pub } := h7
  have f1 : s.s2kType = msg.getD (idx + 6 + mpis_size pub0.mpis) 0 % 256 := by
    rw [hs, d3]
    exact c3
  have f2 : s.s2kEncryption = e.1 := by
    rw [hs, d3]
    exact c2
  have f3 : s.s2kSpecifier = p.1.s2kSpecifier := by rw [hs, d3]
  have f4 : s.s2kHashAlgo = p.1.s2kHashAlgo := by rw [hs, d3]
  have f5 : s.s2kSalt = p.1.s2kSalt := by rw [hs, d3]
  have f6 : s.s2kCount = p.1.s2kCount := by rw [hs, d3]
  have f7 : s.iv = some (bytes_at msg p.2 n) := by rw [hs, d3]
  have f8 : s.ivLength = n := by rw [hs, d3]
  have f9 : s.encryptedData = some (bytes_at msg (p.2 + n) (idx + cl - (p.2 + n))) := by
    rw [hs, d3]
  have f10 : s.encryptedDataLength = idx + cl - (p.2 + n) := by rw [hs, d3]
  rw [hmp]
  refine ⟨p.2, n, f1, ?_, ?_, hn, f7, f8, d1, d2, f9, f10, d4⟩
  · intro hty
    rw [f1] at hty
    have ht2 : msg.getD (idx + 6 + mpis_size pub0.mpis) 0 % 256 = 254 ∨
        msg.getD (idx + 6 + mpis_size pub0.mpis) 0 % 256 = 255 := by omega
    rcases hE with ⟨e0, _, _⟩ | ⟨_, e1, e2, _⟩ | ⟨_, e0, _, _⟩
    · omega
    · simp only [hty, if_true] at c4 c5 c6 c7 c8
      rw [e2] at c4 c5 c6 c7 c8
      rw [f2, f3, f4, f5, f6]
      refine ⟨e1, ?_, ?_, ?_, ?_, ?_⟩
      · rw [c4]
      · rw [c5]
      · intro hsp
        obtain ⟨g1, _, g3⟩ := c6 hsp
        refine ⟨?_, g3⟩
        rw [g1]
      · intro hsp
        rw [c7 hsp]
      · rw [c8]
    · exact absurd ht2 e0
  · intro hty
    rw [f1] at hty
    have hnt : ¬ (msg.getD (idx + 6 + mpis_size pub0.mpis) 0 % 256 ≥ 254) := by omega
    rcases hE with ⟨e0, e1, _⟩ | ⟨e0, _, _, _⟩ | ⟨_, _, e1, e2⟩
    · exact absurd e1 he1
    · omega
    · simp only [hnt, if_false] at c4 c5 c8
      rw [e2] at c5 c8
      have hsp0 : p.1.s2kSpecifier = 0 := c4
      rw [f1, f2, f3, f4]
      refine ⟨e1, hsp0, ?_, ?_⟩
      · rw [c5]
      · rw [c8, hsp0]
        simp

/-- Counterexample to C26: two secret-key contents with an Elgamal key of three
one-byte MPIs, CAST5, an IV of 8 bytes and two bytes of encrypted data.  In the first
the S2K type 254 is followed by the specifier 0; the parser reads the next byte, 2, as
`s2kHashAlgo` and takes the IV from the 8 bytes after it, not from the 8 bytes after
the specifier.  In the second the S2K type is the legacy form 3, with no specifier; the
parser reads the byte after it as `s2kHashAlgo` as well. -/
theorem secret_key_hash_algo_always_read :
    spgp_parse_secret_key null_env
        [4, 0, 0, 0, 1, 16, 0, 1, 1, 0, 1, 1, 0, 1, 1, 254, 3, 0, 2, 1, 2, 3, 4, 5, 6, 7, 8,
          9, 9] 0 29 none
      = (some { pub := { version := 4, creationTime := 16777216, asymAlgo := 16,
                         mpis := [⟨[0, 1, 1], 1, 1⟩, ⟨[0, 1, 1], 1, 1⟩, ⟨[0, 1, 1], 1, 1⟩],
                         mpiCount := 3, fingerprint := some (List.replicate 20 0) },
                s2kType := 254, s2kEncryption := 3, s2kSpecifier := 0, s2kHashAlgo := 2,
                iv := some [1, 2, 3, 4, 5, 6, 7, 8], ivLength := 8,
                encryptedData := some [9, 9], encryptedDataLength := 2 }, .ok 28) ∧
    spgp_parse_secret_key null_env
        [4, 0, 0, 0, 1, 16, 0, 1, 1, 0, 1, 1, 0, 1, 1, 3, 2, 1, 2, 3, 4, 5, 6, 7, 8,
          9, 9] 0 27 none
      = (some { pub := { version := 4, creationTime := 16777216, asymAlgo := 16,
                         mpis := [⟨[0, 1, 1], 1, 1⟩, ⟨[0, 1, 1], 1, 1⟩, ⟨[0, 1, 1], 1, 1⟩],
                         mpiCount := 3, fingerprint := some (List.replicate 20 0) },
                s2kType := 3, s2kEncryption := 3, s2kSpecifier := 0, s2kHashAlgo := 2,
                iv := some [1, 2, 3, 4, 5, 6, 7, 8], ivLength := 8,
                encryptedData := some [9, 9], encryptedDataLength := 2 }, .ok 26) := by
  constructor <;> decide

/-- C26 (amended): a secret-key packet that parses successfully as an encrypted key in
the form with an S2K specifier (S2K type 254 or 255); the S2K type byte lies after the
public MPIs, at index `idx + 6 + mpis_size`.  The bytes after it are read in order as
`s2kEncryption`, `s2kSpecifier` and `s2kHashAlgo`, the hash algorithm for every
specifier; for the specifiers 1 and 3 the 8 bytes of salt follow (and the hash
algorithm is SHA-1), for the specifier 3 the count octet follows the salt; the IV is
the `ivLength` bytes immediately after the last of these fields. -/
theorem secret_key_hash_algo_read (env : Env) (msg : List Nat) (idx cl j : Nat)
    (slot : Option SecretPkt) (s : SecretPkt) (hlen : msg.length < U32) (hcl : cl < U32)
    (h : spgp_parse_secret_key env msg idx cl slot = (some s, .ok j))
    (henc : s.s2kEncryption ≠ 0) (hty : s.s2kType ≥ 254) :
    s.s2kType = msg.getD (idx + 6 + mpis_size s.pub.mpis) 0 % 256 ∧
    s.s2kEncryption = msg.getD (idx + 6 + mpis_size s.pub.mpis + 1) 0 % 256 ∧
    s.s2kSpecifier = msg.getD (idx + 6 + mpis_size s.pub.mpis + 2) 0 % 256 ∧
    s.s2kHashAlgo = msg.getD (idx + 6 + mpis_size s.pub.mpis + 3) 0 % 256 ∧
    (s.s2kSpecifier = 1 ∨ s.s2kSpecifier = 3 →
      s.s2kSalt = some (bytes_at msg (idx + 6 + mpis_size s.pub.mpis + 4) 8) ∧
      s.s2kHashAlgo = HASH_ALGO_SHA1) ∧
    (s.s2kSpecifier = 3 →
      s.s2kCount = msg.getD (idx + 6 + mpis_size s.pub.mpis + 12) 0 % 256) ∧
    s.ivLength ≠ 0 ∧
    s.iv = some (bytes_at msg
      (idx + 6 + mpis_size s.pub.mpis + 4
        + (if s.s2kSpecifier = 1 then 8 else if s.s2kSpecifier = 3 then 9 else 0))
      s.ivLength) := by
  obtain ⟨k, n, a1, a2, _, a4, a5, a6, _⟩ := encrypted_secret_key_layout hlen hcl h henc
  obtain ⟨b1, b2, b3, b4, b5, b6⟩ := a2 hty
  refine ⟨a1, b1, b2, b3, b4, b5, ?_, ?_⟩
  · rw [a6]
    exact a4
  · rw [a5, a6, b6]

/-- Witness of C26: the sample secret-key content with the specifier 3. -/
theorem secret_key_hash_algo_read_witness :
    ∃ s j, spgp_parse_secret_key null_env (sample_secret_content [0, 1, 1]) 0 39 none
        = (some s, .ok j) ∧ s.s2kEncryption ≠ 0 ∧ s.s2kType ≥ 254 ∧
      s.s2kType = (sample_secret_content [0, 1, 1]).getD (0 + 6 + mpis_size s.pub.mpis) 0 % 256 ∧
      s.s2kEncryption
        = (sample_secret_content [0, 1, 1]).getD (0 + 6 + mpis_size s.pub.mpis + 1) 0 % 256 ∧
      s.s2kSpecifier
        = (sample_secret_content [0, 1, 1]).getD (0 + 6 + mpis_size s.pub.mpis + 2) 0 % 256 ∧
      s.s2kHashAlgo
        = (sample_secret_content [0, 1, 1]).getD (0 + 6 + mpis_size s.pub.mpis + 3) 0 % 256 ∧
      (s.s2kSpecifier = 1 ∨ s.s2kSpecifier = 3 →
        s.s2kSalt = some (bytes_at (sample_secret_content [0, 1, 1])
          (0 + 6 + mpis_size s.pub.mpis + 4) 8) ∧
        s.s2kHashAlgo = HASH_ALGO_SHA1) ∧
      (s.s2kSpecifier = 3 →
        s.s2kCount
          = (sample_secret_content [0, 1, 1]).getD (0 + 6 + mpis_size s.pub.mpis + 12) 0 % 256) ∧
      s.ivLength ≠ 0 ∧
      s.iv = some (bytes_at (sample_secret_content [0, 1, 1])
        (0 + 6 + mpis_size s.pub.mpis + 4
          + (if s.s2kSpecifier = 1 then 8 else if s.s2kSpecifier = 3 then 9 else 0))
        s.ivLength) :=
  ⟨sample_secret_body [0, 1, 1], 38, by decide, by decide, by decide,
   secret_key_hash_algo_read null_env (sample_secret_content [0, 1, 1]) 0 39 38 none
     (sample_secret_body [0, 1, 1]) (by decide) (by decide) (by decide) (by decide)
     (by decide)⟩

/-- C27: an encrypted secret-key packet that parses successfully with its content at
index `idx`.  With `k` the cursor position after the IV (the S2K type byte lies after
the public MPIs, the S2K fields and the IV follow it), the content lies within the
buffer, `encryptedData` is exactly the bytes from `k` up to index
`idx + contentLength - 1`, its length is `contentLength` minus the `k - idx` bytes
consumed before it and is at least 1, and the cursor is left at
`idx + contentLength - 1`. -/
theorem secret_key_encrypted_data (env : Env) (msg : List Nat) (idx cl j : Nat)
    (slot : Option SecretPkt) (s : SecretPkt) (hlen : msg.length < U32) (hcl : cl < U32)
    (h : spgp_parse_secret_key env msg idx cl slot = (some s, .ok j))
    (henc : s.s2kEncryption ≠ 0) :
    ∃ k, k = idx + 6 + mpis_size s.pub.mpis
            + (if s.s2kType ≥ 254 then
                4 + (if s.s2kSpecifier = 1 then 8 else if s.s2kSpecifier = 3 then 9 else 0)
               else 2)
            + s.ivLength ∧
      s.iv = some (bytes_at msg (k - s.ivLength) s.ivLength) ∧
      idx < k ∧ k < idx + cl ∧ idx + cl ≤ msg.length ∧
      s.encryptedData = some (bytes_at msg k (idx + cl - k)) ∧
      s.encryptedDataLength = cl - (k - idx) ∧ 1 ≤ s.encryptedDataLength ∧
      j = idx + cl - 1 := by
  obtain ⟨k, n, a1, a2, a3, a4, a5, a6, a7, a8, a9, a10, a11⟩ :=
    encrypted_secret_key_layout hlen hcl h henc
  have hk : k = idx + 6 + mpis_size s.pub.mpis
      + (if s.s2kType ≥ 254 then
          4 + (if s.s2kSpecifier = 1 then 8 else if s.s2kSpecifier = 3 then 9 else 0)
         else 2) := by
    by_cases hty : s.s2kType ≥ 254
    · rw [if_pos hty, (a2 hty).2.2.2.2.2]
      omega
    · rw [if_neg hty, (a3 (by omega)).2.2.2]
  refine ⟨k + n, by rw [a6, ← hk], ?_, by omega, a7, a8, a9, by omega, by omega, a11⟩
  rw [a6, a5]
  congr 2
  omega

/-- Witness of C27: the sample secret-key content with three bytes of encrypted
data. -/
theorem secret_key_encrypted_data_witness :
    ∃ s j k, spgp_parse_secret_key null_env (sample_secret_content [0, 1, 1]) 0 39 none
        = (some s, .ok j) ∧ s.s2kEncryption ≠ 0 ∧
      k = 0 + 6 + mpis_size s.pub.mpis
            + (if s.s2kType ≥ 254 then
                4 + (if s.s2kSpecifier = 1 then 8 else if s.s2kSpecifier = 3 then 9 else 0)
               else 2)
            + s.ivLength ∧
      s.iv = some (bytes_at (sample_secret_content [0, 1, 1]) (k - s.ivLength) s.ivLength) ∧
      0 < k ∧ k < 0 + 39 ∧ 0 + 39 ≤ (sample_secret_content [0, 1, 1]).length ∧
      s.encryptedData = some (bytes_at (sample_secret_content [0, 1, 1]) k (0 + 39 - k)) ∧
      s.encryptedDataLength = 39 - (k - 0) ∧ 1 ≤ s.encryptedDataLength ∧
      j = 0 + 39 - 1 := by
  obtain ⟨k, hk⟩ := secret_key_encrypted_data null_env (sample_secret_content [0, 1, 1]) 0 39
    38 none (sample_secret_body [0, 1, 1]) (by decide) (by decide) (by decide) (by decide)
  exact ⟨sample_secret_body [0, 1, 1], 38, k, by decide, by decide, hk⟩

/-- Counterexample to C28: an unencrypted secret-key content with an Elgamal key of
three one-byte MPIs, the S2K type 0 and one secret MPI.  `spgp_read_all_secret_mpis`
reads a secret MPI for DSA only, and the parser raises `FORMAT_UNSUPPORTED`. -/
theorem unencrypted_elgamal_unsupported :
    spgp_parse_secret_key null_env
        [4, 0, 0, 0, 1, 16, 0, 1, 1, 0, 1, 1, 0, 1, 1, 0, 0, 1, 1] 0 19 none
      = (some {}, .raise .FORMAT_UNSUPPORTED) :=
  rfl

theorem public_key_fields_ok (msg : List Nat) (c e : Nat) (hlen : msg.length < U32)
    (hmb : ∀ b ∈ msg, b < 256) (hb : public_key_body msg c e) (he : e ≤ msg.length) :
    ∃ pub, public_key_fields msg c {} = .ok (pub, e - 1) ∧
      pub.asymAlgo = msg.getD (c + 5) 0 ∧
      pub.mpis.length = (if pub.asymAlgo = ASYM_ALGO_DSA then 4 else 3) ∧
      pub.mpiCount = pub.mpis.length ∧ consecutive_mpis msg (c + 6) pub.mpis ∧
      c + 12 ≤ e := by
  have hle : c + 12 ≤ e := by
    rcases hb.2 with ⟨_, hf⟩ | ⟨_, hf⟩
    · have := mpis_fill_ge msg _ _ _ hf
      omega
    · have := mpis_fill_ge msg _ _ _ hf
      omega
  obtain ⟨pub, hp⟩ := parse_public_key_ok msg c e 0 hlen hmb hb he (by omega)
  have h2 : (spgp_parse_public_key msg c 0 none).2 = .ok (e - 1) := by rw [hp]
  obtain ⟨pub1, _, hf⟩ := parse_public_key_slot_inv h2
  simp only [Option.getD_none] at hf
  obtain ⟨_, a2, _, a4, a5, a6⟩ := public_key_fields_inv hlen hf
  obtain ⟨_, hab⟩ := byte_at hmb (j := c + 5) (by omega)
  rw [Nat.mod_eq_of_lt hab] at a2
  exact ⟨pub1, hf, a2, a4, a5, a6, by omega⟩

/-- C28 (amended): an unencrypted version 4 secret-key content at `idx`, inside the
buffer: a well-formed public part that ends before `p`, the S2K type byte 0 at `p`, and
at least one byte after it.  For a DSA key whose secret MPI at `p + 1` lies within the
buffer, with the hash available, the parser succeeds: it reads the one secret MPI from
the bytes after the S2K type byte, appends it after the four public MPIs, sets
`mpiCount` to 5, and leaves the cursor on the last byte of the secret MPI.  For an
Elgamal key the parser raises `FORMAT_UNSUPPORTED`. -/
theorem unencrypted_secret_key (env : Env) (msg : List Nat) (idx cl p : Nat)
    (hlen : msg.length < U32) (hmb : ∀ b ∈ msg, b < 256)
    (hcl : idx + cl ≤ msg.length) (hb : public_key_body msg idx p)
    (ht : msg.getD p 0 = 0) (hp : p + 1 < msg.length) :
    (msg.getD (idx + 5) 0 = ASYM_ALGO_DSA → env.md_open = true →
      p + 1 + mpi_count_at msg (p + 1) + 2 ≤ msg.length →
      ∃ s, spgp_parse_secret_key env msg idx cl none
          = (some s, .ok (p + 1 + mpi_count_at msg (p + 1) + 1)) ∧
        s.s2kType = 0 ∧ s.s2kEncryption = 0 ∧ s.pub.mpis.length = 5 ∧
        consecutive_mpis msg (idx + 6) (s.pub.mpis.take 4) ∧
        consecutive_mpis msg (p + 1) (s.pub.mpis.drop 4) ∧
        s.pub.mpiCount = 5) ∧
    (msg.getD (idx + 5) 0 = ASYM_ALGO_ELGAMAL →
      spgp_parse_secret_key env msg idx cl none
        = (some {}, .raise .FORMAT_UNSUPPORTED)) := by
  obtain ⟨pub, hf, a2, a4, a5, a6, hpe⟩ := public_key_fields_ok msg idx p hlen hmb hb (by omega)
  have hs : sub32 msg.length idx = msg.length - idx := sub32_eq _ _ (by omega) hlen
  have hc : ¬ msg.length - idx < cl := by omega
  have hpk : spgp_parse_public_key msg idx cl (some {}) = (some pub, .ok (p - 1)) := by
    simp only [spgp_parse_public_key, hs, hc, if_false, Option.getD_some, hf]
  have s1 : SAFE_IDX_INCREMENT (p - 1) msg.length = .ok p := by
    have := SAFE_IDX_INCREMENT_ok (p - 1) msg.length (by omega) (by omega)
    rw [this]
    congr 1
    omega
  have r0 : rd msg p = .ok 0 := by
    rw [rd_getD (by omega), ht]
  have s2 := SAFE_IDX_INCREMENT_ok p msg.length hp (by omega)
  have hne0 : msg.length ≠ 0 := by omega
  have hnem : pub.mpis.isEmpty = false := by
    cases hm : pub.mpis with
    | nil =>
      rw [hm] at a4
      split_ifs at a4 <;> simp at a4
    | cons a rest => rfl
  constructor
  · intro hdsa hopen hx
    have halg : pub.asymAlgo = ASYM_ALGO_DSA := by rw [a2, hdsa]
    have hr := read_mpi_ok msg (p + 1) hlen hx
    rw [halg] at a4
    simp only [if_true] at a4
    apply Exists.intro
    refine ⟨?_, ?_⟩
    · simp only [spgp_parse_secret_key, hs, hc, if_false, secret_key_fields, hpk, s1, r0, s2,
        Res.ok_bind, read_s2k_encryption, if_true, read_s2k_params, ne_eq,
        not_true_eq_false, spgp_read_all_secret_mpis, hne0, hnem, Bool.false_eq_true,
        halg, hr, Res.pure_eq, spgp_generate_fingerprint, hopen, Option.getD_some,
        mpi_count_at]
      rfl
    · refine ⟨rfl, rfl, ?_, ?_, ?_, ?_⟩
      · show (pub.mpis ++ [_]).length = 5
        simp [a4]
      · show consecutive_mpis msg (idx + 6) ((pub.mpis ++ [_]).take 4)
        rw [List.take_left' a4]
        exact a6
      · show consecutive_mpis msg (p + 1) ((pub.mpis ++ [_]).drop 4)
        rw [List.drop_left' a4]
        exact ⟨rfl, rfl, rfl, hx, trivial⟩
      · show pub.mpiCount + 1 = 5
        rw [a5, a4]
  · intro helg
    have halg : pub.asymAlgo = ASYM_ALGO_ELGAMAL := by rw [a2, helg]
    have hnd : ¬ ASYM_ALGO_ELGAMAL = ASYM_ALGO_DSA := by decide
    simp only [spgp_parse_secret_key, hs, hc, if_false, secret_key_fields, hpk, s1, r0, s2,
      Res.ok_bind, read_s2k_encryption, if_true, read_s2k_params, ne_eq,
      not_true_eq_false, spgp_read_all_secret_mpis, hne0, hnem, Bool.false_eq_true,
      halg, hnd, Res.raise_bind, Option.getD_some]

/-- Witness of C28: the DSA key with four public MPIs and the secret MPI `00 01 01`. -/
theorem unencrypted_secret_key_witness :
    ∃ s, spgp_parse_secret_key null_env
        [4, 0, 0, 0, 1, 17, 0, 1, 1, 0, 1, 1, 0, 1, 1, 0, 1, 1, 0, 0, 1, 1] 0 22 none
        = (some s, .ok (18 + 1 + mpi_count_at
            [4, 0, 0, 0, 1, 17, 0, 1, 1, 0, 1, 1, 0, 1, 1, 0, 1, 1, 0, 0, 1, 1] (18 + 1) + 1)) ∧
      s.s2kType = 0 ∧ s.s2kEncryption = 0 ∧ s.pub.mpis.length = 5 ∧
      consecutive_mpis [4, 0, 0, 0, 1, 17, 0, 1, 1, 0, 1, 1, 0, 1, 1, 0, 1, 1, 0, 0, 1, 1]
        (0 + 6) (s.pub.mpis.take 4) ∧
      consecutive_mpis [4, 0, 0, 0, 1, 17, 0, 1, 1, 0, 1, 1, 0, 1, 1, 0, 1, 1, 0, 0, 1, 1]
        (18 + 1) (s.pub.mpis.drop 4) ∧
      s.pub.mpiCount = 5 :=
  (unencrypted_secret_key null_env
    [4, 0, 0, 0, 1, 17, 0, 1, 1, 0, 1, 1, 0, 1, 1, 0, 1, 1, 0, 0, 1, 1] 0 22 18
    (by decide) (by decide) (by decide) (by decide) (by decide) (by decide)).1
    (by decide) (by decide) (by decide)

/-! ### Key derivation -/

theorem s2k_hash_bytes_lt (c : Nat) :
    (16 + ((c % 256) &&& 15)) <<< (((c % 256) >>> 4) + 6) < U32 := by
  have h1 : (c % 256) &&& 15 ≤ 15 := Nat.and_le_right
  have h2 : (c % 256) >>> 4 ≤ 15 := by
    rw [Nat.shiftRight_eq_div_pow]
    have : c % 256 < 256 := Nat.mod_lt _ (by decide)
    omega
  rw [Nat.shiftLeft_eq]
  have h3 : 2 ^ (((c % 256) >>> 4) + 6) ≤ 2 ^ 21 :=
    Nat.pow_le_pow_right (by decide) (by omega)
  have h4 : (16 + ((c % 256) &&& 15)) * 2 ^ (((c % 256) >>> 4) + 6) ≤ 31 * 2 ^ 21 :=
    Nat.mul_le_mul (by omega) h3
  have h5 : 31 * 2 ^ 21 < U32 := by decide
  omega

theorem s2k_trace_input (env : Env) (buf : List Nat) (copies extra : Nat) :
    ∀ (n cur remaining r : Nat) (x : List Nat × List Nat),
      (s2k_trace env buf copies extra n cur remaining)[r]? = some x →
      x.1 = s2k_round_input buf copies extra (cur + r) ∧ x.2.length ≤ 20 := by
  intro n
  induction n with
  | zero =>
    intro cur remaining r x h
    simp [s2k_trace] at h
  | succ n ih =>
    intro cur remaining r x h
    rw [s2k_trace] at h
    by_cases h0 : remaining = 0
    · simp [h0] at h
    · rw [if_neg h0] at h
      by_cases h1 : remaining < 20
      · rw [if_pos h1] at h
        cases r with
        | zero =>
          simp only [List.getElem?_cons_zero, Option.some.injEq] at h
          rw [← h]
          refine ⟨rfl, ?_⟩
          simp only [List.length_take]
          omega
        | succ r => simp at h
      · rw [if_neg h1] at h
        cases r with
        | zero =>
          simp only [List.getElem?_cons_zero, Option.some.injEq] at h
          rw [← h]
          refine ⟨rfl, ?_⟩
          simp only [List.length_take]
          omega
        | succ r =>
          simp only [List.getElem?_cons_succ] at h
          obtain ⟨e, l⟩ := ih _ _ _ _ h
          refine ⟨?_, l⟩
          rw [e]
          congr 1
          omega

theorem s2k_round_input_length (buf : List Nat) (n r : Nat) (hb : buf ≠ []) :
    (s2k_round_input buf (n / buf.length) (n % buf.length) r).length = r + n := by
  have hpos : 0 < buf.length := List.length_pos.mpr hb
  have hlt : n % buf.length < buf.length := Nat.mod_lt _ hpos
  simp only [s2k_round_input, List.length_append, List.length_replicate, List.length_flatten,
    List.map_replicate, List.sum_replicate, List.length_take, smul_eq_mul]
  have := Nat.div_add_mod n buf.length
  rw [Nat.min_eq_left (by omega)]
  rw [Nat.mul_comm] at this
  omega

theorem generate_cipher_key_eval (env : Env) (type : Nat) (s : SecretPkt)
    (pass salt : List Nat)
    (htype : type = PKT_TYPE_SECRET_KEY ∨ type = PKT_TYPE_SECRET_SUBKEY)
    (halg : s.s2kEncryption = SYM_ALGO_3DES ∨ s.s2kEncryption = SYM_ALGO_CAST5)
    (hhash : s.s2kHashAlgo = HASH_ALGO_SHA1) (hspec : s.s2kSpecifier = S2K_TYPE_ITERATED)
    (hopen : env.md_open = true) (hsalt : s.s2kSalt = some salt)
    (hsl : salt.length = 8) (hsl2 : s.s2kSaltLength = 8) (hsb : ∀ b ∈ salt, b < 256)
    (hpl : 8 + pass.length < U32) (hpb : ∀ b ∈ pass, b < 256) :
    spgp_generate_cipher_key env type s pass
      = ({ s with
            keyLength := if s.s2kEncryption = SYM_ALGO_3DES then 24 else 16,
            key := some (s2k_rounds env (salt ++ pass)
              ((16 + ((s.s2kCount % 256) &&& 15)) <<< (((s.s2kCount % 256) >>> 4) + 6)
                / (8 + pass.length))
              ((16 + ((s.s2kCount % 256) &&& 15)) <<< (((s.s2kCount % 256) >>> 4) + 6)
                % (8 + pass.length))
              2 0 (if s.s2kEncryption = SYM_ALGO_3DES then 24 else 16)) }, .ok ()) := by
  have h1 : ¬ (type ≠ PKT_TYPE_SECRET_KEY ∧ type ≠ PKT_TYPE_SECRET_SUBKEY) := by
    rcases htype with h | h <;> simp [h]
  have h2 : ¬ (s.s2kEncryption ≠ SYM_ALGO_3DES ∧ s.s2kEncryption ≠ SYM_ALGO_CAST5) := by
    rcases halg with h | h <;> simp [h]
  have hiters : (if (if s.s2kEncryption = SYM_ALGO_3DES then 24 else 16) / 20
      + (if (if s.s2kEncryption = SYM_ALGO_3DES then 24 else 16) % 20 > 0 then 1 else 0) ≠ 0
      then 1 else 0) = 1 := by
    split_ifs <;> simp_all
  have hload : load_block (some salt) 8 = .ok salt := by
    have : rdN salt 0 8 = .ok salt := by
      rw [rdN_ok salt 0 8 (by decide) (by omega)]
      simp only [List.drop_zero]
      rw [← hsl, List.take_length, map_mod_of_bytes salt hsb]
    simpa [load_block] using this
  have hadd : add32 8 pass.length = 8 + pass.length := add32_eq _ _ hpl
  have hge : ¬ (8 + pass.length ≥ U32) := by omega
  have hmod := Nat.mod_eq_of_lt (s2k_hash_bytes_lt s.s2kCount)
  have hne : ¬ (8 + pass.length = 0) := by omega
  have hdk : derive_key env
      { s with keyLength := if s.s2kEncryption = SYM_ALGO_3DES then 24 else 16 } pass 1
      = .ok (s2k_rounds env (salt ++ pass)
              ((16 + ((s.s2kCount % 256) &&& 15)) <<< (((s.s2kCount % 256) >>> 4) + 6)
                / (8 + pass.length))
              ((16 + ((s.s2kCount % 256) &&& 15)) <<< (((s.s2kCount % 256) >>> 4) + 6)
                % (8 + pass.length))
              2 0 (if s.s2kEncryption = SYM_ALGO_3DES then 24 else 16)) := by
    simp only [derive_key, hsl2, hge, if_false, hsalt, hload, Res.ok_bind, hadd, hmod, hne,
      map_mod_of_bytes pass hpb, Res.pure_eq, Nat.reduceAdd]
  have h3 : ¬ (s.s2kHashAlgo ≠ HASH_ALGO_SHA1) := by simp [hhash]
  have h4 : ¬ (¬ env.md_open = true) := by simp [hopen]
  have h5 : ¬ (s.s2kSpecifier ≠ S2K_TYPE_ITERATED) := by simp [hspec]
  unfold spgp_generate_cipher_key
  rw [if_neg h1, if_neg h2]
  dsimp only
  rw [if_neg h3, if_neg h4, hiters, if_neg h5, hdk]

/-- C30: the number of hash rounds and the derived key, for both supported ciphers,
with a hash that returns digests of 20 bytes.  For CAST5 (16 key bytes) the loop runs
one round and the key is the first 16 bytes of the digest of round 0; for 3DES (24 key
bytes) the loop runs two rounds and the key is the digest of round 0 followed by the
first 4 bytes of the digest of round 1.  In both cases the number of rounds is
`ceil(key_length / 20)` and the key has `key_length` bytes. -/
theorem s2k_rounds_and_key (env : Env) (type : Nat) (s : SecretPkt)
    (pass salt : List Nat)
    (htype : type = PKT_TYPE_SECRET_KEY ∨ type = PKT_TYPE_SECRET_SUBKEY)
    (halg : s.s2kEncryption = SYM_ALGO_3DES ∨ s.s2kEncryption = SYM_ALGO_CAST5)
    (hhash : s.s2kHashAlgo = HASH_ALGO_SHA1) (hspec : s.s2kSpecifier = S2K_TYPE_ITERATED)
    (hopen : env.md_open = true) (hsalt : s.s2kSalt = some salt)
    (hsl : salt.length = 8) (hsl2 : s.s2kSaltLength = 8) (hsb : ∀ b ∈ salt, b < 256)
    (hc : s.s2kCount < 256)
    (hpl : 8 + pass.length < U32) (hpb : ∀ b ∈ pass, b < 256)
    (hsha : ∀ x, (env.sha1 x).length = 20) :
    (s.s2kEncryption = SYM_ALGO_CAST5 →
      (s2k_trace env (salt ++ pass)
        ((16 + (s.s2kCount &&& 15)) <<< ((s.s2kCount >>> 4) + 6) / (8 + pass.length))
        ((16 + (s.s2kCount &&& 15)) <<< ((s.s2kCount >>> 4) + 6) % (8 + pass.length))
        2 0 16).length = (16 + 19) / 20 ∧
      spgp_generate_cipher_key env type s pass
        = ({ s with
              keyLength := 16,
              key := some ((env.sha1 (s2k_round_input (salt ++ pass)
                ((16 + (s.s2kCount &&& 15)) <<< ((s.s2kCount >>> 4) + 6) / (8 + pass.length))
                ((16 + (s.s2kCount &&& 15)) <<< ((s.s2kCount >>> 4) + 6) % (8 + pass.length))
                0)).take 16) }, .ok ())) ∧
    (s.s2kEncryption = SYM_ALGO_3DES →
      (s2k_trace env (salt ++ pass)
        ((16 + (s.s2kCount &&& 15)) <<< ((s.s2kCount >>> 4) + 6) / (8 + pass.length))
        ((16 + (s.s2kCount &&& 15)) <<< ((s.s2kCount >>> 4) + 6) % (8 + pass.length))
        2 0 24).length = (24 + 19) / 20 ∧
      spgp_generate_cipher_key env type s pass
        = ({ s with
              keyLength := 24,
              key := some (env.sha1 (s2k_round_input (salt ++ pass)
                ((16 + (s.s2kCount &&& 15)) <<< ((s.s2kCount >>> 4) + 6) / (8 + pass.length))
                ((16 + (s.s2kCount &&& 15)) <<< ((s.s2kCount >>> 4) + 6) % (8 + pass.length))
                0)
                ++ (env.sha1 (s2k_round_input (salt ++ pass)
                ((16 + (s.s2kCount &&& 15)) <<< ((s.s2kCount >>> 4) + 6) / (8 + pass.length))
                ((16 + (s.s2kCount &&& 15)) <<< ((s.s2kCount >>> 4) + 6) % (8 + pass.length))
                1)).take 4) }, .ok ())) ∧
    ∃ key, (spgp_generate_cipher_key env type s pass).1.key = some key ∧
      key.length = (spgp_generate_cipher_key env type s pass).1.keyLength := by
  have hev := generate_cipher_key_eval env type s pass salt htype halg hhash hspec hopen
    hsalt hsl hsl2 hsb hpl hpb
  rw [Nat.mod_eq_of_lt hc] at hev
  have htake : ∀ x, (env.sha1 x).take 20 = env.sha1 x := by
    intro x
    rw [← hsha x, List.take_length]
  refine ⟨?_, ?_, ?_⟩
  · intro hcast
    have hnd : ¬ (s.s2kEncryption = SYM_ALGO_3DES) := by
      rw [hcast]
      decide
    rw [if_neg hnd] at hev
    refine ⟨by simp [s2k_trace], ?_⟩
    rw [hev]
    simp [s2k_rounds, s2k_trace]
  · intro hdes
    rw [if_pos hdes] at hev
    refine ⟨by simp [s2k_trace], ?_⟩
    rw [hev]
    simp [s2k_rounds, s2k_trace, htake]
  · rw [hev]
    refine ⟨_, rfl, ?_⟩
    rcases halg with hdes | hcast
    · simp [hdes, s2k_rounds, s2k_trace, hsha]
    · have hnd : ¬ (s.s2kEncryption = SYM_ALGO_3DES) := by
        rw [hcast]
        decide
      simp [hnd, s2k_rounds, s2k_trace, hsha]

/-- Witness of C30: the sample secret body (3DES) with the passphrase `t`; the digest of
`null_env` has 20 bytes. -/
theorem s2k_rounds_and_key_witness :
    (s2k_trace null_env ([1, 2, 3, 4, 5, 6, 7, 8] ++ [0x74])
        ((16 + ((sample_secret_body [0, 1, 1]).s2kCount &&& 15))
          <<< (((sample_secret_body [0, 1, 1]).s2kCount >>> 4) + 6)
          / (8 + ([0x74] : List Nat).length))
        ((16 + ((sample_secret_body [0, 1, 1]).s2kCount &&& 15))
          <<< (((sample_secret_body [0, 1, 1]).s2kCount >>> 4) + 6)
          % (8 + ([0x74] : List Nat).length))
        2 0 24).length = (24 + 19) / 20 ∧
    spgp_generate_cipher_key null_env PKT_TYPE_SECRET_KEY (sample_secret_body [0, 1, 1]) [0x74]
      = ({ sample_secret_body [0, 1, 1] with
            keyLength := 24,
            key := some (null_env.sha1 (s2k_round_input ([1, 2, 3, 4, 5, 6, 7, 8] ++ [0x74])
              ((16 + ((sample_secret_body [0, 1, 1]).s2kCount &&& 15))
                <<< (((sample_secret_body [0, 1, 1]).s2kCount >>> 4) + 6)
                / (8 + ([0x74] : List Nat).length))
              ((16 + ((sample_secret_body [0, 1, 1]).s2kCount &&& 15))
                <<< (((sample_secret_body [0, 1, 1]).s2kCount >>> 4) + 6)
                % (8 + ([0x74] : List Nat).length))
              0)
              ++ (null_env.sha1 (s2k_round_input ([1, 2, 3, 4, 5, 6, 7, 8] ++ [0x74])
              ((16 + ((sample_secret_body [0, 1, 1]).s2kCount &&& 15))
                <<< (((sample_secret_body [0, 1, 1]).s2kCount >>> 4) + 6)
                / (8 + ([0x74] : List Nat).length))
              ((16 + ((sample_secret_body [0, 1, 1]).s2kCount &&& 15))
                <<< (((sample_secret_body [0, 1, 1]).s2kCount >>> 4) + 6)
                % (8 + ([0x74] : List Nat).length))
              1)).take 4) }, .ok ()) :=
  (s2k_rounds_and_key null_env PKT_TYPE_SECRET_KEY (sample_secret_body [0, 1, 1]) [0x74]
    [1, 2, 3, 4, 5, 6, 7, 8] (Or.inl rfl) (Or.inl rfl) rfl rfl rfl rfl rfl rfl (by decide)
    (by decide) (by decide) (by decide) (fun _ => rfl)).2.1 rfl

/-! ### Lookup of a secret key by key id -/

theorem list_eq_iff_getD (a b : List Nat) (n : Nat) (ha : a.length = n) (hb : b.length = n) :
    a = b ↔ ∀ i, i < n → a.getD i 0 = b.getD i 0 := by
  constructor
  · intro h i _
    rw [h]
  · intro h
    apply List.ext_getElem (by omega)
    intro i h1 h2
    have := h i (by omega)
    simp only [List.getD_eq_getElem?_getD, List.getElem?_eq_getElem h1,
      List.getElem?_eq_getElem h2, Option.getD_some] at this
    exact this

theorem key_id_compare (fp keyid : List Nat) (hfp : fp.length = 20)
    (hk : keyid.length = 8) :
    ((fp.drop 12).take 8 = keyid) ↔
      (List.range 8).all (fun i => fp.getD (12 + i) 0 == keyid.getD i 0) = true := by
  have hl : ((fp.drop 12).take 8).length = 8 := by
    simp only [List.length_take, List.length_drop]
    omega
  rw [list_eq_iff_getD _ _ 8 hl hk]
  simp only [List.all_eq_true, List.mem_range, beq_iff_eq]
  constructor
  · intro h i hi
    have := h i hi
    simp only [List.getD_eq_getElem?_getD, List.getElem?_take, hi, if_true,
      List.getElem?_drop] at this ⊢
    exact this
  · intro h i hi
    have := h i hi
    simp only [List.getD_eq_getElem?_getD, List.getElem?_take, hi, if_true,
      List.getElem?_drop] at this ⊢
    exact this

theorem matching_id_first :
    ∀ (chain : List Packet) (keyid : List Nat), keyid.length = 8 →
      (∀ p ∈ chain, key_packet_well_formed p = true) →
      spgp_secret_key_matching_id chain keyid
        = .ok (spec_first_matching_key chain keyid) := by
  intro chain
  induction chain with
  | nil =>
    intro keyid _ _
    rfl
  | cons p rest ih =>
    intro keyid hk hwf
    have hp := hwf p (List.mem_cons_self _ _)
    have hrest := ih keyid hk (fun q hq => hwf q (List.mem_cons_of_mem _ hq))
    unfold spec_first_matching_key at hrest ⊢
    rw [spgp_secret_key_matching_id, List.find?_cons]
    unfold key_packet_well_formed at hp
    cases hh : p.header with
    | none =>
      rw [hh] at hp
      exact absurd hp (by simp)
    | some h =>
      rw [hh] at hp
      simp only at hp ⊢
      by_cases hty : h.type = PKT_TYPE_SECRET_KEY ∨ h.type = PKT_TYPE_SECRET_SUBKEY
      · rw [if_pos hty] at hp
        rw [if_pos hty]
        cases hc : p.c.bind Body.pubOf with
        | none =>
          rw [hc] at hp
          exact absurd hp (by simp)
        | some pub =>
          rw [hc] at hp
          simp only at hp ⊢
          cases hf : pub.fingerprint with
          | none =>
            rw [hf] at hp
            exact absurd hp (by simp)
          | some fp =>
            rw [hf] at hp
            simp only [beq_iff_eq] at hp
            simp only
            have hcmp := key_id_compare fp keyid hp hk
            have htb : (h.type == PKT_TYPE_SECRET_KEY || h.type == PKT_TYPE_SECRET_SUBKEY)
                = true := by
              simpa using hty
            by_cases hm : (fp.drop 12).take 8 = keyid
            · rw [if_pos hm]
              have hall := hcmp.mp hm
              have hval : spec_key_id_matches keyid p = true := by
                unfold spec_key_id_matches
                rw [hh, hc]
                simp only [hf, htb, hall, Bool.and_self]
              rw [hval]
            · rw [if_neg hm, hrest]
              have hall : (List.range 8).all (fun i => fp.getD (12 + i) 0 == keyid.getD i 0)
                  = false := by
                cases hx : (List.range 8).all (fun i => fp.getD (12 + i) 0 == keyid.getD i 0)
                · rfl
                · exact absurd (hcmp.mpr hx) hm
              have hval : spec_key_id_matches keyid p = false := by
                unfold spec_key_id_matches
                rw [hh, hc]
                simp only [hf, htb, hall, Bool.and_false]
              rw [hval]
      · rw [if_neg hty, hrest]
        have htb : (h.type == PKT_TYPE_SECRET_KEY || h.type == PKT_TYPE_SECRET_SUBKEY)
            = false := by
          simpa using hty
        have hval : spec_key_id_matches keyid p = false := by
          unfold spec_key_id_matches
          rw [hh]
          cases hc : p.c.bind Body.pubOf with
          | none => rfl
          | some pub => simp only [htb, Bool.false_and]
        rw [hval]

/-- C31: the lookup of a secret key by key id.  For every non-null chain whose packets
carry a header and whose secret-key and secret-subkey packets carry a fingerprint of 20
bytes, and every key id of 8 bytes, `spgp_secret_key_matching_id` returns the first
packet in chain order whose type is secret-key or secret-subkey and whose fingerprint
bytes 12 to 19 equal the key id; it returns null if and only if no packet of the chain
is such a packet. -/
theorem secret_key_matching_id_spec (chain : List Packet) (keyid : List Nat)
    (_hne : chain ≠ []) (hwf : ∀ p ∈ chain, key_packet_well_formed p = true)
    (hk : keyid.length = 8) :
    spgp_secret_key_matching_id chain keyid
      = .ok (spec_first_matching_key chain keyid) ∧
    (spgp_secret_key_matching_id chain keyid = .ok none ↔
      ∀ p ∈ chain, spec_key_id_matches keyid p = false) := by
  have h := matching_id_first chain keyid hk hwf
  refine ⟨h, ?_⟩
  rw [h]
  simp only [Res.ok.injEq, spec_first_matching_key, List.find?_eq_none, Bool.not_eq_true]

/-- Witness of C31: a chain of a user-id packet and two secret-key packets with the
fingerprints `00 .. 00` and `00 .. 00 01`; the key id `00 00 00 00 00 00 00 01` finds the
second secret key, and `00 00 00 00 00 00 00 02` finds none. -/
theorem secret_key_matching_id_spec_witness :
    (spgp_secret_key_matching_id
        [user_id_chain_packet [0x41], sample_secret_packet [0, 1, 1],
         { header := some (sample_secret_header []),
           c := some (.secret { pub := { fingerprint := some (List.replicate 19 0 ++ [1]) } }) }]
        [0, 0, 0, 0, 0, 0, 0, 1]
      = .ok (some { header := some (sample_secret_header []),
                    c := some (.secret
                      { pub := { fingerprint := some (List.replicate 19 0 ++ [1]) } }) })) ∧
    (spgp_secret_key_matching_id
        [user_id_chain_packet [0x41], sample_secret_packet [0, 1, 1]]
        [0, 0, 0, 0, 0, 0, 0, 2] = .ok none ↔
      ∀ p ∈ [user_id_chain_packet [0x41], sample_secret_packet [0, 1, 1]],
        spec_key_id_matches [0, 0, 0, 0, 0, 0, 0, 2] p = false) :=
  ⟨(secret_key_matching_id_spec
      [user_id_chain_packet [0x41], sample_secret_packet [0, 1, 1],
       { header := some (sample_secret_header []),
         c := some (.secret { pub := { fingerprint := some (List.replicate 19 0 ++ [1]) } }) }]
      [0, 0, 0, 0, 0, 0, 0, 1] (by decide) (by decide) (by decide)).1.trans (by decide),
   (secret_key_matching_id_spec
      [user_id_chain_packet [0x41], sample_secret_packet [0, 1, 1]]
      [0, 0, 0, 0, 0, 0, 0, 2] (by decide) (by decide) (by decide)).2⟩

/-! ### Sub-headers of a partial-length stream -/

theorem new_header_length_len {msg : List Nat} {off : Nat} {nl : NewLen}
    (h : spgp_new_header_length msg off = .ok nl) :
    nl.header_len
      = (if msg.getD off 0 % 256 = 255 then spec_length_octets (msg.getD off 0 % 256)
         else spec_length_octets (msg.getD off 0 % 256) + 1) ∧
    (nl.isPartial = 1 ↔ (224 ≤ msg.getD off 0 % 256 ∧ msg.getD off 0 % 256 ≤ 254)) := by
  unfold spgp_new_header_length at h
  simp only [Res.bind_eq_ok] at h
  obtain ⟨len0, h0, h⟩ := h
  obtain ⟨_, e0⟩ := rd_inv h0
  rw [← e0]
  unfold spec_length_octets
  by_cases c1 : len0 ≤ 191
  · rw [if_pos c1] at h
    simp only [Res.pure_eq, Res.ok.injEq] at h
    rw [← h]
    have hn : ¬ len0 = 255 := by omega
    simp only [hn, c1, if_true, if_false, true_and]
    exact ⟨fun hx => absurd hx (by decide), fun hx => by omega⟩
  · rw [if_neg c1] at h
    by_cases c2 : len0 > 191 ∧ len0 ≤ 223
    · rw [if_pos c2] at h
      simp only [Res.bind_eq_ok, Res.pure_eq, Res.ok.injEq] at h
      obtain ⟨l1, _, e⟩ := h
      rw [← e]
      have hn : ¬ len0 = 255 := by omega
      simp only [hn, c1, c2.2, if_true, if_false, true_and]
      exact ⟨fun hx => absurd hx (by decide), fun hx => by omega⟩
    · rw [if_neg c2] at h
      by_cases c3 : len0 = 255
      · rw [if_pos c3] at h
        simp only [Res.bind_eq_ok, Res.pure_eq, Res.ok.injEq] at h
        obtain ⟨l0, _, l1, _, l2, _, l3, _, e⟩ := h
        rw [← e]
        simp only [c3, if_true]
        exact ⟨by decide, fun hx => absurd hx (by decide), fun hx => by omega⟩
      · rw [if_neg c3] at h
        simp only [Res.pure_eq, Res.ok.injEq] at h
        rw [← h]
        have c4 : ¬ len0 ≤ 223 := by omega
        have hlt : len0 < 256 := by
          rw [e0]
          exact Nat.mod_lt _ (by decide)
        simp only [c3, c1, c4, if_false, true_and]
        exact ⟨fun _ => ⟨by omega, by omega⟩, fun _ => trivial⟩

theorem next_sub_header_inv {msg msg2 : List Nat} {idx j : Nat} {nl : NewLen}
    (hlen : msg.length < U32) (h : next_sub_header msg idx = .ok (msg2, j, nl)) :
    spgp_new_header_length msg idx = .ok nl ∧
    idx + nl.header_len ≤ msg.length ∧
    msg2 = msg.take idx ++ List.replicate nl.header_len 0 ++ msg.drop (idx + nl.header_len) ∧
    j = idx + nl.header_len - 1 ∧ j < msg.length := by
  unfold next_sub_header at h
  simp only [Res.bind_eq_ok, Res.pure_eq, Res.ok.injEq, Prod.mk.injEq] at h
  obtain ⟨nl0, hnl, m2, hw, i3, hi3, e1, e2, e3⟩ := h
  subst e3
  obtain ⟨hoff, hcase⟩ := new_header_length_inv hnl
  have h2 : 2 ≤ nl0.header_len ∧ nl0.header_len ≤ 5 := by
    rcases hcase with h | ⟨h, _⟩ | ⟨h, _⟩ <;> omega
  have hw2 : idx + nl0.header_len ≤ msg.length ∧
      m2 = msg.take idx ++ List.replicate nl0.header_len 0
        ++ msg.drop (idx + nl0.header_len) := by
    unfold wrN at hw
    simp only [List.length_replicate] at hw
    by_cases hz : nl0.header_len = 0
    · omega
    · rw [if_neg hz] at hw
      by_cases hle : idx + nl0.header_len ≤ msg.length
      · rw [if_pos hle] at hw
        injection hw with hw
        exact ⟨hle, hw.symm⟩
      · rw [if_neg hle] at hw
        exact Res.noConfusion hw
  obtain ⟨hle, hm2⟩ := hw2
  have hl2 : m2.length = msg.length := by
    rw [hm2]
    simp only [List.length_append, List.length_take, List.length_replicate, List.length_drop]
    omega
  obtain ⟨ei, li⟩ := SAFE_IDX_INCREMENT_inv hi3
  rw [add32_eq _ _ (by omega), Nat.mod_eq_of_lt (by omega)] at ei
  rw [hl2] at li
  subst e1 e2
  exact ⟨hnl, hle, hm2, by omega, li⟩

/-- C32: the zeroing of a sub-header in the partial-length loop of
`spgp_parse_encrypted_packet`, with the cursor on the first octet `b0` of the
sub-header.  The loop stores zero to `headerlen` bytes from the cursor on, and
`headerlen` counts a tag byte that a sub-header does not have.  For the one-octet, the
two-octet and the partial form it is one more than the number of length octets: the
first data byte of the new segment is set to zero before the segment is decrypted, and
the cursor is then placed on that byte.  For the form `0xFF` plus four octets exactly
the five length octets are set to zero, and the cursor is placed on the last of them,
one byte before the first data byte.  The buffer `01 02 02 AA BB` with a partial first
segment of two bytes and a cipher that returns its input ends as `01 02 00 00 BB`. -/
theorem sub_header_zeroing (msg msg2 : List Nat) (idx j : Nat) (nl : NewLen)
    (hlen : msg.length < U32) (h : next_sub_header msg idx = .ok (msg2, j, nl)) :
    msg2 = msg.take idx ++ List.replicate nl.header_len 0 ++ msg.drop (idx + nl.header_len) ∧
    idx + nl.header_len ≤ msg.length ∧
    (msg.getD idx 0 % 256 ≠ 255 →
      nl.header_len = spec_length_octets (msg.getD idx 0 % 256) + 1 ∧
      msg2.getD (idx + spec_length_octets (msg.getD idx 0 % 256)) 0 = 0 ∧
      j = idx + spec_length_octets (msg.getD idx 0 % 256)) ∧
    (msg.getD idx 0 % 256 = 255 →
      nl.header_len = spec_length_octets (msg.getD idx 0 % 256) ∧
      j + 1 = idx + spec_length_octets (msg.getD idx 0 % 256)) ∧
    decrypt_segments null_env { symAlgo := 7, key := some [], keylen := 0 } 2
        [1, 2, 2, 0xAA, 0xBB] 0 2 1
      = .ok ([1, 2, 0, 0, 0xBB], 4, 8) := by
  obtain ⟨hnl, hle, hm2, hj, _⟩ := next_sub_header_inv hlen h
  obtain ⟨hhl, _⟩ := new_header_length_len hnl
  refine ⟨hm2, hle, ?_, ?_, by decide⟩
  · intro hne
    rw [if_neg hne] at hhl
    refine ⟨hhl, ?_, by omega⟩
    rw [hm2, hhl]
    have hpos : 1 ≤ spec_length_octets (msg.getD idx 0 % 256) := by
      unfold spec_length_octets
      split_ifs <;> omega
    have hidx : idx ≤ msg.length := by omega
    simp only [List.getD_eq_getElem?_getD]
    rw [List.append_assoc, List.getElem?_append_right (by simp only [List.length_take]; omega)]
    simp only [List.length_take, Nat.min_eq_left hidx]
    rw [List.getElem?_append_left (by simp only [List.length_replicate]; omega)]
    rw [List.getElem?_replicate]
    simp
  · intro he
    rw [if_pos he] at hhl
    have hpos : 1 ≤ spec_length_octets (msg.getD idx 0 % 256) := by
      unfold spec_length_octets
      split_ifs <;> omega
    exact ⟨hhl, by omega⟩

/-- Witness of C32: the one-octet sub-header `02` at index 2 of `01 02 02 AA BB`. -/
theorem sub_header_zeroing_witness :
    ([1, 2, 0, 0, 0xBB] : List Nat)
      = ([1, 2, 2, 0xAA, 0xBB] : List Nat).take 2
          ++ List.replicate (NewLen.mk 2 2 0).header_len 0
          ++ ([1, 2, 2, 0xAA, 0xBB] : List Nat).drop (2 + (NewLen.mk 2 2 0).header_len) ∧
    2 + (NewLen.mk 2 2 0).header_len ≤ ([1, 2, 2, 0xAA, 0xBB] : List Nat).length ∧
    (([1, 2, 2, 0xAA, 0xBB] : List Nat).getD 2 0 % 256 ≠ 255 →
      (NewLen.mk 2 2 0).header_len
        = spec_length_octets (([1, 2, 2, 0xAA, 0xBB] : List Nat).getD 2 0 % 256) + 1 ∧
      ([1, 2, 0, 0, 0xBB] : List Nat).getD
        (2 + spec_length_octets (([1, 2, 2, 0xAA, 0xBB] : List Nat).getD 2 0 % 256)) 0 = 0 ∧
      3 = 2 + spec_length_octets (([1, 2, 2, 0xAA, 0xBB] : List Nat).getD 2 0 % 256)) ∧
    (([1, 2, 2, 0xAA, 0xBB] : List Nat).getD 2 0 % 256 = 255 →
      (NewLen.mk 2 2 0).header_len
        = spec_length_octets (([1, 2, 2, 0xAA, 0xBB] : List Nat).getD 2 0 % 256) ∧
      3 + 1 = 2 + spec_length_octets (([1, 2, 2, 0xAA, 0xBB] : List Nat).getD 2 0 % 256)) ∧
    decrypt_segments null_env { symAlgo := 7, key := some [], keylen := 0 } 2
        [1, 2, 2, 0xAA, 0xBB] 0 2 1
      = .ok ([1, 2, 0, 0, 0xBB], 4, 8) :=
  sub_header_zeroing [1, 2, 2, 0xAA, 0xBB] [1, 2, 0, 0, 0xBB] 2 3 ⟨2, 2, 0⟩ (by decide)
    (by decide)

/-! ### Pre-image of the fingerprint -/

theorem bytes_at_add (msg : List Nat) (pos a b : Nat) :
    bytes_at msg pos (a + b) = bytes_at msg pos a ++ bytes_at msg (pos + a) b := by
  unfold bytes_at
  rw [List.take_add, List.map_append, List.drop_drop]

theorem bytes_at_succ (msg : List Nat) (pos n : Nat) (h : pos < msg.length) :
    bytes_at msg pos (n + 1) = (msg.getD pos 0 % 256) :: bytes_at msg (pos + 1) n := by
  unfold bytes_at
  rw [List.drop_eq_getElem_cons h, List.take_succ_cons, List.map_cons]
  congr 2
  simp [List.getD_eq_getElem?_getD, List.getElem?_eq_getElem h]

theorem bytes_at_zero (msg : List Nat) (pos : Nat) : bytes_at msg pos 0 = [] := by
  simp [bytes_at]

theorem consecutive_mpis_bytes (msg : List Nat) :
    ∀ (ms : List Mpi) (pos : Nat), consecutive_mpis msg pos ms →
      (ms.map (fun m => m.data)).flatten = bytes_at msg pos (mpis_size ms) := by
  intro ms
  induction ms with
  | nil =>
    intro pos _
    simp [mpis_size, bytes_at]
  | cons a rest ih =>
    intro pos h
    obtain ⟨_, _, hd, _, hrest⟩ := h
    have e : mpis_size (a :: rest) = (a.count + 2) + mpis_size rest := by
      simp [mpis_size]
    rw [e, bytes_at_add, List.map_cons, List.flatten_cons, ih _ hrest, hd]
    have e2 : pos + (a.count + 2) = pos + a.count + 2 := by omega
    rw [e2]
    rfl

theorem le32_bytes (b0 b1 b2 b3 : Nat) (h0 : b0 < 256) (h1 : b1 < 256) (h2 : b2 < 256)
    (h3 : b3 < 256) :
    le32 [b0, b1, b2, b3] % 256 = b0 ∧ (le32 [b0, b1, b2, b3] >>> 8) % 256 = b1 ∧
    (le32 [b0, b1, b2, b3] >>> 16) % 256 = b2 ∧ (le32 [b0, b1, b2, b3] >>> 24) % 256 = b3 := by
  simp only [le32, List.getD_cons_zero, List.getD_cons_succ, Nat.shiftRight_eq_div_pow]
  refine ⟨by omega, by omega, by omega, by omega⟩

theorem public_key_fields_head {msg : List Nat} {idx j : Nat} {pub0 pub : PublicPkt}
    (hlen : msg.length < U32) (h : public_key_fields msg idx pub0 = .ok (pub, j)) :
    idx + 6 ≤ msg.length ∧
    [pub.version % 256, pub.creationTime % 256, (pub.creationTime >>> 8) % 256,
      (pub.creationTime >>> 16) % 256, (pub.creationTime >>> 24) % 256, pub.asymAlgo % 256]
      = bytes_at msg idx 6 := by
  simp only [public_key_fields, Res.bind_eq_ok] at h
  obtain ⟨version, hv, i1, hi1, h⟩ := h
  split_ifs at h with hv4 hs4
  simp only [Res.bind_eq_ok] at h
  obtain ⟨ct, hct, i2, hi2, algo, halgo, i3, hi3, r, hr, hp⟩ := h
  simp only [Res.pure_eq, Res.ok.injEq, Prod.mk.injEq] at hp
  obtain ⟨hpub, _⟩ := hp
  obtain ⟨hidx, ev⟩ := rd_inv hv
  obtain ⟨e1, l1⟩ := SAFE_IDX_INCREMENT_inv hi1
  rw [Nat.mod_eq_of_lt (by omega)] at e1
  subst e1
  obtain ⟨e2, l2⟩ := SAFE_IDX_INCREMENT_inv hi2
  obtain ⟨hl4, ect⟩ := rdN_inv (by decide) hct
  rw [add32_eq _ _ (by omega), Nat.mod_eq_of_lt (by omega)] at e2
  subst e2
  obtain ⟨e3, l3⟩ := SAFE_IDX_INCREMENT_inv hi3
  rw [Nat.mod_eq_of_lt (by omega)] at e3
  obtain ⟨_, ea⟩ := rd_inv halgo
  have e5 : idx + 1 + 3 + 1 = idx + 5 := by omega
  rw [e5] at ea
  have hct4 : ct = [msg.getD (idx + 1) 0 % 256, msg.getD (idx + 2) 0 % 256,
      msg.getD (idx + 3) 0 % 256, msg.getD (idx + 4) 0 % 256] := by
    have hb : ct = bytes_at msg (idx + 1) 4 := ect
    rw [hb, bytes_at_succ _ _ _ (by omega), bytes_at_succ _ _ _ (by omega),
      bytes_at_succ _ _ _ (by omega), bytes_at_succ _ _ _ (by omega), bytes_at_zero]
  have hb := le32_bytes (msg.getD (idx + 1) 0 % 256) (msg.getD (idx + 2) 0 % 256)
    (msg.getD (idx + 3) 0 % 256) (msg.getD (idx + 4) 0 % 256)
    (Nat.mod_lt _ (by decide)) (Nat.mod_lt _ (by decide)) (Nat.mod_lt _ (by decide))
    (Nat.mod_lt _ (by decide))
  rw [← hct4] at hb
  obtain ⟨c0, c1, c2, c3⟩ := hb
  refine ⟨by omega, ?_⟩
  rw [← hpub]
  simp only
  rw [c0, c1, c2, c3, ev, ea, Nat.mod_mod, Nat.mod_mod]
  rw [bytes_at_succ _ _ _ (by omega), bytes_at_succ _ _ _ (by omega),
    bytes_at_succ _ _ _ (by omega), bytes_at_succ _ _ _ (by omega),
    bytes_at_succ _ _ _ (by omega), bytes_at_succ _ _ _ (by omega), bytes_at_zero]

theorem packet_size_exact (pub : PublicPkt) (n : Nat) (hn : n ≤ 4)
    (hm : ∀ m ∈ pub.mpis.take n, m.count ≤ 8192) :
    6 + mpis_size (pub.mpis.take n) ≤ 32782 ∧
    (pub.mpis.take n).foldl (fun acc m => (acc + (m.count + 2)) % 65536) 6
      = 6 + mpis_size (pub.mpis.take n) ∧
    (fingerprint_input pub n).getD 1 0 = (6 + mpis_size (pub.mpis.take n)) / 256 ∧
    (fingerprint_input pub n).getD 2 0 = (6 + mpis_size (pub.mpis.take n)) % 256 ∧
    (fingerprint_input pub n).getD 1 0 * 256 + (fingerprint_input pub n).getD 2 0
      = 6 + mpis_size (pub.mpis.take n) := by
  have hl : (pub.mpis.take n).length ≤ 4 := by
    rw [List.length_take]
    omega
  have hsum := sum_packet_size_le _ hm
  have hfold := foldl_packet_size _ 6 hm (by omega)
  have hle : 6 + mpis_size (pub.mpis.take n) ≤ 32782 := by
    unfold mpis_size
    omega
  have h1 : (fingerprint_input pub n).getD 1 0 = (6 + mpis_size (pub.mpis.take n)) / 256 := by
    simp only [fingerprint_input, hfold, List.cons_append, List.getD_cons_succ,
      List.getD_cons_zero, Nat.shiftRight_eq_div_pow]
    unfold mpis_size at hle ⊢
    omega
  have h2 : (fingerprint_input pub n).getD 2 0 = (6 + mpis_size (pub.mpis.take n)) % 256 := by
    simp only [fingerprint_input, hfold, List.cons_append, List.getD_cons_succ,
      List.getD_cons_zero]
    rfl
  refine ⟨hle, hfold, h1, h2, ?_⟩
  rw [h1, h2]
  omega

theorem fingerprint_input_bytes (msg : List Nat) (idx j : Nat) (pub0 pub1 pub : PublicPkt)
    (hlen : msg.length < U32) (hf : public_key_fields msg idx pub0 = .ok (pub1, j))
    (hv : pub.version = pub1.version) (hc : pub.creationTime = pub1.creationTime)
    (ha : pub.asymAlgo = pub1.asymAlgo)
    (hm : pub.mpis.take (if pub.asymAlgo = ASYM_ALGO_DSA then 4 else 3) = pub1.mpis) :
    fingerprint_input pub (if pub.asymAlgo = ASYM_ALGO_DSA then 4 else 3)
      = [0x99, (6 + mpis_size pub1.mpis) / 256, (6 + mpis_size pub1.mpis) % 256]
          ++ bytes_at msg idx (6 + mpis_size pub1.mpis) ∧
    idx + (6 + mpis_size pub1.mpis) ≤ msg.length := by
  obtain ⟨_, _, _, f4, _, f6⟩ := public_key_fields_inv hlen hf
  obtain ⟨hcur, hjl⟩ := public_key_fields_cursor hlen hf
  obtain ⟨h6, hhead⟩ := public_key_fields_head hlen hf
  have hb := consecutive_mpis_bound msg _ _ f6
  have hbytes := consecutive_mpis_bytes msg _ _ f6
  have hn4 : (if pub.asymAlgo = ASYM_ALGO_DSA then 4 else 3) ≤ 4 := by
    split_ifs <;> omega
  obtain ⟨_, _, p1, p2, _⟩ := packet_size_exact pub _ hn4
    (by rw [hm]; exact fun m h => (hb m h).1)
  rw [hm] at p1 p2
  have hdata := map_take_data pub1.mpis (fun m h => (hb m h).2)
  refine ⟨?_, by omega⟩
  have hshape : fingerprint_input pub (if pub.asymAlgo = ASYM_ALGO_DSA then 4 else 3)
      = [0x99, (fingerprint_input pub (if pub.asymAlgo = ASYM_ALGO_DSA then 4 else 3)).getD 1 0,
         (fingerprint_input pub (if pub.asymAlgo = ASYM_ALGO_DSA then 4 else 3)).getD 2 0]
        ++ ([pub.version % 256, pub.creationTime % 256, (pub.creationTime >>> 8) % 256,
              (pub.creationTime >>> 16) % 256, (pub.creationTime >>> 24) % 256,
              pub.asymAlgo % 256]
            ++ ((pub.mpis.take (if pub.asymAlgo = ASYM_ALGO_DSA then 4 else 3)).map
                  (fun m => m.data.take (m.count + 2))).flatten) := by
    simp [fingerprint_input]
  rw [hshape, p1, p2, hm, hdata, hbytes, hv, hc, ha, hhead, bytes_at_add]

/-- C33: the pre-image of the fingerprint of a secret-key packet that parses
successfully with its content at `idx`, the creation time being the `uint32_t` that the
`memcpy` of the four wire bytes gives on a little-endian host.  With
`packet_size = 6 + Σ (byte_count + 2)` over the public MPIs, the first `packet_size`
bytes of the content lie within the buffer, and the bytes fed to the hash are `0x99`,
the two big-endian bytes of `packet_size`, and then exactly those bytes of the buffer
(version, the four creation-time bytes in wire order, algorithm, public MPIs); the
stored fingerprint is the first 20 bytes of their digest. -/
theorem fingerprint_preimage (env : Env) (msg : List Nat) (idx cl j : Nat)
    (slot : Option SecretPkt) (s : SecretPkt) (hlen : msg.length < U32)
    (h : spgp_parse_secret_key env msg idx cl slot = (some s, .ok j)) :
    idx + (6 + mpis_size (spec_public_mpis s.pub)) ≤ msg.length ∧
    fingerprint_input s.pub (if s.pub.asymAlgo = ASYM_ALGO_DSA then 4 else 3)
      = [0x99, (6 + mpis_size (spec_public_mpis s.pub)) / 256,
          (6 + mpis_size (spec_public_mpis s.pub)) % 256]
        ++ bytes_at msg idx (6 + mpis_size (spec_public_mpis s.pub)) ∧
    s.pub.fingerprint
      = some ((env.sha1 ([0x99, (6 + mpis_size (spec_public_mpis s.pub)) / 256,
          (6 + mpis_size (spec_public_mpis s.pub)) % 256]
        ++ bytes_at msg idx (6 + mpis_size (spec_public_mpis s.pub)))).take 20) := by
  obtain ⟨pub0, i0, q, hf, hfp, _, _, hcase⟩ :=
    secret_key_fields_inv hlen (parse_secret_key_inv h)
  obtain ⟨_, _, _, f4, _, _⟩ := public_key_fields_inv hlen hf
  have e := generate_fingerprint_inv hfp
  have hq : q.pub.version = pub0.version ∧ q.pub.creationTime = pub0.creationTime ∧
      q.pub.asymAlgo = pub0.asymAlgo ∧
      q.pub.mpis.take (if pub0.asymAlgo = ASYM_ALGO_DSA then 4 else 3) = pub0.mpis := by
    rcases hcase with ⟨_, hd, m, e⟩ | ⟨_, e, _⟩
    · rw [e]
      refine ⟨rfl, rfl, rfl, ?_⟩
      simp only [hd, if_true] at f4 ⊢
      exact List.take_left' f4
    · rw [e]
      exact ⟨rfl, rfl, rfl, List.take_of_length_le (by rw [f4])⟩
  obtain ⟨q1, q2, q3, q4⟩ := hq
  have hsv : s.pub.version = pub0.version := by rw [e]; exact q1
  have hsc : s.pub.creationTime = pub0.creationTime := by rw [e]; exact q2
  have hsa : s.pub.asymAlgo = pub0.asymAlgo := by rw [e]; exact q3
  have hsm : s.pub.mpis.take (if s.pub.asymAlgo = ASYM_ALGO_DSA then 4 else 3)
      = pub0.mpis := by
    rw [hsa, e]
    exact q4
  obtain ⟨g1, g2⟩ := fingerprint_input_bytes msg idx i0 {} pub0 s.pub hlen hf hsv hsc hsa hsm
  have hspec : spec_public_mpis s.pub = pub0.mpis := hsm
  rw [hspec]
  refine ⟨g2, g1, ?_⟩
  have hqin : fingerprint_input q.pub (if q.pub.asymAlgo = ASYM_ALGO_DSA then 4 else 3)
      = fingerprint_input s.pub (if s.pub.asymAlgo = ASYM_ALGO_DSA then 4 else 3) := by
    rw [e]
    rfl
  rw [← g1, ← hqin, e]

/-- Witness of C33: the sample secret-key content, whose public part has 15 bytes. -/
theorem fingerprint_preimage_witness :
    ∃ s j, spgp_parse_secret_key null_env (sample_secret_content [0, 1, 1]) 0 39 none
        = (some s, .ok j) ∧
      0 + (6 + mpis_size (spec_public_mpis s.pub)) ≤ (sample_secret_content [0, 1, 1]).length ∧
      fingerprint_input s.pub (if s.pub.asymAlgo = ASYM_ALGO_DSA then 4 else 3)
        = [0x99, (6 + mpis_size (spec_public_mpis s.pub)) / 256,
            (6 + mpis_size (spec_public_mpis s.pub)) % 256]
          ++ bytes_at (sample_secret_content [0, 1, 1]) 0
              (6 + mpis_size (spec_public_mpis s.pub)) ∧
      s.pub.fingerprint
        = some ((null_env.sha1 ([0x99, (6 + mpis_size (spec_public_mpis s.pub)) / 256,
            (6 + mpis_size (spec_public_mpis s.pub)) % 256]
          ++ bytes_at (sample_secret_content [0, 1, 1]) 0
              (6 + mpis_size (spec_public_mpis s.pub)))).take 20) :=
  ⟨sample_secret_body [0, 1, 1], 38, by decide,
   fingerprint_preimage null_env (sample_secret_content [0, 1, 1]) 0 39 38 none
     (sample_secret_body [0, 1, 1]) (by decide) (by decide)⟩

/-! ### Size of the fingerprint pre-image -/

/-- C34: the 16-bit `packetSize` of the fingerprint does not wrap.  For every public
body that `spgp_parse_public_key` produces, and for the public part of every secret
body that `spgp_parse_secret_key` produces, every MPI has a byte count of at most 8192
and at most 4 MPIs are counted, so `6 + Σ (byte_count + 2)` over the public MPIs is at
most 32782; the sum that the code forms modulo 2^16 is that number, and the two size
bytes fed to the hash are its high and low byte. -/
theorem fingerprint_packet_size (env : Env) (msg : List Nat) (idx cl j : Nat)
    (hlen : msg.length < U32) :
    (∀ slot pub, spgp_parse_public_key msg idx cl slot = (some pub, .ok j) →
      (∀ m ∈ pub.mpis, m.count ≤ 8192) ∧ pub.mpis.length ≤ 4 ∧
      6 + mpis_size (spec_public_mpis pub) ≤ 32782 ∧
      (spec_public_mpis pub).foldl (fun acc m => (acc + (m.count + 2)) % 65536) 6
        = 6 + mpis_size (spec_public_mpis pub) ∧
      (fingerprint_input pub (if pub.asymAlgo = ASYM_ALGO_DSA then 4 else 3)).getD 1 0 * 256
        + (fingerprint_input pub (if pub.asymAlgo = ASYM_ALGO_DSA then 4 else 3)).getD 2 0
        = 6 + mpis_size (spec_public_mpis pub)) ∧
    (∀ slot s, spgp_parse_secret_key env msg idx cl slot = (some s, .ok j) →
      (∀ m ∈ spec_public_mpis s.pub, m.count ≤ 8192) ∧ (spec_public_mpis s.pub).length ≤ 4 ∧
      6 + mpis_size (spec_public_mpis s.pub) ≤ 32782 ∧
      (spec_public_mpis s.pub).foldl (fun acc m => (acc + (m.count + 2)) % 65536) 6
        = 6 + mpis_size (spec_public_mpis s.pub) ∧
      (fingerprint_input s.pub (if s.pub.asymAlgo = ASYM_ALGO_DSA then 4 else 3)).getD 1 0 * 256
        + (fingerprint_input s.pub (if s.pub.asymAlgo = ASYM_ALGO_DSA then 4 else 3)).getD 2 0
        = 6 + mpis_size (spec_public_mpis s.pub)) := by
  have hn4 : ∀ (a : Nat), (if a = ASYM_ALGO_DSA then 4 else 3) ≤ 4 := by
    intro a
    split_ifs <;> omega
  constructor
  · intro slot pub h
    obtain ⟨_, _, _, f4, _, f6⟩ := public_key_fields_inv hlen (parse_public_key_inv h)
    have hb := consecutive_mpis_bound msg _ _ f6
    have hcount : ∀ m ∈ pub.mpis, m.count ≤ 8192 := fun m hm => (hb m hm).1
    obtain ⟨p1, p2, _, _, p5⟩ := packet_size_exact pub _ (hn4 pub.asymAlgo)
      (fun m hm => hcount m (List.mem_of_mem_take hm))
    refine ⟨hcount, ?_, p1, p2, p5⟩
    rw [f4]
    split_ifs <;> omega
  · intro slot s h
    obtain ⟨pub0, i0, q, hf, hfp, _, _, hcase⟩ :=
      secret_key_fields_inv hlen (parse_secret_key_inv h)
    obtain ⟨_, _, _, f4, _, f6⟩ := public_key_fields_inv hlen hf
    have hb := consecutive_mpis_bound msg _ _ f6
    have e := generate_fingerprint_inv hfp
    have hq : q.pub.asymAlgo = pub0.asymAlgo ∧
        q.pub.mpis.take (if pub0.asymAlgo = ASYM_ALGO_DSA then 4 else 3) = pub0.mpis := by
      rcases hcase with ⟨_, hd, m, e⟩ | ⟨_, e, _⟩
      · rw [e]
        refine ⟨rfl, ?_⟩
        simp only [hd, if_true] at f4 ⊢
        exact List.take_left' f4
      · rw [e]
        exact ⟨rfl, List.take_of_length_le (by rw [f4])⟩
    obtain ⟨q3, q4⟩ := hq
    have hsa : s.pub.asymAlgo = pub0.asymAlgo := by rw [e]; exact q3
    have hsm : spec_public_mpis s.pub = pub0.mpis := by
      unfold spec_public_mpis
      rw [hsa, e]
      exact q4
    have hcount : ∀ m ∈ spec_public_mpis s.pub, m.count ≤ 8192 := by
      rw [hsm]
      exact fun m hm => (hb m hm).1
    obtain ⟨p1, p2, _, _, p5⟩ := packet_size_exact s.pub _ (hn4 s.pub.asymAlgo) hcount
    refine ⟨hcount, ?_, p1, p2, p5⟩
    rw [hsm, f4]
    split_ifs <;> omega

/-- Witness of C34: an Elgamal public key with three one-byte MPIs (size 15) and the
sample secret key, whose public part has the same size. -/
theorem fingerprint_packet_size_witness :
    (∃ pub, spgp_parse_public_key [4, 0, 0, 0, 1, 16, 0, 1, 1, 0, 1, 1, 0, 1, 1] 0 15 none
        = (some pub, .ok 14) ∧
      (∀ m ∈ pub.mpis, m.count ≤ 8192) ∧ pub.mpis.length ≤ 4 ∧
      6 + mpis_size (spec_public_mpis pub) ≤ 32782 ∧
      (spec_public_mpis pub).foldl (fun acc m => (acc + (m.count + 2)) % 65536) 6
        = 6 + mpis_size (spec_public_mpis pub) ∧
      (fingerprint_input pub (if pub.asymAlgo = ASYM_ALGO_DSA then 4 else 3)).getD 1 0 * 256
        + (fingerprint_input pub (if pub.asymAlgo = ASYM_ALGO_DSA then 4 else 3)).getD 2 0
        = 6 + mpis_size (spec_public_mpis pub)) ∧
    (∃ s, spgp_parse_secret_key null_env (sample_secret_content [0, 1, 1]) 0 39 none
        = (some s, .ok 38) ∧
      (∀ m ∈ spec_public_mpis s.pub, m.count ≤ 8192) ∧ (spec_public_mpis s.pub).length ≤ 4 ∧
      6 + mpis_size (spec_public_mpis s.pub) ≤ 32782 ∧
      (spec_public_mpis s.pub).foldl (fun acc m => (acc + (m.count + 2)) % 65536) 6
        = 6 + mpis_size (spec_public_mpis s.pub) ∧
      (fingerprint_input s.pub (if s.pub.asymAlgo = ASYM_ALGO_DSA then 4 else 3)).getD 1 0 * 256
        + (fingerprint_input s.pub (if s.pub.asymAlgo = ASYM_ALGO_DSA then 4 else 3)).getD 2 0
        = 6 + mpis_size (spec_public_mpis s.pub)) :=
  ⟨⟨{ version := 4, creationTime := 16777216, asymAlgo := 16,
      mpis := [⟨[0, 1, 1], 1, 1⟩, ⟨[0, 1, 1], 1, 1⟩, ⟨[0, 1, 1], 1, 1⟩], mpiCount := 3 },
    by decide,
    (fingerprint_packet_size null_env [4, 0, 0, 0, 1, 16, 0, 1, 1, 0, 1, 1, 0, 1, 1] 0 15 14
      (by decide)).1 none _ (by decide)⟩,
   ⟨sample_secret_body [0, 1, 1], by decide,
    (fingerprint_packet_size null_env (sample_secret_content [0, 1, 1]) 0 39 38
      (by decide)).2 none _ (by decide)⟩⟩

/-! ### Packets without a parser: the skip -/

theorem parse_header_first_content {msg : List Nat} {s i1 : Nat} {hdr : Option Header}
    {h : Header} (hlen : msg.length < U32)
    (hp : spgp_parse_header msg s hdr = (some h, .ok i1)) :
    (¬ five_octet_form msg s → i1 = first_content_byte msg s) ∧
    (five_octet_form msg s → i1 + 1 = first_content_byte msg s) := by
  unfold spgp_parse_header at hp
  by_cases h0 : msg.length = 0
  · simp [h0] at hp
  · rw [if_neg h0] at hp
    dsimp only at hp
    cases hb : rd msg s with
    | raise e =>
      rw [hb] at hp
      simp at hp
    | fault f =>
      rw [hb] at hp
      simp at hp
    | ok tag =>
      rw [hb] at hp
      dsimp only at hp
      obtain ⟨hs, etag⟩ := rd_inv hb
      cases hs1 : SAFE_IDX_INCREMENT s msg.length with
      | raise e =>
        rw [hs1] at hp
        simp at hp
      | fault f =>
        rw [hs1] at hp
        simp at hp
      | ok j1 =>
        rw [hs1] at hp
        dsimp only at hp
        obtain ⟨e1, l1⟩ := SAFE_IDX_INCREMENT_inv hs1
        rw [Nat.mod_eq_of_lt (by omega)] at e1
        by_cases h7 : tag &&& 0x80 = 0
        · rw [if_pos h7] at hp
          simp at hp
        · rw [if_neg h7] at hp
          unfold five_octet_form first_content_byte
          rw [← etag]
          by_cases h6 : tag &&& 0x40 = 0
          · simp only [h6, ne_eq, not_true_eq_false, if_false, if_true] at hp
            by_cases h3 : tag &&& 0x03 = 3
            · simp [h3] at hp
            · simp only [h3, if_false] at hp
              generalize hro : read_old_length msg _ j1 _ = ro at hp
              obtain ⟨h5, r⟩ := ro
              simp only [Prod.mk.injEq, Option.some.injEq] at hp
              obtain ⟨_, hr⟩ := hp
              subst hr
              obtain ⟨c1, _⟩ := read_old_length_cursor msg hlen _ _ _ _ _ hro
              simp only [h6, ne_eq, not_true_eq_false, false_and, not_false_eq_true,
                if_true, forall_true_left, false_implies, and_true]
              split_ifs at c1 ⊢ <;> omega
          · simp only [h6, ne_eq, not_false_eq_true, if_true, if_false] at hp
            cases hn : spgp_new_header_length msg j1 with
            | raise e =>
              rw [hn] at hp
              simp at hp
            | fault f =>
              rw [hn] at hp
              simp at hp
            | ok nl =>
              rw [hn] at hp
              simp only at hp
              obtain ⟨_, hcase⟩ := new_header_length_inv hn
              obtain ⟨hhl, _⟩ := new_header_length_len hn
              cases hs2 : SAFE_IDX_INCREMENT (add32 j1 (nl.header_len - 2)) msg.length with
              | raise e =>
                rw [hs2] at hp
                simp at hp
              | fault f =>
                rw [hs2] at hp
                simp at hp
              | ok i2 =>
                rw [hs2] at hp
                simp only [Prod.mk.injEq, Res.ok.injEq] at hp
                obtain ⟨_, hi⟩ := hp
                subst hi
                obtain ⟨e2, l2⟩ := SAFE_IDX_INCREMENT_inv hs2
                have ea : add32 j1 (nl.header_len - 2) = j1 + (nl.header_len - 2) :=
                  add32_eq _ _ (by omega)
                rw [ea, Nat.mod_eq_of_lt (by omega)] at e2
                subst e1
                simp only [h6, ne_eq, not_false_eq_true, true_and, if_false]
                by_cases hff : msg.getD (s + 1) 0 % 256 = 255
                · rw [if_pos hff] at hhl
                  exact ⟨fun hx => absurd hff hx, fun _ => by omega⟩
                · rw [if_neg hff] at hhl
                  exact ⟨fun _ => by omega, fun hx => absurd hx hff⟩

theorem length_take_of_le {msg : List Nat} {k : Nat} (hkl : k ≤ msg.length) :
    (msg.take k).length = k := by
  rw [List.length_take]
  omega

theorem rd_take {msg : List Nat} {i k : Nat} (hk : i < k) :
    rd (msg.take k) i = rd msg i := by
  unfold rd
  rw [List.getElem?_take]
  simp [hk]

theorem rdN_take {msg : List Nat} {i n k : Nat} (hk : i + n ≤ k) (hkl : k ≤ msg.length) :
    rdN (msg.take k) i n = rdN msg i n := by
  unfold rdN
  by_cases hn : n = 0
  · rw [if_pos hn, if_pos hn]
  · have h1 : i + n ≤ (msg.take k).length := by
      rw [length_take_of_le hkl]
      exact hk
    have h2 : i + n ≤ msg.length := by omega
    rw [if_neg hn, if_neg hn, if_pos h1, if_pos h2, List.drop_take, List.take_take,
      Nat.min_eq_left (by omega)]

theorem SAFE_take {idx len k j : Nat} (h : SAFE_IDX_INCREMENT idx len = .ok j) (hk : j < k) :
    SAFE_IDX_INCREMENT idx k = .ok j := by
  obtain ⟨e, _⟩ := SAFE_IDX_INCREMENT_inv h
  unfold SAFE_IDX_INCREMENT
  rw [← e, if_neg (by omega)]

theorem read_mpi_take {msg : List Nat} {idx j k : Nat} {m : Mpi} (hlen : msg.length < U32)
    (h : spgp_read_mpi msg idx = .ok (m, j)) (hk : j < k) (hkl : k ≤ msg.length) :
    spgp_read_mpi (msg.take k) idx = .ok (m, j) := by
  obtain ⟨_, _, _, hfit, hj⟩ := read_mpi_inv hlen h
  unfold spgp_read_mpi at h ⊢
  split_ifs at h with h1 h2
  have hl := length_take_of_le hkl
  have hs : sub32 k idx = k - idx := sub32_eq _ _ (by omega) (by omega)
  rw [hl, if_neg (by omega), hs, if_neg (by omega)]
  simp only [Res.bind_eq_ok] at h ⊢
  obtain ⟨b0, hb0, b1, hb1, d, hd, hp⟩ := h
  have hp2 := hp
  simp only [Res.pure_eq, Res.ok.injEq, Prod.mk.injEq] at hp2
  obtain ⟨hm, _⟩ := hp2
  have hc : m.count = (((b0 <<< 8) ||| b1) + 7) / 8 := by rw [← hm]
  refine ⟨b0, ?_, b1, ?_, d, ?_, hp⟩
  · rw [rd_take (by omega)]
    exact hb0
  · rw [rd_take (by omega)]
    exact hb1
  · rw [rdN_take (by omega) hkl]
    exact hd

theorem read_mpi_loop_take (msg : List Nat) (k : Nat) (hlen : msg.length < U32)
    (hkl : k ≤ msg.length) :
    ∀ (n i idx : Nat) (ms : List Mpi) (j : Nat), (i ≠ 0 → idx < msg.length) →
      read_mpi_loop msg n i idx = .ok (ms, j) → j < k →
      read_mpi_loop (msg.take k) n i idx = .ok (ms, j) := by
  intro n
  induction n with
  | zero =>
    intro i idx ms j _ h _
    exact h
  | succ n ih =>
    intro i idx ms j hi h hk
    simp only [read_mpi_loop, Res.bind_eq_ok] at h ⊢
    obtain ⟨i1, h1, r, hr, rs, hrs, hp⟩ := h
    obtain ⟨_, _, _, hfit, hj⟩ := read_mpi_inv (m := r.1) (i := r.2) hlen hr
    obtain ⟨c1, _⟩ := read_mpi_loop_cursor msg hlen n (i + 1) r.2 rs.1 rs.2 (by omega)
      hrs
    have c2 := c1 (by omega)
    simp only [Res.pure_eq, Res.ok.injEq, Prod.mk.injEq] at hp
    obtain ⟨_, hj2⟩ := hp
    have hl := length_take_of_le hkl
    refine ⟨i1, ?_, r, ?_, rs, ?_, ?_⟩
    · by_cases h0 : i = 0
      · simp only [h0, ne_eq, not_true_eq_false, if_false] at h1 ⊢
        exact h1
      · simp only [h0, ne_eq, not_false_eq_true, if_true] at h1 ⊢
        rw [hl]
        obtain ⟨e, _⟩ := SAFE_IDX_INCREMENT_inv h1
        exact SAFE_take h1 (by omega)
    · exact read_mpi_take hlen hr (by omega) hkl
    · exact ih (i + 1) r.2 rs.1 rs.2 (by omega) hrs (by omega)
    · simp only [Res.pure_eq, Res.ok.injEq, Prod.mk.injEq]
      exact ⟨by assumption, hj2⟩

theorem public_key_fields_take {msg : List Nat} {idx j k : Nat} {pub0 pub : PublicPkt}
    (hlen : msg.length < U32) (h : public_key_fields msg idx pub0 = .ok (pub, j))
    (hk : j + 1 < k) (hkl : k ≤ msg.length) :
    public_key_fields (msg.take k) idx pub0 = .ok (pub, j) := by
  obtain ⟨hcur, _⟩ := public_key_fields_cursor hlen h
  have hl := length_take_of_le hkl
  simp only [public_key_fields, Res.bind_eq_ok] at h ⊢
  obtain ⟨version, hv, i1, hi1, h⟩ := h
  split_ifs at h with hv4 hs4
  simp only [Res.bind_eq_ok] at h
  obtain ⟨ct, hct, i2, hi2, algo, halgo, i3, hi3, r, hr, hp⟩ := h
  obtain ⟨hidx, _⟩ := rd_inv hv
  obtain ⟨e1, l1⟩ := SAFE_IDX_INCREMENT_inv hi1
  rw [Nat.mod_eq_of_lt (by omega)] at e1
  obtain ⟨hle4, _⟩ := rdN_inv (by decide) hct
  obtain ⟨e2, l2⟩ := SAFE_IDX_INCREMENT_inv hi2
  rw [add32_eq _ _ (by omega), Nat.mod_eq_of_lt (by omega)] at e2
  obtain ⟨e3, l3⟩ := SAFE_IDX_INCREMENT_inv hi3
  rw [Nat.mod_eq_of_lt (by omega)] at e3
  have hms : 0 ≤ mpis_size pub.mpis := Nat.zero_le _
  have hs : sub32 k i1 = k - i1 := sub32_eq _ _ (by omega) (by omega)
  refine ⟨version, ?_, i1, ?_, ?_⟩
  · rw [rd_take (by omega)]
    exact hv
  · rw [hl]
    exact SAFE_take hi1 (by omega)
  · rw [if_neg hv4, hl, hs, if_neg (by omega)]
    simp only [Res.bind_eq_ok]
    refine ⟨ct, ?_, i2, ?_, algo, ?_, i3, ?_, r, ?_, hp⟩
    · rw [rdN_take (by omega) hkl]
      exact hct
    · exact SAFE_take hi2 (by omega)
    · rw [rd_take (by omega)]
      exact halgo
    · exact SAFE_take hi3 (by omega)
    · simp only [Res.pure_eq, Res.ok.injEq, Prod.mk.injEq] at hp
      obtain ⟨_, hj⟩ := hp
      unfold spgp_read_all_public_mpis at hr ⊢
      rw [hl, if_neg (by omega)]
      split_ifs at hr ⊢ with h0 hd he
      · simp only [Res.bind_eq_ok] at hr ⊢
        obtain ⟨q, hq, e⟩ := hr
        refine ⟨q, ?_, e⟩
        simp only [Res.pure_eq, Res.ok.injEq] at e
        exact read_mpi_loop_take msg k hlen hkl 4 0 i3 q.1 q.2 (fun hx => absurd rfl hx) hq
          (by rw [← e] at hj; simp only at hj; omega)
      · simp only [Res.bind_eq_ok] at hr ⊢
        obtain ⟨q, hq, e⟩ := hr
        refine ⟨q, ?_, e⟩
        simp only [Res.pure_eq, Res.ok.injEq] at e
        exact read_mpi_loop_take msg k hlen hkl 3 0 i3 q.1 q.2 (fun hx => absurd rfl hx) hq
          (by rw [← e] at hj; simp only at hj; omega)

theorem parse_public_key_take {msg : List Nat} {idx cl j k : Nat} {slot : Option PublicPkt}
    (hlen : msg.length < U32) (h : (spgp_parse_public_key msg idx cl slot).2 = .ok j)
    (hk : j + 1 < k) (hcl : idx + cl ≤ k) (hkl : k ≤ msg.length) :
    spgp_parse_public_key (msg.take k) idx cl slot
      = spgp_parse_public_key msg idx cl slot := by
  have hl := length_take_of_le hkl
  have hs : sub32 k idx = k - idx := sub32_eq _ _ (by omega) (by omega)
  have hc2 : ¬ k - idx < cl := by omega
  unfold spgp_parse_public_key at h ⊢
  by_cases hc : sub32 msg.length idx < cl
  · rw [if_pos hc] at h
    simp at h
  · simp only [hc, if_false] at h ⊢
    simp only [hl, hs, hc2, if_false]
    cases hf : public_key_fields msg idx (slot.getD {}) with
    | ok r =>
      rw [hf] at h
      simp only [Res.ok.injEq] at h
      have ht := public_key_fields_take hlen (show _ = Res.ok (r.1, r.2) from hf)
        (by omega) hkl
      rw [ht]
    | raise e =>
      rw [hf] at h
      simp at h
    | fault f =>
      rw [hf] at h
      simp at h

theorem parse_user_id_take {msg : List Nat} {idx cl j k : Nat} {slot : Option UserIdPkt}
    (hlen : msg.length < U32) (h : (spgp_parse_user_id msg idx cl slot).2 = .ok j)
    (hcl : idx + cl ≤ k) (hkl : k ≤ msg.length) :
    spgp_parse_user_id (msg.take k) idx cl slot = spgp_parse_user_id msg idx cl slot := by
  have hl := length_take_of_le hkl
  have hs : sub32 k idx = k - idx := sub32_eq _ _ (by omega) (by omega)
  have hc2 : ¬ k - idx < cl := by omega
  unfold spgp_parse_user_id at h ⊢
  by_cases hc : sub32 msg.length idx < cl
  · rw [if_pos hc] at h
    simp at h
  · simp only [hc, if_false, hl, hs, hc2, rdN_take hcl hkl]

theorem read_salt_take {msg : List Nat} {idx j k : Nat} {s s1 : SecretPkt}
    (hlen : msg.length < U32) (h : spgp_read_salt msg idx s = .ok (s1, j))
    (hk : j < k) (hkl : k ≤ msg.length) :
    spgp_read_salt (msg.take k) idx s = .ok (s1, j) := by
  obtain ⟨_, hj, _, _⟩ := read_salt_layout hlen h
  have hl := length_take_of_le hkl
  have hs : sub32 k idx = k - idx := sub32_eq _ _ (by omega) (by omega)
  unfold spgp_read_salt at h ⊢
  split_ifs at h with h0
  rw [hl, if_neg (by omega)]
  simp only [Res.bind_eq_ok] at h ⊢
  obtain ⟨saltLen, hsl, h⟩ := h
  have e8 : saltLen = 8 := by
    unfold spgp_salt_length_for_hash_algo at hsl
    split_ifs at hsl
    injection hsl with hsl
    exact hsl.symm
  subst e8
  refine ⟨8, hsl, ?_⟩
  simp only [(by decide : ¬ (8 = 0)), if_false] at h ⊢
  split_ifs at h with h2
  rw [hs, if_neg (by omega)]
  simp only [Res.bind_eq_ok] at h ⊢
  obtain ⟨salt, hsalt, i, hi, hp⟩ := h
  have hp2 := hp
  simp only [Res.pure_eq, Res.ok.injEq, Prod.mk.injEq] at hp2
  refine ⟨salt, ?_, i, ?_, hp⟩
  · rw [rdN_take (by omega) hkl]
    exact hsalt
  · exact SAFE_take hi (by omega)

theorem read_iv_take {env : Env} {msg : List Nat} {idx j k : Nat} {s s1 : SecretPkt}
    (hlen : msg.length < U32) (h : spgp_read_iv env msg idx s = .ok (s1, j))
    (hk : j < k) (hkl : k ≤ msg.length) :
    spgp_read_iv env (msg.take k) idx s = .ok (s1, j) := by
  obtain ⟨n, hn, _, hj, _⟩ := read_iv_layout hlen h
  have hl := length_take_of_le hkl
  have hs : sub32 k idx = k - idx := sub32_eq _ _ (by omega) (by omega)
  unfold spgp_read_iv at h ⊢
  split_ifs at h with h0
  rw [hl, if_neg (by omega)]
  simp only [Res.bind_eq_ok] at h ⊢
  obtain ⟨ivLen, hil, h⟩ := h
  refine ⟨ivLen, hil, ?_⟩
  split_ifs at h with h1 h2
  simp only [Res.bind_eq_ok] at h
  obtain ⟨iv, hiv, i, hi, hp⟩ := h
  have hp2 := hp
  simp only [Res.pure_eq, Res.ok.injEq, Prod.mk.injEq] at hp2
  obtain ⟨_, hij⟩ := hp2
  obtain ⟨hle, _⟩ := rdN_inv h1 hiv
  obtain ⟨e, l⟩ := SAFE_IDX_INCREMENT_inv hi
  rw [add32_eq _ _ (by omega), Nat.mod_eq_of_lt (by omega)] at e
  rw [if_neg h1, hs, if_neg (by omega)]
  simp only [Res.bind_eq_ok]
  refine ⟨iv, ?_, i, ?_, hp⟩
  · rw [rdN_take (by omega) hkl]
    exact hiv
  · exact SAFE_take hi (by omega)

theorem read_all_secret_mpis_take {msg : List Nat} {idx j k : Nat} {s s1 : SecretPkt}
    (hlen : msg.length < U32) (h : spgp_read_all_secret_mpis msg idx s = .ok (s1, j))
    (hk : j < k) (hkl : k ≤ msg.length) :
    spgp_read_all_secret_mpis (msg.take k) idx s = .ok (s1, j) := by
  have hl := length_take_of_le hkl
  unfold spgp_read_all_secret_mpis at h ⊢
  split_ifs at h with h0 h1 h2
  rw [hl, if_neg (by omega), if_neg h1, if_pos h2]
  simp only [Res.bind_eq_ok] at h ⊢
  obtain ⟨r, hr, hp⟩ := h
  have hp2 := hp
  simp only [Res.pure_eq, Res.ok.injEq, Prod.mk.injEq] at hp2
  obtain ⟨_, hj⟩ := hp2
  exact ⟨r, read_mpi_take hlen (show _ = Res.ok (r.1, r.2) from hr) (by omega) hkl, hp⟩

theorem read_s2k_encryption_take {msg : List Nat} {idx t e j k : Nat}
    (hlen : msg.length < U32) (h : read_s2k_encryption msg idx t = .ok (e, j))
    (hk : j < k) (hkl : k ≤ msg.length) :
    read_s2k_encryption (msg.take k) idx t = .ok (e, j) := by
  have hl := length_take_of_le hkl
  unfold read_s2k_encryption at h ⊢
  by_cases h0 : t = 0
  · rw [if_pos h0] at h ⊢
    exact h
  · rw [if_neg h0] at h ⊢
    by_cases h1 : t = 254 ∨ t = 255
    · rw [if_pos h1] at h ⊢
      simp only [Res.bind_eq_ok] at h ⊢
      obtain ⟨b, hb, i, hi, hp⟩ := h
      have hp2 := hp
      simp only [Res.pure_eq, Res.ok.injEq, Prod.mk.injEq] at hp2
      obtain ⟨_, hij⟩ := hp2
      obtain ⟨hidx, _⟩ := rd_inv hb
      obtain ⟨ei, _⟩ := SAFE_IDX_INCREMENT_inv hi
      rw [Nat.mod_eq_of_lt (by omega)] at ei
      refine ⟨b, ?_, i, ?_, hp⟩
      · rw [rd_take (by omega)]
        exact hb
      · rw [hl]
        exact SAFE_take hi (by omega)
    · rw [if_neg h1] at h ⊢
      exact h

theorem read_s2k_params_take {msg : List Nat} {idx j k : Nat} {s s1 : SecretPkt}
    (hlen : msg.length < U32) (h : read_s2k_params msg idx s = .ok (s1, j))
    (hk : j < k) (hkl : k ≤ msg.length) :
    read_s2k_params (msg.take k) idx s = .ok (s1, j) := by
  have hl := length_take_of_le hkl
  unfold read_s2k_params at h ⊢
  by_cases he : s.s2kEncryption = 0
  · simp only [ne_eq, he, not_true_eq_false, if_false] at h ⊢
    exact h
  · simp only [ne_eq, he, not_false_eq_true, if_true, Res.bind_eq_ok] at h ⊢
    obtain ⟨a, ha, hb, hhb, i1, hi1, h⟩ := h
    obtain ⟨hidx2, _⟩ := rd_inv hhb
    obtain ⟨ei1, li1⟩ := SAFE_IDX_INCREMENT_inv hi1
    rw [Nat.mod_eq_of_lt (by omega)] at ei1
    have ha2 : idx ≤ a.2 := by
      by_cases ht : s.s2kType ≥ 254
      · simp only [ht, if_true, Res.bind_eq_ok, Res.pure_eq, Res.ok.injEq] at ha
        obtain ⟨sp, hsp, i, hi, e⟩ := ha
        obtain ⟨hidx, _⟩ := rd_inv hsp
        obtain ⟨ei, _⟩ := SAFE_IDX_INCREMENT_inv hi
        rw [Nat.mod_eq_of_lt (by omega)] at ei
        rw [← e]
        simp only
        omega
      · simp only [ht, if_false, Res.ok.injEq] at ha
        rw [← ha]
    have hjge : i1 ≤ j := by
      by_cases h1 : a.1.s2kSpecifier = 1
      · simp only [h1, if_true] at h
        obtain ⟨_, hj, _, _⟩ := read_salt_layout hlen h
        omega
      · by_cases h3 : a.1.s2kSpecifier = 3
        · simp only [h3, if_true, (by decide : ¬ (3 = 1)), if_false, Res.bind_eq_ok,
            Res.pure_eq, Res.ok.injEq, Prod.mk.injEq] at h
          obtain ⟨r, hr, c, hc, i2, hi2, e, hj⟩ := h
          obtain ⟨_, hj2, _, _⟩ :=
            read_salt_layout hlen (show _ = Res.ok (r.1, r.2) from hr)
          obtain ⟨ei2, _⟩ := SAFE_IDX_INCREMENT_inv hi2
          rw [Nat.mod_eq_of_lt (by omega)] at ei2
          omega
        · simp only [h1, h3, if_false, Res.pure_eq, Res.ok.injEq, Prod.mk.injEq] at h
          omega
    refine ⟨a, ?_, hb, ?_, i1, ?_, ?_⟩
    · by_cases ht : s.s2kType ≥ 254
      · simp only [ht, if_true, Res.bind_eq_ok] at ha ⊢
        obtain ⟨sp, hsp, i, hi, e⟩ := ha
        obtain ⟨hidx, _⟩ := rd_inv hsp
        obtain ⟨ei, _⟩ := SAFE_IDX_INCREMENT_inv hi
        rw [Nat.mod_eq_of_lt (by omega)] at ei
        have e2 := e
        simp only [Res.pure_eq, Res.ok.injEq] at e2
        have ea : a.2 = i := by rw [← e2]
        refine ⟨sp, ?_, i, ?_, e⟩
        · rw [rd_take (by omega)]
          exact hsp
        · rw [hl]
          exact SAFE_take hi (by omega)
      · simp only [ht, if_false] at ha ⊢
        exact ha
    · rw [rd_take (by omega)]
      exact hhb
    · rw [hl]
      exact SAFE_take hi1 (by omega)
    · by_cases h1 : a.1.s2kSpecifier = 1
      · simp only [h1, if_true] at h ⊢
        exact read_salt_take hlen h hk hkl
      · by_cases h3 : a.1.s2kSpecifier = 3
        · simp only [h3, if_true, (by decide : ¬ (3 = 1)), if_false, Res.bind_eq_ok] at h ⊢
          obtain ⟨r, hr, c, hc, i2, hi2, hp⟩ := h
          have hp2 := hp
          simp only [Res.pure_eq, Res.ok.injEq, Prod.mk.injEq] at hp2
          obtain ⟨_, hj⟩ := hp2
          obtain ⟨hr2, _⟩ := rd_inv hc
          obtain ⟨ei2, _⟩ := SAFE_IDX_INCREMENT_inv hi2
          rw [Nat.mod_eq_of_lt (by omega)] at ei2
          refine ⟨r, read_salt_take hlen (show _ = Res.ok (r.1, r.2) from hr) (by omega) hkl,
            c, ?_, i2, ?_, hp⟩
          · rw [rd_take (by omega)]
            exact hc
          · rw [hl]
            exact SAFE_take hi2 (by omega)
        · simp only [h1, h3, if_false] at h ⊢
          exact h

theorem encrypted_data_cursor (r2 start cl len j : Nat) (hlen : len < U32)
    (hr2 : r2 < len)
    (hfit : sub32 cl (sub32 r2 start) ≠ 0 → r2 + sub32 cl (sub32 r2 start) ≤ len)
    (hj : j = add32 r2 (sub32 (sub32 cl (sub32 r2 start)) 1)) :
    r2 ≤ j + 1 ∧ r2 + sub32 cl (sub32 r2 start) ≤ j + 1 := by
  have hR : sub32 cl (sub32 r2 start) < U32 := Nat.mod_lt _ (by decide)
  generalize sub32 cl (sub32 r2 start) = R at hfit hj hR
  simp only [add32, sub32, U32] at hj hlen hR
  omega

theorem read_encrypted_data_take {env : Env} {msg : List Nat} {idx start cl j k : Nat}
    {s s1 : SecretPkt} (hlen : msg.length < U32)
    (h : read_encrypted_data env msg idx start cl s = .ok (s1, j))
    (hk : j + 1 < k) (hkl : k ≤ msg.length) :
    read_encrypted_data env (msg.take k) idx start cl s = .ok (s1, j) := by
  unfold read_encrypted_data at h ⊢
  simp only [Res.bind_eq_ok] at h ⊢
  obtain ⟨r, hr, h⟩ := h
  split_ifs at h with hpo
  simp only [Res.bind_eq_ok] at h
  obtain ⟨d, hd, hp⟩ := h
  have hp2 := hp
  simp only [Res.pure_eq, Res.ok.injEq, Prod.mk.injEq] at hp2
  obtain ⟨_, hj⟩ := hp2
  have hfit : sub32 cl (sub32 r.2 start) ≠ 0 →
      r.2 + sub32 cl (sub32 r.2 start) ≤ msg.length := fun hne => (rdN_inv hne hd).1
  obtain ⟨_, _, _, _, hr2⟩ := read_iv_layout hlen (show _ = Res.ok (r.1, r.2) from hr)
  obtain ⟨c1, c2⟩ := encrypted_data_cursor r.2 start cl msg.length j hlen hr2 hfit hj.symm
  refine ⟨r, read_iv_take hlen (show _ = Res.ok (r.1, r.2) from hr) (by omega) hkl, ?_⟩
  rw [if_neg hpo]
  simp only [Res.bind_eq_ok]
  refine ⟨d, ?_, hp⟩
  rw [rdN_take (by omega) hkl]
  exact hd

theorem secret_key_fields_take {env : Env} {msg : List Nat} {idx cl j k : Nat}
    {s : SecretPkt} (hlen : msg.length < U32)
    (h : secret_key_fields env msg idx cl = .ok (s, j))
    (hk : j + 1 < k) (hcl : idx + cl ≤ k) (hkl : k ≤ msg.length) :
    secret_key_fields env (msg.take k) idx cl = .ok (s, j) := by
  have hl := length_take_of_le hkl
  unfold secret_key_fields at h ⊢
  simp only [Res.bind_eq_ok] at h
  obtain ⟨i0, h0, i1, hi1, t, ht, i2, hi2, e, he, p, hp, q, hq, pub, hfp, hs⟩ := h
  have hs2 := hs
  simp only [Res.pure_eq, Res.ok.injEq, Prod.mk.injEq] at hs2
  obtain ⟨_, hqj⟩ := hs2
  obtain ⟨e1, l1⟩ := SAFE_IDX_INCREMENT_inv hi1
  obtain ⟨hi1l, _⟩ := rd_inv ht
  obtain ⟨e2, l2⟩ := SAFE_IDX_INCREMENT_inv hi2
  rw [Nat.mod_eq_of_lt (by omega)] at e2
  have he2 : i2 ≤ e.2 := by
    rcases read_s2k_encryption_inv hlen (show _ = Res.ok (e.1, e.2) from he) with
      ⟨_, _, x⟩ | ⟨_, _, x, _⟩ | ⟨_, _, _, x⟩ <;> omega
  obtain ⟨pub0, hslot, hf⟩ := parse_public_key_slot_inv h0
  obtain ⟨_, hl0⟩ := public_key_fields_cursor hlen hf
  rw [Nat.mod_eq_of_lt (by omega)] at e1
  have hp2 : e.2 ≤ p.2 ∧ p.2 < msg.length := by
    by_cases hz : e.1 = 0
    · have hp' := hp
      unfold read_s2k_params at hp'
      simp only [ne_eq, hz, not_true_eq_false, if_false, Res.ok.injEq] at hp'
      rw [← hp']
      simp only
      rcases read_s2k_encryption_inv hlen (show _ = Res.ok (e.1, e.2) from he) with
        ⟨_, _, x⟩ | ⟨_, _, x, y⟩ | ⟨_, _, _, x⟩ <;> omega
    · obtain ⟨_, _, _, _, _, _, _, x, y⟩ := read_s2k_params_layout hlen
        (show ({ pub := ((spgp_parse_public_key msg idx cl (some {})).1).getD {},
                 s2kType := t, s2kEncryption := e.1 } : SecretPkt).s2kEncryption ≠ 0 from hz)
        (show _ = Res.ok (p.1, p.2) from hp)
      constructor
      · rw [x]
        omega
      · exact y
  have hq2 : p.2 ≤ q.2 := by
    by_cases hz : p.1.s2kEncryption = 0
    · rw [if_pos hz] at hq
      unfold spgp_read_all_secret_mpis at hq
      split_ifs at hq with a0 a1 a2
      simp only [Res.bind_eq_ok, Res.pure_eq, Res.ok.injEq] at hq
      obtain ⟨r, hr, eq⟩ := hq
      obtain ⟨_, _, _, _, x⟩ := read_mpi_inv (m := r.1) (i := r.2) hlen hr
      rw [← eq]
      simp only
      omega
    · rw [if_neg hz] at hq
      unfold read_encrypted_data at hq
      simp only [Res.bind_eq_ok] at hq
      obtain ⟨r, hr, hq⟩ := hq
      split_ifs at hq with hpo
      simp only [Res.bind_eq_ok, Res.pure_eq, Res.ok.injEq] at hq
      obtain ⟨d, hd, eq⟩ := hq
      obtain ⟨n, hn, _, x, hr2⟩ := read_iv_layout hlen (show _ = Res.ok (r.1, r.2) from hr)
      have hfit : sub32 cl (sub32 r.2 idx) ≠ 0 →
          r.2 + sub32 cl (sub32 r.2 idx) ≤ msg.length := fun hne => (rdN_inv hne hd).1
      obtain ⟨c1, _⟩ := encrypted_data_cursor r.2 idx cl msg.length q.2 hlen hr2 hfit
        (by rw [← eq])
      omega
  have hpk := parse_public_key_take hlen (show (spgp_parse_public_key msg idx cl
    (some {})).2 = .ok i0 from h0) (by omega) hcl hkl
  rw [hpk, hl]
  simp only [Res.bind_eq_ok]
  refine ⟨i0, h0, i1, SAFE_take hi1 (by omega), t, ?_, i2, SAFE_take hi2 (by omega), e,
    read_s2k_encryption_take hlen (show _ = Res.ok (e.1, e.2) from he) (by omega) hkl, p,
    read_s2k_params_take hlen (show _ = Res.ok (p.1, p.2) from hp) (by omega) hkl, q, ?_,
    pub, hfp, hs⟩
  · rw [rd_take (by omega)]
    exact ht
  · by_cases hz : p.1.s2kEncryption = 0
    · rw [if_pos hz] at hq ⊢
      exact read_all_secret_mpis_take hlen (show _ = Res.ok (q.1, q.2) from hq) (by omega)
        hkl
    · rw [if_neg hz] at hq ⊢
      exact read_encrypted_data_take hlen (show _ = Res.ok (q.1, q.2) from hq) (by omega)
        hkl

theorem parse_secret_key_take {env : Env} {msg : List Nat} {idx cl j k : Nat}
    {slot : Option SecretPkt} (hlen : msg.length < U32)
    (h : (spgp_parse_secret_key env msg idx cl slot).2 = .ok j)
    (hk : j + 1 < k) (hcl : idx + cl ≤ k) (hkl : k ≤ msg.length) :
    spgp_parse_secret_key env (msg.take k) idx cl slot
      = spgp_parse_secret_key env msg idx cl slot := by
  have hl := length_take_of_le hkl
  have hs : sub32 k idx = k - idx := sub32_eq _ _ (by omega) (by omega)
  have hc2 : ¬ k - idx < cl := by omega
  unfold spgp_parse_secret_key at h ⊢
  by_cases hc : sub32 msg.length idx < cl
  · rw [if_pos hc] at h
    simp at h
  · simp only [hc, if_false] at h ⊢
    simp only [hl, hs, hc2, if_false]
    cases hf : secret_key_fields env msg idx cl with
    | ok r =>
      rw [hf] at h
      simp only [Res.ok.injEq] at h
      have ht := secret_key_fields_take hlen (show _ = Res.ok (r.1, r.2) from hf)
        (by omega) hcl hkl
      rw [ht]
    | raise e =>
      rw [hf] at h
      simp at h
    | fault f =>
      rw [hf] at h
      simp at h

theorem session_fields_take {msg : List Nat} {idx j k : Nat} {s : SessionPkt}
    (hlen : msg.length < U32) (h : session_fields msg idx = .ok (s, j))
    (hk : j < k) (hkl : k ≤ msg.length) :
    session_fields (msg.take k) idx = .ok (s, j) := by
  have hl := length_take_of_le hkl
  unfold session_fields at h ⊢
  simp only [Res.bind_eq_ok] at h ⊢
  obtain ⟨v, hv, i1, hi1, keyid, hkid, i2, hi2, algo, halgo, i3, hi3, m1, hm1, m2, hm2, hp⟩ := h
  have hp2 := hp
  simp only [Res.pure_eq, Res.ok.injEq, Prod.mk.injEq] at hp2
  obtain ⟨_, hj⟩ := hp2
  obtain ⟨hidx, _⟩ := rd_inv hv
  obtain ⟨e1, l1⟩ := SAFE_IDX_INCREMENT_inv hi1
  rw [Nat.mod_eq_of_lt (by omega)] at e1
  obtain ⟨hle8, _⟩ := rdN_inv (by decide) hkid
  obtain ⟨e2, l2⟩ := SAFE_IDX_INCREMENT_inv hi2
  rw [add32_eq _ _ (by omega), Nat.mod_eq_of_lt (by omega)] at e2
  obtain ⟨e3, l3⟩ := SAFE_IDX_INCREMENT_inv hi3
  rw [Nat.mod_eq_of_lt (by omega)] at e3
  obtain ⟨_, _, _, hfit1, hj1⟩ := read_mpi_inv (m := m1.1) (i := m1.2) hlen hm1
  have hm2j : m1.2 ≤ m2.2 := by
    by_cases ha : algo = ASYM_ALGO_ELGAMAL
    · simp only [ha, if_true, Res.bind_eq_ok, Res.pure_eq, Res.ok.injEq] at hm2
      obtain ⟨i, hi, m, hm, e⟩ := hm2
      obtain ⟨ei, _⟩ := SAFE_IDX_INCREMENT_inv hi
      rw [Nat.mod_eq_of_lt (by omega)] at ei
      obtain ⟨_, _, _, _, x⟩ := read_mpi_inv (m := m.1) (i := m.2) hlen hm
      rw [← e]
      simp only
      omega
    · simp only [ha, if_false, Res.ok.injEq] at hm2
      rw [← hm2]
  refine ⟨v, ?_, i1, ?_, keyid, ?_, i2, ?_, algo, ?_, i3, ?_, m1,
    read_mpi_take hlen (show _ = Res.ok (m1.1, m1.2) from hm1) (by omega) hkl, m2, ?_, hp⟩
  · rw [rd_take (by omega)]
    exact hv
  · rw [hl]
    exact SAFE_take hi1 (by omega)
  · rw [rdN_take (by omega) hkl]
    exact hkid
  · rw [hl]
    exact SAFE_take hi2 (by omega)
  · rw [rd_take (by omega)]
    exact halgo
  · rw [hl]
    exact SAFE_take hi3 (by omega)
  · by_cases ha : algo = ASYM_ALGO_ELGAMAL
    · simp only [ha, if_true, Res.bind_eq_ok] at hm2 ⊢
      obtain ⟨i, hi, m, hm, e⟩ := hm2
      have e' := e
      simp only [Res.pure_eq, Res.ok.injEq] at e'
      have em : m2.2 = m.2 := by rw [← e']
      obtain ⟨ei, _⟩ := SAFE_IDX_INCREMENT_inv hi
      rw [Nat.mod_eq_of_lt (by omega)] at ei
      obtain ⟨_, _, _, _, x⟩ := read_mpi_inv (m := m.1) (i := m.2) hlen hm
      refine ⟨i, ?_, m, read_mpi_take hlen (show _ = Res.ok (m.1, m.2) from hm) (by omega)
        hkl, e⟩
      rw [hl]
      exact SAFE_take hi (by omega)
    · simp only [ha, if_false] at hm2 ⊢
      exact hm2

theorem parse_session_take {env : Env} {msg : List Nat} {idx cl j k : Nat}
    {slot : Option SessionPkt} (hlen : msg.length < U32)
    (h : (spgp_parse_session_packet env msg idx cl slot).2 = .ok j)
    (hk : j < k) (hcl : idx + cl ≤ k) (hkl : k ≤ msg.length) :
    spgp_parse_session_packet env (msg.take k) idx cl slot
      = spgp_parse_session_packet env msg idx cl slot := by
  have hl := length_take_of_le hkl
  have hs : sub32 k idx = k - idx := sub32_eq _ _ (by omega) (by omega)
  have hc2 : ¬ k - idx < cl := by omega
  have hk0 : ¬ k = 0 := by omega
  unfold spgp_parse_session_packet at h ⊢
  by_cases h0 : msg.length = 0
  · rw [if_pos h0] at h
    simp at h
  · by_cases hc : sub32 msg.length idx < cl
    · rw [if_neg h0, if_pos hc] at h
      simp at h
    · simp only [h0, hc, if_false] at h ⊢
      simp only [hl, hk0, hs, hc2, if_false]
      cases hf : session_fields msg idx with
      | ok r =>
        rw [hf] at h
        simp only at h
        have hj : r.2 = j := by
          cases hd : session_decrypt env r.1 with
          | ok s =>
            rw [hd] at h
            simp only [Res.ok.injEq] at h
            exact h
          | raise e =>
            rw [hd] at h
            simp at h
          | fault f =>
            rw [hd] at h
            simp at h
        have ht := session_fields_take hlen (show _ = Res.ok (r.1, r.2) from hf)
          (by omega) hkl
        rw [ht]
      | raise e =>
        rw [hf] at h
        simp at h
      | fault f =>
        rw [hf] at h
        simp at h

theorem skip_zero_take_list :
    ∀ (l : List Nat) (idx i n : Nat), skip_zero l idx = .ok i → i < idx + n →
      skip_zero (l.take n) idx = .ok i := by
  intro l
  induction l with
  | nil =>
    intro idx i n h _
    simp [skip_zero] at h
  | cons b rest ih =>
    intro idx i n h hn
    obtain ⟨hge, _, _⟩ := skip_zero_ok_inv _ _ _ h
    cases n with
    | zero => omega
    | succ n =>
      rw [List.take_succ_cons]
      by_cases hb : b % 256 = 0
      · simp only [skip_zero, hb, if_true] at h ⊢
        exact ih (idx + 1) i n h (by omega)
      · simp only [skip_zero, hb, if_false] at h ⊢
        exact h

theorem skip_zero_take {msg : List Nat} {s i k : Nat}
    (h : skip_zero (msg.drop s) s = .ok i) (hk : i < k) :
    skip_zero ((msg.take k).drop s) s = .ok i := by
  obtain ⟨hge, _, _⟩ := skip_zero_ok_inv _ _ _ h
  rw [List.drop_take]
  exact skip_zero_take_list _ s i (k - s) h (by omega)

theorem read_old_length_take (msg : List Nat) (k : Nat) (hlen : msg.length < U32)
    (hkl : k ≤ msg.length) :
    ∀ (n idx : Nat) (h h2 : Header) (j : Nat),
      read_old_length msg n idx h = (h2, .ok j) → j < k →
      read_old_length (msg.take k) n idx h = (h2, .ok j) := by
  intro n
  induction n with
  | zero =>
    intro idx h h2 j hr _
    exact hr
  | succ n ih =>
    intro idx h h2 j hr hk
    have hl := length_take_of_le hkl
    obtain ⟨hj, _⟩ := read_old_length_cursor msg hlen _ _ _ _ _ hr
    rw [read_old_length] at hr ⊢
    rw [rd_take (by omega)]
    cases hb : rd msg idx with
    | ok b =>
      rw [hb] at hr
      dsimp only at hr ⊢
      cases hs : SAFE_IDX_INCREMENT idx msg.length with
      | ok i =>
        rw [hs] at hr
        dsimp only at hr
        obtain ⟨e, l⟩ := SAFE_IDX_INCREMENT_inv hs
        obtain ⟨hi, _⟩ := rd_inv hb
        rw [Nat.mod_eq_of_lt (by omega)] at e
        rw [hl, SAFE_take hs (by omega)]
        dsimp only
        exact ih i _ h2 j hr hk
      | raise e =>
        rw [hs] at hr
        simp at hr
      | fault f =>
        rw [hs] at hr
        simp at hr
    | raise e =>
      rw [hb] at hr
      simp at hr
    | fault f =>
      rw [hb] at hr
      simp at hr

theorem new_header_length_take {msg : List Nat} {off k : Nat} {nl : NewLen}
    (h : spgp_new_header_length msg off = .ok nl) (hk : off + nl.header_len - 1 < k) :
    spgp_new_header_length (msg.take k) off = .ok nl := by
  obtain ⟨_, hcase⟩ := new_header_length_inv h
  have h2 : 2 ≤ nl.header_len := by
    rcases hcase with x | ⟨x, _⟩ | ⟨x, _⟩ <;> omega
  unfold spgp_new_header_length at h ⊢
  simp only [Res.bind_eq_ok] at h ⊢
  obtain ⟨len0, hr0, h⟩ := h
  refine ⟨len0, by rw [rd_take (by omega)]; exact hr0, ?_⟩
  by_cases c1 : len0 ≤ 191
  · rw [if_pos c1] at h ⊢
    exact h
  · rw [if_neg c1] at h ⊢
    by_cases c2 : len0 > 191 ∧ len0 ≤ 223
    · rw [if_pos c2] at h ⊢
      simp only [Res.bind_eq_ok] at h ⊢
      obtain ⟨l1, h1, e⟩ := h
      have e' := e
      simp only [Res.pure_eq, Res.ok.injEq] at e'
      have hh : nl.header_len = 3 := by rw [← e']
      exact ⟨l1, by rw [rd_take (by omega)]; exact h1, e⟩
    · rw [if_neg c2] at h ⊢
      by_cases c3 : len0 = 255
      · rw [if_pos c3] at h ⊢
        simp only [Res.bind_eq_ok] at h ⊢
        obtain ⟨l0, g0, l1, g1, l2, g2, l3, g3, e⟩ := h
        have e' := e
        simp only [Res.pure_eq, Res.ok.injEq] at e'
        have hh : nl.header_len = 5 := by rw [← e']
        exact ⟨l0, by rw [rd_take (by omega)]; exact g0, l1,
          by rw [rd_take (by omega)]; exact g1, l2, by rw [rd_take (by omega)]; exact g2,
          l3, by rw [rd_take (by omega)]; exact g3, e⟩
      · rw [if_neg c3] at h ⊢
        exact h

theorem parse_header_take {msg : List Nat} {s i1 k : Nat} {hdr : Option Header}
    {h : Header} (hlen : msg.length < U32)
    (hp : spgp_parse_header msg s hdr = (some h, .ok i1)) (hk : i1 < k)
    (hkl : k ≤ msg.length) :
    spgp_parse_header (msg.take k) s hdr = (some h, .ok i1) := by
  have hl := length_take_of_le hkl
  obtain ⟨hcur, _, _⟩ := parse_header_cursor hlen hp
  have hk0 : ¬ k = 0 := by omega
  unfold spgp_parse_header at hp ⊢
  by_cases h0 : msg.length = 0
  · simp [h0] at hp
  · rw [if_neg h0] at hp
    rw [hl, if_neg hk0]
    dsimp only at hp ⊢
    rw [rd_take (by omega)]
    cases hb : rd msg s with
    | raise e =>
      rw [hb] at hp
      simp at hp
    | fault f =>
      rw [hb] at hp
      simp at hp
    | ok tag =>
      rw [hb] at hp
      dsimp only at hp ⊢
      cases hs1 : SAFE_IDX_INCREMENT s msg.length with
      | raise e =>
        rw [hs1] at hp
        simp at hp
      | fault f =>
        rw [hs1] at hp
        simp at hp
      | ok j1 =>
        rw [hs1] at hp
        obtain ⟨e1, l1⟩ := SAFE_IDX_INCREMENT_inv hs1
        rw [Nat.mod_eq_of_lt (by omega)] at e1
        rw [SAFE_take hs1 (by omega)]
        dsimp only at hp ⊢
        by_cases h7 : tag &&& 0x80 = 0
        · rw [if_pos h7] at hp
          simp at hp
        · rw [if_neg h7] at hp ⊢
          by_cases h6 : tag &&& 0x40 = 0
          · simp only [h6, ne_eq, not_true_eq_false, if_false, if_true] at hp ⊢
            by_cases h3 : tag &&& 0x03 = 3
            · simp [h3] at hp
            · simp only [h3, if_false] at hp ⊢
              generalize hro : read_old_length msg _ j1 _ = ro at hp
              obtain ⟨h5, r⟩ := ro
              simp only [Prod.mk.injEq, Option.some.injEq] at hp
              obtain ⟨hh, hr⟩ := hp
              subst hr
              rw [read_old_length_take msg k hlen hkl _ _ _ _ _ hro hk]
              simp only [hh]
          · simp only [h6, ne_eq, not_false_eq_true, if_true, if_false] at hp ⊢
            cases hn : spgp_new_header_length msg j1 with
            | raise e =>
              rw [hn] at hp
              simp at hp
            | fault f =>
              rw [hn] at hp
              simp at hp
            | ok nl =>
              rw [hn] at hp
              simp only at hp
              obtain ⟨_, hcase⟩ := new_header_length_inv hn
              cases hs2 : SAFE_IDX_INCREMENT (add32 j1 (nl.header_len - 2)) msg.length with
              | raise e =>
                rw [hs2] at hp
                simp at hp
              | fault f =>
                rw [hs2] at hp
                simp at hp
              | ok i2 =>
                rw [hs2] at hp
                simp only [Prod.mk.injEq, Res.ok.injEq] at hp
                obtain ⟨hh, hi⟩ := hp
                subst hi
                obtain ⟨e2, l2⟩ := SAFE_IDX_INCREMENT_inv hs2
                have ea : add32 j1 (nl.header_len - 2) = j1 + (nl.header_len - 2) :=
                  add32_eq _ _ (by omega)
                rw [ea, Nat.mod_eq_of_lt (by omega)] at e2
                rw [new_header_length_take hn (by omega)]
                simp only
                rw [SAFE_take hs2 hk]
                simp only [hh]

theorem free_packet_cons (p : Packet) (rest : List Packet)
    (hr : spgp_free_packet rest = .ok ()) :
    spgp_free_packet (p :: rest) = spgp_free_packet [p] := by
  simp only [spgp_free_packet, hr]

theorem free_packet_all :
    ∀ (l : List Packet), (∀ p ∈ l, spgp_free_packet [p] = .ok ()) →
      spgp_free_packet l = .ok () := by
  intro l
  induction l with
  | nil =>
    intro _
    rfl
  | cons p rest ih =>
    intro h
    rw [free_packet_cons p rest (ih (fun q hq => h q (List.mem_cons_of_mem _ hq)))]
    exact h p (List.mem_cons_self _ _)

theorem parse_packet_free {env : Env} {msg m2 : List Nat} {i1 i2 : Nat} {h : Header}
    {done : List Packet} {c : Option Body} (hlen : msg.length < U32)
    (hq : parse_packet env msg i1 h done = (m2, c, .ok i2)) :
    spgp_free_packet [{ header := some h, c := c }] = .ok () := by
  unfold parse_packet at hq
  by_cases t1 : h.type = PKT_TYPE_USER_ID
  · simp only [t1, if_true, Prod.mk.injEq] at hq
    obtain ⟨_, hc, hr⟩ := hq
    have hsome : c.isSome = true := by
      rw [← hc]
      unfold spgp_parse_user_id at hr ⊢
      by_cases h1 : sub32 msg.length i1 < h.contentLength
      · rw [if_pos h1] at hr
        simp at hr
      · rw [if_neg h1] at hr ⊢
        cases hd : rdN msg i1 h.contentLength with
        | ok bytes => simp
        | raise e => simp [hd] at hr
        | fault f => simp [hd] at hr
    cases hcc : c with
    | none => simp [hcc] at hsome
    | some b =>
      simp [spgp_free_packet, t1, PKT_TYPE_USER_ID, PKT_TYPE_SECRET_KEY,
        PKT_TYPE_SECRET_SUBKEY]
  · rw [if_neg t1] at hq
    by_cases t3 : h.type = PKT_TYPE_SECRET_KEY ∨ h.type = PKT_TYPE_SECRET_SUBKEY
    · have t2 : ¬ (h.type = PKT_TYPE_PUBLIC_KEY ∨ h.type = PKT_TYPE_PUBLIC_SUBKEY) := by
        rcases t3 with x | x <;> rw [x] <;> decide
      simp only [t2, t3, if_true, if_false, Prod.mk.injEq] at hq
      obtain ⟨_, hc, hr⟩ := hq
      obtain ⟨s, hs⟩ : ∃ s, spgp_parse_secret_key env msg i1 h.contentLength none
          = (some s, .ok i2) := by
        unfold spgp_parse_secret_key at hr ⊢
        by_cases h1 : sub32 msg.length i1 < h.contentLength
        · rw [if_pos h1] at hr
          simp at hr
        · rw [if_neg h1] at hr ⊢
          cases hd : secret_key_fields env msg i1 h.contentLength with
          | ok r =>
            rw [hd] at hr
            simp only [Res.ok.injEq] at hr
            exact ⟨r.1, by simp only [hr]⟩
          | raise e => simp [hd] at hr
          | fault f => simp [hd] at hr
      obtain ⟨pub0, i0, q, hf, hfp, _, _, hcase⟩ :=
        secret_key_fields_inv hlen (parse_secret_key_inv hs)
      obtain ⟨_, _, _, f4, _, _⟩ := public_key_fields_inv hlen hf
      have e := generate_fingerprint_inv hfp
      have hne0 : pub0.mpis ≠ [] := by
        intro hx
        rw [hx] at f4
        split_ifs at f4 <;> simp at f4
      have hmp : s.pub.mpis ≠ [] := by
        rw [e]
        rcases hcase with ⟨_, _, m, eq⟩ | ⟨_, eq, _⟩
        · rw [eq]
          simp
        · rw [eq]
          exact hne0
      rw [hs] at hc
      rw [← hc]
      have hemp : s.pub.mpis.isEmpty = false := by
        cases hm : s.pub.mpis with
        | nil => exact absurd hm hmp
        | cons a b => rfl
      simp [spgp_free_packet, t3, hemp]
    · have n1 : ¬ h.type = PKT_TYPE_SECRET_KEY := fun x => t3 (Or.inl x)
      have n2 : ¬ h.type = PKT_TYPE_SECRET_SUBKEY := fun x => t3 (Or.inr x)
      simp [spgp_free_packet, t1, n1, n2]

theorem parse_header_cut_nl (m : List Nat) (s tag : Nat) (nl : NewLen)
    (hlen : m.length < U32) (ht : m[s]? = some tag) (htb : tag < 256)
    (h7 : tag &&& 0x80 ≠ 0) (h6 : tag &&& 0x40 ≠ 0)
    (hnl : spgp_new_header_length m (s + 1) = .ok nl) (h2 : 2 ≤ nl.header_len)
    (hl : m.length = s + nl.header_len) :
    ∃ h, spgp_parse_header m s none = (some h, .raise .BUFFER_OVERFLOW) ∧
      h.type = tag &&& 0x1F := by
  have hne : m.length ≠ 0 := by omega
  have hrt := rd_ok ht htb
  have s1 := SAFE_IDX_INCREMENT_ok s m.length (by omega) (by omega)
  have ha : add32 (s + 1) (nl.header_len - 2) = s + nl.header_len - 1 := by
    rw [add32_eq _ _ (by omega)]
    omega
  have s2 := SAFE_IDX_INCREMENT_raise (s + nl.header_len - 1) m.length (by omega) (by omega)
  refine ⟨{ rawTagByte := tag, isNewFormat := tag &&& 0x40, type := tag &&& 0x1F,
            headerLength := nl.header_len, contentLength := nl.content,
            isPartial := nl.isPartial }, ?_, rfl⟩
  simp [spgp_parse_header, hne, hrt, s1, h7, h6, hnl, ha, s2]

theorem loaded_octets_ge (msg : List Nat) (s : Nat) : 2 ≤ loaded_octets msg s := by
  unfold loaded_octets
  split_ifs <;> omega

theorem decode_loop_cut_wide (env : Env) (m : List Nat) (s : Nat)
    (done : List Packet) (hlen : m.length < U32) (hmb : ∀ b ∈ m, b < 256)
    (hfr : cut_framed m s) (htype : key_or_session_type (spec_packet_type (m.getD s 0)))
    (h2 : s + loaded_octets m s ≤ m.length)
    (hcut : m.length ≤ s + spec_header_length m s ∨
      m.length < s + spec_header_length m s + spec_content_length m s) :
    ∃ h, key_or_session_type h.type ∧
      ∀ fuel, decode_loop env (fuel + 1) m s done
        = (done ++ [{ header := some h, c := none }], .raise .BUFFER_OVERFLOW) := by
  have hlo := loaded_octets_ge m s
  obtain ⟨h7, hform⟩ := hfr
  by_cases hfo : framed m s
  · exact decode_loop_cut env m s done hlen hmb hfo htype (by omega) hcut
  · have h6 : m.getD s 0 &&& 0x40 ≠ 0 := by
      rcases hform with ⟨x, y⟩ | ⟨x, _⟩
      · exact absurd ⟨h7, Or.inl ⟨x, y⟩⟩ hfo
      · exact x
    have hff : m.getD (s + 1) 0 ≠ 255 := by
      rcases hform with ⟨x, _⟩ | ⟨_, y⟩
      · exact absurd x h6
      · exact y
    have hb191 : ¬ m.getD (s + 1) 0 ≤ 191 := fun x => hfo ⟨h7, Or.inr ⟨h6, x⟩⟩
    obtain ⟨ht0, htb⟩ := byte_at hmb (j := s) (by omega)
    obtain ⟨ht1, htb1⟩ := byte_at hmb (j := s + 1) (by omega)
    have hz := tag_nonzero m s hmb (by omega) h7
    have hct := code_type_eq_spec _ (key_type_lt _ htype)
    simp only [h6, if_false] at hct
    have hdet : ¬ (m.getD s 0 &&& 0x40 = 0 ∧ m.getD s 0 &&& 0x03 = 3) := fun hx => h6 hx.1
    by_cases hc : m.length ≤ s + spec_header_length m s
    · by_cases h223 : m.getD (s + 1) 0 ≤ 223
      · have hs : spec_header_length m s = 3 := by
          simp [-List.getD_eq_getElem?_getD, spec_header_length, h6, hb191, h223]
        have hld : loaded_octets m s = 3 := by
          unfold loaded_octets
          rw [if_pos ⟨h6, by omega, h223⟩]
        obtain ⟨ht2, htb2⟩ := byte_at hmb (j := s + 2) (by omega)
        have hn := nhl_two m (s + 1) _ _ ht1 ht2 htb2 (by omega) h223
        obtain ⟨h, e1, e2⟩ := parse_header_cut_nl m s _ _ hlen ht0 htb h7 h6 hn
          (by simp only; omega) (by simp only; omega)
        refine ⟨h, ?_, fun fuel => decode_loop_header_raise env fuel m s done h _ (by omega)
          hz e1⟩
        rw [e2, hct]
        exact htype
      · have hs : spec_header_length m s = 2 := by
          simp [-List.getD_eq_getElem?_getD, spec_header_length, h6, hb191, h223, hff]
        have hn := nhl_part m (s + 1) _ ht1 (by omega) (by omega)
        obtain ⟨h, e1, e2⟩ := parse_header_cut_nl m s _ _ hlen ht0 htb h7 h6 hn
          (by simp only; omega) (by simp only; omega)
        refine ⟨h, ?_, fun fuel => decode_loop_header_raise env fuel m s done h _ (by omega)
          hz e1⟩
        rw [e2, hct]
        exact htype
    · obtain ⟨h, e1, e2, e3, e4⟩ := parse_header_valid m s hlen hmb h7 hdet (by omega)
      simp only [h6, if_false] at e4
      rw [hct] at e4
      have hty : key_or_session_type h.type := by
        rw [e4]; exact htype
      have hq := parse_packet_overflow env m (s + h.headerLength) h done hlen (by omega)
        (by omega) hty (by omega)
      exact ⟨h, hty, fun fuel =>
        decode_loop_packet_raise env fuel m m s done h _ none _ (by omega) hz e1 hq⟩

theorem cut_framed_take (msg : List Nat) (k s : Nat) (hk : s + 2 ≤ k) (h : cut_framed msg s) :
    cut_framed (msg.take k) s := by
  unfold cut_framed at h ⊢
  rw [getD_take msg k s (by omega), getD_take msg k (s + 1) (by omega)]
  exact h

theorem loaded_octets_take (msg : List Nat) (k s : Nat) (hk : s + 2 ≤ k) :
    loaded_octets (msg.take k) s = loaded_octets msg s := by
  unfold loaded_octets
  rw [getD_take msg k s (by omega), getD_take msg k (s + 1) (by omega)]

theorem spec_content_length_take_wide (msg : List Nat) (k s : Nat) (hfr : cut_framed msg s)
    (hk : s + spec_header_length msg s ≤ k) :
    spec_content_length (msg.take k) s = spec_content_length msg s := by
  by_cases hfo : framed msg s
  · exact spec_content_length_take msg k s hfo hk
  · obtain ⟨h7, hform⟩ := hfr
    have h6 : msg.getD s 0 &&& 0x40 ≠ 0 := by
      rcases hform with ⟨x, y⟩ | ⟨x, _⟩
      · exact absurd ⟨h7, Or.inl ⟨x, y⟩⟩ hfo
      · exact x
    have hff : msg.getD (s + 1) 0 ≠ 255 := by
      rcases hform with ⟨x, _⟩ | ⟨_, y⟩
      · exact absurd x h6
      · exact y
    have hb191 : ¬ msg.getD (s + 1) 0 ≤ 191 := fun x => hfo ⟨h7, Or.inr ⟨h6, x⟩⟩
    by_cases h223 : msg.getD (s + 1) 0 ≤ 223
    · have hs : spec_header_length msg s = 3 := by
        simp [-List.getD_eq_getElem?_getD, spec_header_length, h6, hb191, h223]
      simp only [spec_content_length, getD_take msg k s (by omega),
        getD_take msg k (s + 1) (by omega), getD_take msg k (s + 2) (by omega), h6, hb191,
        h223, if_true, if_false]
    · have hs : spec_header_length msg s = 2 := by
        simp [-List.getD_eq_getElem?_getD, spec_header_length, h6, hb191, h223, hff]
      simp only [spec_content_length, getD_take msg k s (by omega),
        getD_take msg k (s + 1) (by omega), h6, hb191, h223, hff, if_false]

theorem free_key_packet (h : Header) (ht : key_or_session_type h.type) :
    spgp_free_packet [{ header := some h, c := none }] = .ok () := by
  have hu := key_type_ne_user_id _ ht
  simp [spgp_free_packet, hu]

set_option maxRecDepth 100000 in
theorem long_key_message_decoded :
    (returned_chain (spgp_decode_message null_env 1 long_key_message)).map List.length
        = some 1 ∧
     spgp_decode_message null_env 1 (long_key_message.take 2) = .fault (.oobRead 2) := by
  decide

set_option maxRecDepth 100000 in
theorem sample_key_message_length : sample_key_message.length < U32 := by
  decide

set_option maxRecDepth 100000 in
theorem sample_key_message_bytes : ∀ b ∈ sample_key_message, b < 256 := by
  decide

set_option maxRecDepth 100000 in
theorem sample_key_message_cut :
    cut_framed sample_key_message 236 ∧
    key_or_session_type (spec_packet_type (sample_key_message.getD 236 0)) ∧
    packet_end sample_key_message 236 ≤ sample_key_message.length ∧
    245 < packet_end sample_key_message 236 ∧
    236 + loaded_octets sample_key_message 236 ≤ 245 := by
  decide

theorem wrN_inv {msg m2 : List Nat} {i : Nat} {bs : List Nat} (h : wrN msg i bs = .ok m2) :
    (bs.length = 0 ∧ m2 = msg) ∨
    (bs.length ≠ 0 ∧ i + bs.length ≤ msg.length ∧
      m2 = msg.take i ++ bs ++ msg.drop (i + bs.length)) := by
  unfold wrN at h
  by_cases h0 : bs.length = 0
  · rw [if_pos h0] at h
    injection h with h
    exact Or.inl ⟨h0, h.symm⟩
  · rw [if_neg h0] at h
    by_cases h1 : i + bs.length ≤ msg.length
    · rw [if_pos h1] at h
      injection h with h
      exact Or.inr ⟨h0, h1, h.symm⟩
    · rw [if_neg h1] at h
      exact Res.noConfusion h

theorem wrN_length {msg m2 : List Nat} {i : Nat} {bs : List Nat} (h : wrN msg i bs = .ok m2) :
    m2.length = msg.length := by
  rcases wrN_inv h with ⟨_, e⟩ | ⟨_, hfit, e⟩
  · rw [e]
  · rw [e]
    simp only [List.length_append, List.length_take, List.length_drop]
    omega

theorem wrN_take {msg m2 : List Nat} {i k : Nat} {bs : List Nat}
    (h : wrN msg i bs = .ok m2) (hk : i + bs.length ≤ k) (hkl : k ≤ msg.length) :
    wrN (msg.take k) i bs = .ok (m2.take k) := by
  have hl := length_take_of_le hkl
  rcases wrN_inv h with ⟨h0, e⟩ | ⟨h0, hfit, e⟩
  · unfold wrN
    rw [if_pos h0, e]
  · unfold wrN
    rw [if_neg h0, hl, if_pos hk, e]
    congr 1
    have hpl : (msg.take i ++ bs).length = i + bs.length := by
      simp only [List.length_append, List.length_take]
      omega
    have e1 : (msg.take i ++ bs).take k = msg.take i ++ bs :=
      List.take_of_length_le (by omega)
    have e2 : (msg.take k).take i = msg.take i := by
      rw [List.take_take, Nat.min_eq_left (by omega)]
    rw [List.take_append_eq_append_take, e1, e2, List.drop_take, hpl]

theorem next_sub_header_take {msg m2 : List Nat} {idx j k : Nat} {nl : NewLen}
    (hlen : msg.length < U32) (h : next_sub_header msg idx = .ok (m2, j, nl)) (hk : j < k)
    (hkl : k ≤ msg.length) :
    next_sub_header (msg.take k) idx = .ok (m2.take k, j, nl) ∧ m2.length = msg.length := by
  obtain ⟨_, hfit, _, hj, _⟩ := next_sub_header_inv hlen h
  unfold next_sub_header at h ⊢
  simp only [Res.bind_eq_ok, Res.pure_eq, Res.ok.injEq, Prod.mk.injEq] at h ⊢
  obtain ⟨nl0, hnl, mm, hw, i3, hi3, e1, e2, e3⟩ := h
  subst e3
  have h2 : 2 ≤ nl0.header_len := by
    obtain ⟨_, hcase⟩ := new_header_length_inv hnl
    rcases hcase with x | ⟨x, _⟩ | ⟨x, _⟩ <;> omega
  have hml := wrN_length hw
  have hrl : (List.replicate nl0.header_len 0).length = nl0.header_len := List.length_replicate _ _
  refine ⟨⟨nl0, new_header_length_take hnl (by omega), mm.take k,
    wrN_take hw (by rw [hrl]; omega) hkl, i3, ?_, ?_, e2, rfl⟩, ?_⟩
  · rw [length_take_of_le (by omega)]
    exact SAFE_take hi3 (by omega)
  · rw [e1]
  · rw [← e1, hml]

theorem decrypt_segments_cursor (env : Env) (session : SessionPkt) :
    ∀ (f : Nat) (msg : List Nat) (idx enc part : Nat) (m2 : List Nat) (c b : Nat),
      msg.length < U32 → idx < msg.length →
      decrypt_segments env session f msg idx enc part = .ok (m2, c, b) →
      idx ≤ c + 1 ∧ m2.length = msg.length ∧ idx + enc ≤ msg.length ∧
      (enc ≠ 0 → idx + enc ≤ c + 1) := by
  intro f
  induction f with
  | zero =>
    intro msg idx enc part m2 c b _ _ h
    simp [decrypt_segments] at h
  | succ f ih =>
    intro msg idx enc part m2 c b hlen hidx h
    rw [decrypt_segments] at h
    simp only [Res.bind_eq_ok] at h
    obtain ⟨blk, hb, h⟩ := h
    split at h
    · exact Res.noConfusion h
    · rename_i out hout
      split_ifs at h with hchk hpart
      · simp only [Res.bind_eq_ok, Res.pure_eq, Res.ok.injEq, Prod.mk.injEq] at h
        obtain ⟨msg1, hw, e1, e2, e3⟩ := h
        have hml := wrN_length hw
        subst e1
        simp only [add32, sub32, U32] at e2
        simp only [U32] at hlen
        refine ⟨by omega, hml, by omega, fun _ => by omega⟩
      · simp only [Res.bind_eq_ok, Res.pure_eq] at h
        obtain ⟨msg1, hw, i2, hi2, r, hr, h⟩ := h
        have hml := wrN_length hw
        obtain ⟨e2, hlt2⟩ := SAFE_IDX_INCREMENT_inv hi2
        obtain ⟨hnl, _, _, hj, hjl⟩ := next_sub_header_inv
          (by rw [hml]; exact hlen) (show _ = Res.ok (r.1, r.2.1, r.2.2) from hr)
        have h2 : 2 ≤ r.2.2.header_len := by
          obtain ⟨_, hcase⟩ := new_header_length_inv hnl
          rcases hcase with x | ⟨x, _⟩ | ⟨x, _⟩ <;> omega
        have hrl : r.1.length = msg.length := by
          obtain ⟨_, hl2⟩ := next_sub_header_take (k := msg1.length)
            (by rw [hml]; exact hlen) (show _ = Res.ok (r.1, r.2.1, r.2.2) from hr) hjl
            (Nat.le_refl _)
          rw [hl2, hml]
        obtain ⟨g1, g2, _, _⟩ := ih r.1 r.2.1 r.2.2.content r.2.2.isPartial m2 c b
          (by rw [hrl]; exact hlen) (by rw [hrl, ← hml]; exact hjl) h
        simp only [add32, sub32, U32] at e2
        simp only [U32] at hlen
        rw [hml] at hlt2
        refine ⟨by omega, by rw [g2, hrl], by omega, fun _ => by omega⟩

theorem decrypt_segments_take (env : Env) (session : SessionPkt) (k : Nat) :
    ∀ (f f2 : Nat) (msg : List Nat) (idx enc part : Nat) (m2 : List Nat) (c b : Nat),
      msg.length < U32 → k ≤ msg.length →
      decrypt_segments env session f msg idx enc part = .ok (m2, c, b) →
      idx < k → c + 1 < k → k < f2 + idx →
      decrypt_segments env session f2 (msg.take k) idx enc part = .ok (m2.take k, c, b) := by
  intro f
  induction f with
  | zero =>
    intro f2 msg idx enc part m2 c b _ _ h
    simp [decrypt_segments] at h
  | succ f ih =>
    intro f2 msg idx enc part m2 c b hlen hkl h hidx hc hf
    obtain ⟨f3, ef⟩ : ∃ f3, f2 = f3 + 1 := ⟨f2 - 1, by omega⟩
    subst ef
    obtain ⟨q1, q2, q3, q4⟩ := decrypt_segments_cursor env session (f + 1) msg idx enc part
      m2 c b hlen (by omega) h
    have hl := length_take_of_le hkl
    rw [decrypt_segments] at h ⊢
    simp only [Res.bind_eq_ok] at h ⊢
    obtain ⟨blk, hb, h⟩ := h
    refine ⟨blk, hb, ?_⟩
    have hfit : idx + enc ≤ k := by
      by_cases h0 : enc = 0
      · omega
      · have := q4 h0
        omega
    have hin : ((msg.take k).drop idx).take enc = (msg.drop idx).take enc := by
      rw [List.drop_take, List.take_take, Nat.min_eq_left (by omega)]
    rw [hin]
    split at h
    · exact Res.noConfusion h
    · rename_i out hout
      have hwl : ((out ++ List.replicate enc 0).take enc).length = enc := by
        rw [List.length_take, List.length_append, List.length_replicate]
        omega
      split_ifs at h with hchk hpart
      · simp only [Res.bind_eq_ok, Res.pure_eq, Res.ok.injEq, Prod.mk.injEq] at h
        obtain ⟨msg1, hw, e1, e2, e3⟩ := h
        rw [hl, if_neg (by omega)]
        simp only [Res.bind_eq_ok, Res.pure_eq, if_pos hpart, Res.ok.injEq, Prod.mk.injEq]
        exact ⟨msg1.take k, wrN_take hw (by rw [hwl]; exact hfit) hkl, by rw [e1], e2, e3⟩
      · simp only [Res.bind_eq_ok, Res.pure_eq] at h
        obtain ⟨msg1, hw, i2, hi2, r, hr, h⟩ := h
        have hml := wrN_length hw
        obtain ⟨e2, hlt2⟩ := SAFE_IDX_INCREMENT_inv hi2
        obtain ⟨hnl, _, _, hj, hjl⟩ := next_sub_header_inv
          (by rw [hml]; exact hlen) (show _ = Res.ok (r.1, r.2.1, r.2.2) from hr)
        have h2 : 2 ≤ r.2.2.header_len := by
          obtain ⟨_, hcase⟩ := new_header_length_inv hnl
          rcases hcase with x | ⟨x, _⟩ | ⟨x, _⟩ <;> omega
        have hrl : r.1.length = msg.length := by
          obtain ⟨_, hl2⟩ := next_sub_header_take (k := msg1.length)
            (by rw [hml]; exact hlen) (show _ = Res.ok (r.1, r.2.1, r.2.2) from hr) hjl
            (Nat.le_refl _)
          rw [hl2, hml]
        obtain ⟨g1, _, _, _⟩ := decrypt_segments_cursor env session f r.1 r.2.1 r.2.2.content
          r.2.2.isPartial m2 c b (by rw [hrl]; exact hlen) (by rw [hrl, ← hml]; exact hjl) h
        have hi2v : i2 = idx + enc := by
          simp only [add32, sub32, U32] at e2
          simp only [U32] at hlen
          omega
        rw [hl, if_neg (by omega)]
        simp only [Res.bind_eq_ok, Res.pure_eq, if_neg hpart]
        obtain ⟨t1, _⟩ := next_sub_header_take (k := k)
          (by rw [hml]; exact hlen) (show _ = Res.ok (r.1, r.2.1, r.2.2) from hr) (by omega)
          (by rw [hml]; exact hkl)
        refine ⟨msg1.take k, wrN_take hw (by rw [hwl]; exact hfit) hkl, i2, ?_,
          (r.1.take k, r.2.1, r.2.2), t1, ?_⟩
        · rw [length_take_of_le (by rw [hml]; exact hkl)]
          exact SAFE_take hi2 (by omega)
        · exact ih f3 r.1 r.2.1 r.2.2.content r.2.2.isPartial m2 c b (by rw [hrl]; exact hlen)
            (by rw [hrl]; exact hkl) h (by omega) hc (by omega)

theorem rdN_two_fit {msg : List Nat} {i : Nat} {v : List Nat} (h : rdN msg i 2 = .ok v) :
    i + 2 ≤ msg.length := by
  unfold rdN at h
  rw [if_neg (by decide)] at h
  by_cases hf : i + 2 ≤ msg.length
  · exact hf
  · rw [if_neg hf] at h
    exact Res.noConfusion h

theorem parse_encrypted_take {env : Env} {msg m2 : List Nat} {idx i2 k : Nat} {h : Header}
    {back : List Packet} (hlen : msg.length < U32)
    (hq : spgp_parse_encrypted_packet env msg idx h back = .ok (m2, i2))
    (hreach : ∀ session r, spgp_find_session_packet back = .ok (some session) →
      decrypt_segments env session (msg.length + 1) msg (idx + 1)
        (sub32 h.contentLength 1) h.isPartial = .ok r → r.2.1 + 2 ≤ k)
    (hk : i2 + 1 < k) (hkl : k ≤ msg.length) :
    spgp_parse_encrypted_packet env (msg.take k) idx h back = .ok (m2.take k, i2) ∧
    m2.length = msg.length := by
  have hl := length_take_of_le hkl
  unfold spgp_parse_encrypted_packet at hq ⊢
  by_cases h0 : msg.length = 0
  · rw [if_pos h0] at hq
    exact Res.noConfusion hq
  · rw [if_neg h0] at hq
    simp only [Res.bind_eq_ok] at hq
    obtain ⟨v, hv, st, hst, hq⟩ := hq
    split_ifs at hq with hver
    simp only [Res.bind_eq_ok] at hq
    obtain ⟨found, hfound, hq⟩ := hq
    cases found with
    | none => exact Res.noConfusion hq
    | some session =>
      simp only [Res.bind_eq_ok, Res.pure_eq] at hq
      obtain ⟨r, hr, w1, hw1, w2, hw2, hq⟩ := hq
      split_ifs at hq with hm
      simp only [Res.ok.injEq, Prod.mk.injEq] at hq
      obtain ⟨e1, e2⟩ := hq
      obtain ⟨est, hstl⟩ := SAFE_IDX_INCREMENT_inv hst
      obtain ⟨hidx, _⟩ := rd_inv hv
      have hst1 : st = idx + 1 := by
        simp only [U32] at est hlen
        omega
      subst hst1
      have hfit := rdN_two_fit hw2
      obtain ⟨_, hrl, _, _⟩ := decrypt_segments_cursor env session (msg.length + 1) msg
        (idx + 1) (sub32 h.contentLength 1) h.isPartial r.1 r.2.1 r.2.2 hlen hstl hr
      have hi2 : i2 = idx + 1 + r.2.2 + 1 := by
        simp only [U32] at e2 hlen
        omega
      have hrk := hreach session r hfound hr
      have hr2 := decrypt_segments_take env session k (msg.length + 1) (k + 1) msg (idx + 1)
        (sub32 h.contentLength 1) h.isPartial r.1 r.2.1 r.2.2 hlen hkl hr (by omega)
        (by omega) (by omega)
      refine ⟨?_, by rw [← e1, hrl]⟩
      rw [hl, if_neg (by omega)]
      simp only [Res.bind_eq_ok]
      refine ⟨v, by rw [rd_take (by omega)]; exact hv, idx + 1, SAFE_take hst (by omega), ?_⟩
      rw [if_neg hver]
      simp only [Res.bind_eq_ok, Res.pure_eq]
      refine ⟨some session, hfound, ?_⟩
      simp only [Res.bind_eq_ok, Res.pure_eq]
      refine ⟨(r.1.take k, r.2.1, r.2.2), hr2, w1, ?_, w2, ?_, ?_⟩
      · dsimp only
        rw [rdN_take (by omega) (by omega)]
        exact hw1
      · dsimp only
        rw [rdN_take (by omega) (by omega)]
        exact hw2
      · dsimp only
        rw [if_neg hm, e1, e2]

theorem secret_key_fields_cursor {env : Env} {msg : List Nat} {idx cl j : Nat}
    {s : SecretPkt} (hlen : msg.length < U32)
    (h : secret_key_fields env msg idx cl = .ok (s, j)) : idx ≤ j := by
  unfold secret_key_fields at h
  simp only [Res.bind_eq_ok] at h
  obtain ⟨i0, h0, i1, hi1, t, ht, i2, hi2, e, he, p, hp, q, hq, pub, hfp, hs⟩ := h
  have hs2 := hs
  simp only [Res.pure_eq, Res.ok.injEq, Prod.mk.injEq] at hs2
  obtain ⟨_, hqj⟩ := hs2
  obtain ⟨e1, l1⟩ := SAFE_IDX_INCREMENT_inv hi1
  obtain ⟨hi1l, _⟩ := rd_inv ht
  obtain ⟨e2, l2⟩ := SAFE_IDX_INCREMENT_inv hi2
  rw [Nat.mod_eq_of_lt (by omega)] at e2
  have he2 : i2 ≤ e.2 := by
    rcases read_s2k_encryption_inv hlen (show _ = Res.ok (e.1, e.2) from he) with
      ⟨_, _, x⟩ | ⟨_, _, x, _⟩ | ⟨_, _, _, x⟩ <;> omega
  obtain ⟨pub0, hslot, hf⟩ := parse_public_key_slot_inv h0
  obtain ⟨hc0, hl0⟩ := public_key_fields_cursor hlen hf
  rw [Nat.mod_eq_of_lt (by omega)] at e1
  have hp2 : e.2 ≤ p.2 ∧ p.2 < msg.length := by
    by_cases hz : e.1 = 0
    · have hp' := hp
      unfold read_s2k_params at hp'
      simp only [ne_eq, hz, not_true_eq_false, if_false, Res.ok.injEq] at hp'
      rw [← hp']
      simp only
      rcases read_s2k_encryption_inv hlen (show _ = Res.ok (e.1, e.2) from he) with
        ⟨_, _, x⟩ | ⟨_, _, x, y⟩ | ⟨_, _, _, x⟩ <;> omega
    · obtain ⟨_, _, _, _, _, _, _, x, y⟩ := read_s2k_params_layout hlen
        (show ({ pub := ((spgp_parse_public_key msg idx cl (some {})).1).getD {},
                 s2kType := t, s2kEncryption := e.1 } : SecretPkt).s2kEncryption ≠ 0 from hz)
        (show _ = Res.ok (p.1, p.2) from hp)
      constructor
      · rw [x]
        omega
      · exact y
  have hq2 : p.2 ≤ q.2 := by
    by_cases hz : p.1.s2kEncryption = 0
    · rw [if_pos hz] at hq
      unfold spgp_read_all_secret_mpis at hq
      split_ifs at hq with a0 a1 a2
      simp only [Res.bind_eq_ok, Res.pure_eq, Res.ok.injEq] at hq
      obtain ⟨r, hr, eq⟩ := hq
      obtain ⟨_, _, _, _, x⟩ := read_mpi_inv (m := r.1) (i := r.2) hlen hr
      rw [← eq]
      simp only
      omega
    · rw [if_neg hz] at hq
      unfold read_encrypted_data at hq
      simp only [Res.bind_eq_ok] at hq
      obtain ⟨r, hr, hq⟩ := hq
      split_ifs at hq with hpo
      simp only [Res.bind_eq_ok, Res.pure_eq, Res.ok.injEq] at hq
      obtain ⟨d, hd, eq⟩ := hq
      obtain ⟨n, hn, _, x, hr2⟩ := read_iv_layout hlen (show _ = Res.ok (r.1, r.2) from hr)
      have hfit : sub32 cl (sub32 r.2 idx) ≠ 0 →
          r.2 + sub32 cl (sub32 r.2 idx) ≤ msg.length := fun hne => (rdN_inv hne hd).1
      obtain ⟨c1, _⟩ := encrypted_data_cursor r.2 idx cl msg.length q.2 hlen hr2 hfit
        (by rw [← eq])
      omega
  omega

theorem session_fields_cursor {msg : List Nat} {idx j : Nat} {s : SessionPkt}
    (hlen : msg.length < U32) (h : session_fields msg idx = .ok (s, j)) : idx ≤ j := by
  unfold session_fields at h
  simp only [Res.bind_eq_ok] at h
  obtain ⟨v, hv, i1, hi1, keyid, hkid, i2, hi2, algo, halgo, i3, hi3, m1, hm1, m2, hm2, hp⟩ := h
  simp only [Res.pure_eq, Res.ok.injEq, Prod.mk.injEq] at hp
  obtain ⟨_, hj⟩ := hp
  obtain ⟨hidx, _⟩ := rd_inv hv
  obtain ⟨e1, l1⟩ := SAFE_IDX_INCREMENT_inv hi1
  rw [Nat.mod_eq_of_lt (by omega)] at e1
  obtain ⟨hle8, _⟩ := rdN_inv (by decide) hkid
  obtain ⟨e2, l2⟩ := SAFE_IDX_INCREMENT_inv hi2
  rw [add32_eq _ _ (by omega), Nat.mod_eq_of_lt (by omega)] at e2
  obtain ⟨e3, l3⟩ := SAFE_IDX_INCREMENT_inv hi3
  rw [Nat.mod_eq_of_lt (by omega)] at e3
  obtain ⟨_, _, _, hfit1, hj1⟩ := read_mpi_inv (m := m1.1) (i := m1.2) hlen hm1
  have hm2j : m1.2 ≤ m2.2 := by
    by_cases ha : algo = ASYM_ALGO_ELGAMAL
    · simp only [ha, if_true, Res.bind_eq_ok, Res.pure_eq, Res.ok.injEq] at hm2
      obtain ⟨i, hi, m, hm, e⟩ := hm2
      obtain ⟨ei, _⟩ := SAFE_IDX_INCREMENT_inv hi
      rw [Nat.mod_eq_of_lt (by omega)] at ei
      obtain ⟨_, _, _, _, x⟩ := read_mpi_inv (m := m.1) (i := m.2) hlen hm
      rw [← e]
      simp only
      omega
    · simp only [ha, if_false, Res.ok.injEq] at hm2
      rw [← hm2]
  omega

theorem parse_encrypted_cursor {env : Env} {msg m2 : List Nat} {idx i2 : Nat} {h : Header}
    {back : List Packet} (hlen : msg.length < U32)
    (hq : spgp_parse_encrypted_packet env msg idx h back = .ok (m2, i2)) :
    idx ≤ i2 ∧ m2.length = msg.length := by
  unfold spgp_parse_encrypted_packet at hq
  by_cases h0 : msg.length = 0
  · rw [if_pos h0] at hq
    exact Res.noConfusion hq
  · rw [if_neg h0] at hq
    simp only [Res.bind_eq_ok] at hq
    obtain ⟨v, hv, st, hst, hq⟩ := hq
    split_ifs at hq with hver
    simp only [Res.bind_eq_ok] at hq
    obtain ⟨found, hfound, hq⟩ := hq
    cases found with
    | none => exact Res.noConfusion hq
    | some session =>
      simp only [Res.bind_eq_ok, Res.pure_eq] at hq
      obtain ⟨r, hr, w1, hw1, w2, hw2, hq⟩ := hq
      split_ifs at hq with hm
      simp only [Res.ok.injEq, Prod.mk.injEq] at hq
      obtain ⟨e1, e2⟩ := hq
      obtain ⟨est, hstl⟩ := SAFE_IDX_INCREMENT_inv hst
      obtain ⟨hidx, _⟩ := rd_inv hv
      obtain ⟨_, hrl, _, _⟩ := decrypt_segments_cursor env session (msg.length + 1) msg
        st (sub32 h.contentLength 1) h.isPartial r.1 r.2.1 r.2.2 hlen hstl hr
      have hfit := rdN_two_fit hw2
      refine ⟨?_, by rw [← e1, hrl]⟩
      simp only [U32] at e2 est hlen
      omega

theorem parse_packet_cursor {env : Env} {msg m2 : List Nat} {i1 i2 : Nat} {h : Header}
    {done : List Packet} {c : Option Body} (hlen : msg.length < U32)
    (hq : parse_packet env msg i1 h done = (m2, c, .ok i2)) (hi1 : 1 ≤ i1)
    (hfit : h.type ≠ PKT_TYPE_SYM_ENC_INT_DATA → i1 + h.contentLength ≤ msg.length) :
    i1 ≤ i2 + 1 ∧ m2.length = msg.length := by
  unfold parse_packet at hq
  by_cases t5 : h.type = PKT_TYPE_SYM_ENC_INT_DATA
  · have t1 : ¬ h.type = PKT_TYPE_USER_ID := by rw [t5]; decide
    have t2 : ¬ (h.type = PKT_TYPE_PUBLIC_KEY ∨ h.type = PKT_TYPE_PUBLIC_SUBKEY) := by
      rw [t5]; decide
    have t3 : ¬ (h.type = PKT_TYPE_SECRET_KEY ∨ h.type = PKT_TYPE_SECRET_SUBKEY) := by
      rw [t5]; decide
    have t4 : ¬ h.type = PKT_TYPE_SESSION := by rw [t5]; decide
    rw [if_neg t1, if_neg t2, if_neg t3, if_neg t4, if_pos t5] at hq
    cases hpe : spgp_parse_encrypted_packet env msg i1 h
        ({ header := some h, c := none } :: done.reverse) with
    | ok r =>
      rw [hpe] at hq
      simp only [Prod.mk.injEq, Res.ok.injEq] at hq
      obtain ⟨e1, _, e2⟩ := hq
      obtain ⟨g1, g2⟩ := parse_encrypted_cursor hlen
        (show _ = Res.ok (r.1, r.2) from hpe)
      rw [← e1, ← e2]
      exact ⟨by omega, g2⟩
    | raise e =>
      rw [hpe] at hq
      simp at hq
    | fault f =>
      rw [hpe] at hq
      simp at hq
  · have hcl := hfit t5
    by_cases t1 : h.type = PKT_TYPE_USER_ID
    · simp only [t1, if_true, Prod.mk.injEq] at hq
      obtain ⟨hm, _, hr⟩ := hq
      refine ⟨?_, by rw [← hm]⟩
      unfold spgp_parse_user_id at hr
      by_cases hc : sub32 msg.length i1 < h.contentLength
      · rw [if_pos hc] at hr
        simp at hr
      · rw [if_neg hc] at hr
        cases hd : rdN msg i1 h.contentLength with
        | ok bytes =>
          rw [hd] at hr
          simp only [Res.ok.injEq] at hr
          simp only [add32, sub32, U32] at hr
          simp only [U32] at hlen
          omega
        | raise e => simp [hd] at hr
        | fault f => simp [hd] at hr
    · rw [if_neg t1] at hq
      by_cases t2 : h.type = PKT_TYPE_PUBLIC_KEY ∨ h.type = PKT_TYPE_PUBLIC_SUBKEY
      · simp only [t2, if_true, Prod.mk.injEq] at hq
        obtain ⟨hm, hcc, hr⟩ := hq
        refine ⟨?_, by rw [← hm]⟩
        unfold spgp_parse_public_key at hr
        by_cases hc : sub32 msg.length i1 < h.contentLength
        · rw [if_pos hc] at hr
          simp at hr
        · rw [if_neg hc] at hr
          simp only [Option.getD_none] at hr
          cases hf : public_key_fields msg i1 {} with
          | ok r =>
            simp only [hf, Res.ok.injEq] at hr
            obtain ⟨g, _⟩ := public_key_fields_cursor hlen
              (show _ = Res.ok (r.1, r.2) from hf)
            omega
          | raise e => simp [hf] at hr
          | fault f => simp [hf] at hr
      · rw [if_neg t2] at hq
        by_cases t3 : h.type = PKT_TYPE_SECRET_KEY ∨ h.type = PKT_TYPE_SECRET_SUBKEY
        · simp only [t3, if_true, Prod.mk.injEq] at hq
          obtain ⟨hm, hcc, hr⟩ := hq
          refine ⟨?_, by rw [← hm]⟩
          unfold spgp_parse_secret_key at hr
          by_cases hc : sub32 msg.length i1 < h.contentLength
          · rw [if_pos hc] at hr
            simp at hr
          · rw [if_neg hc] at hr
            cases hf : secret_key_fields env msg i1 h.contentLength with
            | ok r =>
              simp only [hf, Res.ok.injEq] at hr
              have g := secret_key_fields_cursor (s := r.1) (j := r.2) hlen hf
              omega
            | raise e => simp [hf] at hr
            | fault f => simp [hf] at hr
        · rw [if_neg t3] at hq
          by_cases t4 : h.type = PKT_TYPE_SESSION
          · simp only [t4, if_true, Prod.mk.injEq] at hq
            obtain ⟨hm, hcc, hr⟩ := hq
            refine ⟨?_, by rw [← hm]⟩
            unfold spgp_parse_session_packet at hr
            by_cases hc0 : msg.length = 0
            · rw [if_pos hc0] at hr
              simp at hr
            · rw [if_neg hc0] at hr
              by_cases hc : sub32 msg.length i1 < h.contentLength
              · rw [if_pos hc] at hr
                simp at hr
              · rw [if_neg hc] at hr
                cases hf : session_fields msg i1 with
                | ok r =>
                  have g := session_fields_cursor (s := r.1) (j := r.2) hlen hf
                  cases hsd : session_decrypt env r.1 with
                  | ok s =>
                    simp only [hf, hsd, Res.ok.injEq] at hr
                    omega
                  | raise e => simp [hf, hsd] at hr
                  | fault f => simp [hf, hsd] at hr
                | raise e => simp [hf] at hr
                | fault f => simp [hf] at hr
          · rw [if_neg t4, if_neg t5] at hq
            split_ifs at hq with hfit2
            · simp only [Prod.mk.injEq, Res.ok.injEq] at hq
              obtain ⟨hm, _, hi⟩ := hq
              refine ⟨?_, by rw [← hm]⟩
              simp only [add32, sub32, U32] at hi
              simp only [U32] at hlen
              omega
            · simp only [Prod.mk.injEq, Res.ok.injEq] at hq
              obtain ⟨hm, _, hi⟩ := hq
              exact ⟨by omega, by rw [← hm]⟩

theorem parse_packet_length {env : Env} {msg m2 : List Nat} {i1 i2 : Nat} {h : Header}
    {done : List Packet} {c : Option Body} (hlen : msg.length < U32)
    (hq : parse_packet env msg i1 h done = (m2, c, .ok i2)) : m2.length = msg.length := by
  unfold parse_packet at hq
  by_cases t5 : h.type = PKT_TYPE_SYM_ENC_INT_DATA
  · have t1 : ¬ h.type = PKT_TYPE_USER_ID := by rw [t5]; decide
    have t2 : ¬ (h.type = PKT_TYPE_PUBLIC_KEY ∨ h.type = PKT_TYPE_PUBLIC_SUBKEY) := by
      rw [t5]; decide
    have t3 : ¬ (h.type = PKT_TYPE_SECRET_KEY ∨ h.type = PKT_TYPE_SECRET_SUBKEY) := by
      rw [t5]; decide
    have t4 : ¬ h.type = PKT_TYPE_SESSION := by rw [t5]; decide
    rw [if_neg t1, if_neg t2, if_neg t3, if_neg t4, if_pos t5] at hq
    cases hpe : spgp_parse_encrypted_packet env msg i1 h
        ({ header := some h, c := none } :: done.reverse) with
    | ok r =>
      rw [hpe] at hq
      simp only [Prod.mk.injEq, Res.ok.injEq] at hq
      obtain ⟨e1, _, e2⟩ := hq
      rw [← e1]
      exact (parse_encrypted_cursor hlen (show _ = Res.ok (r.1, r.2) from hpe)).2
    | raise e =>
      rw [hpe] at hq
      simp at hq
    | fault f =>
      rw [hpe] at hq
      simp at hq
  · rw [if_neg t5] at hq
    split_ifs at hq <;> simp only [Prod.mk.injEq] at hq <;> rw [← hq.1]

theorem parse_packet_take {env : Env} {msg m2 : List Nat} {i1 i2 k : Nat} {h : Header}
    {done : List Packet} {c : Option Body} (hlen : msg.length < U32)
    (hq : parse_packet env msg i1 h done = (m2, c, .ok i2))
    (hreach : packet_reach env msg i1 h done ≤ k)
    (hk : i2 + 1 < k) (hkl : k ≤ msg.length) :
    parse_packet env (msg.take k) i1 h done = (m2.take k, c, .ok i2) := by
  have hl := length_take_of_le hkl
  unfold packet_reach at hreach
  unfold parse_packet at hq ⊢
  by_cases t5 : h.type = PKT_TYPE_SYM_ENC_INT_DATA
  · have t1 : ¬ h.type = PKT_TYPE_USER_ID := by rw [t5]; decide
    have t2 : ¬ (h.type = PKT_TYPE_PUBLIC_KEY ∨ h.type = PKT_TYPE_PUBLIC_SUBKEY) := by
      rw [t5]; decide
    have t3 : ¬ (h.type = PKT_TYPE_SECRET_KEY ∨ h.type = PKT_TYPE_SECRET_SUBKEY) := by
      rw [t5]; decide
    have t4 : ¬ h.type = PKT_TYPE_SESSION := by rw [t5]; decide
    rw [if_neg t1, if_neg t2, if_neg t3, if_neg t4, if_pos t5] at hq ⊢
    rw [if_pos t5] at hreach
    cases hpe : spgp_parse_encrypted_packet env msg i1 h
        ({ header := some h, c := none } :: done.reverse) with
    | ok r =>
      rw [hpe] at hq
      simp only [Prod.mk.injEq, Res.ok.injEq] at hq
      obtain ⟨e1, e2, e3⟩ := hq
      have hr : ∀ session r, spgp_find_session_packet
            ({ header := some h, c := none } :: done.reverse) = .ok (some session) →
          decrypt_segments env session (msg.length + 1) msg (i1 + 1)
            (sub32 h.contentLength 1) h.isPartial = .ok r → r.2.1 + 2 ≤ k := by
        intro session r2 hf hd
        rw [hf] at hreach
        simp only at hreach
        rw [hd] at hreach
        exact hreach
      obtain ⟨ht, _⟩ := parse_encrypted_take hlen
        (show _ = Res.ok (r.1, r.2) from hpe) hr
        (by rw [e3]; exact hk) hkl
      rw [ht]
      simp only [Prod.mk.injEq, Res.ok.injEq]
      exact ⟨by rw [e1], e2, e3⟩
    | raise e =>
      rw [hpe] at hq
      simp at hq
    | fault f =>
      rw [hpe] at hq
      simp at hq
  · rw [if_neg t5] at hreach
    by_cases t1 : h.type = PKT_TYPE_USER_ID
    · simp only [t1, if_true, Prod.mk.injEq] at hq ⊢
      obtain ⟨hm, hc, hr⟩ := hq
      rw [parse_user_id_take hlen hr hreach hkl]
      exact ⟨by rw [hm], hc, hr⟩
    · rw [if_neg t1] at hq ⊢
      by_cases t2 : h.type = PKT_TYPE_PUBLIC_KEY ∨ h.type = PKT_TYPE_PUBLIC_SUBKEY
      · simp only [t2, if_true, Prod.mk.injEq] at hq ⊢
        obtain ⟨hm, hc, hr⟩ := hq
        rw [parse_public_key_take hlen hr hk hreach hkl]
        exact ⟨by rw [hm], hc, hr⟩
      · rw [if_neg t2] at hq ⊢
        by_cases t3 : h.type = PKT_TYPE_SECRET_KEY ∨ h.type = PKT_TYPE_SECRET_SUBKEY
        · simp only [t3, if_true, Prod.mk.injEq] at hq ⊢
          obtain ⟨hm, hc, hr⟩ := hq
          rw [parse_secret_key_take hlen hr hk hreach hkl]
          exact ⟨by rw [hm], hc, hr⟩
        · rw [if_neg t3] at hq ⊢
          by_cases t4 : h.type = PKT_TYPE_SESSION
          · simp only [t4, if_true, Prod.mk.injEq] at hq ⊢
            obtain ⟨hm, hc, hr⟩ := hq
            rw [parse_session_take hlen hr (by omega) hreach hkl]
            exact ⟨by rw [hm], hc, hr⟩
          · rw [if_neg t4, if_neg t5] at hq ⊢
            rw [hl]
            by_cases hfit : add32 i1 (sub32 h.contentLength 1) < msg.length
            · rw [if_pos hfit] at hq
              simp only [Prod.mk.injEq, Res.ok.injEq] at hq
              obtain ⟨hm, hc, hi⟩ := hq
              rw [if_pos (by omega), ← hc, hi, hm]
            · rw [if_neg hfit] at hq
              simp only [Prod.mk.injEq, Res.ok.injEq] at hq
              obtain ⟨hm, hc, hi⟩ := hq
              rw [if_neg (by omega), ← hc, hi, hm]

theorem packet_reach_content (env : Env) (msg : List Nat) (i1 : Nat) (h : Header)
    (done : List Packet) (ht : h.type ≠ PKT_TYPE_SYM_ENC_INT_DATA) :
    packet_reach env msg i1 h done = i1 + h.contentLength := by
  unfold packet_reach
  rw [if_neg ht]

theorem decodes_packets_step {env : Env} {msg mN : List Nat} {n lo s hi e : Nat}
    {done chain : List Packet}
    (h : decodes_packets env (n + 1) msg lo s done = some (mN, hi, e, chain)) :
    ∃ i0 hd i1 c i2 m2, s < msg.length - 1 ∧ skip_zero (msg.drop s) s = .ok i0 ∧
      spgp_parse_header msg i0 none = (some hd, .ok i1) ∧
      parse_packet env msg i1 hd done = (m2, c, .ok i2) ∧ i2 + 1 < m2.length ∧
      decodes_packets env n m2 (max lo (packet_reach env msg i1 hd done)) (i2 + 1)
        (done ++ [{ header := some hd, c := c }]) = some (mN, hi, e, chain) := by
  rw [decodes_packets] at h
  split at h
  · rename_i hlt
    split at h
    · rename_i i0 hz
      split at h
      · rename_i hd i1 hp
        split at h
        · rename_i m2 c i2 hq
          split at h
          · rename_i hcond
            exact ⟨i0, hd, i1, c, i2, m2, hlt, hz, hp, hq, hcond, h⟩
          · simp at h
        · simp at h
      · simp at h
    · simp at h
  · simp at h

theorem decodes_packets_take (env : Env) (k : Nat) :
    ∀ (n : Nat) (msg : List Nat) (lo s : Nat) (done : List Packet) (mN : List Nat)
      (hi e : Nat) (chain : List Packet),
      msg.length < U32 → k ≤ msg.length →
      decodes_packets env n msg lo s done = some (mN, hi, e, chain) → e + 2 ≤ k → hi ≤ k →
      (∀ p ∈ done, spgp_free_packet [p] = .ok ()) →
      s ≤ e ∧ lo ≤ hi ∧ mN.length = msg.length ∧
      (∀ p ∈ chain, spgp_free_packet [p] = .ok ()) ∧
      ∀ fuel, decode_loop env (fuel + n) (msg.take k) s done
        = decode_loop env fuel (mN.take k) e chain := by
  intro n
  induction n with
  | zero =>
    intro msg lo s done mN hi e chain _ _ h _ _ hd
    simp only [decodes_packets, Option.some.injEq, Prod.mk.injEq] at h
    obtain ⟨h1, h2, h3, h4⟩ := h
    subst h1 h2 h3 h4
    exact ⟨Nat.le_refl _, Nat.le_refl _, rfl, hd, fun _ => rfl⟩
  | succ n ih =>
    intro msg lo s done mN hi e chain hlen hkl h hk hhi hd
    obtain ⟨i0, hdr, i1, c, i2, m2, hlt, hz, hp, hq, hi2, hrest⟩ := decodes_packets_step h
    have hl := length_take_of_le hkl
    have hm2 := parse_packet_length hlen hq
    obtain ⟨hcur, _, _⟩ := parse_header_cursor hlen hp
    obtain ⟨hs0, _, _⟩ := skip_zero_ok_inv _ _ _ hz
    have hd2 : ∀ p ∈ done ++ [{ header := some hdr, c := c }],
        spgp_free_packet [p] = .ok () := by
      intro p hp2
      rcases List.mem_append.mp hp2 with hp2 | hp2
      · exact hd p hp2
      · rw [List.mem_singleton.mp hp2]
        exact parse_packet_free hlen hq
    obtain ⟨hle, hlo, hmN, hfree, hrun⟩ := ih m2 _ (i2 + 1) _ mN hi e chain
      (by rw [hm2]; exact hlen) (by rw [hm2]; exact hkl) hrest hk hhi hd2
    have hreach : packet_reach env msg i1 hdr done ≤ k :=
      le_trans (le_trans (le_max_right _ _) hlo) hhi
    obtain ⟨hmono, _⟩ := parse_packet_cursor hlen hq (by omega)
      (fun ht => by
        rw [← packet_reach_content env msg i1 hdr done ht]
        omega)
    refine ⟨by omega, le_trans (le_max_left _ _) hlo, by rw [hmN, hm2], hfree, ?_⟩
    intro fuel
    have hz2 := skip_zero_take (k := k) hz (by omega)
    have hp2 := parse_header_take hlen hp (by omega : i1 < k) hkl
    have hq2 := parse_packet_take hlen hq hreach (by omega) hkl
    have hs3 := SAFE_IDX_INCREMENT_ok i2 k (by omega) (by omega)
    have hlt2 : s < k - 1 := by omega
    have hge : ¬ i2 ≥ k - 1 := by omega
    have hl2 : (m2.take k).length = k := length_take_of_le (by rw [hm2]; exact hkl)
    have e1 : fuel + (n + 1) = (fuel + n) + 1 := by omega
    rw [e1, decode_loop]
    simp only [hl, hl2, hlt2, if_true, hz2, hp2, hq2, hge, if_false, hs3]
    exact hrun fuel

theorem decodes_packets_length (env : Env) :
    ∀ (n : Nat) (msg : List Nat) (lo s : Nat) (done : List Packet) (mN : List Nat)
      (hi e : Nat) (chain : List Packet), msg.length < U32 →
      decodes_packets env n msg lo s done = some (mN, hi, e, chain) →
      mN.length = msg.length := by
  intro n
  induction n with
  | zero =>
    intro msg lo s done mN hi e chain _ h
    simp only [decodes_packets, Option.some.injEq, Prod.mk.injEq] at h
    rw [← h.1]
  | succ n ih =>
    intro msg lo s done mN hi e chain hlen h
    obtain ⟨i0, hdr, i1, c, i2, m2, _, _, _, hq, _, hrest⟩ := decodes_packets_step h
    have hm2 := parse_packet_length hlen hq
    rw [ih m2 _ _ _ mN hi e chain (by rw [hm2]; exact hlen) hrest, hm2]

theorem decode_truncated_wide (env : Env) (msg buf : List Nat) (n reach s k : Nat)
    (chain : List Packet) (hlen : msg.length < U32)
    (hpre : decodes_packets env n msg 0 0 [] = some (buf, reach, s, chain))
    (hbytes : ∀ b ∈ buf, b < 256) (hfr : cut_framed buf s)
    (htype : key_or_session_type (spec_packet_type (buf.getD s 0)))
    (hreach : reach ≤ k) (hk2 : s + loaded_octets buf s ≤ k) (hkm : k ≤ msg.length)
    (hk : k < packet_end buf s) (fuel : Nat) :
    spgp_decode_message env (fuel + n + 1) (msg.take k) = .raise .BUFFER_OVERFLOW := by
  have hlo := loaded_octets_ge buf s
  obtain ⟨_, _, hbl, hfree, hrun⟩ := decodes_packets_take env k n msg 0 0 [] buf reach s chain
    hlen hkm hpre (by omega) hreach (fun _ hp => absurd hp (List.not_mem_nil _))
  have hkb : k ≤ buf.length := by rw [hbl]; exact hkm
  have hml : (buf.take k).length = k := length_take_of_le hkb
  have hml2 : (msg.take k).length = k := length_take_of_le hkm
  have hmb : ∀ b ∈ buf.take k, b < 256 := fun b hb => hbytes b (List.mem_of_mem_take hb)
  have hfr2 := cut_framed_take buf k s (by omega) hfr
  have htype2 : key_or_session_type (spec_packet_type ((buf.take k).getD s 0)) := by
    rw [getD_take buf k s (by omega)]
    exact htype
  have e1 := spec_header_length_take buf k s (by omega)
  have e2 := loaded_octets_take buf k s (by omega)
  unfold packet_end at hk
  have hcut : (buf.take k).length ≤ s + spec_header_length (buf.take k) s ∨
      (buf.take k).length
        < s + spec_header_length (buf.take k) s + spec_content_length (buf.take k) s := by
    rw [hml, e1]
    by_cases hc : k ≤ s + spec_header_length buf s
    · exact Or.inl hc
    · right
      rw [spec_content_length_take_wide buf k s hfr (by omega)]
      exact hk
  obtain ⟨h, hty, hcutrun⟩ := decode_loop_cut_wide env (buf.take k) s chain (by omega) hmb
    hfr2 htype2 (by rw [e2, hml]; exact hk2) hcut
  have hne : (msg.take k).length ≠ 0 := by omega
  have e3 : fuel + n + 1 = (fuel + 1) + n := by omega
  have hall : spgp_free_packet (chain ++ [{ header := some h, c := none }]) = .ok () := by
    apply free_packet_all
    intro p hp
    rcases List.mem_append.mp hp with hp | hp
    · exact hfree p hp
    · rw [List.mem_singleton.mp hp]
      exact free_key_packet h hty
  simp only [spgp_decode_message, hne, if_false, e3, hrun (fuel + 1), hcutrun fuel, hall]

set_option maxRecDepth 100000 in
theorem sample_key_message_decoded :
    decodes_packets null_env 2 sample_key_message 0 0 []
      = some (sample_key_message, 236, 236,
          [{ header := some { rawTagByte := 0xC5, isNewFormat := 0x40, type := 5,
                              headerLength := 2, contentLength := 39, isPartial := 0 },
             c := some (.secret (sample_secret_body [0, 1, 1])) },
           { header := some { rawTagByte := 0xC2, isNewFormat := 0x40, type := 2,
                              headerLength := 3, contentLength := 192, isPartial := 0 },
             c := none }]) := by
  decide

set_option maxRecDepth 100000 in
theorem sample_encrypted_key_message_decoded :
    decodes_packets session_env 3 sample_encrypted_key_message 0 0 []
      = some (sample_decrypted_key_message, 35, 34,
          [{ header := some { rawTagByte := 0xC1, isNewFormat := 0x40, type := 1,
                              headerLength := 2, contentLength := 16, isPartial := 0 },
             c := some (.session
               { version := 3, keyid := [0, 0, 0, 0, 0, 0, 0, 0], algo := 16,
                 mpi1 := some ⟨[0, 1, 1], 1, 1⟩, mpi2 := some ⟨[0, 1, 1], 1, 1⟩,
                 symAlgo := 9, key := some [1, 2, 3], keylen := 3 }) },
           { header := some { rawTagByte := 0xD2, isNewFormat := 0x40, type := 18,
                              headerLength := 2, contentLength := 14, isPartial := 0 },
             c := none },
           { header := some { rawTagByte := 0xCD, isNewFormat := 0x40, type := 13,
                              headerLength := 2, contentLength := 1, isPartial := 0 },
             c := some (.userid { data := [0x41, 0] }) }]) := by
  decide

set_option maxRecDepth 100000 in
theorem sample_encrypted_key_message_cut :
    sample_encrypted_key_message.length < U32 ∧
    (∀ b ∈ sample_decrypted_key_message, b < 256) ∧
    cut_framed sample_decrypted_key_message 34 ∧
    key_or_session_type (spec_packet_type (sample_decrypted_key_message.getD 34 0)) ∧
    packet_end sample_decrypted_key_message 34 ≤ sample_decrypted_key_message.length ∧
    40 < packet_end sample_decrypted_key_message 34 ∧
    35 ≤ 40 ∧ 34 + loaded_octets sample_decrypted_key_message 34 ≤ 40 := by
  decide

end Spgp
